import Mathlib

/-!
Shortest paths: Dijkstra and Bellman-Ford over two graph representations.

A shallow embedding of `src/algorithms/shortest_path.cpp`.

Conventions of the embedding

* C++ `int` values are Lean `Int`.  Every sum the program computes (`distances[u] + w`,
  `min + w`) is `add32`, the exact sum reduced to the 32-bit two's-complement range, which
  is what the compiled program does when a sum overflows.  The definitions named
  `X_exact` are the same functions with the exact sum; they serve the claims that
  stipulate exact integer arithmetic and the proofs for runs without overflow.
* Vertex identifiers are `Nat`; the arrays `distances` and `path` are `List Int` of
  length `v_nums`.  A read is `List.getD _ _ 0`, a write is `List.set`; an index outside
  the array (undefined behaviour in the source) reads `0` and writes nothing.  The
  theorems about well-formed graphs assume every endpoint is below `v_nums`.
* The classes `AdjacencyList`, `IncidenceMatrix` and `PriorityQueue` are declared in
  headers that are not part of the sources; the graph classes are taken as records of
  their accessors, the queue is modelled from the specification.
* Loops that need not terminate for every input (`while (!Q->isEmpty())`, the
  predecessor walk of `printPath`) take a fuel argument and return `none` when it runs out.
-/

set_option autoImplicit false

namespace SdizoGraphs

/-! ## Data model -/

/-- Queue entry `Vertex` (fields `number`, `distance`), lines 63-65. -/
structure Vertex where
  number : Nat
  distance : Int
deriving DecidableEq, Repr

/-- Node of an adjacency-list chain (`Edge`, fields `destination`, `weight`; the `next`
pointer is the tail of the Lean list). -/
structure Edge where
  destination : Nat
  weight : Int
deriving DecidableEq, Repr

/-- Edge record returned by `IncidenceMatrix::getEdge` (`IMEdge`). -/
structure IMEdge where
  source : Nat
  destination : Nat
  weight : Int
deriving DecidableEq, Repr

/-- The accessors of `AdjacencyList` used by the algorithms: `getVerticesNum`,
`getEdgesNum`, `getVertices()[u].head` (the chain of `u`) and row `e` of the array
returned by `getAllEdgesList` (`[source, destination, weight]`). -/
structure AdjacencyList where
  getVerticesNum : Nat
  getEdgesNum : Nat
  getVertices : Nat → List Edge
  getAllEdgesList : Nat → Nat × Nat × Int

/-- The accessors of `IncidenceMatrix` used by the algorithms. -/
structure IncidenceMatrix where
  getVerticesNum : Nat
  getEdgesNum : Nat
  getEdge : Nat → IMEdge

/-- The unreached value written by the initialisation loops (`distances[v] = 1000`). -/
def sentinel : Int := 1000

/-- Lines 53-58 (and 108-113, 164-169, 218-223): the initial `distances` array. -/
def initDistances (v_nums source : Nat) : List Int :=
  (List.replicate v_nums sentinel).set source 0

/-- Lines 53-58: the initial `path` array, all `-1`. -/
def initPath (v_nums : Nat) : List Int :=
  List.replicate v_nums (-1)

/-! ## printPath -/

/-- One line written to standard output. -/
inductive OutLine where
  | counts (v_nums e_nums : Nat)
  | negativeCycle
  | noPath (source destination : Nat)
  | route (visited : List Int) (distance : Int)
deriving DecidableEq, Repr

/-- Lines 27-33: the loop `while (i != source && i != -1)`, collecting the numbers
printed (each followed by `" <- "`) and then the last `i`. -/
def printPathLoop (source : Nat) (path : List Int) : Nat → Int → List Int → Option (List Int)
  | 0, _, _ => none
  | fuel + 1, i, acc =>
    if i ≠ (source : Int) ∧ i ≠ -1 then
      printPathLoop source path fuel (path.getD i.toNat 0) (acc ++ [i])
    else some (acc ++ [i])

/-- Lines 20-35: `printPath`. -/
def printPath (source destination : Nat) (distance : Int) (path : List Int) (fuel : Nat) :
    Option OutLine :=
  if distance = 1000 then some (OutLine.noPath source destination)
  else (printPathLoop source path fuel (destination : Int) []).map
    (fun visited => OutLine.route visited distance)

/-! ## Bellman-Ford -/

/-- The tables of a run: `distances` and `path`. -/
structure Tables where
  distances : List Int
  path : List Int
deriving DecidableEq, Repr

/-- Result of the relaxation part of a Bellman-Ford run. -/
inductive BFResult where
  | negativeCycle
  | finished (t : Tables)
deriving DecidableEq, Repr

/-! ## Machine arithmetic -/

/-- The sum of two `int` values as the program computes it: the exact sum reduced to the
32-bit two's-complement range (`2147483647 + 1` is `-2147483648`). -/
def add32 (a b : Int) : Int :=
  (a + b + 2147483648) % 4294967296 - 2147483648

/-- The value `x` lies in the range of the 32-bit type `int`. -/
def fits32 (x : Int) : Prop :=
  -2147483648 ≤ x ∧ x ≤ 2147483647

instance instDecidableFits32 (x : Int) : Decidable (fits32 x) :=
  inferInstanceAs (Decidable (-2147483648 ≤ x ∧ x ≤ 2147483647))

/-- Lines 176-180: the body of the inner loop of `bellman_ford_AL` for row `edges[e]`. -/
def relaxRow (t : Tables) (row : Nat × Nat × Int) : Tables :=
  if t.distances.getD row.2.1 0 > add32 (t.distances.getD row.1 0) row.2.2 then
    { distances := t.distances.set row.2.1 (add32 (t.distances.getD row.1 0) row.2.2),
      path := t.path.set row.2.1 (row.1 : Int) }
  else t

/-- Lines 229-234: the body of the inner loop of `bellman_ford_IM` for `edge`. -/
def relaxIMEdge (t : Tables) (edge : IMEdge) : Tables :=
  if t.distances.getD edge.destination 0 > add32 (t.distances.getD edge.source 0) edge.weight then
    { distances := t.distances.set edge.destination
        (add32 (t.distances.getD edge.source 0) edge.weight),
      path := t.path.set edge.destination (edge.source : Int) }
  else t

/-- Lines 174-181: `for (int e = 0; e < e_nums; e++)` over the rows of `edges`. -/
def passAL (G : AdjacencyList) (t : Tables) : Tables :=
  (List.range G.getEdgesNum).foldl (fun acc e => relaxRow acc (G.getAllEdgesList e)) t

/-- Lines 227-235: `for (int e = 0; e < e_nums; e++)` over `G->getEdge(e)`. -/
def passIM (G : IncidenceMatrix) (t : Tables) : Tables :=
  (List.range G.getEdgesNum).foldl (fun acc e => relaxIMEdge acc (G.getEdge e)) t

/-- Lines 184-191: does the check loop reach the `return`? -/
def checkAL (G : AdjacencyList) (t : Tables) : Bool :=
  (List.range G.getEdgesNum).any (fun e =>
    decide (t.distances.getD (G.getAllEdgesList e).2.1 0 >
      add32 (t.distances.getD (G.getAllEdgesList e).1 0) (G.getAllEdgesList e).2.2))

/-- Lines 238-246: does the check loop reach the `return`? -/
def checkIM (G : IncidenceMatrix) (t : Tables) : Bool :=
  (List.range G.getEdgesNum).any (fun e =>
    decide (t.distances.getD (G.getEdge e).destination 0 >
      add32 (t.distances.getD (G.getEdge e).source 0) (G.getEdge e).weight))

/-- Lines 160-191 of `bellman_ford_AL`: initialisation, `v_nums - 1` passes and the check
pass.  (`v_nums - 1` is truncated at `0`, as `i < v_nums - 1` never holds for `v_nums = 0`.) -/
def bellman_ford_AL_tables (G : AdjacencyList) (source : Nat) : BFResult :=
  let t := Nat.iterate (passAL G) (G.getVerticesNum - 1)
    { distances := initDistances G.getVerticesNum source, path := initPath G.getVerticesNum }
  if checkAL G t then BFResult.negativeCycle else BFResult.finished t

/-- Lines 214-246 of `bellman_ford_IM`. -/
def bellman_ford_IM_tables (G : IncidenceMatrix) (source : Nat) : BFResult :=
  let t := Nat.iterate (passIM G) (G.getVerticesNum - 1)
    { distances := initDistances G.getVerticesNum source, path := initPath G.getVerticesNum }
  if checkIM G t then BFResult.negativeCycle else BFResult.finished t

/-- The function `bellman_ford_AL` (lines 158-200), as the lines it prints. -/
def bellman_ford_AL (G : AdjacencyList) (source destination fuel : Nat) :
    Option (List OutLine) :=
  match bellman_ford_AL_tables G source with
  | BFResult.negativeCycle => some [OutLine.negativeCycle]
  | BFResult.finished t =>
    (printPath source destination (t.distances.getD destination 0) t.path fuel).map
      (fun l => [l])

/-- The function `bellman_ford_IM` (lines 212-250), as the lines it prints. -/
def bellman_ford_IM (G : IncidenceMatrix) (source destination fuel : Nat) :
    Option (List OutLine) :=
  match bellman_ford_IM_tables G source with
  | BFResult.negativeCycle => some [OutLine.negativeCycle]
  | BFResult.finished t =>
    (printPath source destination (t.distances.getD destination 0) t.path fuel).map
      (fun l => [l])

/-! ## Priority queue -/

/-- Modelled from the spec: the class `PriorityQueue` (section 4.1; its header
`priority_queue.h` is not among the sources).  The queue state is the array returned by
`getData()`, whose entry `0` is the root.  `push`, `extractMin` (the returned distance and
the remaining array) and `decreaseKey` (entry reference = array position, new distance)
are left to the implementation; `HeapOrder` is the implementation invariant.  `isEmpty()`
is emptiness of the array and `getData()[0]` is its head. -/
structure PriorityQueue where
  push : List Vertex → Vertex → List Vertex
  extractMin : List Vertex → Int × List Vertex
  decreaseKey : List Vertex → Nat → Int → List Vertex
  HeapOrder : List Vertex → Prop

/-- Modelled from the spec: the contract of section 4.1.  The invariant holds for the empty
queue and after every operation; the root carries a smallest distance; `push` adds the
entry (the vertex must not be present), `extractMin` removes the root and returns its
distance, `decreaseKey` replaces the distance of the referenced entry by a strictly
smaller one.  The order of the remaining entries (the tie-break) is not fixed. -/
structure PriorityQueue.Lawful (pq : PriorityQueue) : Prop where
  heap_nil : pq.HeapOrder []
  push_perm : ∀ q x, pq.HeapOrder q → x.number ∉ q.map Vertex.number →
    (pq.push q x).Perm (x :: q)
  push_heap : ∀ q x, pq.HeapOrder q → x.number ∉ q.map Vertex.number →
    pq.HeapOrder (pq.push q x)
  root_min : ∀ r q, pq.HeapOrder (r :: q) → ∀ e ∈ q, r.distance ≤ e.distance
  extract_fst : ∀ r q, pq.HeapOrder (r :: q) → (pq.extractMin (r :: q)).1 = r.distance
  extract_perm : ∀ r q, pq.HeapOrder (r :: q) → (pq.extractMin (r :: q)).2.Perm q
  extract_heap : ∀ r q, pq.HeapOrder (r :: q) → pq.HeapOrder (pq.extractMin (r :: q)).2
  decrease_perm : ∀ q i k e, pq.HeapOrder q → q[i]? = some e → k < e.distance →
    (pq.decreaseKey q i k).Perm (q.set i ⟨e.number, k⟩)
  decrease_heap : ∀ q i k e, pq.HeapOrder q → q[i]? = some e → k < e.distance →
    pq.HeapOrder (pq.decreaseKey q i k)

/-- Modelled from the spec: `find(vertex)`, a linear scan of the array for the live entry
of a vertex; `none` when the vertex is not in the queue (the call fails). -/
def find : List Vertex → Nat → Option Nat
  | [], _ => none
  | x :: xs, v => if x.number = v then some 0 else (find xs v).map (· + 1)

/-! ## Dijkstra -/

/-- The state of a Dijkstra run: both tables and the queue array. -/
structure DState where
  distances : List Int
  path : List Int
  Q : List Vertex
deriving DecidableEq

/-- Lines 76-81: the body of the chain loop of `dijkstra_AL` for the node `temp`;
`none` when `Q->find` fails. -/
def relaxChainNode (pq : PriorityQueue) (u : Nat) (min : Int) (temp : Edge) (st : DState) :
    Option DState :=
  if st.distances.getD temp.destination 0 > add32 min temp.weight then
    let distances := st.distances.set temp.destination (add32 min temp.weight)
    let path := st.path.set temp.destination (u : Int)
    match find st.Q temp.destination with
    | none => none
    | some i =>
      some { distances := distances, path := path,
             Q := pq.decreaseKey st.Q i (distances.getD temp.destination 0) }
  else some st

/-- Lines 74-83: `while (temp)` over the chain of the extracted vertex. -/
def chainLoop (pq : PriorityQueue) (u : Nat) (min : Int) : List Edge → DState → Option DState
  | [], st => some st
  | temp :: next, st => (relaxChainNode pq u min temp st).bind (chainLoop pq u min next)

/-- Lines 69-84: `while (!Q->isEmpty())` of `dijkstra_AL`. -/
def dijkstraLoop_AL (pq : PriorityQueue) (G : AdjacencyList) : Nat → DState → Option DState
  | 0, _ => none
  | fuel + 1, st =>
    match st.Q with
    | [] => some st
    | root :: rest =>
      let u := root.number
      let temp := G.getVertices u
      let r := pq.extractMin (root :: rest)
      (chainLoop pq u r.1 temp { st with Q := r.2 }).bind (dijkstraLoop_AL pq G fuel)

/-- Lines 60-67: the queue after pushing every vertex with its initial distance. -/
def initQueue (pq : PriorityQueue) (v_nums : Nat) (distances : List Int) : List Vertex :=
  (List.range v_nums).foldl (fun Q v => pq.push Q ⟨v, distances.getD v 0⟩) []

/-- Lines 49-84 of `dijkstra_AL`: the tables when the main loop ends. -/
def dijkstra_AL_tables (pq : PriorityQueue) (G : AdjacencyList) (source fuel : Nat) :
    Option Tables :=
  let distances := initDistances G.getVerticesNum source
  let path := initPath G.getVerticesNum
  (dijkstraLoop_AL pq G fuel
    { distances := distances, path := path, Q := initQueue pq G.getVerticesNum distances }).map
    (fun st => { distances := st.distances, path := st.path })

/-- The function `dijkstra_AL` (lines 47-90), as the lines it prints. -/
def dijkstra_AL (pq : PriorityQueue) (G : AdjacencyList) (source destination fuel : Nat) :
    Option (List OutLine) :=
  (dijkstra_AL_tables pq G source fuel).bind (fun t =>
    (printPath source destination (t.distances.getD destination 0) t.path fuel).map
      (fun l => [OutLine.counts G.getVerticesNum G.getEdgesNum, l]))

/-- Lines 130-139: the body of the edge loop of `dijkstra_IM` for `edge`. -/
def relaxIMScan (pq : PriorityQueue) (u : Nat) (min : Int) (edge : IMEdge) (st : DState) :
    Option DState :=
  if edge.source = u then
    if st.distances.getD edge.destination 0 > add32 min edge.weight then
      let distances := st.distances.set edge.destination (add32 min edge.weight)
      let path := st.path.set edge.destination (edge.source : Int)
      match find st.Q edge.destination with
      | none => none
      | some i =>
        some { distances := distances, path := path,
               Q := pq.decreaseKey st.Q i (distances.getD edge.destination 0) }
    else some st
  else some st

/-- Lines 128-140: `for (int e = 0; e < e_nums; e++)`, over the edge numbers left. -/
def scanLoop (pq : PriorityQueue) (G : IncidenceMatrix) (u : Nat) (min : Int) :
    List Nat → DState → Option DState
  | [], st => some st
  | e :: es, st => (relaxIMScan pq u min (G.getEdge e) st).bind (scanLoop pq G u min es)

/-- Lines 124-141: `while (!Q->isEmpty())` of `dijkstra_IM`. -/
def dijkstraLoop_IM (pq : PriorityQueue) (G : IncidenceMatrix) : Nat → DState → Option DState
  | 0, _ => none
  | fuel + 1, st =>
    match st.Q with
    | [] => some st
    | root :: rest =>
      let u := root.number
      let r := pq.extractMin (root :: rest)
      (scanLoop pq G u r.1 (List.range G.getEdgesNum) { st with Q := r.2 }).bind
        (dijkstraLoop_IM pq G fuel)

/-- Lines 104-141 of `dijkstra_IM`: the tables when the main loop ends. -/
def dijkstra_IM_tables (pq : PriorityQueue) (G : IncidenceMatrix) (source fuel : Nat) :
    Option Tables :=
  let distances := initDistances G.getVerticesNum source
  let path := initPath G.getVerticesNum
  (dijkstraLoop_IM pq G fuel
    { distances := distances, path := path, Q := initQueue pq G.getVerticesNum distances }).map
    (fun st => { distances := st.distances, path := st.path })

/-- The function `dijkstra_IM` (lines 102-146), as the lines it prints. -/
def dijkstra_IM (pq : PriorityQueue) (G : IncidenceMatrix) (source destination fuel : Nat) :
    Option (List OutLine) :=
  (dijkstra_IM_tables pq G source fuel).bind (fun t =>
    (printPath source destination (t.distances.getD destination 0) t.path fuel).map
      (fun l => [l]))

/-! ## The binary heap -/

/-- Modelled from the spec: the distance (the ordering key of section 4.1) of the entry at
position `i` of the queue array. -/
def keyAt (q : List Vertex) (i : Nat) : Int :=
  (q.getD i ⟨0, 0⟩).distance

/-- Modelled from the spec: the exchange of the entries at positions `i` and `j` that
sift-up and sift-down perform. -/
def swapAt (q : List Vertex) (i j : Nat) : List Vertex :=
  (q.set i (q.getD j ⟨0, 0⟩)).set j (q.getD i ⟨0, 0⟩)

/-- Modelled from the spec: sift-up (section 4.1), moving the entry at position `i` towards
the root while its parent carries a larger distance. -/
def siftUp : Nat → List Vertex → Nat → List Vertex
  | 0, q, _ => q
  | fuel + 1, q, i =>
    if i = 0 then q
    else if keyAt q ((i - 1) / 2) > keyAt q i then
      siftUp fuel (swapAt q ((i - 1) / 2) i) ((i - 1) / 2)
    else q

/-- Modelled from the spec: the position, among `i` and its children `2i+1` and `2i+2`, of
an entry of smallest distance (the entry sift-down moves up). -/
def smallestOf (q : List Vertex) (i : Nat) : Nat :=
  let m := if 2 * i + 1 < q.length ∧ keyAt q (2 * i + 1) < keyAt q i then 2 * i + 1 else i
  if 2 * i + 2 < q.length ∧ keyAt q (2 * i + 2) < keyAt q m then 2 * i + 2 else m

/-- Modelled from the spec: sift-down (section 4.1), moving the entry at position `i`
away from the root while a child carries a smaller distance. -/
def siftDown : Nat → List Vertex → Nat → List Vertex
  | 0, q, _ => q
  | fuel + 1, q, i =>
    if smallestOf q i = i then q
    else siftDown fuel (swapAt q i (smallestOf q i)) (smallestOf q i)

/-- Modelled from the spec: the binary min-heap of section 4.1 stored in the array
`getData()`: `push` appends and sifts up, `extractMin` returns the root's distance, moves
the last entry to the root and sifts down, `decreaseKey` writes the new distance and sifts
up; the invariant is the heap order (every parent's distance is at most its children's). -/
def binaryHeap : PriorityQueue where
  push := fun q x => siftUp (q.length + 1) (q ++ [x]) q.length
  extractMin := fun q =>
    ((q.headD ⟨0, 0⟩).distance,
      match q with
      | [] => []
      | [_] => []
      | _ :: x :: rest =>
        siftDown (rest.length + 1)
          ((x :: rest).getLast (List.cons_ne_nil x rest) :: (x :: rest).dropLast) 0)
  decreaseKey := fun q i k => siftUp (i + 1) (q.set i ⟨(q.getD i ⟨0, 0⟩).number, k⟩) i
  HeapOrder := fun q => ∀ i, 0 < i → i < q.length → keyAt q ((i - 1) / 2) ≤ keyAt q i

/-! ## Walks, weights and negative cycles -/

/-- `IsWalk E a p b`: the list `p` of triples `(u, v, w)` is a chain of edges of the
relation `E` leading from `a` to `b`. -/
def IsWalk (E : Nat → Nat → Int → Prop) : Nat → List (Nat × Nat × Int) → Nat → Prop
  | a, [], b => a = b
  | a, e :: p, b => e.1 = a ∧ E e.1 e.2.1 e.2.2 ∧ IsWalk E e.2.1 p b

/-- Total weight of a list of edges. -/
def weight (p : List (Nat × Nat × Int)) : Int :=
  (p.map (fun e => e.2.2)).sum

/-- The vertices visited by a walk that starts in `a`. -/
def visited (a : Nat) (p : List (Nat × Nat × Int)) : List Nat :=
  a :: p.map (fun e => e.2.1)

/-- A negative-weight cycle: a closed walk of negative total weight. -/
def HasNegCycle (E : Nat → Nat → Int → Prop) : Prop :=
  ∃ a p, IsWalk E a p a ∧ weight p < 0

/-- A negative-weight cycle through a vertex that can be reached from `s`. -/
def HasReachableNegCycle (E : Nat → Nat → Int → Prop) (s : Nat) : Prop :=
  ∃ a p q, IsWalk E s q a ∧ IsWalk E a p a ∧ weight p < 0

/-- Every edge joins two vertices below `V`. -/
def EdgesBelow (E : Nat → Nat → Int → Prop) (V : Nat) : Prop :=
  ∀ u v w, E u v w → u < V ∧ v < V

/-- The starting value of vertex `a`: `0` for the source, the sentinel otherwise. -/
def startValue (s a : Nat) : Int :=
  if a = s then 0 else 1000

/-- The table `d` holds, for every vertex `v`, the least value of
`startValue s a + weight p` over all start vertices `a` and all walks `p` from `a` to `v`. -/
def IsMinTable (E : Nat → Nat → Int → Prop) (V s : Nat) (d : List Int) : Prop :=
  d.length = V ∧ ∀ v, v < V →
    (∃ a p, a < V ∧ IsWalk E a p v ∧ d.getD v 0 = startValue s a + weight p) ∧
    (∀ a p, a < V → IsWalk E a p v → d.getD v 0 ≤ startValue s a + weight p)

/-- The rows of the edge array of an adjacency list, in the order of the loop. -/
def rowsAL (G : AdjacencyList) : List (Nat × Nat × Int) :=
  (List.range G.getEdgesNum).map G.getAllEdgesList

/-- The edges of an incidence matrix as triples, in the order of the loop. -/
def rowsIM (G : IncidenceMatrix) : List (Nat × Nat × Int) :=
  (List.range G.getEdgesNum).map
    (fun e => ((G.getEdge e).source, (G.getEdge e).destination, (G.getEdge e).weight))

/-- Edge relation of a list of triples. -/
def RowEdge (rows : List (Nat × Nat × Int)) (u v : Nat) (w : Int) : Prop :=
  (u, v, w) ∈ rows

/-- Edge relation of the chains of an adjacency list. -/
def ChainEdge (G : AdjacencyList) (u v : Nat) (w : Int) : Prop :=
  u < G.getVerticesNum ∧ (⟨v, w⟩ : Edge) ∈ G.getVertices u

/-! ## Definitions used by the proofs -/

/-- One full pass over a list of rows. -/
def passRows (rows : List (Nat × Nat × Int)) (t : Tables) : Tables :=
  rows.foldl relaxRow t

/-- The tables after `k` passes over `rows`. -/
def iterRows (rows : List (Nat × Nat × Int)) (V s k : Nat) : Tables :=
  Nat.iterate (passRows rows) k { distances := initDistances V s, path := initPath V }

/-- The test of the check pass over a list of rows. -/
def checkRows (rows : List (Nat × Nat × Int)) (t : Tables) : Bool :=
  rows.any (fun row =>
    decide (t.distances.getD row.2.1 0 > add32 (t.distances.getD row.1 0) row.2.2))

/-- Both Bellman-Ford variants as a function of the rows they enumerate. -/
def bfRows (rows : List (Nat × Nat × Int)) (V s : Nat) : BFResult :=
  if checkRows rows (iterRows rows V s (V - 1)) then BFResult.negativeCycle
  else BFResult.finished (iterRows rows V s (V - 1))

/-- An incidence matrix holding the listed edges, edge `e` at position `e`. -/
def imOfList (V : Nat) (es : List IMEdge) : IncidenceMatrix where
  getVerticesNum := V
  getEdgesNum := es.length
  getEdge := fun e => es.getD e ⟨0, 0, 0⟩

/-- An adjacency list holding the listed edges: the chain of `u` lists the edges leaving
`u` in the order of the list, and the edge array lists all of them in that order. -/
def alOfList (V : Nat) (es : List IMEdge) : AdjacencyList where
  getVerticesNum := V
  getEdgesNum := es.length
  getVertices := fun u =>
    (es.filter (fun e => e.source = u)).map (fun e => ⟨e.destination, e.weight⟩)
  getAllEdgesList := fun e =>
    ((es.getD e ⟨0, 0, 0⟩).source, (es.getD e ⟨0, 0, 0⟩).destination,
      (es.getD e ⟨0, 0, 0⟩).weight)

/-- Three vertices, the cycle `0 -> 1 -> 2 -> 0` with weights `-1`. -/
def negTriangle : List IMEdge := [⟨0, 1, -1⟩, ⟨1, 2, -1⟩, ⟨2, 0, -1⟩]

/-- Three vertices, the cycle `1 -> 2 -> 1` with weights `-1`; vertex `0` has no edge. -/
def farCycle : List IMEdge := [⟨1, 2, -1⟩, ⟨2, 1, -1⟩]

/-- Two vertices, a loop of weight `-1` at vertex `1`; vertex `0` has no edge. -/
def farLoop : List IMEdge := [⟨1, 1, -1⟩]

/-- Two vertices, one edge `0 -> 1` of weight `2000`. -/
def longEdge : List IMEdge := [⟨0, 1, 2000⟩]

/-- Two vertices, one edge `0 -> 1` of weight `1000`. -/
def sentinelEdge : List IMEdge := [⟨0, 1, 1000⟩]

/-- The scenario of section 8: four vertices, five edges. -/
def scenario : List IMEdge := [⟨0, 1, 1⟩, ⟨0, 2, 4⟩, ⟨1, 2, 2⟩, ⟨1, 3, 6⟩, ⟨2, 3, 3⟩]

/-- What every relaxation step keeps true of the two tables: their lengths, every distance
is the value of some walk, no distance exceeds the start value, and a predecessor entry
is either still `-1` (and the distance untouched) or the origin of an edge that is tight
or over-tight. -/
structure RInv (E : Nat → Nat → Int → Prop) (V s : Nat) (t : Tables) : Prop where
  len_d : t.distances.length = V
  len_p : t.path.length = V
  real : ∀ v, v < V → ∃ a p, a < V ∧ IsWalk E a p v ∧
    t.distances.getD v 0 = startValue s a + weight p
  le_start : ∀ v, v < V → t.distances.getD v 0 ≤ startValue s v
  pred : ∀ v, v < V →
    (t.path.getD v 0 = -1 ∧ t.distances.getD v 0 = startValue s v) ∨
    ∃ u w, u < V ∧ t.path.getD v 0 = (u : Int) ∧ E u v w ∧
      t.distances.getD u 0 + w ≤ t.distances.getD v 0

instance instDecidableRowEdge (rows : List (Nat × Nat × Int)) (u v : Nat) (w : Int) :
    Decidable (RowEdge rows u v w) :=
  inferInstanceAs (Decidable ((u, v, w) ∈ rows))

instance instDecidableChainEdge (G : AdjacencyList) (u v : Nat) (w : Int) :
    Decidable (ChainEdge G u v w) :=
  inferInstanceAs (Decidable (u < G.getVerticesNum ∧ (⟨v, w⟩ : Edge) ∈ G.getVertices u))

/-- Whether a list of triples is a walk can be computed when the edge relation can. -/
def decideIsWalk (E : Nat → Nat → Int → Prop) [∀ u v w, Decidable (E u v w)] :
    (a : Nat) → (p : List (Nat × Nat × Int)) → (b : Nat) → Decidable (IsWalk E a p b)
  | a, [], b => inferInstanceAs (Decidable (a = b))
  | a, e :: p, b =>
    have : Decidable (IsWalk E e.2.1 p b) := decideIsWalk E e.2.1 p b
    inferInstanceAs (Decidable (e.1 = a ∧ E e.1 e.2.1 e.2.2 ∧ IsWalk E e.2.1 p b))

instance instDecidableIsWalk (E : Nat → Nat → Int → Prop) [∀ u v w, Decidable (E u v w)]
    (a : Nat) (p : List (Nat × Nat × Int)) (b : Nat) : Decidable (IsWalk E a p b) :=
  decideIsWalk E a p b

/-- What holds of a Dijkstra state while the chain of the extracted vertex `u` (extracted
with distance `min`) is walked, whatever the sign of the weights: the relaxation
invariants, the queue invariant, every queue entry carries the current distance of its
vertex, and `u` has left the queue with `distances[u] = min`. -/
structure CInv (pq : PriorityQueue) (G : AdjacencyList) (s u : Nat) (min : Int)
    (st : DState) : Prop where
  rinv : RInv (ChainEdge G) G.getVerticesNum s { distances := st.distances, path := st.path }
  heap : pq.HeapOrder st.Q
  nodup : (st.Q.map Vertex.number).Nodup
  keys : ∀ e ∈ st.Q, e.number < G.getVerticesNum ∧
    e.distance = st.distances.getD e.number 0
  u_lt : u < G.getVerticesNum
  u_out : u ∉ st.Q.map Vertex.number
  du : st.distances.getD u 0 = min

/-- What holds in addition when the weights are non-negative: the edges of the vertices
extracted earlier are relaxed, no extracted vertex lies above `min`, no queued one below. -/
structure CExt (G : AdjacencyList) (u : Nat) (min : Int) (st : DState) : Prop where
  settled_edge : ∀ x, x < G.getVerticesNum → x ∉ st.Q.map Vertex.number → x ≠ u →
    ∀ v w, ChainEdge G x v w → st.distances.getD v 0 ≤ st.distances.getD x 0 + w
  settled_min : ∀ x, x < G.getVerticesNum → x ∉ st.Q.map Vertex.number →
    st.distances.getD x 0 ≤ min
  queue_min : ∀ e ∈ st.Q, min ≤ e.distance

/-- Invariant of the main loop of Dijkstra, whatever the sign of the weights. -/
structure DInv (pq : PriorityQueue) (G : AdjacencyList) (s : Nat) (st : DState) : Prop where
  rinv : RInv (ChainEdge G) G.getVerticesNum s { distances := st.distances, path := st.path }
  heap : pq.HeapOrder st.Q
  nodup : (st.Q.map Vertex.number).Nodup
  keys : ∀ e ∈ st.Q, e.number < G.getVerticesNum ∧
    e.distance = st.distances.getD e.number 0

/-- Invariant of the main loop of Dijkstra for non-negative weights: the edges of every
extracted vertex are relaxed, and no extracted vertex lies above a queued one. -/
structure DExt (G : AdjacencyList) (st : DState) : Prop where
  settled_edge : ∀ u, u < G.getVerticesNum → u ∉ st.Q.map Vertex.number →
    ∀ v w, ChainEdge G u v w → st.distances.getD v 0 ≤ st.distances.getD u 0 + w
  settled_le : ∀ u, u < G.getVerticesNum → u ∉ st.Q.map Vertex.number →
    ∀ e ∈ st.Q, st.distances.getD u 0 ≤ e.distance

/-- The adjacency list that `dijkstra_IM` reads off an incidence matrix: the chain of `u`
lists the edges with source `u` in the order of their numbers. -/
def chainsOfIM (G : IncidenceMatrix) : AdjacencyList where
  getVerticesNum := G.getVerticesNum
  getEdgesNum := G.getEdgesNum
  getVertices := fun u =>
    (((List.range G.getEdgesNum).map G.getEdge).filter (fun e => decide (e.source = u))).map
      (fun e => ⟨e.destination, e.weight⟩)
  getAllEdgesList := fun e =>
    ((G.getEdge e).source, (G.getEdge e).destination, (G.getEdge e).weight)

/-- The value `x` is the smaller of the sentinel `1000` and the least weight of a walk
from `s` to `v` (it is `1000` when there is no walk, or none lighter than `1000`). -/
def IsCappedMin (E : Nat → Nat → Int → Prop) (s v : Nat) (x : Int) : Prop :=
  x ≤ 1000 ∧ (∀ p, IsWalk E s p v → x ≤ weight p) ∧
    (x = 1000 ∨ ∃ p, IsWalk E s p v ∧ x = weight p)

/-- Edge relation of a list of edge records. -/
def ListEdge (es : List IMEdge) (u v : Nat) (w : Int) : Prop :=
  (⟨u, v, w⟩ : IMEdge) ∈ es

instance instDecidableListEdge (es : List IMEdge) (u v : Nat) (w : Int) :
    Decidable (ListEdge es u v w) :=
  inferInstanceAs (Decidable ((⟨u, v, w⟩ : IMEdge) ∈ es))

/-- Four vertices with two shortest paths of equal length from `0` to `3`. -/
def tieFirst : List IMEdge := [⟨0, 1, 1⟩, ⟨0, 2, 1⟩, ⟨1, 3, 1⟩, ⟨2, 3, 1⟩]

/-- The edges of `tieFirst` with the two edges that leave `0` in the other order. -/
def tieSecond : List IMEdge := [⟨0, 2, 1⟩, ⟨0, 1, 1⟩, ⟨1, 3, 1⟩, ⟨2, 3, 1⟩]

/-- Vertex `x` is isolated: no edge has it as source or as destination. -/
def Isolated (E : Nat → Nat → Int → Prop) (x : Nat) : Prop :=
  ∀ u v w, E u v w → u ≠ x ∧ v ≠ x

/-- One step of the predecessor walk of `printPath` (`i = path[i]`); the value `-1` stays. -/
def predStep (path : List Int) (i : Int) : Int :=
  if i = -1 then -1 else path.getD i.toNat 0

/-- The edges that the predecessor table of `t` selects: `(u, v, w)` is an edge and
`path[v] = u`. -/
def PredEdge (E : Nat → Nat → Int → Prop) (t : Tables) (u v : Nat) (w : Int) : Prop :=
  E u v w ∧ t.path.getD v 0 = (u : Int)

/-- Tables that arise from `t0` by a sequence of improving writes
`distances[v] = distances[u] + w; path[v] = u` along edges `(u, v, w)`. -/
inductive RelaxSteps (E : Nat → Nat → Int → Prop) (t0 : Tables) : Tables → Prop
  | start : RelaxSteps E t0 t0
  | relax {t : Tables} (u v : Nat) (w : Int) : RelaxSteps E t0 t → E u v w →
      t.distances.getD v 0 > t.distances.getD u 0 + w →
      RelaxSteps E t0 { distances := t.distances.set v (t.distances.getD u 0 + w),
                        path := t.path.set v (u : Int) }

/-- Invariants of the predecessor table: an entry different from `-1` goes with a distance
strictly below the start value, and following the table never returns to a vertex. -/
structure PInv (V s : Nat) (t : Tables) : Prop where
  strict : ∀ v, v < V → t.path.getD v 0 ≠ -1 → t.distances.getD v 0 < startValue s v
  acyclic : ∀ v, v < V → ∀ n, 0 < n → (predStep t.path)^[n] (v : Int) ≠ (v : Int)

/-- Three vertices, one edge `1 -> 2` of weight `-5`; vertex `0` has no edge. -/
def strayEdge : List IMEdge := [⟨1, 2, -5⟩]

/-- The tables every variant ends with on the scenario of section 8. -/
def scenarioTables : Tables := { distances := [0, 1, 3, 6], path := [-1, 0, 1, 2] }

/-- The edges of `tieFirst` with the two edges that enter `3` in the other order. -/
def tieThird : List IMEdge := [⟨0, 1, 1⟩, ⟨0, 2, 1⟩, ⟨2, 3, 1⟩, ⟨1, 3, 1⟩]

/-! ## Traces of the runs -/

/-- The tables before each execution of a loop body `f`, in the order of the loop. -/
def stepTrace {α : Type} (f : Tables → α → Tables) : List α → Tables → List Tables
  | [], _ => []
  | a :: l, t => t :: stepTrace f l (f t a)

/-- The tables before each execution of lines 176-180 during one pass of `bellman_ford_AL`. -/
def passTrace_AL (G : AdjacencyList) (t : Tables) : List Tables :=
  stepTrace (fun acc e => relaxRow acc (G.getAllEdgesList e)) (List.range G.getEdgesNum) t

/-- The tables before each execution of lines 229-234 during one pass of `bellman_ford_IM`. -/
def passTrace_IM (G : IncidenceMatrix) (t : Tables) : List Tables :=
  stepTrace (fun acc e => relaxIMEdge acc (G.getEdge e)) (List.range G.getEdgesNum) t

/-- The traces of `k` consecutive passes. -/
def runTrace (pass : Tables → Tables) (trace : Tables → List Tables) :
    Nat → Tables → List Tables
  | 0, _ => []
  | k + 1, t => trace t ++ runTrace pass trace k (pass t)

/-- The tables before each relaxation step of the `v_nums - 1` passes of `bellman_ford_AL`. -/
def bellman_ford_AL_trace (G : AdjacencyList) (source : Nat) : List Tables :=
  runTrace (passAL G) (passTrace_AL G) (G.getVerticesNum - 1)
    { distances := initDistances G.getVerticesNum source, path := initPath G.getVerticesNum }

/-- The tables before each relaxation step of the `v_nums - 1` passes of `bellman_ford_IM`. -/
def bellman_ford_IM_trace (G : IncidenceMatrix) (source : Nat) : List Tables :=
  runTrace (passIM G) (passTrace_IM G) (G.getVerticesNum - 1)
    { distances := initDistances G.getVerticesNum source, path := initPath G.getVerticesNum }

/-- A point of a Dijkstra run at which the state is observed: `extract st u min` when the
loop condition holds in state `st`, `u` is the number at the root and `min` the value
returned by `extractMin` (lines 71-73); `test u min temp st` when the test of line 76
(line 133) is about to be evaluated in state `st` for the edge `temp` leaving `u`.  In
`dijkstra_IM` the node `temp` stands for `edge->destination` and `edge->weight` of an edge
with `edge->source == u`, on which lines 133-138 act as lines 76-81 do. -/
inductive DEvent where
  | extract (st : DState) (u : Nat) (min : Int)
  | test (u : Nat) (min : Int) (temp : Edge) (st : DState)
deriving DecidableEq

/-- The state observed at an event. -/
def DEvent.state : DEvent → DState
  | DEvent.extract st _ _ => st
  | DEvent.test _ _ _ st => st

/-- The two tables observed at an event. -/
def DEvent.tables (ev : DEvent) : Tables :=
  { distances := ev.state.distances, path := ev.state.path }

/-- The events of lines 74-83: one test per node of the chain, until `Q->find` fails. -/
def chainEvents (pq : PriorityQueue) (u : Nat) (min : Int) : List Edge → DState → List DEvent
  | [], _ => []
  | temp :: next, st =>
    DEvent.test u min temp st ::
      (match relaxChainNode pq u min temp st with
       | none => []
       | some st1 => chainEvents pq u min next st1)

/-- The events of lines 69-84 of `dijkstra_AL`. -/
def loopEvents_AL (pq : PriorityQueue) (G : AdjacencyList) : Nat → DState → List DEvent
  | 0, _ => []
  | fuel + 1, st =>
    match st.Q with
    | [] => []
    | root :: rest =>
      let u := root.number
      let temp := G.getVertices u
      let r := pq.extractMin (root :: rest)
      DEvent.extract st u r.1 ::
        (chainEvents pq u r.1 temp { st with Q := r.2 } ++
          (match chainLoop pq u r.1 temp { st with Q := r.2 } with
           | none => []
           | some st1 => loopEvents_AL pq G fuel st1))

/-- The events of a run of `dijkstra_AL`. -/
def dijkstra_AL_events (pq : PriorityQueue) (G : AdjacencyList) (source fuel : Nat) :
    List DEvent :=
  loopEvents_AL pq G fuel
    { distances := initDistances G.getVerticesNum source, path := initPath G.getVerticesNum,
      Q := initQueue pq G.getVerticesNum (initDistances G.getVerticesNum source) }

/-- The events of lines 128-140: one test per edge with `edge->source == u`, until
`Q->find` fails. -/
def scanEvents (pq : PriorityQueue) (G : IncidenceMatrix) (u : Nat) (min : Int) :
    List Nat → DState → List DEvent
  | [], _ => []
  | e :: es, st =>
    (if (G.getEdge e).source = u then
      [DEvent.test u min ⟨(G.getEdge e).destination, (G.getEdge e).weight⟩ st]
     else []) ++
      (match relaxIMScan pq u min (G.getEdge e) st with
       | none => []
       | some st1 => scanEvents pq G u min es st1)

/-- The events of lines 124-141 of `dijkstra_IM`. -/
def loopEvents_IM (pq : PriorityQueue) (G : IncidenceMatrix) : Nat → DState → List DEvent
  | 0, _ => []
  | fuel + 1, st =>
    match st.Q with
    | [] => []
    | root :: rest =>
      let u := root.number
      let r := pq.extractMin (root :: rest)
      DEvent.extract st u r.1 ::
        (scanEvents pq G u r.1 (List.range G.getEdgesNum) { st with Q := r.2 } ++
          (match scanLoop pq G u r.1 (List.range G.getEdgesNum) { st with Q := r.2 } with
           | none => []
           | some st1 => loopEvents_IM pq G fuel st1))

/-- The events of a run of `dijkstra_IM`. -/
def dijkstra_IM_events (pq : PriorityQueue) (G : IncidenceMatrix) (source fuel : Nat) :
    List DEvent :=
  loopEvents_IM pq G fuel
    { distances := initDistances G.getVerticesNum source, path := initPath G.getVerticesNum,
      Q := initQueue pq G.getVerticesNum (initDistances G.getVerticesNum source) }

/-- One step between consecutive tables of a run: nothing is written, or one entry `v` of
`distances` receives a value strictly below the one it replaces and the same entry of
`path` is set. -/
def StepOK (t t1 : Tables) : Prop :=
  t1 = t ∨ ∃ (v : Nat) (u x : Int), x < t.distances.getD v 0 ∧
    t1.distances = t.distances.set v x ∧ t1.path = t.path.set v u

/-- No entry of `distances` is larger in `t1` than in `t`. -/
def NotAbove (t t1 : Tables) : Prop :=
  ∀ v, t1.distances.getD v 0 ≤ t.distances.getD v 0

instance instIsTransNotAbove : IsTrans Tables NotAbove :=
  ⟨fun _ _ _ h1 h2 v => le_trans (h2 v) (h1 v)⟩

/-- The list `l`, followed by `o` when present, is a chain of `R` that starts at `a`. -/
def SegO {α : Type} (R : α → α → Prop) (a : α) (l : List α) (o : Option α) : Prop :=
  List.Chain' R (l ++ o.toList) ∧ ∀ y ∈ (l ++ o.toList).head?, y = a

/-- What holds at an event of a Dijkstra run, whatever the sign of the weights. -/
def DEvent.Inv (pq : PriorityQueue) (G : AdjacencyList) (s : Nat) : DEvent → Prop
  | DEvent.extract st u min => DInv pq G s st ∧
      ∃ root rest, st.Q = root :: rest ∧ u = root.number ∧
        min = (pq.extractMin (root :: rest)).1
  | DEvent.test u min temp st => CInv pq G s u min st ∧
      ChainEdge G u temp.destination temp.weight

/-- What holds in addition at an event when the weights are non-negative. -/
def DEvent.Ext (G : AdjacencyList) : DEvent → Prop
  | DEvent.extract st _ _ => DExt G st
  | DEvent.test u min _ st => CExt G u min st

/-- At the event every queue entry carries the current distance of its vertex, the value
returned by `extractMin` is the distance of the extracted vertex, and a call of
`decreaseKey` (the test holds and `find` returns the position `i`) passes a distance
strictly below the key of the entry at `i`, which is the entry of the destination. -/
def DEvent.KeysOK : DEvent → Prop
  | DEvent.extract st u min =>
    (∀ e ∈ st.Q, e.distance = st.distances.getD e.number 0) ∧ min = st.distances.getD u 0
  | DEvent.test u min temp st =>
    (∀ e ∈ st.Q, e.distance = st.distances.getD e.number 0) ∧ min = st.distances.getD u 0 ∧
    (st.distances.getD temp.destination 0 > add32 min temp.weight →
      ∀ i, find st.Q temp.destination = some i →
        ∃ e, st.Q[i]? = some e ∧ e.number = temp.destination ∧
          (st.distances.set temp.destination (add32 min temp.weight)).getD temp.destination 0 <
            e.distance)

/-- At a test event the test fails for a destination that has left the queue, a passing
test is followed by a successful `find`, and the step leaves the distance of every vertex
outside the queue as it was. -/
def DEvent.SettledOK (pq : PriorityQueue) : DEvent → Prop
  | DEvent.extract _ _ _ => True
  | DEvent.test u min temp st =>
    (temp.destination ∉ st.Q.map Vertex.number →
      ¬ st.distances.getD temp.destination 0 > add32 min temp.weight) ∧
    (st.distances.getD temp.destination 0 > add32 min temp.weight →
      ∃ i, find st.Q temp.destination = some i) ∧
    ∃ st1, relaxChainNode pq u min temp st = some st1 ∧
      ∀ x, x ∉ st.Q.map Vertex.number →
        st1.distances.getD x 0 = st.distances.getD x 0

/-- The tables after the initialisation loops (lines 53-58, 108-113, 164-169, 218-223). -/
def initTables (v_nums source : Nat) : Tables :=
  { distances := initDistances v_nums source, path := initPath v_nums }

/-- The tables of `bellman_ford_AL` after the `v_nums - 1` passes, before the check pass. -/
def bellman_ford_AL_passes (G : AdjacencyList) (source : Nat) : Tables :=
  Nat.iterate (passAL G) (G.getVerticesNum - 1) (initTables G.getVerticesNum source)

/-- The tables of `bellman_ford_IM` after the `v_nums - 1` passes, before the check pass. -/
def bellman_ford_IM_passes (G : IncidenceMatrix) (source : Nat) : Tables :=
  Nat.iterate (passIM G) (G.getVerticesNum - 1) (initTables G.getVerticesNum source)

/-- The successive tables of a run of `bellman_ford_AL`: before each relaxation step, and
after the last one. -/
def bellman_ford_AL_run (G : AdjacencyList) (source : Nat) : List Tables :=
  bellman_ford_AL_trace G source ++ [bellman_ford_AL_passes G source]

/-- The successive tables of a run of `bellman_ford_IM`. -/
def bellman_ford_IM_run (G : IncidenceMatrix) (source : Nat) : List Tables :=
  bellman_ford_IM_trace G source ++ [bellman_ford_IM_passes G source]

/-- The successive tables of a run of `dijkstra_AL`: at each event, and when the main loop
has ended. -/
def dijkstra_AL_run (pq : PriorityQueue) (G : AdjacencyList) (source fuel : Nat) :
    List Tables :=
  (dijkstra_AL_events pq G source fuel).map DEvent.tables ++
    (dijkstra_AL_tables pq G source fuel).toList

/-- The successive tables of a run of `dijkstra_IM`. -/
def dijkstra_IM_run (pq : PriorityQueue) (G : IncidenceMatrix) (source fuel : Nat) :
    List Tables :=
  (dijkstra_IM_events pq G source fuel).map DEvent.tables ++
    (dijkstra_IM_tables pq G source fuel).toList

/-- Every step of the sequence is a `StepOK` step, and no entry of `distances` is larger at
a later position than at an earlier one. -/
def NeverIncreases (l : List Tables) : Prop :=
  List.Chain' StepOK l ∧ List.Pairwise NotAbove l

/-! ## The same functions with exact sums

The idealisation in which every sum `distances[u] + w` and `min + w` is the exact integer
sum: `X_exact` is `X` with `add32` replaced by `+`. -/

/-- The function `relaxRow` with exact integer sums. -/
def relaxRow_exact (t : Tables) (row : Nat × Nat × Int) : Tables :=
  if t.distances.getD row.2.1 0 > t.distances.getD row.1 0 + row.2.2 then
    { distances := t.distances.set row.2.1 (t.distances.getD row.1 0 + row.2.2),
      path := t.path.set row.2.1 (row.1 : Int) }
  else t

/-- The function `relaxIMEdge` with exact integer sums. -/
def relaxIMEdge_exact (t : Tables) (edge : IMEdge) : Tables :=
  if t.distances.getD edge.destination 0 > t.distances.getD edge.source 0 + edge.weight then
    { distances := t.distances.set edge.destination
        (t.distances.getD edge.source 0 + edge.weight),
      path := t.path.set edge.destination (edge.source : Int) }
  else t

/-- The function `passAL` with exact integer sums. -/
def passAL_exact (G : AdjacencyList) (t : Tables) : Tables :=
  (List.range G.getEdgesNum).foldl (fun acc e => relaxRow_exact acc (G.getAllEdgesList e)) t

/-- The function `passIM` with exact integer sums. -/
def passIM_exact (G : IncidenceMatrix) (t : Tables) : Tables :=
  (List.range G.getEdgesNum).foldl (fun acc e => relaxIMEdge_exact acc (G.getEdge e)) t

/-- The function `checkAL` with exact integer sums. -/
def checkAL_exact (G : AdjacencyList) (t : Tables) : Bool :=
  (List.range G.getEdgesNum).any (fun e =>
    decide (t.distances.getD (G.getAllEdgesList e).2.1 0 >
      t.distances.getD (G.getAllEdgesList e).1 0 + (G.getAllEdgesList e).2.2))

/-- The function `checkIM` with exact integer sums. -/
def checkIM_exact (G : IncidenceMatrix) (t : Tables) : Bool :=
  (List.range G.getEdgesNum).any (fun e =>
    decide (t.distances.getD (G.getEdge e).destination 0 >
      t.distances.getD (G.getEdge e).source 0 + (G.getEdge e).weight))

/-- The function `bellman_ford_AL_tables` with exact integer sums. -/
def bellman_ford_AL_tables_exact (G : AdjacencyList) (source : Nat) : BFResult :=
  let t := Nat.iterate (passAL_exact G) (G.getVerticesNum - 1)
    { distances := initDistances G.getVerticesNum source, path := initPath G.getVerticesNum }
  if checkAL_exact G t then BFResult.negativeCycle else BFResult.finished t

/-- The function `bellman_ford_IM_tables` with exact integer sums. -/
def bellman_ford_IM_tables_exact (G : IncidenceMatrix) (source : Nat) : BFResult :=
  let t := Nat.iterate (passIM_exact G) (G.getVerticesNum - 1)
    { distances := initDistances G.getVerticesNum source, path := initPath G.getVerticesNum }
  if checkIM_exact G t then BFResult.negativeCycle else BFResult.finished t

/-- The function `bellman_ford_AL` with exact integer sums. -/
def bellman_ford_AL_exact (G : AdjacencyList) (source destination fuel : Nat) :
    Option (List OutLine) :=
  match bellman_ford_AL_tables_exact G source with
  | BFResult.negativeCycle => some [OutLine.negativeCycle]
  | BFResult.finished t =>
    (printPath source destination (t.distances.getD destination 0) t.path fuel).map
      (fun l => [l])

/-- The function `bellman_ford_IM` with exact integer sums. -/
def bellman_ford_IM_exact (G : IncidenceMatrix) (source destination fuel : Nat) :
    Option (List OutLine) :=
  match bellman_ford_IM_tables_exact G source with
  | BFResult.negativeCycle => some [OutLine.negativeCycle]
  | BFResult.finished t =>
    (printPath source destination (t.distances.getD destination 0) t.path fuel).map
      (fun l => [l])

/-- The function `relaxChainNode` with exact integer sums. -/
def relaxChainNode_exact (pq : PriorityQueue) (u : Nat) (min : Int) (temp : Edge) (st : DState) :
    Option DState :=
  if st.distances.getD temp.destination 0 > min + temp.weight then
    let distances := st.distances.set temp.destination (min + temp.weight)
    let path := st.path.set temp.destination (u : Int)
    match find st.Q temp.destination with
    | none => none
    | some i =>
      some { distances := distances, path := path,
             Q := pq.decreaseKey st.Q i (distances.getD temp.destination 0) }
  else some st

/-- The function `chainLoop` with exact integer sums. -/
def chainLoop_exact (pq : PriorityQueue) (u : Nat) (min : Int) : List Edge → DState → Option DState
  | [], st => some st
  | temp :: next, st => (relaxChainNode_exact pq u min temp st).bind (chainLoop_exact pq u min next)

/-- The function `dijkstraLoop_AL` with exact integer sums. -/
def dijkstraLoop_AL_exact (pq : PriorityQueue) (G : AdjacencyList) : Nat → DState → Option DState
  | 0, _ => none
  | fuel + 1, st =>
    match st.Q with
    | [] => some st
    | root :: rest =>
      let u := root.number
      let temp := G.getVertices u
      let r := pq.extractMin (root :: rest)
      (chainLoop_exact pq u r.1 temp { st with Q := r.2 }).bind (dijkstraLoop_AL_exact pq G fuel)

/-- The function `dijkstra_AL_tables` with exact integer sums. -/
def dijkstra_AL_tables_exact (pq : PriorityQueue) (G : AdjacencyList) (source fuel : Nat) :
    Option Tables :=
  let distances := initDistances G.getVerticesNum source
  let path := initPath G.getVerticesNum
  (dijkstraLoop_AL_exact pq G fuel
    { distances := distances, path := path, Q := initQueue pq G.getVerticesNum distances }).map
    (fun st => { distances := st.distances, path := st.path })

/-- The function `dijkstra_AL` with exact integer sums. -/
def dijkstra_AL_exact (pq : PriorityQueue) (G : AdjacencyList) (source destination fuel : Nat) :
    Option (List OutLine) :=
  (dijkstra_AL_tables_exact pq G source fuel).bind (fun t =>
    (printPath source destination (t.distances.getD destination 0) t.path fuel).map
      (fun l => [OutLine.counts G.getVerticesNum G.getEdgesNum, l]))

/-- The function `relaxIMScan` with exact integer sums. -/
def relaxIMScan_exact (pq : PriorityQueue) (u : Nat) (min : Int) (edge : IMEdge) (st : DState) :
    Option DState :=
  if edge.source = u then
    if st.distances.getD edge.destination 0 > min + edge.weight then
      let distances := st.distances.set edge.destination (min + edge.weight)
      let path := st.path.set edge.destination (edge.source : Int)
      match find st.Q edge.destination with
      | none => none
      | some i =>
        some { distances := distances, path := path,
               Q := pq.decreaseKey st.Q i (distances.getD edge.destination 0) }
    else some st
  else some st

/-- The function `scanLoop` with exact integer sums. -/
def scanLoop_exact (pq : PriorityQueue) (G : IncidenceMatrix) (u : Nat) (min : Int) :
    List Nat → DState → Option DState
  | [], st => some st
  | e :: es, st => (relaxIMScan_exact pq u min (G.getEdge e) st).bind (scanLoop_exact pq G u min es)

/-- The function `dijkstraLoop_IM` with exact integer sums. -/
def dijkstraLoop_IM_exact (pq : PriorityQueue) (G : IncidenceMatrix) : Nat → DState → Option DState
  | 0, _ => none
  | fuel + 1, st =>
    match st.Q with
    | [] => some st
    | root :: rest =>
      let u := root.number
      let r := pq.extractMin (root :: rest)
      (scanLoop_exact pq G u r.1 (List.range G.getEdgesNum) { st with Q := r.2 }).bind
        (dijkstraLoop_IM_exact pq G fuel)

/-- The function `dijkstra_IM_tables` with exact integer sums. -/
def dijkstra_IM_tables_exact (pq : PriorityQueue) (G : IncidenceMatrix) (source fuel : Nat) :
    Option Tables :=
  let distances := initDistances G.getVerticesNum source
  let path := initPath G.getVerticesNum
  (dijkstraLoop_IM_exact pq G fuel
    { distances := distances, path := path, Q := initQueue pq G.getVerticesNum distances }).map
    (fun st => { distances := st.distances, path := st.path })

/-- The function `dijkstra_IM` with exact integer sums. -/
def dijkstra_IM_exact (pq : PriorityQueue) (G : IncidenceMatrix) (source destination fuel : Nat) :
    Option (List OutLine) :=
  (dijkstra_IM_tables_exact pq G source fuel).bind (fun t =>
    (printPath source destination (t.distances.getD destination 0) t.path fuel).map
      (fun l => [l]))

/-- The function `passRows` with exact integer sums. -/
def passRows_exact (rows : List (Nat × Nat × Int)) (t : Tables) : Tables :=
  rows.foldl relaxRow_exact t

/-- The function `iterRows` with exact integer sums. -/
def iterRows_exact (rows : List (Nat × Nat × Int)) (V s k : Nat) : Tables :=
  Nat.iterate (passRows_exact rows) k { distances := initDistances V s, path := initPath V }

/-- The function `checkRows` with exact integer sums. -/
def checkRows_exact (rows : List (Nat × Nat × Int)) (t : Tables) : Bool :=
  rows.any (fun row =>
    decide (t.distances.getD row.2.1 0 > t.distances.getD row.1 0 + row.2.2))

/-- The function `bfRows` with exact integer sums. -/
def bfRows_exact (rows : List (Nat × Nat × Int)) (V s : Nat) : BFResult :=
  if checkRows_exact rows (iterRows_exact rows V s (V - 1)) then BFResult.negativeCycle
  else BFResult.finished (iterRows_exact rows V s (V - 1))

/-- The function `chainEvents` with exact integer sums. -/
def chainEvents_exact (pq : PriorityQueue) (u : Nat) (min : Int) : List Edge → DState → List DEvent
  | [], _ => []
  | temp :: next, st =>
    DEvent.test u min temp st ::
      (match relaxChainNode_exact pq u min temp st with
       | none => []
       | some st1 => chainEvents_exact pq u min next st1)

/-- The function `loopEvents_AL` with exact integer sums. -/
def loopEvents_AL_exact (pq : PriorityQueue) (G : AdjacencyList) : Nat → DState → List DEvent
  | 0, _ => []
  | fuel + 1, st =>
    match st.Q with
    | [] => []
    | root :: rest =>
      let u := root.number
      let temp := G.getVertices u
      let r := pq.extractMin (root :: rest)
      DEvent.extract st u r.1 ::
        (chainEvents_exact pq u r.1 temp { st with Q := r.2 } ++
          (match chainLoop_exact pq u r.1 temp { st with Q := r.2 } with
           | none => []
           | some st1 => loopEvents_AL_exact pq G fuel st1))

/-- The function `dijkstra_AL_events` with exact integer sums. -/
def dijkstra_AL_events_exact (pq : PriorityQueue) (G : AdjacencyList) (source fuel : Nat) :
    List DEvent :=
  loopEvents_AL_exact pq G fuel
    { distances := initDistances G.getVerticesNum source, path := initPath G.getVerticesNum,
      Q := initQueue pq G.getVerticesNum (initDistances G.getVerticesNum source) }

/-- The function `scanEvents` with exact integer sums. -/
def scanEvents_exact (pq : PriorityQueue) (G : IncidenceMatrix) (u : Nat) (min : Int) :
    List Nat → DState → List DEvent
  | [], _ => []
  | e :: es, st =>
    (if (G.getEdge e).source = u then
      [DEvent.test u min ⟨(G.getEdge e).destination, (G.getEdge e).weight⟩ st]
     else []) ++
      (match relaxIMScan_exact pq u min (G.getEdge e) st with
       | none => []
       | some st1 => scanEvents_exact pq G u min es st1)

/-- The function `loopEvents_IM` with exact integer sums. -/
def loopEvents_IM_exact (pq : PriorityQueue) (G : IncidenceMatrix) : Nat → DState → List DEvent
  | 0, _ => []
  | fuel + 1, st =>
    match st.Q with
    | [] => []
    | root :: rest =>
      let u := root.number
      let r := pq.extractMin (root :: rest)
      DEvent.extract st u r.1 ::
        (scanEvents_exact pq G u r.1 (List.range G.getEdgesNum) { st with Q := r.2 } ++
          (match scanLoop_exact pq G u r.1 (List.range G.getEdgesNum) { st with Q := r.2 } with
           | none => []
           | some st1 => loopEvents_IM_exact pq G fuel st1))

/-- The function `dijkstra_IM_events` with exact integer sums. -/
def dijkstra_IM_events_exact (pq : PriorityQueue) (G : IncidenceMatrix) (source fuel : Nat) :
    List DEvent :=
  loopEvents_IM_exact pq G fuel
    { distances := initDistances G.getVerticesNum source, path := initPath G.getVerticesNum,
      Q := initQueue pq G.getVerticesNum (initDistances G.getVerticesNum source) }

/-- The function `DEvent.SettledOK` with exact integer sums. -/
def DEvent.SettledOK_exact (pq : PriorityQueue) : DEvent → Prop
  | DEvent.extract _ _ _ => True
  | DEvent.test u min temp st =>
    (temp.destination ∉ st.Q.map Vertex.number →
      ¬ st.distances.getD temp.destination 0 > min + temp.weight) ∧
    (st.distances.getD temp.destination 0 > min + temp.weight →
      ∃ i, find st.Q temp.destination = some i) ∧
    ∃ st1, relaxChainNode_exact pq u min temp st = some st1 ∧
      ∀ x, x ∉ st.Q.map Vertex.number →
        st1.distances.getD x 0 = st.distances.getD x 0

/-! ## Sums without overflow -/

/-- Every weight lies between `0` and `2147482647` (`INT_MAX - 1000`), so that no sum
`distances[u] + w` with `0 ≤ distances[u] ≤ 1000` leaves the range of `int`. -/
def BoundedWeights (E : Nat → Nat → Int → Prop) : Prop :=
  ∀ u v w, E u v w → 0 ≤ w ∧ w ≤ 2147482647

/-- The exact values of the sums `distances[u] + w` that one relaxation pass over `rows`
evaluates (lines 176 and 230), in the order of the loop. -/
def passSums : List (Nat × Nat × Int) → Tables → List Int
  | [], _ => []
  | row :: rows, t =>
    (t.distances.getD row.1 0 + row.2.2) :: passSums rows (relaxRow t row)

/-- The exact values of the sums that the check pass over `rows` evaluates (lines 186 and
241); the pass returns at the first improving edge. -/
def checkSums : List (Nat × Nat × Int) → Tables → List Int
  | [], _ => []
  | row :: rows, t =>
    (t.distances.getD row.1 0 + row.2.2) ::
      (if t.distances.getD row.2.1 0 > add32 (t.distances.getD row.1 0) row.2.2 then []
       else checkSums rows t)

/-- The exact values of the sums evaluated by `k` relaxation passes and the check pass. -/
def runSums (rows : List (Nat × Nat × Int)) : Nat → Tables → List Int
  | 0, t => checkSums rows t
  | k + 1, t => passSums rows t ++ runSums rows k (passRows rows t)

/-- The exact values of all sums `distances[u] + w` that a run of `bellman_ford_AL`
evaluates.  The run is free of overflow when each of them satisfies `fits32`. -/
def bellman_ford_AL_sums (G : AdjacencyList) (source : Nat) : List Int :=
  runSums (rowsAL G) (G.getVerticesNum - 1) (initTables G.getVerticesNum source)

/-- The exact values of all sums `distances[u] + w` that a run of `bellman_ford_IM`
evaluates. -/
def bellman_ford_IM_sums (G : IncidenceMatrix) (source : Nat) : List Int :=
  runSums (rowsIM G) (G.getVerticesNum - 1) (initTables G.getVerticesNum source)

/-- What holds of the queue at every point of a Dijkstra run, whatever the weights and
whatever the arithmetic: the `distances` array has `V` entries, the queue invariant holds,
no vertex is queued twice, and every queue entry is a vertex below `V` that carries the
current distance of its vertex. -/
structure QInv (pq : PriorityQueue) (V : Nat) (st : DState) : Prop where
  len_d : st.distances.length = V
  heap : pq.HeapOrder st.Q
  nodup : (st.Q.map Vertex.number).Nodup
  keys : ∀ e ∈ st.Q, e.number < V ∧ e.distance = st.distances.getD e.number 0

/-- What holds in addition while the edges of the extracted vertex `u` are examined: `u`
is below `V`, has left the queue, and `distances[u]` is the value `min` returned by
`extractMin`. -/
structure QCInv (pq : PriorityQueue) (V u : Nat) (min : Int) (st : DState) : Prop where
  q : QInv pq V st
  u_lt : u < V
  u_out : u ∉ st.Q.map Vertex.number
  du : st.distances.getD u 0 = min

/-- The queue invariants at an event of a Dijkstra run. -/
def DEvent.QOK (pq : PriorityQueue) (V : Nat) : DEvent → Prop
  | DEvent.extract st u min => QInv pq V st ∧
      ∃ root rest, st.Q = root :: rest ∧ u = root.number ∧
        min = (pq.extractMin (root :: rest)).1
  | DEvent.test u min _ st => QCInv pq V u min st

/-! ## Graphs with weights at the ends of the `int` range -/

/-- Three vertices, one edge `1 -> 2` of weight `2147483647`; vertex `0` has no edge. -/
def wrapStep : List IMEdge := [⟨1, 2, 2147483647⟩]

/-- Three vertices, the edges `0 -> 1` of weight `5` and `1 -> 2` of weight `2147483647`. -/
def wrapChain : List IMEdge := [⟨0, 1, 5⟩, ⟨1, 2, 2147483647⟩]

/-- The edges `0 -> 1` of weight `5` and `1 -> 0` of weight `2147483647`. -/
def wrapBack : List IMEdge := [⟨0, 1, 5⟩, ⟨1, 0, 2147483647⟩]

/-- Two vertices, a loop of weight `2147483647` at vertex `1`; vertex `0` has no edge. -/
def wrapLoop : List IMEdge := [⟨1, 1, 2147483647⟩]

/-- Two vertices, the edges `0 -> 1` and `1 -> 0` of weight `-2147483648`. -/
def wrapMin : List IMEdge := [⟨0, 1, -2147483648⟩, ⟨1, 0, -2147483648⟩]

/-- Two vertices, the edges `0 -> 1` and `1 -> 0` of weight `2147483647`. -/
def wrapMax : List IMEdge := [⟨0, 1, 2147483647⟩, ⟨1, 0, 2147483647⟩]

/-- Three vertices, the edges `0 -> 1` and `0 -> 2` of weight `1` and `1 -> 2` of weight
`2147483647`. -/
def wrapTie : List IMEdge := [⟨0, 1, 1⟩, ⟨0, 2, 1⟩, ⟨1, 2, 2147483647⟩]

/-- The edges of `wrapTie` with the two edges that leave `0` in the other order. -/
def wrapTieSwapped : List IMEdge := [⟨0, 2, 1⟩, ⟨0, 1, 1⟩, ⟨1, 2, 2147483647⟩]

/-- Three vertices, the edges `0 -> 1` of weight `-2147483648` and `1 -> 2` of weight
`-2147482648`: the path `0, 1, 2` weighs `-4294966296`. -/
def wrapHide : List IMEdge := [⟨0, 1, -2147483648⟩, ⟨1, 2, -2147482648⟩]

/-! # Theorems

Lemmas about the functions with exact sums (`X_exact`) and about the parts of the program
that compute no sum come first, then the program with 32-bit sums, then the runs without
overflow, on which the two coincide, then the claims. -/

/-! ### Table access -/

theorem getD_set (d : List Int) (i j : Nat) (x : Int) :
    (d.set i x).getD j 0 = if j = i ∧ i < d.length then x else d.getD j 0 := by
  induction d generalizing i j with
  | nil => simp
  | cons a d ih =>
    cases i with
    | zero =>
      cases j with
      | zero => simp
      | succ j => simp
    | succ i =>
      cases j with
      | zero => simp
      | succ j => simpa [List.getD_eq_getElem?_getD] using ih i j

theorem getD_set_self (d : List Int) (i : Nat) (x : Int) (h : i < d.length) :
    (d.set i x).getD i 0 = x := by
  rw [getD_set]; simp [h]

theorem getD_set_ne (d : List Int) (i j : Nat) (x : Int) (h : j ≠ i) :
    (d.set i x).getD j 0 = d.getD j 0 := by
  rw [getD_set]; simp [h]

theorem getD_initDistances (V s a : Nat) (h : a < V) :
    (initDistances V s).getD a 0 = startValue s a := by
  unfold initDistances startValue sentinel
  rw [getD_set]
  by_cases hs : a = s
  · subst hs; simp [h]
  · simp [hs, List.getD_eq_getElem?_getD, List.getElem?_replicate, h]

theorem getD_initPath (V a : Nat) (h : a < V) : (initPath V).getD a 0 = -1 := by
  unfold initPath
  simp [List.getD_eq_getElem?_getD, List.getElem?_replicate, h]

/-! ### Walks -/

theorem weight_nil : weight [] = 0 := rfl

theorem weight_cons (e : Nat × Nat × Int) (p : List (Nat × Nat × Int)) :
    weight (e :: p) = e.2.2 + weight p := by
  simp [weight]

theorem weight_append (p q : List (Nat × Nat × Int)) :
    weight (p ++ q) = weight p + weight q := by
  simp [weight]

theorem IsWalk.append {E : Nat → Nat → Int → Prop} {a b c : Nat}
    {p q : List (Nat × Nat × Int)} (hp : IsWalk E a p b) (hq : IsWalk E b q c) :
    IsWalk E a (p ++ q) c := by
  induction p generalizing a with
  | nil => simp only [IsWalk] at hp; subst hp; simpa using hq
  | cons e p ih =>
    obtain ⟨h1, h2, h3⟩ := hp
    exact ⟨h1, h2, ih h3⟩

theorem IsWalk.snoc {E : Nat → Nat → Int → Prop} {a u v : Nat} {w : Int}
    {p : List (Nat × Nat × Int)} (hp : IsWalk E a p u) (he : E u v w) :
    IsWalk E a (p ++ [(u, v, w)]) v :=
  hp.append ⟨rfl, he, rfl⟩

theorem IsWalk.of_snoc {E : Nat → Nat → Int → Prop} {a b : Nat} {e : Nat × Nat × Int}
    {p : List (Nat × Nat × Int)} (h : IsWalk E a (p ++ [e]) b) :
    IsWalk E a p e.1 ∧ E e.1 e.2.1 e.2.2 ∧ e.2.1 = b := by
  induction p generalizing a with
  | nil =>
    obtain ⟨h1, h2, h3⟩ := h
    exact ⟨h1.symm, h2, h3⟩
  | cons x p ih =>
    obtain ⟨h1, h2, h3⟩ := h
    obtain ⟨i1, i2, i3⟩ := ih h3
    exact ⟨⟨h1, h2, i1⟩, i2, i3⟩

theorem IsWalk.below {E : Nat → Nat → Int → Prop} {V a b : Nat}
    {p : List (Nat × Nat × Int)} (hE : EdgesBelow E V) (ha : a < V) (hp : IsWalk E a p b) :
    b < V := by
  induction p generalizing a with
  | nil => simp only [IsWalk] at hp; omega
  | cons e p ih =>
    obtain ⟨_, h2, h3⟩ := hp
    exact ih (hE _ _ _ h2).2 h3

theorem IsWalk.visited_below {E : Nat → Nat → Int → Prop} {V a b : Nat}
    {p : List (Nat × Nat × Int)} (hE : EdgesBelow E V) (ha : a < V) (hp : IsWalk E a p b) :
    ∀ x ∈ visited a p, x < V := by
  induction p generalizing a with
  | nil => intro x hx; simp [visited] at hx; omega
  | cons e p ih =>
    obtain ⟨_, h2, h3⟩ := hp
    intro x hx
    simp only [visited, List.map_cons, List.mem_cons] at hx
    rcases hx with hx | hx
    · omega
    · exact ih (hE _ _ _ h2).2 h3 x (by simpa [visited] using hx)

theorem IsWalk.mono {E F : Nat → Nat → Int → Prop} {a b : Nat}
    {p : List (Nat × Nat × Int)} (hEF : ∀ u v w, E u v w → F u v w) (hp : IsWalk E a p b) :
    IsWalk F a p b := by
  induction p generalizing a with
  | nil => exact hp
  | cons e p ih =>
    obtain ⟨h1, h2, h3⟩ := hp
    exact ⟨h1, hEF _ _ _ h2, ih h3⟩

/-- A walk can be cut at any vertex it visits. -/
theorem IsWalk.split {E : Nat → Nat → Int → Prop} {a b x : Nat}
    {p : List (Nat × Nat × Int)} (hp : IsWalk E a p b) (hx : x ∈ visited a p) :
    ∃ p1 p2, p = p1 ++ p2 ∧ IsWalk E a p1 x ∧ IsWalk E x p2 b := by
  induction p generalizing a with
  | nil =>
    simp [visited] at hx
    subst hx
    exact ⟨[], [], rfl, rfl, hp⟩
  | cons e p ih =>
    simp only [visited, List.map_cons, List.mem_cons] at hx
    rcases hx with hx | hx
    · subst hx
      exact ⟨[], e :: p, rfl, rfl, hp⟩
    · obtain ⟨h1, h2, h3⟩ := hp
      obtain ⟨p1, p2, e1, w1, w2⟩ := ih h3 (by simpa [visited] using hx)
      exact ⟨e :: p1, p2, by simp [e1], ⟨h1, h2, w1⟩, w2⟩

/-- Without negative cycles a walk that repeats a vertex has a strictly shorter
replacement that is not heavier. -/
theorem IsWalk.shorten_step {E : Nat → Nat → Int → Prop} (hneg : ¬ HasNegCycle E)
    {a b : Nat} {p : List (Nat × Nat × Int)} (hp : IsWalk E a p b) :
    (visited a p).Nodup ∨
      ∃ q, IsWalk E a q b ∧ q.length < p.length ∧ weight q ≤ weight p := by
  induction p generalizing a with
  | nil => left; simp [visited]
  | cons e p ih =>
    obtain ⟨h1, h2, h3⟩ := hp
    rcases ih h3 with hnd | ⟨q, hq, hlen, hw⟩
    · by_cases hmem : a ∈ visited e.2.1 p
      · right
        obtain ⟨p1, p2, e1, w1, w2⟩ := h3.split hmem
        have hcyc : IsWalk E a (e :: p1) a := ⟨h1, h2, w1⟩
        have hge : 0 ≤ weight (e :: p1) := by
          by_contra hlt
          exact hneg ⟨a, e :: p1, hcyc, by omega⟩
        refine ⟨p2, w2, ?_, ?_⟩
        · subst e1; simp; omega
        · subst e1
          rw [weight_cons, weight_append]
          rw [weight_cons] at hge
          omega
      · left
        have : visited a (e :: p) = a :: visited e.2.1 p := by simp [visited]
        rw [this]
        exact List.nodup_cons.mpr ⟨hmem, hnd⟩
    · right
      refine ⟨e :: q, ⟨h1, h2, hq⟩, by simp; omega, ?_⟩
      rw [weight_cons, weight_cons]; omega

/-- Without negative cycles every walk has a replacement that visits no vertex twice and
is not heavier. -/
theorem IsWalk.shorten {E : Nat → Nat → Int → Prop} (hneg : ¬ HasNegCycle E)
    {a b : Nat} (n : Nat) : ∀ p : List (Nat × Nat × Int), p.length ≤ n → IsWalk E a p b →
    ∃ q, IsWalk E a q b ∧ (visited a q).Nodup ∧ weight q ≤ weight p := by
  induction n with
  | zero =>
    intro p hlen hp
    rcases hp.shorten_step hneg with hnd | ⟨q, _, hl, _⟩
    · exact ⟨p, hp, hnd, le_refl _⟩
    · omega
  | succ n ih =>
    intro p hlen hp
    rcases hp.shorten_step hneg with hnd | ⟨q, hq, hl, hw⟩
    · exact ⟨p, hp, hnd, le_refl _⟩
    · obtain ⟨r, hr, hnd, hw2⟩ := ih q (by omega) hq
      exact ⟨r, hr, hnd, by omega⟩

theorem nodup_length_le (l : List Nat) (V : Nat) (hnd : l.Nodup) (hlt : ∀ x ∈ l, x < V) :
    l.length ≤ V := by
  have h1 : l.toFinset ⊆ Finset.range V := by
    intro x hx
    simp only [List.mem_toFinset] at hx
    simpa using hlt x hx
  have h2 := Finset.card_le_card h1
  rw [List.toFinset_card_of_nodup hnd] at h2
  simpa using h2

/-- Without negative cycles every walk between vertices below `V` has a replacement with
fewer than `V` edges that is not heavier. -/
theorem IsWalk.short {E : Nat → Nat → Int → Prop} {V a b : Nat} (hE : EdgesBelow E V)
    (hneg : ¬ HasNegCycle E) (ha : a < V) {p : List (Nat × Nat × Int)}
    (hp : IsWalk E a p b) :
    ∃ q, IsWalk E a q b ∧ q.length + 1 ≤ V ∧ weight q ≤ weight p := by
  obtain ⟨q, hq, hnd, hw⟩ := IsWalk.shorten hneg p.length p (le_refl _) hp
  refine ⟨q, hq, ?_, hw⟩
  have := nodup_length_le (visited a q) V hnd (hq.visited_below hE ha)
  simpa [visited] using this

/-- With non-negative weights no walk has negative weight. -/
theorem weight_nonneg_of_walk {E : Nat → Nat → Int → Prop}
    (hw : ∀ u v w, E u v w → 0 ≤ w) {a b : Nat} {p : List (Nat × Nat × Int)}
    (hp : IsWalk E a p b) : 0 ≤ weight p := by
  induction p generalizing a with
  | nil => simp [weight]
  | cons e p ih =>
    obtain ⟨_, h2, h3⟩ := hp
    rw [weight_cons]
    have := hw _ _ _ h2
    have := ih h3
    omega

theorem not_hasNegCycle_of_nonneg {E : Nat → Nat → Int → Prop}
    (hw : ∀ u v w, E u v w → 0 ≤ w) : ¬ HasNegCycle E := by
  rintro ⟨a, p, hp, hlt⟩
  have := weight_nonneg_of_walk hw hp
  omega

/-! ### Relaxation invariants -/

theorem RInv.at_start (E : Nat → Nat → Int → Prop) (V s : Nat) :
    RInv E V s { distances := initDistances V s, path := initPath V } where
  len_d := by simp [initDistances]
  len_p := by simp [initPath]
  real := fun v hv => ⟨v, [], hv, rfl, by
    show (initDistances V s).getD v 0 = _
    rw [getD_initDistances V s v hv, weight_nil, add_zero]⟩
  le_start := fun v hv => by
    show (initDistances V s).getD v 0 ≤ _
    rw [getD_initDistances V s v hv]
  pred := fun v hv => Or.inl ⟨getD_initPath V v hv, getD_initDistances V s v hv⟩

/-- One improving write `distances[v] = distances[u] + w; path[v] = u` along an edge. -/
theorem RInv.relax {E : Nat → Nat → Int → Prop} {V s : Nat} {t : Tables}
    (hE : EdgesBelow E V) (h : RInv E V s t) {u v : Nat} {w : Int} (he : E u v w)
    (himp : t.distances.getD v 0 > t.distances.getD u 0 + w) :
    RInv E V s { distances := t.distances.set v (t.distances.getD u 0 + w),
                 path := t.path.set v (u : Int) } := by
  obtain ⟨hu, hv⟩ := hE u v w he
  have hvd : v < t.distances.length := by rw [h.len_d]; exact hv
  have hvp : v < t.path.length := by rw [h.len_p]; exact hv
  refine ⟨by simp [h.len_d], by simp [h.len_p], ?_, ?_, ?_⟩
  · intro x hx
    by_cases hxv : x = v
    · subst hxv
      obtain ⟨a, p, ha, hp, hd⟩ := h.real u hu
      refine ⟨a, p ++ [(u, x, w)], ha, hp.snoc he, ?_⟩
      simp only [getD_set_self _ _ _ hvd, weight_append, weight_cons, weight_nil]
      omega
    · obtain ⟨a, p, ha, hp, hd⟩ := h.real x hx
      refine ⟨a, p, ha, hp, ?_⟩
      simp only [getD_set_ne _ _ _ _ hxv]
      exact hd
  · intro x hx
    have := h.le_start x hx
    by_cases hxv : x = v
    · subst hxv
      simp only [getD_set_self _ _ _ hvd]
      omega
    · simp only [getD_set_ne _ _ _ _ hxv]
      exact this
  · intro x hx
    by_cases hxv : x = v
    · subst hxv
      right
      refine ⟨u, w, hu, by simp only [getD_set_self _ _ _ hvp], he, ?_⟩
      simp only [getD_set_self _ _ _ hvd]
      by_cases hux : u = x
      · subst hux
        simp only [getD_set_self _ _ _ hvd]
        omega
      · simp only [getD_set_ne _ _ _ _ hux]
        omega
    · rcases h.pred x hx with ⟨h1, h2⟩ | ⟨u1, w1, hu1, h1, h2, h3⟩
      · left
        simp only [getD_set_ne _ _ _ _ hxv]
        exact ⟨h1, h2⟩
      · right
        refine ⟨u1, w1, hu1, by simp only [getD_set_ne _ _ _ _ hxv]; exact h1, h2, ?_⟩
        simp only [getD_set_ne _ _ _ _ hxv]
        by_cases hu1v : u1 = v
        · subst hu1v
          simp only [getD_set_self _ _ _ hvd]
          omega
        · simp only [getD_set_ne _ _ _ _ hu1v]
          exact h3

theorem RInv.relaxRow_exact {E : Nat → Nat → Int → Prop} {V s : Nat} {t : Tables}
    (hE : EdgesBelow E V) (h : RInv E V s t) {row : Nat × Nat × Int}
    (he : E row.1 row.2.1 row.2.2) : RInv E V s (relaxRow_exact t row) := by
  unfold SdizoGraphs.relaxRow_exact
  split
  · next himp => exact h.relax hE he himp
  · exact h

theorem relaxRow_le (t : Tables) (row : Nat × Nat × Int) (x : Nat) :
    (relaxRow_exact t row).distances.getD x 0 ≤ t.distances.getD x 0 := by
  unfold relaxRow_exact
  split
  · next himp =>
    simp only [getD_set]
    split
    · next hc => obtain ⟨rfl, _⟩ := hc; omega
    · exact le_refl _
  · exact le_refl _

theorem relaxRow_edge (t : Tables) (row : Nat × Nat × Int)
    (hv : row.2.1 < t.distances.length) :
    (relaxRow_exact t row).distances.getD row.2.1 0 ≤ t.distances.getD row.1 0 + row.2.2 := by
  unfold relaxRow_exact
  split
  · simp only [getD_set_self _ _ _ hv]
    exact le_refl _
  · next himp => omega

theorem relaxRow_length (t : Tables) (row : Nat × Nat × Int) :
    (relaxRow_exact t row).distances.length = t.distances.length := by
  unfold relaxRow_exact
  split <;> simp

theorem passRows_length (rows : List (Nat × Nat × Int)) (t : Tables) :
    (passRows_exact rows t).distances.length = t.distances.length := by
  induction rows generalizing t with
  | nil => rfl
  | cons r rows ih =>
    simp only [passRows_exact, List.foldl_cons] at ih ⊢
    rw [ih, relaxRow_length]

theorem passRows_le (rows : List (Nat × Nat × Int)) (t : Tables) (x : Nat) :
    (passRows_exact rows t).distances.getD x 0 ≤ t.distances.getD x 0 := by
  induction rows generalizing t with
  | nil => exact le_refl _
  | cons r rows ih =>
    simp only [passRows_exact, List.foldl_cons] at ih ⊢
    exact le_trans (ih _) (relaxRow_le t r x)

theorem passRows_edge (rows : List (Nat × Nat × Int)) (t : Tables)
    (hlen : ∀ row ∈ rows, row.2.1 < t.distances.length) :
    ∀ row ∈ rows,
      (passRows_exact rows t).distances.getD row.2.1 0 ≤ t.distances.getD row.1 0 + row.2.2 := by
  induction rows generalizing t with
  | nil => intro row h; simp at h
  | cons r rows ih =>
    intro row hrow
    simp only [passRows_exact, List.foldl_cons] at ih ⊢
    rcases List.mem_cons.mp hrow with h | h
    · subst h
      exact le_trans (passRows_le rows _ _) (relaxRow_edge t row (hlen row hrow))
    · have h1 := ih (SdizoGraphs.relaxRow_exact t r)
        (fun x hx => by rw [relaxRow_length]; exact hlen x (List.mem_cons_of_mem _ hx)) row h
      have h2 := relaxRow_le t r row.1
      omega

theorem RInv.passRows_exact {V s : Nat} {rows sub : List (Nat × Nat × Int)} {t : Tables}
    (hE : EdgesBelow (RowEdge rows) V) (hsub : ∀ r ∈ sub, r ∈ rows)
    (h : RInv (RowEdge rows) V s t) : RInv (RowEdge rows) V s (passRows_exact sub t) := by
  induction sub generalizing t with
  | nil => exact h
  | cons r sub ih =>
    simp only [SdizoGraphs.passRows_exact, List.foldl_cons] at ih ⊢
    exact ih (fun x hx => hsub x (List.mem_cons_of_mem _ hx))
      (h.relaxRow_exact hE (hsub r (List.mem_cons_self _ _)))

theorem iterRows_succ (rows : List (Nat × Nat × Int)) (V s k : Nat) :
    iterRows_exact rows V s (k + 1) = passRows_exact rows (iterRows_exact rows V s k) := by
  simp only [iterRows_exact, Function.iterate_succ_apply']

theorem RInv.iterRows_exact {V s : Nat} {rows : List (Nat × Nat × Int)}
    (hE : EdgesBelow (RowEdge rows) V) (k : Nat) :
    RInv (RowEdge rows) V s (iterRows_exact rows V s k) := by
  induction k with
  | zero => exact RInv.at_start _ V s
  | succ k ih =>
    rw [iterRows_succ]
    exact ih.passRows_exact hE (fun _ h => h)

/-- After `k` passes every distance is at most the value of every walk with at most `k`
edges that ends in the vertex. -/
theorem iterRows_walk_bound {V s : Nat} {rows : List (Nat × Nat × Int)}
    (hE : EdgesBelow (RowEdge rows) V) (k : Nat) :
    ∀ a p v, a < V → IsWalk (RowEdge rows) a p v → p.length ≤ k →
      (iterRows_exact rows V s k).distances.getD v 0 ≤ startValue s a + weight p := by
  induction k with
  | zero =>
    intro a p v ha hp hlen
    have hnil : p = [] := List.length_eq_zero.mp (by omega)
    subst hnil
    simp only [IsWalk] at hp
    subst hp
    have := (RInv.iterRows_exact (s := s) hE 0).le_start a ha
    simpa [weight] using this
  | succ k ih =>
    intro a p v ha hp hlen
    rcases List.eq_nil_or_concat p with hnil | ⟨p1, e, hpe⟩
    · subst hnil
      simp only [IsWalk] at hp
      subst hp
      have := (RInv.iterRows_exact (s := s) hE (k + 1)).le_start a ha
      simpa [weight] using this
    · subst hpe
      rw [List.concat_eq_append] at hp hlen ⊢
      obtain ⟨h1, h2, h3⟩ := hp.of_snoc
      subst h3
      have hb := ih a p1 e.1 ha h1 (by simp at hlen; omega)
      rw [iterRows_succ]
      have hlenD := (RInv.iterRows_exact (s := s) hE k).len_d
      have he := passRows_edge rows (iterRows_exact rows V s k)
        (fun row hrow => by rw [hlenD]; exact (hE row.1 row.2.1 row.2.2 hrow).2) e h2
      rw [weight_append, weight_cons, weight_nil]
      omega

/-- Along a walk a table without improving edges grows by at most the weight. -/
theorem walk_le_of_fixpoint {E : Nat → Nat → Int → Prop} {d : List Int}
    (hfix : ∀ u v w, E u v w → d.getD v 0 ≤ d.getD u 0 + w) {a b : Nat}
    {p : List (Nat × Nat × Int)} (hp : IsWalk E a p b) :
    d.getD b 0 ≤ d.getD a 0 + weight p := by
  induction p generalizing a with
  | nil => simp only [IsWalk] at hp; subst hp; simp [weight]
  | cons e p ih =>
    obtain ⟨h1, h2, h3⟩ := hp
    subst h1
    have := ih h3
    have := hfix _ _ _ h2
    rw [weight_cons]
    omega

theorem RInv.isMinTable {E : Nat → Nat → Int → Prop} {V s : Nat} {t : Tables}
    (h : RInv E V s t)
    (hfix : ∀ u v w, E u v w → t.distances.getD v 0 ≤ t.distances.getD u 0 + w) :
    IsMinTable E V s t.distances := by
  refine ⟨h.len_d, fun v hv => ⟨h.real v hv, fun a p ha hp => ?_⟩⟩
  have := walk_le_of_fixpoint hfix hp
  have := h.le_start a ha
  omega

theorem IsMinTable.unique {E : Nat → Nat → Int → Prop} {V s : Nat} {d1 d2 : List Int}
    (h1 : IsMinTable E V s d1) (h2 : IsMinTable E V s d2) : d1 = d2 := by
  apply List.ext_getElem (by rw [h1.1, h2.1])
  intro n hn1 hn2
  have hv : n < V := by rw [← h1.1]; exact hn1
  obtain ⟨⟨a1, p1, ha1, hp1, e1⟩, l1⟩ := h1.2 n hv
  obtain ⟨⟨a2, p2, ha2, hp2, e2⟩, l2⟩ := h2.2 n hv
  have := l1 a2 p2 ha2 hp2
  have := l2 a1 p1 ha1 hp1
  have g1 : d1.getD n 0 = d1[n] := by simp [List.getD_eq_getElem?_getD, hn1]
  have g2 : d2.getD n 0 = d2[n] := by simp [List.getD_eq_getElem?_getD, hn2]
  omega

/-- Without negative cycles the tables after `V - 1` passes admit no improvement. -/
theorem iterRows_fixpoint {V s : Nat} {rows : List (Nat × Nat × Int)}
    (hE : EdgesBelow (RowEdge rows) V) (hneg : ¬ HasNegCycle (RowEdge rows)) :
    ∀ u v w, RowEdge rows u v w →
      (iterRows_exact rows V s (V - 1)).distances.getD v 0 ≤
        (iterRows_exact rows V s (V - 1)).distances.getD u 0 + w := by
  intro u v w he
  obtain ⟨hu, hv⟩ := hE u v w he
  obtain ⟨a, p, ha, hp, hd⟩ := (RInv.iterRows_exact (s := s) hE (V - 1)).real u hu
  obtain ⟨q, hq, hlen, hw⟩ := (hp.snoc he).short hE hneg ha
  have := iterRows_walk_bound (s := s) hE (V - 1) a q v ha hq (by omega)
  have hw2 : weight q ≤ weight p + w := by
    rw [weight_append, weight_cons, weight_nil] at hw
    simpa using hw
  omega

/-! ### Bellman-Ford over a list of rows -/

theorem passAL_eq_exact (G : AdjacencyList) : passAL_exact G = passRows_exact (rowsAL G) := by
  funext t
  simp only [passAL_exact, passRows_exact, rowsAL, List.foldl_map]

theorem passIM_eq_exact (G : IncidenceMatrix) : passIM_exact G = passRows_exact (rowsIM G) := by
  funext t
  simp only [passIM_exact, passRows_exact, rowsIM, List.foldl_map]
  rfl

theorem any_map_fun {α β : Type} (f : α → β) (g : β → Bool) (l : List α) :
    (l.map f).any g = l.any (fun x => g (f x)) := by
  induction l with
  | nil => rfl
  | cons x l ih => simp only [List.map_cons, List.any_cons, ih]

theorem checkAL_eq_exact (G : AdjacencyList) (t : Tables) : checkAL_exact G t = checkRows_exact (rowsAL G) t := by
  unfold checkAL_exact checkRows_exact rowsAL
  rw [any_map_fun]

theorem checkIM_eq_exact (G : IncidenceMatrix) (t : Tables) : checkIM_exact G t = checkRows_exact (rowsIM G) t := by
  unfold checkIM_exact checkRows_exact rowsIM
  rw [any_map_fun]

theorem bellman_ford_AL_tables_eq_exact (G : AdjacencyList) (s : Nat) :
    bellman_ford_AL_tables_exact G s = bfRows_exact (rowsAL G) G.getVerticesNum s := by
  simp only [bellman_ford_AL_tables_exact, bfRows_exact, passAL_eq_exact, checkAL_eq_exact, iterRows_exact]

theorem bellman_ford_IM_tables_eq_exact (G : IncidenceMatrix) (s : Nat) :
    bellman_ford_IM_tables_exact G s = bfRows_exact (rowsIM G) G.getVerticesNum s := by
  simp only [bellman_ford_IM_tables_exact, bfRows_exact, passIM_eq_exact, checkIM_eq_exact, iterRows_exact]

theorem checkRows_false_iff (rows : List (Nat × Nat × Int)) (t : Tables) :
    checkRows_exact rows t = false ↔
      ∀ u v w, RowEdge rows u v w → t.distances.getD v 0 ≤ t.distances.getD u 0 + w := by
  unfold checkRows_exact RowEdge
  rw [List.any_eq_false]
  constructor
  · intro h u v w hm
    have := h (u, v, w) hm
    simp only [decide_eq_true_eq] at this
    omega
  · intro h row hm
    have := h row.1 row.2.1 row.2.2 hm
    simp only [decide_eq_true_eq]
    omega

/-- A reported negative cycle is a negative cycle of the graph. -/
theorem bfRows_negativeCycle_sound {rows : List (Nat × Nat × Int)} {V s : Nat}
    (hE : EdgesBelow (RowEdge rows) V) (h : bfRows_exact rows V s = BFResult.negativeCycle) :
    HasNegCycle (RowEdge rows) := by
  by_contra hneg
  have hfix := (checkRows_false_iff rows _).mpr (iterRows_fixpoint (s := s) hE hneg)
  unfold bfRows_exact at h
  rw [hfix] at h
  simp at h

/-- A negative cycle anywhere in the graph is reported. -/
theorem bfRows_negativeCycle_complete {rows : List (Nat × Nat × Int)} {V s : Nat}
    (h : HasNegCycle (RowEdge rows)) : bfRows_exact rows V s = BFResult.negativeCycle := by
  obtain ⟨a, p, hp, hlt⟩ := h
  unfold bfRows_exact
  cases hc : checkRows_exact rows (iterRows_exact rows V s (V - 1)) with
  | true => rfl
  | false =>
    have := walk_le_of_fixpoint ((checkRows_false_iff rows _).mp hc) hp
    omega

/-- Without negative cycles the run finishes with tables that satisfy the relaxation
invariants and admit no improvement. -/
theorem bfRows_finished {rows : List (Nat × Nat × Int)} {V s : Nat}
    (hE : EdgesBelow (RowEdge rows) V) (hneg : ¬ HasNegCycle (RowEdge rows)) :
    ∃ t, bfRows_exact rows V s = BFResult.finished t ∧ RInv (RowEdge rows) V s t ∧
      ∀ u v w, RowEdge rows u v w → t.distances.getD v 0 ≤ t.distances.getD u 0 + w := by
  have hfix := iterRows_fixpoint (s := s) hE hneg
  refine ⟨iterRows_exact rows V s (V - 1), ?_, RInv.iterRows_exact hE _, hfix⟩
  unfold bfRows_exact
  rw [(checkRows_false_iff rows _).mpr hfix]
  simp

/-- Whenever the run finishes, the tables satisfy the invariants and admit no improvement. -/
theorem bfRows_finished_inv {rows : List (Nat × Nat × Int)} {V s : Nat} {t : Tables}
    (hE : EdgesBelow (RowEdge rows) V) (h : bfRows_exact rows V s = BFResult.finished t) :
    RInv (RowEdge rows) V s t ∧
      ∀ u v w, RowEdge rows u v w → t.distances.getD v 0 ≤ t.distances.getD u 0 + w := by
  unfold bfRows_exact at h
  cases hc : checkRows_exact rows (iterRows_exact rows V s (V - 1)) with
  | true => rw [hc] at h; simp at h
  | false =>
    rw [hc] at h
    simp only [Bool.false_eq_true, if_false, BFResult.finished.injEq] at h
    subst h
    exact ⟨RInv.iterRows_exact hE _, (checkRows_false_iff rows _).mp hc⟩

theorem edgesBelow_rows_iff (rows : List (Nat × Nat × Int)) (V : Nat) :
    EdgesBelow (RowEdge rows) V ↔ ∀ r ∈ rows, r.1 < V ∧ r.2.1 < V := by
  constructor
  · intro h r hr
    exact h r.1 r.2.1 r.2.2 hr
  · intro h u v w hr
    exact h (u, v, w) hr

theorem nonneg_rows_iff (rows : List (Nat × Nat × Int)) :
    (∀ u v w, RowEdge rows u v w → 0 ≤ w) ↔ ∀ r ∈ rows, 0 ≤ r.2.2 := by
  constructor
  · intro h r hr
    exact h r.1 r.2.1 r.2.2 hr
  · intro h u v w hr
    exact h (u, v, w) hr

/-- From a vertex without outgoing edges only the empty walk starts. -/
theorem IsWalk.of_sink {E : Nat → Nat → Int → Prop} {a b : Nat}
    {p : List (Nat × Nat × Int)} (hs : ∀ v w, ¬ E a v w) (hp : IsWalk E a p b) :
    p = [] ∧ b = a := by
  cases p with
  | nil => exact ⟨rfl, hp.symm⟩
  | cons e p =>
    obtain ⟨h1, h2, _⟩ := hp
    subst h1
    exact absurd h2 (hs _ _)

theorem not_reachableNegCycle_of_sink {E : Nat → Nat → Int → Prop} {s : Nat}
    (hs : ∀ v w, ¬ E s v w) : ¬ HasReachableNegCycle E s := by
  rintro ⟨a, p, q, hq, hp, hlt⟩
  obtain ⟨_, rfl⟩ := hq.of_sink hs
  obtain ⟨rfl, _⟩ := hp.of_sink hs
  simp [weight] at hlt

theorem rowEdge_sink {rows : List (Nat × Nat × Int)} {s : Nat}
    (h : s ∉ rows.map (fun r => r.1)) : ∀ v w, ¬ RowEdge rows s v w := by
  intro v w hr
  exact h (List.mem_map.mpr ⟨(s, v, w), hr, rfl⟩)

theorem hasNegCycle_of_reachable {E : Nat → Nat → Int → Prop} {s : Nat}
    (h : HasReachableNegCycle E s) : HasNegCycle E := by
  obtain ⟨a, p, _, _, hp, hlt⟩ := h
  exact ⟨a, p, hp, hlt⟩

theorem bellman_ford_AL_of_negativeCycle_exact {G : AdjacencyList} {source : Nat}
    (h : bellman_ford_AL_tables_exact G source = BFResult.negativeCycle) (destination fuel : Nat) :
    bellman_ford_AL_exact G source destination fuel = some [OutLine.negativeCycle] := by
  unfold bellman_ford_AL_exact
  rw [h]

theorem bellman_ford_IM_of_negativeCycle_exact {G : IncidenceMatrix} {source : Nat}
    (h : bellman_ford_IM_tables_exact G source = BFResult.negativeCycle) (destination fuel : Nat) :
    bellman_ford_IM_exact G source destination fuel = some [OutLine.negativeCycle] := by
  unfold bellman_ford_IM_exact
  rw [h]

/-! ### The queue array -/

theorem find_some {Q : List Vertex} {v i : Nat} (h : find Q v = some i) :
    ∃ e, Q[i]? = some e ∧ e.number = v := by
  induction Q generalizing i with
  | nil => simp [find] at h
  | cons x xs ih =>
    unfold find at h
    split at h
    · next hx =>
      have : i = 0 := by simpa using h.symm
      subst this
      exact ⟨x, by simp, hx⟩
    · next hx =>
      cases hf : find xs v with
      | none => rw [hf] at h; simp at h
      | some j =>
        rw [hf] at h
        have : i = j + 1 := by simpa using h.symm
        subst this
        obtain ⟨e, h1, h2⟩ := ih hf
        exact ⟨e, by simpa using h1, h2⟩

theorem find_of_mem {Q : List Vertex} {v : Nat} (h : v ∈ Q.map Vertex.number) :
    ∃ i, find Q v = some i := by
  induction Q with
  | nil => simp at h
  | cons x xs ih =>
    unfold find
    by_cases hx : x.number = v
    · exact ⟨0, by simp [hx]⟩
    · have : v ∈ xs.map Vertex.number := by
        simp only [List.map_cons, List.mem_cons] at h
        rcases h with h | h
        · exact absurd h.symm hx
        · exact h
      obtain ⟨j, hj⟩ := ih this
      exact ⟨j + 1, by simp [hx, hj]⟩

theorem find_none_of_not_mem {Q : List Vertex} {v : Nat} (h : v ∉ Q.map Vertex.number) :
    find Q v = none := by
  cases hf : find Q v with
  | none => rfl
  | some i =>
    obtain ⟨e, h1, h2⟩ := find_some hf
    exact absurd (List.mem_map.mpr ⟨e, List.getElem?_mem h1, h2⟩) h

theorem numbers_set {Q : List Vertex} {i : Nat} {e : Vertex} (k : Int)
    (h : Q[i]? = some e) :
    (Q.set i ⟨e.number, k⟩).map Vertex.number = Q.map Vertex.number := by
  induction Q generalizing i with
  | nil => simp
  | cons x xs ih =>
    cases i with
    | zero =>
      have : x = e := by simpa using h
      subst this
      simp
    | succ i =>
      have h1 : xs[i]? = some e := by simpa using h
      simp [ih h1]

theorem mem_set_cases {Q : List Vertex} {i : Nat} {e x : Vertex} {k : Int}
    (hnd : (Q.map Vertex.number).Nodup) (h : Q[i]? = some e)
    (hm : x ∈ Q.set i ⟨e.number, k⟩) :
    x = ⟨e.number, k⟩ ∨ (x ∈ Q ∧ x.number ≠ e.number) := by
  induction Q generalizing i with
  | nil => simp at h
  | cons y ys ih =>
    simp only [List.map_cons, List.nodup_cons] at hnd
    cases i with
    | zero =>
      have hy : y = e := by simpa using h
      subst hy
      simp only [List.set_cons_zero, List.mem_cons] at hm
      rcases hm with hm | hm
      · exact Or.inl hm
      · right
        refine ⟨List.mem_cons_of_mem _ hm, fun heq => hnd.1 ?_⟩
        exact List.mem_map.mpr ⟨x, hm, heq⟩
    | succ i =>
      have h1 : ys[i]? = some e := by simpa using h
      simp only [List.set_cons_succ, List.mem_cons] at hm
      rcases hm with hm | hm
      · right
        subst hm
        refine ⟨List.mem_cons_self _ _, fun heq => hnd.1 ?_⟩
        exact List.mem_map.mpr ⟨e, List.getElem?_mem h1, heq.symm⟩
      · rcases ih hnd.2 h1 hm with h2 | ⟨h2, h3⟩
        · exact Or.inl h2
        · exact Or.inr ⟨List.mem_cons_of_mem _ h2, h3⟩

theorem mem_set_self {Q : List Vertex} {i : Nat} {e a : Vertex} (h : Q[i]? = some e) :
    a ∈ Q.set i a := by
  have hi : i < Q.length := by
    by_contra hc
    rw [List.getElem?_eq_none (by omega)] at h
    simp at h
  exact List.mem_iff_getElem.mpr ⟨i, by simpa using hi, by simp⟩

/-! ### Dijkstra: one relaxation -/

/-- What one successful pass through lines 76-81 does to the state. -/
theorem relaxChainNode_spec {pq : PriorityQueue} {G : AdjacencyList} {s u : Nat} {min : Int}
    {st st1 : DState} {temp : Edge} (hl : pq.Lawful)
    (hE : EdgesBelow (ChainEdge G) G.getVerticesNum) (hc : CInv pq G s u min st)
    (he : ChainEdge G u temp.destination temp.weight)
    (hr : relaxChainNode_exact pq u min temp st = some st1) :
    CInv pq G s u min st1 ∧
    (∀ x, st1.distances.getD x 0 ≤ st.distances.getD x 0) ∧
    st1.distances.getD temp.destination 0 ≤ min + temp.weight ∧
    st1.Q.length = st.Q.length ∧
    (∀ x, x ∉ st.Q.map Vertex.number → st1.distances.getD x 0 = st.distances.getD x 0) ∧
    (st1.Q.map Vertex.number).Perm (st.Q.map Vertex.number) ∧
    (∀ e ∈ st1.Q, e ∈ st.Q ∨ e.distance = min + temp.weight) := by
  have hv : temp.destination < G.getVerticesNum := (hE _ _ _ he).2
  have hvd : temp.destination < st.distances.length := by rw [hc.rinv.len_d]; exact hv
  unfold relaxChainNode_exact at hr
  split at hr
  · next himp =>
    cases hf : find st.Q temp.destination with
    | none => rw [hf] at hr; simp at hr
    | some i =>
      rw [hf] at hr
      simp only [Option.some.injEq] at hr
      obtain ⟨e, hei, hen⟩ := find_some hf
      have hemem : e ∈ st.Q := List.getElem?_mem hei
      have hek := (hc.keys e hemem).2
      rw [hen] at hek
      have hnew : (st.distances.set temp.destination (min + temp.weight)).getD
          temp.destination 0 = min + temp.weight := getD_set_self _ _ _ hvd
      rw [hnew] at hr
      have hlt : min + temp.weight < e.distance := by omega
      have hperm := hl.decrease_perm st.Q i (min + temp.weight) e hc.heap hei hlt
      have hheap := hl.decrease_heap st.Q i (min + temp.weight) e hc.heap hei hlt
      rw [hen] at hperm
      have hnum : (pq.decreaseKey st.Q i (min + temp.weight)).map Vertex.number
          |>.Perm (st.Q.map Vertex.number) := by
        have := hperm.map Vertex.number
        rw [← hen, numbers_set _ hei] at this
        exact this
      have hvq : temp.destination ∈ st.Q.map Vertex.number :=
        List.mem_map.mpr ⟨e, hemem, hen⟩
      have huv : u ≠ temp.destination := fun h => hc.u_out (h ▸ hvq)
      have hmem : ∀ x ∈ pq.decreaseKey st.Q i (min + temp.weight),
          x = ⟨temp.destination, min + temp.weight⟩ ∨
            (x ∈ st.Q ∧ x.number ≠ temp.destination) := by
        intro x hx
        have hx1 := hperm.mem_iff.mp hx
        rw [← hen] at hx1 ⊢
        exact mem_set_cases hc.nodup hei hx1
      subst hr
      refine ⟨⟨?_, hheap, hnum.nodup_iff.mpr hc.nodup, ?_, hc.u_lt, ?_, ?_⟩,
        ?_, ?_, ?_, ?_, hnum, ?_⟩
      · have h1 : st.distances.getD temp.destination 0 >
            st.distances.getD u 0 + temp.weight := by rw [hc.du]; exact himp
        have := hc.rinv.relax hE he h1
        rw [hc.du] at this
        exact this
      · intro x hx
        rcases hmem x hx with h1 | ⟨h1, h2⟩
        · subst h1
          exact ⟨hv, (getD_set_self _ _ _ hvd).symm⟩
        · refine ⟨(hc.keys x h1).1, ?_⟩
          show x.distance = (st.distances.set _ _).getD x.number 0
          rw [getD_set_ne _ _ _ _ h2]
          exact (hc.keys x h1).2
      · exact fun h => hc.u_out (hnum.mem_iff.mp h)
      · show (st.distances.set _ _).getD u 0 = min
        rw [getD_set_ne _ _ _ _ huv]
        exact hc.du
      · intro x
        show (st.distances.set _ _).getD x 0 ≤ _
        rw [getD_set]
        split
        · next hx => obtain ⟨rfl, _⟩ := hx; omega
        · exact le_refl _
      · show (st.distances.set _ _).getD temp.destination 0 ≤ _
        rw [getD_set_self _ _ _ hvd]
      · show (pq.decreaseKey st.Q i (min + temp.weight)).length = st.Q.length
        rw [hperm.length_eq, List.length_set]
      · intro x hx
        show (st.distances.set _ _).getD x 0 = _
        have : x ≠ temp.destination := fun h => hx (h ▸ hvq)
        rw [getD_set_ne _ _ _ _ this]
      · intro x hx
        rcases hmem x hx with h1 | ⟨h1, _⟩
        · right; rw [h1]
        · left; exact h1
  · next himp =>
    simp only [Option.some.injEq] at hr
    subst hr
    exact ⟨hc, fun _ => le_refl _, by omega, rfl, fun _ _ => rfl, List.Perm.refl _,
      fun e h => Or.inl h⟩

/-- With non-negative weights the write of lines 78-80 only hits queued vertices, so
`Q->find` succeeds. -/
theorem relaxChainNode_some (pq : PriorityQueue) {G : AdjacencyList} {u : Nat} {min : Int}
    {st : DState} {temp : Edge} (hE : EdgesBelow (ChainEdge G) G.getVerticesNum)
    (hx : CExt G u min st)
    (he : ChainEdge G u temp.destination temp.weight) (hw : 0 ≤ temp.weight) :
    ∃ st1, relaxChainNode_exact pq u min temp st = some st1 := by
  have hv : temp.destination < G.getVerticesNum := (hE _ _ _ he).2
  unfold relaxChainNode_exact
  split
  · next himp =>
    have hvq : temp.destination ∈ st.Q.map Vertex.number := by
      by_contra hno
      have := hx.settled_min _ hv hno
      omega
    obtain ⟨i, hi⟩ := find_of_mem hvq
    rw [hi]
    exact ⟨_, rfl⟩
  · exact ⟨_, rfl⟩

theorem CExt.step {G : AdjacencyList} {u : Nat} {min w : Int} {st st1 : DState}
    (hx : CExt G u min st) (hw : 0 ≤ w)
    (hmono : ∀ x, st1.distances.getD x 0 ≤ st.distances.getD x 0)
    (hframe : ∀ x, x ∉ st.Q.map Vertex.number →
      st1.distances.getD x 0 = st.distances.getD x 0)
    (hnum : (st1.Q.map Vertex.number).Perm (st.Q.map Vertex.number))
    (hq : ∀ e ∈ st1.Q, e ∈ st.Q ∨ e.distance = min + w) : CExt G u min st1 := by
  refine ⟨?_, ?_, ?_⟩
  · intro x hxV hxq hxu v w1 he
    have hxq1 : x ∉ st.Q.map Vertex.number := fun h => hxq (hnum.mem_iff.mpr h)
    have := hx.settled_edge x hxV hxq1 hxu v w1 he
    have := hmono v
    have := hframe x hxq1
    omega
  · intro x hxV hxq
    have hxq1 : x ∉ st.Q.map Vertex.number := fun h => hxq (hnum.mem_iff.mpr h)
    have := hx.settled_min x hxV hxq1
    have := hframe x hxq1
    omega
  · intro e hem
    rcases hq e hem with h | h
    · exact hx.queue_min e h
    · omega

/-! ### Dijkstra: the chain loop -/

theorem chainLoop_spec {pq : PriorityQueue} {G : AdjacencyList} {s u : Nat} {min : Int}
    (hl : pq.Lawful) (hE : EdgesBelow (ChainEdge G) G.getVerticesNum) (l : List Edge) :
    ∀ st st1 : DState, CInv pq G s u min st →
      (∀ e ∈ l, ChainEdge G u e.destination e.weight) →
      chainLoop_exact pq u min l st = some st1 →
      CInv pq G s u min st1 ∧
      (∀ x, st1.distances.getD x 0 ≤ st.distances.getD x 0) ∧
      (∀ e ∈ l, st1.distances.getD e.destination 0 ≤ min + e.weight) ∧
      st1.Q.length = st.Q.length := by
  induction l with
  | nil =>
    intro st st1 hc _ hr
    simp only [chainLoop_exact, Option.some.injEq] at hr
    subst hr
    exact ⟨hc, fun _ => le_refl _, fun e h => by simp at h, rfl⟩
  | cons temp next ih =>
    intro st st1 hc hall hr
    simp only [chainLoop_exact] at hr
    cases h1 : relaxChainNode_exact pq u min temp st with
    | none => rw [h1] at hr; simp at hr
    | some st2 =>
      rw [h1] at hr
      simp only [Option.some_bind] at hr
      obtain ⟨hc2, hmono2, hedge2, hlen2, _, _, _⟩ :=
        relaxChainNode_spec hl hE hc (hall temp (List.mem_cons_self _ _)) h1
      obtain ⟨hc1, hmono1, hedge1, hlen1⟩ :=
        ih st2 st1 hc2 (fun e h => hall e (List.mem_cons_of_mem _ h)) hr
      refine ⟨hc1, fun x => le_trans (hmono1 x) (hmono2 x), ?_, by omega⟩
      intro e hem
      rcases List.mem_cons.mp hem with h | h
      · subst h
        have := hmono1 e.destination
        omega
      · exact hedge1 e h

theorem chainLoop_some {pq : PriorityQueue} {G : AdjacencyList} {s u : Nat} {min : Int}
    (hl : pq.Lawful) (hE : EdgesBelow (ChainEdge G) G.getVerticesNum)
    (hw : ∀ a b w, ChainEdge G a b w → 0 ≤ w) (l : List Edge) :
    ∀ st : DState, CInv pq G s u min st → CExt G u min st →
      (∀ e ∈ l, ChainEdge G u e.destination e.weight) →
      ∃ st1, chainLoop_exact pq u min l st = some st1 ∧ CExt G u min st1 := by
  induction l with
  | nil =>
    intro st _ hx _
    exact ⟨st, rfl, hx⟩
  | cons temp next ih =>
    intro st hc hx hall
    have he := hall temp (List.mem_cons_self _ _)
    have hw0 := hw _ _ _ he
    obtain ⟨st2, h2⟩ := relaxChainNode_some pq hE hx he hw0
    obtain ⟨hc2, hmono2, _, _, hframe2, hnum2, hq2⟩ := relaxChainNode_spec hl hE hc he h2
    have hx2 := hx.step hw0 hmono2 hframe2 hnum2 hq2
    obtain ⟨st1, h1, hx1⟩ := ih st2 hc2 hx2 (fun e h => hall e (List.mem_cons_of_mem _ h))
    refine ⟨st1, ?_, hx1⟩
    simp only [chainLoop_exact, h2, Option.some_bind, h1]

/-! ### Dijkstra: the main loop -/

/-- The state handed to the chain loop after `extractMin`. -/
theorem CInv.after_extract {pq : PriorityQueue} {G : AdjacencyList} {s : Nat} {st : DState}
    {root : Vertex} {rest : List Vertex} (hl : pq.Lawful) (hd : DInv pq G s st)
    (hq : st.Q = root :: rest) :
    CInv pq G s root.number (pq.extractMin (root :: rest)).1
      { st with Q := (pq.extractMin (root :: rest)).2 } := by
  have hheap : pq.HeapOrder (root :: rest) := hq ▸ hd.heap
  have hperm := hl.extract_perm root rest hheap
  have hnd : (root.number :: rest.map Vertex.number).Nodup := by
    have := hd.nodup
    rw [hq] at this
    simpa using this
  have hroot : root ∈ st.Q := by rw [hq]; exact List.mem_cons_self _ _
  refine ⟨hd.rinv, hl.extract_heap root rest hheap, ?_, ?_, (hd.keys root hroot).1, ?_, ?_⟩
  · exact (hperm.map Vertex.number).nodup_iff.mpr (List.nodup_cons.mp hnd).2
  · intro e he
    have : e ∈ st.Q := by rw [hq]; exact List.mem_cons_of_mem _ (hperm.mem_iff.mp he)
    exact hd.keys e this
  · intro h
    exact (List.nodup_cons.mp hnd).1 ((hperm.map Vertex.number).mem_iff.mp h)
  · rw [hl.extract_fst root rest hheap]
    exact ((hd.keys root hroot).2).symm

theorem CExt.ext_after_extract {pq : PriorityQueue} {G : AdjacencyList} {s : Nat} {st : DState}
    {root : Vertex} {rest : List Vertex} (hl : pq.Lawful) (hd : DInv pq G s st)
    (hx : DExt G st) (hq : st.Q = root :: rest) :
    CExt G root.number (pq.extractMin (root :: rest)).1
      { st with Q := (pq.extractMin (root :: rest)).2 } := by
  have hheap : pq.HeapOrder (root :: rest) := hq ▸ hd.heap
  have hperm := hl.extract_perm root rest hheap
  have hroot : root ∈ st.Q := by rw [hq]; exact List.mem_cons_self _ _
  have hout : ∀ x, x ∉ (pq.extractMin (root :: rest)).2.map Vertex.number →
      x ≠ root.number → x ∉ st.Q.map Vertex.number := by
    intro x h1 h2 h3
    rw [hq] at h3
    simp only [List.map_cons, List.mem_cons] at h3
    rcases h3 with h3 | h3
    · exact h2 h3
    · exact h1 ((hperm.map Vertex.number).mem_iff.mpr h3)
  rw [hl.extract_fst root rest hheap]
  refine ⟨?_, ?_, ?_⟩
  · intro x hxV hxq hxu v w he
    exact hx.settled_edge x hxV (hout x hxq hxu) v w he
  · intro x hxV hxq
    by_cases hxu : x = root.number
    · subst hxu
      exact le_of_eq ((hd.keys root hroot).2).symm
    · exact hx.settled_le x hxV (hout x hxq hxu) root hroot
  · intro e he
    exact hl.root_min root rest hheap e (hperm.mem_iff.mp he)

theorem DInv.after_chain {pq : PriorityQueue} {G : AdjacencyList} {s u : Nat} {min : Int}
    {st : DState} (hc : CInv pq G s u min st) : DInv pq G s st :=
  ⟨hc.rinv, hc.heap, hc.nodup, hc.keys⟩

theorem DExt.ext_after_chain {pq : PriorityQueue} {G : AdjacencyList} {s u : Nat} {min : Int}
    {st : DState} (hc : CInv pq G s u min st) (hx : CExt G u min st)
    (hedge : ∀ e ∈ G.getVertices u, st.distances.getD e.destination 0 ≤ min + e.weight) :
    DExt G st := by
  refine ⟨?_, ?_⟩
  · intro x hxV hxq v w he
    by_cases hxu : x = u
    · subst hxu
      have := hedge ⟨v, w⟩ he.2
      rw [hc.du]
      exact this
    · exact hx.settled_edge x hxV hxq hxu v w he
  · intro x hxV hxq e he
    have := hx.settled_min x hxV hxq
    have := hx.queue_min e he
    omega

/-- Whenever the main loop ends, the invariant holds and the queue is empty. -/
theorem dijkstraLoop_AL_spec {pq : PriorityQueue} {G : AdjacencyList} {s : Nat}
    (hl : pq.Lawful) (hE : EdgesBelow (ChainEdge G) G.getVerticesNum) (fuel : Nat) :
    ∀ st st1 : DState, DInv pq G s st → dijkstraLoop_AL_exact pq G fuel st = some st1 →
      DInv pq G s st1 ∧ st1.Q = [] := by
  induction fuel with
  | zero => intro st st1 _ hr; simp [dijkstraLoop_AL_exact] at hr
  | succ fuel ih =>
    intro st st1 hd hr
    unfold dijkstraLoop_AL_exact at hr
    cases hq : st.Q with
    | nil =>
      rw [hq] at hr
      simp only [Option.some.injEq] at hr
      subst hr
      exact ⟨hd, hq⟩
    | cons root rest =>
      rw [hq] at hr
      simp only at hr
      have hc := CInv.after_extract hl hd hq
      cases h2 : chainLoop_exact pq root.number (pq.extractMin (root :: rest)).1
          (G.getVertices root.number) { st with Q := (pq.extractMin (root :: rest)).2 } with
      | none => rw [h2] at hr; simp at hr
      | some st2 =>
        rw [h2] at hr
        simp only [Option.some_bind] at hr
        obtain ⟨hc2, _, _, _⟩ := chainLoop_spec hl hE _ _ _ hc
          (fun e he => ⟨hc.u_lt, he⟩) h2
        exact ih st2 st1 (DInv.after_chain hc2) hr

/-- With non-negative weights and enough fuel the main loop ends. -/
theorem dijkstraLoop_AL_some {pq : PriorityQueue} {G : AdjacencyList} {s : Nat}
    (hl : pq.Lawful) (hE : EdgesBelow (ChainEdge G) G.getVerticesNum)
    (hw : ∀ a b w, ChainEdge G a b w → 0 ≤ w) (fuel : Nat) :
    ∀ st : DState, DInv pq G s st → DExt G st → st.Q.length < fuel →
      ∃ st1, dijkstraLoop_AL_exact pq G fuel st = some st1 ∧ DExt G st1 := by
  induction fuel with
  | zero => intro st _ _ h; omega
  | succ fuel ih =>
    intro st hd hx hlen
    unfold dijkstraLoop_AL_exact
    cases hq : st.Q with
    | nil => exact ⟨st, rfl, hx⟩
    | cons root rest =>
      simp only
      have hc := CInv.after_extract hl hd hq
      have hcx := CExt.ext_after_extract hl hd hx hq
      have hall : ∀ e ∈ G.getVertices root.number,
          ChainEdge G root.number e.destination e.weight := fun e he => ⟨hc.u_lt, he⟩
      obtain ⟨st2, h2, hx2⟩ := chainLoop_some hl hE hw _ _ hc hcx hall
      obtain ⟨hc2, _, hedge2, hlen2⟩ := chainLoop_spec hl hE _ _ _ hc hall h2
      have hheap : pq.HeapOrder (root :: rest) := hq ▸ hd.heap
      have hlen3 : st2.Q.length < fuel := by
        rw [hlen2]
        show (pq.extractMin (root :: rest)).2.length < fuel
        rw [(hl.extract_perm root rest hheap).length_eq]
        rw [hq] at hlen
        simp at hlen
        omega
      obtain ⟨st1, h1, hx1⟩ := ih st2 (DInv.after_chain hc2) (DExt.ext_after_chain hc2 hx2 hedge2) hlen3
      exact ⟨st1, by rw [h2]; simpa using h1, hx1⟩

/-! ### Dijkstra: initial state and whole run -/

theorem initQueue_succ (pq : PriorityQueue) (n : Nat) (d : List Int) :
    initQueue pq (n + 1) d = pq.push (initQueue pq n d) ⟨n, d.getD n 0⟩ := by
  simp only [initQueue, List.range_succ, List.foldl_append, List.foldl_cons, List.foldl_nil]

theorem initQueue_spec {pq : PriorityQueue} (hl : pq.Lawful) (d : List Int) (n : Nat) :
    pq.HeapOrder (initQueue pq n d) ∧
    (initQueue pq n d).Perm ((List.range n).map (fun v => (⟨v, d.getD v 0⟩ : Vertex))) := by
  induction n with
  | zero => exact ⟨hl.heap_nil, by simp [initQueue]⟩
  | succ n ih =>
    obtain ⟨hh, hp⟩ := ih
    have hnot : (⟨n, d.getD n 0⟩ : Vertex).number ∉ (initQueue pq n d).map Vertex.number := by
      intro h
      have h1 := (hp.map Vertex.number).mem_iff.mp h
      simp at h1
    rw [initQueue_succ]
    refine ⟨hl.push_heap _ _ hh hnot, ?_⟩
    refine (hl.push_perm _ _ hh hnot).trans ?_
    rw [List.range_succ, List.map_append, List.map_cons, List.map_nil]
    exact ((List.perm_append_singleton _ _).trans (List.Perm.cons _ hp.symm)).symm

theorem initQueue_numbers {pq : PriorityQueue} (hl : pq.Lawful) (d : List Int) (n : Nat) :
    ((initQueue pq n d).map Vertex.number).Perm (List.range n) := by
  have := ((initQueue_spec hl d n).2).map Vertex.number
  simpa [Function.comp_def] using this

theorem DInv.at_first_state {pq : PriorityQueue} (hl : pq.Lawful) (G : AdjacencyList) (s : Nat) :
    DInv pq G s { distances := initDistances G.getVerticesNum s,
                  path := initPath G.getVerticesNum,
                  Q := initQueue pq G.getVerticesNum (initDistances G.getVerticesNum s) } := by
  refine ⟨RInv.at_start _ _ _, (initQueue_spec hl _ _).1, ?_, ?_⟩
  · exact (initQueue_numbers hl _ _).nodup_iff.mpr (List.nodup_range _)
  · intro e he
    have h1 := ((initQueue_spec hl _ _).2).mem_iff.mp he
    obtain ⟨v, hv, rfl⟩ := List.mem_map.mp h1
    exact ⟨List.mem_range.mp hv, rfl⟩

theorem DExt.ext_at_first_state {pq : PriorityQueue} (hl : pq.Lawful) (G : AdjacencyList) (s : Nat) :
    DExt G { distances := initDistances G.getVerticesNum s,
             path := initPath G.getVerticesNum,
             Q := initQueue pq G.getVerticesNum (initDistances G.getVerticesNum s) } := by
  have hin : ∀ u, u < G.getVerticesNum →
      u ∈ (initQueue pq G.getVerticesNum (initDistances G.getVerticesNum s)).map
        Vertex.number := fun u hu =>
    (initQueue_numbers hl _ _).mem_iff.mpr (List.mem_range.mpr hu)
  exact ⟨fun u hu hq => absurd (hin u hu) hq, fun u hu hq => absurd (hin u hu) hq⟩

/-- Whenever `dijkstra_AL` leaves its main loop, the tables satisfy the relaxation
invariants (any weights). -/
theorem dijkstra_AL_tables_inv {pq : PriorityQueue} {G : AdjacencyList} {s fuel : Nat}
    {t : Tables} (hl : pq.Lawful) (hE : EdgesBelow (ChainEdge G) G.getVerticesNum)
    (h : dijkstra_AL_tables_exact pq G s fuel = some t) :
    RInv (ChainEdge G) G.getVerticesNum s t := by
  unfold dijkstra_AL_tables_exact at h
  simp only [Option.map_eq_some'] at h
  obtain ⟨st, hst, rfl⟩ := h
  exact (dijkstraLoop_AL_spec hl hE fuel _ _ (DInv.at_first_state hl G s) hst).1.rinv

/-- With non-negative weights and more fuel than vertices `dijkstra_AL` leaves its main
loop, and then no edge admits an improvement. -/
theorem dijkstra_AL_tables_some {pq : PriorityQueue} {G : AdjacencyList} (s fuel : Nat)
    (hl : pq.Lawful) (hE : EdgesBelow (ChainEdge G) G.getVerticesNum)
    (hw : ∀ a b w, ChainEdge G a b w → 0 ≤ w) (hfuel : G.getVerticesNum < fuel) :
    ∃ t, dijkstra_AL_tables_exact pq G s fuel = some t ∧
      RInv (ChainEdge G) G.getVerticesNum s t ∧
      ∀ u v w, ChainEdge G u v w → t.distances.getD v 0 ≤ t.distances.getD u 0 + w := by
  have hlen : (initQueue pq G.getVerticesNum (initDistances G.getVerticesNum s)).length
      < fuel := by
    have := (initQueue_numbers hl (initDistances G.getVerticesNum s)
      G.getVerticesNum).length_eq
    simp only [List.length_map, List.length_range] at this
    omega
  obtain ⟨st, hst, hx⟩ := dijkstraLoop_AL_some hl hE hw fuel _ (DInv.at_first_state hl G s)
    (DExt.ext_at_first_state hl G s) hlen
  obtain ⟨hd, hq⟩ := dijkstraLoop_AL_spec hl hE fuel _ _ (DInv.at_first_state hl G s) hst
  refine ⟨{ distances := st.distances, path := st.path }, ?_, hd.rinv, ?_⟩
  · unfold dijkstra_AL_tables_exact
    simp only [hst, Option.map_some']
  · intro u v w he
    exact hx.settled_edge u he.1 (by rw [hq]; simp) v w he

/-! ### The incidence-matrix variant reads the same chains -/

theorem relaxIMScan_eq_exact (pq : PriorityQueue) (u : Nat) (min : Int) (edge : IMEdge)
    (st : DState) (h : edge.source = u) :
    relaxIMScan_exact pq u min edge st =
      relaxChainNode_exact pq u min ⟨edge.destination, edge.weight⟩ st := by
  unfold relaxIMScan_exact relaxChainNode_exact
  simp only [h, if_true]

theorem relaxIMScan_skip_exact (pq : PriorityQueue) (u : Nat) (min : Int) (edge : IMEdge)
    (st : DState) (h : edge.source ≠ u) : relaxIMScan_exact pq u min edge st = some st := by
  unfold relaxIMScan_exact
  simp only [h, if_false]

theorem scanLoop_eq_exact (pq : PriorityQueue) (G : IncidenceMatrix) (u : Nat) (min : Int)
    (l : List Nat) : ∀ st : DState,
    scanLoop_exact pq G u min l st =
      chainLoop_exact pq u min
        (((l.map G.getEdge).filter (fun e => decide (e.source = u))).map
          (fun e => ⟨e.destination, e.weight⟩)) st := by
  induction l with
  | nil => intro st; rfl
  | cons e es ih =>
    intro st
    by_cases h : (G.getEdge e).source = u
    · simp only [scanLoop_exact, List.map_cons, List.filter_cons, h, decide_True, if_true,
        chainLoop_exact, relaxIMScan_eq_exact pq u min (G.getEdge e) st h]
      congr 1
      funext st1
      exact ih st1
    · simp only [scanLoop_exact, List.map_cons, List.filter_cons, h, decide_False,
        relaxIMScan_skip_exact pq u min (G.getEdge e) st h, Option.some_bind]
      exact ih st

theorem dijkstraLoop_IM_eq_exact (pq : PriorityQueue) (G : IncidenceMatrix) (fuel : Nat) :
    ∀ st : DState, dijkstraLoop_IM_exact pq G fuel st = dijkstraLoop_AL_exact pq (chainsOfIM G) fuel st := by
  induction fuel with
  | zero => intro st; rfl
  | succ fuel ih =>
    intro st
    unfold dijkstraLoop_IM_exact dijkstraLoop_AL_exact
    cases st.Q with
    | nil => rfl
    | cons root rest =>
      simp only [scanLoop_eq_exact, chainsOfIM]
      congr 1
      funext st1
      exact ih st1

theorem dijkstra_IM_tables_eq_exact (pq : PriorityQueue) (G : IncidenceMatrix) (s fuel : Nat) :
    dijkstra_IM_tables_exact pq G s fuel = dijkstra_AL_tables_exact pq (chainsOfIM G) s fuel := by
  simp only [dijkstra_IM_tables_exact, dijkstra_AL_tables_exact, dijkstraLoop_IM_eq_exact]
  rfl

theorem chainEdge_chainsOfIM (G : IncidenceMatrix) (u v : Nat) (w : Int) :
    ChainEdge (chainsOfIM G) u v w ↔ u < G.getVerticesNum ∧ RowEdge (rowsIM G) u v w := by
  unfold ChainEdge RowEdge rowsIM chainsOfIM
  simp only [List.mem_map, List.mem_filter, List.mem_range, decide_eq_true_eq]
  constructor
  · rintro ⟨hu, e, ⟨⟨i, hi, rfl⟩, hs⟩, he⟩
    refine ⟨hu, i, hi, ?_⟩
    simp only [Edge.mk.injEq] at he
    simp [hs, he.1, he.2]
  · rintro ⟨hu, i, hi, he⟩
    simp only [Prod.mk.injEq] at he
    exact ⟨hu, G.getEdge i, ⟨⟨i, hi, rfl⟩, he.1⟩, by simp [he.2.1, he.2.2]⟩

/-! ### The binary heap meets the contract -/

theorem getD_set_gen {α : Type} (l : List α) (i j : Nat) (x d : α) :
    (l.set i x).getD j d = if j = i ∧ i < l.length then x else l.getD j d := by
  induction l generalizing i j with
  | nil => simp
  | cons a l ih =>
    cases i with
    | zero =>
      cases j with
      | zero => simp
      | succ j => simp
    | succ i =>
      cases j with
      | zero => simp
      | succ j => simpa [List.getD_eq_getElem?_getD] using ih i j

theorem length_swapAt (q : List Vertex) (i j : Nat) : (swapAt q i j).length = q.length := by
  simp [swapAt]

theorem keyAt_swapAt (q : List Vertex) (i j k : Nat) (hi : i < q.length) (hj : j < q.length) :
    keyAt (swapAt q i j) k =
      if k = j then keyAt q i else if k = i then keyAt q j else keyAt q k := by
  unfold keyAt swapAt
  rw [getD_set_gen, getD_set_gen]
  simp only [List.length_set, hi, hj, and_true]
  split_ifs <;> rfl

theorem set_getD_perm (q : List Vertex) (j : Nat) (a : Vertex) (hj : j < q.length) :
    (q.getD j ⟨0, 0⟩ :: q.set j a).Perm (a :: q) := by
  induction q generalizing j with
  | nil => simp at hj
  | cons b q ih =>
    cases j with
    | zero => exact List.Perm.swap _ _ _
    | succ j =>
      have hj1 : j < q.length := by simpa using hj
      have h1 : (b :: q).getD (j + 1) ⟨0, 0⟩ = q.getD j ⟨0, 0⟩ := rfl
      rw [h1, List.set_cons_succ]
      exact (List.Perm.swap _ _ _).trans
        ((List.Perm.cons b (ih j hj1)).trans (List.Perm.swap _ _ _))

theorem swapAt_perm (q : List Vertex) (i j : Nat) (hij : i < j) (hj : j < q.length) :
    (swapAt q i j).Perm q := by
  induction q generalizing i j with
  | nil => simp at hj
  | cons a q ih =>
    cases j with
    | zero => omega
    | succ j =>
      have hj1 : j < q.length := by simpa using hj
      cases i with
      | zero =>
        show (((a :: q).set 0 (q.getD j ⟨0, 0⟩)).set (j + 1) a).Perm (a :: q)
        rw [List.set_cons_zero, List.set_cons_succ]
        exact set_getD_perm q j a hj1
      | succ i =>
        show (((a :: q).set (i + 1) (q.getD j ⟨0, 0⟩)).set (j + 1) (q.getD i ⟨0, 0⟩)).Perm _
        rw [List.set_cons_succ, List.set_cons_succ]
        exact List.Perm.cons a (ih i j (by omega) hj1)

theorem siftUp_length (fuel : Nat) : ∀ (q : List Vertex) (i : Nat),
    (siftUp fuel q i).length = q.length := by
  induction fuel with
  | zero => intro q i; rfl
  | succ fuel ih =>
    intro q i
    unfold siftUp
    split
    · rfl
    · split
      · rw [ih, length_swapAt]
      · rfl

theorem siftUp_perm (fuel : Nat) : ∀ (q : List Vertex) (i : Nat), i < q.length →
    (siftUp fuel q i).Perm q := by
  induction fuel with
  | zero => intro q i _; exact List.Perm.refl _
  | succ fuel ih =>
    intro q i hi
    unfold siftUp
    split
    · exact List.Perm.refl _
    · next h0 =>
      split
      · have hp : (i - 1) / 2 < i := by omega
        exact (ih _ _ (by rw [length_swapAt]; omega)).trans (swapAt_perm q _ _ hp hi)
      · exact List.Perm.refl _

/-- Sift-up repairs a heap whose only violation is between position `i` and its parent. -/
theorem siftUp_heap (fuel : Nat) : ∀ (q : List Vertex) (i : Nat), i < fuel → i < q.length →
    (∀ j, 0 < j → j < q.length → j ≠ i → keyAt q ((j - 1) / 2) ≤ keyAt q j) →
    (∀ j, 0 < j → j < q.length → (j - 1) / 2 = i → 0 < i →
      keyAt q ((i - 1) / 2) ≤ keyAt q j) →
    binaryHeap.HeapOrder (siftUp fuel q i) := by
  induction fuel with
  | zero => intro q i h; omega
  | succ fuel ih =>
    intro q i hfuel hi h1 h2
    unfold siftUp
    split
    · next h0 =>
      intro j hj0 hjl
      exact h1 j hj0 hjl (by omega)
    · next h0 =>
      split
      · next hgt =>
        have hp : (i - 1) / 2 < i := by omega
        have hpl : (i - 1) / 2 < q.length := by omega
        apply ih _ _ (by omega) (by rw [length_swapAt]; omega)
        · intro j hj0 hjl hjp
          rw [length_swapAt] at hjl
          rw [keyAt_swapAt q _ _ _ hpl hi, keyAt_swapAt q _ _ _ hpl hi]
          by_cases hji : j = i
          · subst hji
            simp only [if_true]
            omega
          · rw [if_neg hji, if_neg hjp]
            have a1 := h1 j hj0 hjl hji
            by_cases hpi : (j - 1) / 2 = i
            · rw [if_pos hpi]
              exact h2 j hj0 hjl hpi (by omega)
            · rw [if_neg hpi]
              by_cases hpp : (j - 1) / 2 = (i - 1) / 2
              · rw [if_pos hpp]
                rw [hpp] at a1
                omega
              · rw [if_neg hpp]
                exact a1
        · intro j hj0 hjl hjp hp0
          rw [length_swapAt] at hjl
          rw [keyAt_swapAt q _ _ _ hpl hi, keyAt_swapAt q _ _ _ hpl hi]
          rw [if_neg (by omega), if_neg (by omega)]
          have a3 := h1 ((i - 1) / 2) hp0 hpl (by omega)
          by_cases hji : j = i
          · rw [if_pos hji]
            exact a3
          · rw [if_neg hji, if_neg (by omega)]
            have a1 := h1 j hj0 hjl hji
            rw [hjp] at a1
            omega
      · next hle =>
        intro j hj0 hjl
        by_cases hji : j = i
        · subst hji; omega
        · exact h1 j hj0 hjl hji

theorem smallestOf_spec (q : List Vertex) (i : Nat) :
    (smallestOf q i = i ∨
      ((smallestOf q i = 2 * i + 1 ∨ smallestOf q i = 2 * i + 2) ∧
        smallestOf q i < q.length ∧ keyAt q (smallestOf q i) < keyAt q i)) ∧
    (2 * i + 1 < q.length → keyAt q (smallestOf q i) ≤ keyAt q (2 * i + 1)) ∧
    (2 * i + 2 < q.length → keyAt q (smallestOf q i) ≤ keyAt q (2 * i + 2)) := by
  unfold smallestOf
  simp only
  split_ifs with h1 h2 h3
  · refine ⟨Or.inr ⟨Or.inr rfl, h2.1, by omega⟩, fun _ => by omega, fun _ => le_refl _⟩
  · refine ⟨Or.inr ⟨Or.inl rfl, h1.1, h1.2⟩, fun _ => le_refl _, fun h => ?_⟩
    by_contra hc
    exact h2 ⟨h, by omega⟩
  · refine ⟨Or.inr ⟨Or.inr rfl, h3.1, h3.2⟩, fun h => ?_, fun _ => le_refl _⟩
    by_contra hc
    exact h1 ⟨h, by omega⟩
  · refine ⟨Or.inl rfl, fun h => ?_, fun h => ?_⟩
    · by_contra hc
      exact h1 ⟨h, by omega⟩
    · by_contra hc
      exact h3 ⟨h, by omega⟩

theorem siftDown_length (fuel : Nat) : ∀ (q : List Vertex) (i : Nat),
    (siftDown fuel q i).length = q.length := by
  induction fuel with
  | zero => intro q i; rfl
  | succ fuel ih =>
    intro q i
    unfold siftDown
    split
    · rfl
    · rw [ih, length_swapAt]

theorem siftDown_perm (fuel : Nat) : ∀ (q : List Vertex) (i : Nat),
    (siftDown fuel q i).Perm q := by
  induction fuel with
  | zero => intro q i; exact List.Perm.refl _
  | succ fuel ih =>
    intro q i
    unfold siftDown
    split
    · exact List.Perm.refl _
    · next hne =>
      rcases (smallestOf_spec q i).1 with h | ⟨h1, h2, _⟩
      · exact absurd h hne
      · exact (ih _ _).trans (swapAt_perm q _ _ (by omega) h2)

/-- Sift-down repairs a heap whose only violations are between position `i` and its
children. -/
theorem siftDown_heap (fuel : Nat) : ∀ (q : List Vertex) (i : Nat), q.length ≤ fuel + i →
    (∀ j, 0 < j → j < q.length → (j - 1) / 2 ≠ i → keyAt q ((j - 1) / 2) ≤ keyAt q j) →
    (∀ j, 0 < j → j < q.length → (j - 1) / 2 = i → 0 < i →
      keyAt q ((i - 1) / 2) ≤ keyAt q j) →
    binaryHeap.HeapOrder (siftDown fuel q i) := by
  induction fuel with
  | zero =>
    intro q i hlen h1 _ j hj0 hjl
    exact h1 j hj0 hjl (by simp only [siftDown] at hjl; omega)
  | succ fuel ih =>
    intro q i hlen h1 h2
    obtain ⟨hm, hl, hr⟩ := smallestOf_spec q i
    unfold siftDown
    split
    · next heq =>
      intro j hj0 hjl
      by_cases hp : (j - 1) / 2 = i
      · rw [heq] at hl hr
        rw [hp]
        have : j = 2 * i + 1 ∨ j = 2 * i + 2 := by omega
        rcases this with h | h
        · subst h; exact hl hjl
        · subst h; exact hr hjl
      · exact h1 j hj0 hjl hp
    · next hne =>
      rcases hm with h | ⟨hchild, hml, hmk⟩
      · exact absurd h hne
      · have hil : i < q.length := by omega
        have hpm : (smallestOf q i - 1) / 2 = i := by omega
        apply ih _ _ (by rw [length_swapAt]; omega)
        · intro j hj0 hjl hjp
          rw [length_swapAt] at hjl
          rw [keyAt_swapAt q _ _ _ hil hml, keyAt_swapAt q _ _ _ hil hml]
          rw [if_neg hjp]
          by_cases hjm : j = smallestOf q i
          · rw [if_pos hjm, if_pos (by omega)]
            omega
          · rw [if_neg hjm]
            by_cases hji : j = i
            · rw [if_pos hji, if_neg (by omega)]
              have := h2 (smallestOf q i) (by omega) hml hpm (by omega)
              rw [hji]
              exact this
            · rw [if_neg hji]
              by_cases hpi : (j - 1) / 2 = i
              · rw [if_pos hpi]
                have : j = 2 * i + 1 ∨ j = 2 * i + 2 := by omega
                rcases this with h | h
                · subst h; exact hl hjl
                · subst h; exact hr hjl
              · rw [if_neg hpi]
                exact h1 j hj0 hjl hpi
        · intro j hj0 hjl hjp hm0
          rw [length_swapAt] at hjl
          rw [keyAt_swapAt q _ _ _ hil hml, keyAt_swapAt q _ _ _ hil hml]
          rw [hpm, if_neg (by omega), if_pos rfl, if_neg (by omega), if_neg (by omega)]
          have := h1 j hj0 hjl (by omega)
          rw [hjp] at this
          exact this

theorem heap_root_le (q : List Vertex) (h : binaryHeap.HeapOrder q) (n : Nat) :
    ∀ i, i ≤ n → i < q.length → keyAt q 0 ≤ keyAt q i := by
  induction n with
  | zero =>
    intro i hi _
    have : i = 0 := by omega
    subst this
    exact le_refl _
  | succ n ih =>
    intro i hi hil
    by_cases h0 : i = 0
    · subst h0; exact le_refl _
    · have h1 := h i (by omega) hil
      have h2 := ih ((i - 1) / 2) (by omega) (by omega)
      omega

theorem keyAt_of_getElem? {q : List Vertex} {i : Nat} {e : Vertex} (h : q[i]? = some e) :
    keyAt q i = e.distance := by
  unfold keyAt
  rw [List.getD_eq_getElem?_getD, h]
  rfl

theorem binaryHeap_lawful : binaryHeap.Lawful where
  heap_nil := by intro i _ h; simp at h
  push_perm := by
    intro q x _ _
    show (siftUp (q.length + 1) (q ++ [x]) q.length).Perm (x :: q)
    exact (siftUp_perm _ _ _ (by simp)).trans (List.perm_append_singleton x q)
  push_heap := by
    intro q x hq _
    show binaryHeap.HeapOrder (siftUp (q.length + 1) (q ++ [x]) q.length)
    have hk : ∀ j, j < q.length → keyAt (q ++ [x]) j = keyAt q j := by
      intro j hj
      unfold keyAt
      rw [List.getD_append _ _ _ _ hj]
    apply siftUp_heap _ _ _ (by omega) (by simp)
    · intro j hj0 hjl hji
      have hjq : j < q.length := by simp at hjl; omega
      rw [hk j hjq, hk _ (by omega)]
      exact hq j hj0 hjq
    · intro j hj0 hjl hjp _
      simp at hjl
      omega
  root_min := by
    intro r q h e he
    obtain ⟨n, hn⟩ := List.getElem?_of_mem he
    have hlen : n < q.length := by
      by_contra hc
      rw [List.getElem?_eq_none (by omega)] at hn
      simp at hn
    have h1 := heap_root_le (r :: q) h (n + 1) (n + 1) (le_refl _) (by simp; omega)
    have h2 : keyAt (r :: q) (n + 1) = e.distance :=
      keyAt_of_getElem? (by simpa using hn)
    have h3 : keyAt (r :: q) 0 = r.distance := rfl
    omega
  extract_fst := fun _ _ _ => rfl
  extract_perm := by
    intro r q _
    cases q with
    | nil => exact List.Perm.refl _
    | cons x rest =>
      show (siftDown (rest.length + 1)
        ((x :: rest).getLast (List.cons_ne_nil x rest) :: (x :: rest).dropLast) 0).Perm _
      refine (siftDown_perm _ _ _).trans ?_
      have := List.dropLast_concat_getLast (List.cons_ne_nil x rest)
      exact (List.perm_append_singleton _ _).symm.trans (by rw [this])
  extract_heap := by
    intro r q h
    cases q with
    | nil => intro i _ hi; simp [binaryHeap] at hi
    | cons x rest =>
      show binaryHeap.HeapOrder (siftDown (rest.length + 1)
        ((x :: rest).getLast (List.cons_ne_nil x rest) :: (x :: rest).dropLast) 0)
      have hk : ∀ j, 0 < j → j < rest.length + 1 →
          keyAt ((x :: rest).getLast (List.cons_ne_nil x rest) :: (x :: rest).dropLast) j =
            keyAt (r :: x :: rest) j := by
        intro j hj0 hjl
        obtain ⟨k, rfl⟩ : ∃ k, j = k + 1 := ⟨j - 1, by omega⟩
        unfold keyAt
        simp only [List.getD_cons_succ]
        rw [List.getD_eq_getElem?_getD, List.getD_eq_getElem?_getD, List.getElem?_dropLast]
        simp only [List.length_cons]
        rw [if_pos (by omega)]
      apply siftDown_heap _ _ _ (by simp)
      · intro j hj0 hjl hjp
        have hjl1 : j < rest.length + 1 := by simpa using hjl
        rw [hk j hj0 hjl1, hk _ (by omega) (by omega)]
        exact h j hj0 (by simp; omega)
      · intro j _ _ _ h0
        omega
  decrease_perm := by
    intro q i k e _ hi _
    have hil : i < q.length := by
      by_contra hc
      rw [List.getElem?_eq_none (by omega)] at hi
      simp at hi
    show (siftUp (i + 1) (q.set i ⟨(q.getD i ⟨0, 0⟩).number, k⟩) i).Perm _
    rw [List.getD_eq_getElem?_getD, hi]
    exact siftUp_perm _ _ _ (by simpa using hil)
  decrease_heap := by
    intro q i k e h hi hk
    have hil : i < q.length := by
      by_contra hc
      rw [List.getElem?_eq_none (by omega)] at hi
      simp at hi
    show binaryHeap.HeapOrder (siftUp (i + 1) (q.set i ⟨(q.getD i ⟨0, 0⟩).number, k⟩) i)
    have hkey : ∀ j, keyAt (q.set i ⟨(q.getD i ⟨0, 0⟩).number, k⟩) j =
        if j = i then k else keyAt q j := by
      intro j
      unfold keyAt
      rw [getD_set_gen]
      simp only [hil, and_true]
      split_ifs <;> rfl
    have hki := keyAt_of_getElem? hi
    apply siftUp_heap _ _ _ (by omega) (by simpa using hil)
    · intro j hj0 hjl hji
      have hjq : j < q.length := by simpa using hjl
      rw [hkey, hkey, if_neg hji]
      have := h j hj0 hjq
      split_ifs with hp
      · rw [hp] at this; omega
      · exact this
    · intro j hj0 hjl hjp hi0
      have hjq : j < q.length := by simpa using hjl
      rw [hkey, hkey, if_neg (by omega), if_neg (by omega)]
      have a1 := h j hj0 hjq
      have a2 := h i hi0 hil
      rw [hjp] at a1
      omega

/-! ### Concrete graphs -/

theorem map_getD_range {α : Type} (l : List α) (d : α) :
    (List.range l.length).map (fun i => l.getD i d) = l := by
  apply List.ext_getElem (by simp)
  intro n h1 h2
  simp [List.getD_eq_getElem?_getD, h2]

theorem rowsIM_imOfList (V : Nat) (es : List IMEdge) :
    rowsIM (imOfList V es) = es.map (fun e => (e.source, e.destination, e.weight)) := by
  have := map_getD_range es ⟨0, 0, 0⟩
  unfold rowsIM imOfList
  simp only
  conv_rhs => rw [← this]
  rw [List.map_map]
  rfl

theorem rowsAL_alOfList (V : Nat) (es : List IMEdge) :
    rowsAL (alOfList V es) = es.map (fun e => (e.source, e.destination, e.weight)) := by
  have := map_getD_range es ⟨0, 0, 0⟩
  unfold rowsAL alOfList
  simp only
  conv_rhs => rw [← this]
  rw [List.map_map]
  rfl

theorem rowEdge_map_iff (es : List IMEdge) (u v : Nat) (w : Int) :
    RowEdge (es.map (fun e => (e.source, e.destination, e.weight))) u v w ↔
      ListEdge es u v w := by
  unfold RowEdge ListEdge
  simp only [List.mem_map, Prod.mk.injEq]
  constructor
  · rintro ⟨e, he, h1, h2, h3⟩
    obtain ⟨a, b, c⟩ := e
    simp only at h1 h2 h3
    subst h1 h2 h3
    exact he
  · intro h
    exact ⟨_, h, rfl, rfl, rfl⟩

theorem rowEdge_imOfList (V : Nat) (es : List IMEdge) (u v : Nat) (w : Int) :
    RowEdge (rowsIM (imOfList V es)) u v w ↔ ListEdge es u v w := by
  rw [rowsIM_imOfList, rowEdge_map_iff]

theorem rowEdge_alOfList (V : Nat) (es : List IMEdge) (u v : Nat) (w : Int) :
    RowEdge (rowsAL (alOfList V es)) u v w ↔ ListEdge es u v w := by
  rw [rowsAL_alOfList, rowEdge_map_iff]

theorem chainEdge_alOfList (V : Nat) (es : List IMEdge) (u v : Nat) (w : Int) :
    ChainEdge (alOfList V es) u v w ↔ u < V ∧ ListEdge es u v w := by
  unfold ChainEdge ListEdge alOfList
  simp only [List.mem_map, List.mem_filter, decide_eq_true_eq, Edge.mk.injEq]
  constructor
  · rintro ⟨hu, e, ⟨he, hs⟩, h1, h2⟩
    obtain ⟨a, b, c⟩ := e
    simp only at hs h1 h2
    subst hs h1 h2
    exact ⟨hu, he⟩
  · rintro ⟨hu, h⟩
    exact ⟨hu, _, ⟨h, rfl⟩, rfl, rfl⟩

theorem chainsOfIM_imOfList (V : Nat) (es : List IMEdge) :
    chainsOfIM (imOfList V es) = alOfList V es := by
  have := map_getD_range es ⟨0, 0, 0⟩
  unfold chainsOfIM imOfList alOfList
  simp only [this]

/-! ### printPath -/

theorem printPathLoop_mono (source : Nat) (path : List Int) (n : Nat) :
    ∀ (m : Nat) (i : Int) (acc r : List Int), n ≤ m →
      printPathLoop source path n i acc = some r →
      printPathLoop source path m i acc = some r := by
  induction n with
  | zero => intro m i acc r _ h; simp [printPathLoop] at h
  | succ n ih =>
    intro m i acc r hnm h
    cases m with
    | zero => omega
    | succ m =>
      unfold printPathLoop at h ⊢
      split
      · next hc =>
        rw [if_pos hc] at h
        exact ih m _ _ r (by omega) h
      · next hc =>
        rw [if_neg hc] at h
        exact h

theorem printPath_mono (source destination : Nat) (distance : Int) (path : List Int)
    (n m : Nat) (l : OutLine) (hnm : n ≤ m)
    (h : printPath source destination distance path n = some l) :
    printPath source destination distance path m = some l := by
  unfold printPath at h ⊢
  split
  · next hc => rw [if_pos hc] at h; exact h
  · next hc =>
    rw [if_neg hc] at h
    simp only [Option.map_eq_some'] at h ⊢
    obtain ⟨r, hr, hl⟩ := h
    exact ⟨r, printPathLoop_mono source path n m _ _ r hnm hr, hl⟩

theorem printPath_sentinel (source destination : Nat) (path : List Int) (fuel : Nat) :
    printPath source destination 1000 path fuel = some (OutLine.noPath source destination) := by
  simp [printPath]

theorem printPath_noPath_iff (source destination : Nat) (distance : Int) (path : List Int)
    (fuel : Nat) (a b : Nat) :
    printPath source destination distance path fuel = some (OutLine.noPath a b) →
      distance = 1000 := by
  unfold printPath
  split
  · next hc => exact fun _ => hc
  · intro h
    simp only [Option.map_eq_some'] at h
    obtain ⟨_, _, h2⟩ := h
    simp at h2

/-! ### Minimum tables -/

theorem IsMinTable.of_iff {E F : Nat → Nat → Int → Prop} {V s : Nat} {d : List Int}
    (hEF : ∀ u v w, E u v w ↔ F u v w) (h : IsMinTable E V s d) : IsMinTable F V s d := by
  refine ⟨h.1, fun v hv => ?_⟩
  obtain ⟨⟨a, p, ha, hp, hd⟩, hmin⟩ := h.2 v hv
  exact ⟨⟨a, p, ha, hp.mono (fun u v w => (hEF u v w).mp), hd⟩,
    fun a p ha hp => hmin a p ha (hp.mono (fun u v w => (hEF u v w).mpr))⟩

theorem IsMinTable.capped {E : Nat → Nat → Int → Prop} {V s : Nat} {d : List Int}
    (hw : ∀ u v w, E u v w → 0 ≤ w) (hs : s < V) (h : IsMinTable E V s d) :
    ∀ v, v < V → IsCappedMin E s v (d.getD v 0) := by
  intro v hv
  obtain ⟨⟨a, p, ha, hp, hd⟩, hmin⟩ := h.2 v hv
  have h1 : d.getD v 0 ≤ 1000 := by
    have := hmin v [] hv rfl
    simp only [weight_nil, startValue] at this
    split at this <;> omega
  refine ⟨h1, ?_, ?_⟩
  · intro q hq
    have := hmin s q hs hq
    simpa [startValue] using this
  · by_cases has : a = s
    · subst has
      right
      exact ⟨p, hp, by simpa [startValue] using hd⟩
    · left
      have := weight_nonneg_of_walk hw hp
      simp only [startValue, has, if_false] at hd
      omega

theorem IsCappedMin.capped_of_iff {E F : Nat → Nat → Int → Prop} {s v : Nat} {x : Int}
    (hEF : ∀ u v w, E u v w ↔ F u v w) (h : IsCappedMin E s v x) : IsCappedMin F s v x := by
  obtain ⟨h1, h2, h3⟩ := h
  refine ⟨h1, fun p hp => h2 p (hp.mono (fun u v w => (hEF u v w).mpr)), ?_⟩
  rcases h3 with h3 | ⟨p, hp, hx⟩
  · exact Or.inl h3
  · exact Or.inr ⟨p, hp.mono (fun u v w => (hEF u v w).mp), hx⟩

/-! ### The incidence-matrix variant of Dijkstra -/

theorem RInv.inv_of_iff {E F : Nat → Nat → Int → Prop} {V s : Nat} {t : Tables}
    (hEF : ∀ u v w, E u v w ↔ F u v w) (h : RInv E V s t) : RInv F V s t := by
  refine ⟨h.len_d, h.len_p, ?_, h.le_start, ?_⟩
  · intro v hv
    obtain ⟨a, p, ha, hp, hd⟩ := h.real v hv
    exact ⟨a, p, ha, hp.mono (fun u v w => (hEF u v w).mp), hd⟩
  · intro v hv
    rcases h.pred v hv with h1 | ⟨u, w, hu, h1, h2, h3⟩
    · exact Or.inl h1
    · exact Or.inr ⟨u, w, hu, h1, (hEF _ _ _).mp h2, h3⟩

theorem chainEdge_chainsOfIM_iff {G : IncidenceMatrix}
    (hE : EdgesBelow (RowEdge (rowsIM G)) G.getVerticesNum) (u v : Nat) (w : Int) :
    ChainEdge (chainsOfIM G) u v w ↔ RowEdge (rowsIM G) u v w := by
  rw [chainEdge_chainsOfIM]
  exact ⟨fun h => h.2, fun h => ⟨(hE u v w h).1, h⟩⟩

theorem edgesBelow_chainsOfIM {G : IncidenceMatrix}
    (hE : EdgesBelow (RowEdge (rowsIM G)) G.getVerticesNum) :
    EdgesBelow (ChainEdge (chainsOfIM G)) (chainsOfIM G).getVerticesNum := by
  intro u v w h
  exact hE u v w ((chainEdge_chainsOfIM_iff hE u v w).mp h)

theorem dijkstra_IM_tables_inv {pq : PriorityQueue} {G : IncidenceMatrix} {s fuel : Nat}
    {t : Tables} (hl : pq.Lawful) (hE : EdgesBelow (RowEdge (rowsIM G)) G.getVerticesNum)
    (h : dijkstra_IM_tables_exact pq G s fuel = some t) :
    RInv (RowEdge (rowsIM G)) G.getVerticesNum s t := by
  rw [dijkstra_IM_tables_eq_exact] at h
  exact (dijkstra_AL_tables_inv hl (edgesBelow_chainsOfIM hE) h).inv_of_iff
    (chainEdge_chainsOfIM_iff hE)

theorem dijkstra_IM_tables_some {pq : PriorityQueue} {G : IncidenceMatrix} (s fuel : Nat)
    (hl : pq.Lawful) (hE : EdgesBelow (RowEdge (rowsIM G)) G.getVerticesNum)
    (hw : ∀ a b w, RowEdge (rowsIM G) a b w → 0 ≤ w) (hfuel : G.getVerticesNum < fuel) :
    ∃ t, dijkstra_IM_tables_exact pq G s fuel = some t ∧
      RInv (RowEdge (rowsIM G)) G.getVerticesNum s t ∧
      ∀ u v w, RowEdge (rowsIM G) u v w →
        t.distances.getD v 0 ≤ t.distances.getD u 0 + w := by
  obtain ⟨t, h1, h2, h3⟩ := dijkstra_AL_tables_some (G := chainsOfIM G) s fuel hl (edgesBelow_chainsOfIM hE)
    (fun a b w h => hw a b w ((chainEdge_chainsOfIM_iff hE a b w).mp h)) hfuel
  refine ⟨t, by rw [dijkstra_IM_tables_eq_exact]; exact h1,
    h2.inv_of_iff (chainEdge_chainsOfIM_iff hE), ?_⟩
  intro u v w h
  exact h3 u v w ((chainEdge_chainsOfIM_iff hE u v w).mpr h)

theorem edgesBelow_chain_alOfList {V : Nat} {es : List IMEdge}
    (h : ∀ e ∈ es, e.source < V ∧ e.destination < V) :
    EdgesBelow (ChainEdge (alOfList V es)) (alOfList V es).getVerticesNum := by
  intro u v w he
  exact h _ ((chainEdge_alOfList V es u v w).mp he).2

theorem edgesBelow_rowsIM_imOfList {V : Nat} {es : List IMEdge}
    (h : ∀ e ∈ es, e.source < V ∧ e.destination < V) :
    EdgesBelow (RowEdge (rowsIM (imOfList V es))) (imOfList V es).getVerticesNum := by
  intro u v w he
  exact h _ ((rowEdge_imOfList V es u v w).mp he)

theorem edgesBelow_rowsAL_alOfList {V : Nat} {es : List IMEdge}
    (h : ∀ e ∈ es, e.source < V ∧ e.destination < V) :
    EdgesBelow (RowEdge (rowsAL (alOfList V es))) (alOfList V es).getVerticesNum := by
  intro u v w he
  exact h _ ((rowEdge_alOfList V es u v w).mp he)

theorem nonneg_chain_alOfList {V : Nat} {es : List IMEdge} (h : ∀ e ∈ es, 0 ≤ e.weight) :
    ∀ u v w, ChainEdge (alOfList V es) u v w → 0 ≤ w := by
  intro u v w he
  exact h _ ((chainEdge_alOfList V es u v w).mp he).2

theorem nonneg_rowsIM_imOfList {V : Nat} {es : List IMEdge} (h : ∀ e ∈ es, 0 ≤ e.weight) :
    ∀ u v w, RowEdge (rowsIM (imOfList V es)) u v w → 0 ≤ w := by
  intro u v w he
  exact h _ ((rowEdge_imOfList V es u v w).mp he)

theorem nonneg_rowsAL_alOfList {V : Nat} {es : List IMEdge} (h : ∀ e ∈ es, 0 ≤ e.weight) :
    ∀ u v w, RowEdge (rowsAL (alOfList V es)) u v w → 0 ≤ w := by
  intro u v w he
  exact h _ ((rowEdge_alOfList V es u v w).mp he)

/-! ### The scenario of section 8 -/

theorem chainEdge_alOfList_iff {V : Nat} {es : List IMEdge}
    (h : ∀ e ∈ es, e.source < V ∧ e.destination < V) (u v : Nat) (w : Int) :
    ChainEdge (alOfList V es) u v w ↔ ListEdge es u v w := by
  rw [chainEdge_alOfList]
  exact ⟨fun h1 => h1.2, fun h1 => ⟨(h _ h1).1, h1⟩⟩

theorem list_eq_of_getD4 (l : List Int) (a b c d : Int) (hlen : l.length = 4)
    (h0 : l.getD 0 0 = a) (h1 : l.getD 1 0 = b) (h2 : l.getD 2 0 = c)
    (h3 : l.getD 3 0 = d) : l = [a, b, c, d] := by
  match l, hlen with
  | [x, y, z, u], _ =>
    simp only [List.getD_cons_zero, List.getD_cons_succ] at h0 h1 h2 h3
    subst h0 h1 h2 h3
    rfl

theorem scenario_minTable : IsMinTable (ListEdge scenario) 4 0 [0, 1, 3, 6] := by
  obtain ⟨t, h1, h2, h3⟩ := bfRows_finished (s := 0)
    ((edgesBelow_rows_iff (rowsAL (alOfList 4 scenario)) 4).mpr (by decide))
    (not_hasNegCycle_of_nonneg ((nonneg_rows_iff _).mpr (by decide)))
  have h4 : bfRows_exact (rowsAL (alOfList 4 scenario)) 4 0 =
      BFResult.finished { distances := [0, 1, 3, 6], path := [-1, 0, 1, 2] } := by decide
  rw [h4] at h1
  simp only [BFResult.finished.injEq] at h1
  subst h1
  exact (h2.isMinTable h3).of_iff (rowEdge_alOfList 4 scenario)

/-- The relaxation invariants and the absence of improving edges fix both tables of the
scenario. -/
theorem scenario_tables {t : Tables} (h : RInv (ListEdge scenario) 4 0 t)
    (hfix : ∀ u v w, ListEdge scenario u v w →
      t.distances.getD v 0 ≤ t.distances.getD u 0 + w) :
    t = { distances := [0, 1, 3, 6], path := [-1, 0, 1, 2] } := by
  have hd : t.distances = [0, 1, 3, 6] := (h.isMinTable hfix).unique scenario_minTable
  obtain ⟨d, p⟩ := t
  simp only at hd
  subst hd
  have hp := h.pred
  simp only at hp
  have key : ∀ e ∈ scenario,
      [0, 1, 3, 6].getD e.source 0 + e.weight ≤ [0, 1, 3, 6].getD e.destination 0 →
      (e.source : Int) = [-1, 0, 1, 2].getD e.destination 0 := by decide
  have hstart : ∀ v, v < 4 → [0, 1, 3, 6].getD v 0 = startValue 0 v → v = 0 := by decide
  have hall : ∀ v, v < 4 → p.getD v 0 = [-1, 0, 1, 2].getD v 0 := by
    intro v hv
    rcases hp v hv with ⟨h1, h2⟩ | ⟨u, w, _, h2, h3, h4⟩
    · rw [hstart v hv h2]
      rw [hstart v hv h2] at h1
      exact h1
    · rw [h2]
      exact key ⟨u, v, w⟩ h3 h4
  have e0 := hall 0 (by decide)
  have e1 := hall 1 (by decide)
  have e2 := hall 2 (by decide)
  have e3 := hall 3 (by decide)
  rw [list_eq_of_getD4 p _ _ _ _ h.len_p e0 e1 e2 e3]
  rfl

/-! ### Output of the four functions -/

theorem bellman_ford_AL_of_finished_exact {G : AdjacencyList} {source : Nat} {t : Tables}
    (h : bellman_ford_AL_tables_exact G source = BFResult.finished t) (destination fuel : Nat) :
    bellman_ford_AL_exact G source destination fuel =
      (printPath source destination (t.distances.getD destination 0) t.path fuel).map
        (fun l => [l]) := by
  unfold bellman_ford_AL_exact
  rw [h]

theorem bellman_ford_IM_of_finished_exact {G : IncidenceMatrix} {source : Nat} {t : Tables}
    (h : bellman_ford_IM_tables_exact G source = BFResult.finished t) (destination fuel : Nat) :
    bellman_ford_IM_exact G source destination fuel =
      (printPath source destination (t.distances.getD destination 0) t.path fuel).map
        (fun l => [l]) := by
  unfold bellman_ford_IM_exact
  rw [h]

theorem dijkstra_AL_of_tables_exact {pq : PriorityQueue} {G : AdjacencyList} {source fuel : Nat}
    {t : Tables} (h : dijkstra_AL_tables_exact pq G source fuel = some t) (destination : Nat) :
    dijkstra_AL_exact pq G source destination fuel =
      (printPath source destination (t.distances.getD destination 0) t.path fuel).map
        (fun l => [OutLine.counts G.getVerticesNum G.getEdgesNum, l]) := by
  unfold dijkstra_AL_exact
  rw [h]
  rfl

theorem dijkstra_IM_of_tables_exact {pq : PriorityQueue} {G : IncidenceMatrix} {source fuel : Nat}
    {t : Tables} (h : dijkstra_IM_tables_exact pq G source fuel = some t) (destination : Nat) :
    dijkstra_IM_exact pq G source destination fuel =
      (printPath source destination (t.distances.getD destination 0) t.path fuel).map
        (fun l => [l]) := by
  unfold dijkstra_IM_exact
  rw [h]
  rfl

/-! ### Dijkstra depends on the graph through its chains only -/

theorem dijkstraLoop_AL_congr_exact (pq : PriorityQueue) (G H : AdjacencyList)
    (h : ∀ u, G.getVertices u = H.getVertices u) (fuel : Nat) :
    ∀ st : DState, dijkstraLoop_AL_exact pq G fuel st = dijkstraLoop_AL_exact pq H fuel st := by
  induction fuel with
  | zero => intro st; rfl
  | succ fuel ih =>
    intro st
    unfold dijkstraLoop_AL_exact
    cases st.Q with
    | nil => rfl
    | cons root rest =>
      simp only [h]
      congr 1
      funext st1
      exact ih st1

theorem dijkstra_AL_tables_congr_exact (pq : PriorityQueue) (G H : AdjacencyList)
    (hV : G.getVerticesNum = H.getVerticesNum)
    (h : ∀ u, G.getVertices u = H.getVertices u) (s fuel : Nat) :
    dijkstra_AL_tables_exact pq G s fuel = dijkstra_AL_tables_exact pq H s fuel := by
  unfold dijkstra_AL_tables_exact
  simp only [hV, dijkstraLoop_AL_congr_exact pq G H h]

/-! ### More fuel does not change a finished run -/

theorem dijkstraLoop_AL_mono (pq : PriorityQueue) (G : AdjacencyList) (n : Nat) :
    ∀ (m : Nat) (st r : DState), n ≤ m → dijkstraLoop_AL_exact pq G n st = some r →
      dijkstraLoop_AL_exact pq G m st = some r := by
  induction n with
  | zero => intro m st r _ h; simp [dijkstraLoop_AL_exact] at h
  | succ n ih =>
    intro m st r hnm h
    cases m with
    | zero => omega
    | succ m =>
      unfold dijkstraLoop_AL_exact at h ⊢
      cases hq : st.Q with
      | nil => rw [hq] at h; exact h
      | cons root rest =>
        rw [hq] at h
        simp only at h ⊢
        cases h2 : chainLoop_exact pq root.number (pq.extractMin (root :: rest)).1
            (G.getVertices root.number) { st with Q := (pq.extractMin (root :: rest)).2 } with
        | none => rw [h2] at h; simp at h
        | some st2 =>
          rw [h2] at h
          simp only [Option.some_bind] at h ⊢
          exact ih m st2 r (by omega) h

theorem dijkstra_AL_tables_mono (pq : PriorityQueue) (G : AdjacencyList) (s n m : Nat)
    (t : Tables) (hnm : n ≤ m) (h : dijkstra_AL_tables_exact pq G s n = some t) :
    dijkstra_AL_tables_exact pq G s m = some t := by
  unfold dijkstra_AL_tables_exact at h ⊢
  simp only [Option.map_eq_some'] at h ⊢
  obtain ⟨st, hst, ht⟩ := h
  exact ⟨st, dijkstraLoop_AL_mono pq G n m _ st hnm hst, ht⟩

/-- With non-negative weights, whenever `dijkstra_AL` leaves its main loop (with any
fuel) no edge admits an improvement. -/
theorem dijkstra_AL_tables_fixpoint {pq : PriorityQueue} {G : AdjacencyList} {s fuel : Nat}
    {t : Tables} (hl : pq.Lawful) (hE : EdgesBelow (ChainEdge G) G.getVerticesNum)
    (hw : ∀ a b w, ChainEdge G a b w → 0 ≤ w)
    (h : dijkstra_AL_tables_exact pq G s fuel = some t) :
    RInv (ChainEdge G) G.getVerticesNum s t ∧
      ∀ u v w, ChainEdge G u v w → t.distances.getD v 0 ≤ t.distances.getD u 0 + w := by
  obtain ⟨t1, h1, h2, h3⟩ := dijkstra_AL_tables_some s
    (fuel + G.getVerticesNum + 1) hl hE hw (by omega)
  have := dijkstra_AL_tables_mono pq G s fuel (fuel + G.getVerticesNum + 1) t (by omega) h
  rw [h1] at this
  simp only [Option.some.injEq] at this
  subst this
  exact ⟨h2, h3⟩

theorem dijkstra_IM_tables_fixpoint {pq : PriorityQueue} {G : IncidenceMatrix} {s fuel : Nat}
    {t : Tables} (hl : pq.Lawful) (hE : EdgesBelow (RowEdge (rowsIM G)) G.getVerticesNum)
    (hw : ∀ a b w, RowEdge (rowsIM G) a b w → 0 ≤ w)
    (h : dijkstra_IM_tables_exact pq G s fuel = some t) :
    RInv (RowEdge (rowsIM G)) G.getVerticesNum s t ∧
      ∀ u v w, RowEdge (rowsIM G) u v w →
        t.distances.getD v 0 ≤ t.distances.getD u 0 + w := by
  rw [dijkstra_IM_tables_eq_exact] at h
  obtain ⟨h1, h2⟩ := dijkstra_AL_tables_fixpoint hl (edgesBelow_chainsOfIM hE)
    (fun a b w h => hw a b w ((chainEdge_chainsOfIM_iff hE a b w).mp h)) h
  exact ⟨h1.inv_of_iff (chainEdge_chainsOfIM_iff hE),
    fun u v w h => h2 u v w ((chainEdge_chainsOfIM_iff hE u v w).mpr h)⟩

/-! ### The sentinel at the destination -/

/-- A table without improving edge that holds `1000` at `v` bounds every walk from the
source to `v` below by `1000`. -/
theorem no_light_walk_of_sentinel {E : Nat → Nat → Int → Prop} {V s v : Nat} {t : Tables}
    (h : RInv E V s t)
    (hfix : ∀ a b w, E a b w → t.distances.getD b 0 ≤ t.distances.getD a 0 + w)
    (hs : s < V) (hv : t.distances.getD v 0 = 1000) :
    ∀ p, IsWalk E s p v → 1000 ≤ weight p := by
  intro p hp
  have h1 := walk_le_of_fixpoint hfix hp
  have h2 := h.le_start s hs
  simp only [startValue, if_true] at h2
  omega

/-- The tables keep their initial entries at a vertex that no edge enters. -/
theorem RInv.untouched {E : Nat → Nat → Int → Prop} {V s x : Nat} {t : Tables}
    (h : RInv E V s t) (hx : x < V) (hxs : x ≠ s) (hiso : Isolated E x) :
    t.distances.getD x 0 = 1000 ∧ t.path.getD x 0 = -1 := by
  rcases h.pred x hx with ⟨h1, h2⟩ | ⟨u, w, _, _, h3, _⟩
  · simp only [startValue, hxs, if_false] at h2
    exact ⟨h2, h1⟩
  · exact absurd rfl (hiso u x w h3).2

theorem bellman_ford_AL_output_inv_exact {G : AdjacencyList} {source destination fuel a b : Nat}
    (h : bellman_ford_AL_exact G source destination fuel = some [OutLine.noPath a b]) :
    ∃ t, bellman_ford_AL_tables_exact G source = BFResult.finished t ∧
      t.distances.getD destination 0 = 1000 := by
  cases ht : bellman_ford_AL_tables_exact G source with
  | negativeCycle =>
    rw [bellman_ford_AL_of_negativeCycle_exact ht] at h
    simp at h
  | finished t =>
    rw [bellman_ford_AL_of_finished_exact ht] at h
    simp only [Option.map_eq_some', List.cons.injEq, and_true] at h
    obtain ⟨l, hl, rfl⟩ := h
    exact ⟨t, rfl, printPath_noPath_iff _ _ _ _ _ _ _ hl⟩

theorem bellman_ford_IM_output_inv_exact {G : IncidenceMatrix} {source destination fuel a b : Nat}
    (h : bellman_ford_IM_exact G source destination fuel = some [OutLine.noPath a b]) :
    ∃ t, bellman_ford_IM_tables_exact G source = BFResult.finished t ∧
      t.distances.getD destination 0 = 1000 := by
  cases ht : bellman_ford_IM_tables_exact G source with
  | negativeCycle =>
    rw [bellman_ford_IM_of_negativeCycle_exact ht] at h
    simp at h
  | finished t =>
    rw [bellman_ford_IM_of_finished_exact ht] at h
    simp only [Option.map_eq_some', List.cons.injEq, and_true] at h
    obtain ⟨l, hl, rfl⟩ := h
    exact ⟨t, rfl, printPath_noPath_iff _ _ _ _ _ _ _ hl⟩

theorem dijkstra_AL_output_inv_exact {pq : PriorityQueue} {G : AdjacencyList}
    {source destination fuel a b : Nat} {c : OutLine}
    (h : dijkstra_AL_exact pq G source destination fuel = some [c, OutLine.noPath a b]) :
    ∃ t, dijkstra_AL_tables_exact pq G source fuel = some t ∧
      t.distances.getD destination 0 = 1000 := by
  cases ht : dijkstra_AL_tables_exact pq G source fuel with
  | none =>
    unfold dijkstra_AL_exact at h
    rw [ht] at h
    simp at h
  | some t =>
    rw [dijkstra_AL_of_tables_exact ht] at h
    simp only [Option.map_eq_some', List.cons.injEq, and_true] at h
    obtain ⟨l, hl, _, rfl⟩ := h
    exact ⟨t, rfl, printPath_noPath_iff _ _ _ _ _ _ _ hl⟩

theorem dijkstra_IM_output_inv_exact {pq : PriorityQueue} {G : IncidenceMatrix}
    {source destination fuel a b : Nat}
    (h : dijkstra_IM_exact pq G source destination fuel = some [OutLine.noPath a b]) :
    ∃ t, dijkstra_IM_tables_exact pq G source fuel = some t ∧
      t.distances.getD destination 0 = 1000 := by
  cases ht : dijkstra_IM_tables_exact pq G source fuel with
  | none =>
    unfold dijkstra_IM_exact at h
    rw [ht] at h
    simp at h
  | some t =>
    rw [dijkstra_IM_of_tables_exact ht] at h
    simp only [Option.map_eq_some', List.cons.injEq, and_true] at h
    obtain ⟨l, hl, rfl⟩ := h
    exact ⟨t, rfl, printPath_noPath_iff _ _ _ _ _ _ _ hl⟩

theorem RelaxSteps.rinv {E : Nat → Nat → Int → Prop} {V s : Nat} {t : Tables}
    (hE : EdgesBelow E V)
    (h : RelaxSteps E { distances := initDistances V s, path := initPath V } t) :
    RInv E V s t := by
  induction h with
  | start => exact RInv.at_start E V s
  | relax u v w _ he himp ih => exact ih.relax hE he himp

theorem RelaxSteps.of_imp {E F : Nat → Nat → Int → Prop} {t0 t : Tables}
    (hEF : ∀ u v w, E u v w → F u v w) (h : RelaxSteps E t0 t) : RelaxSteps F t0 t := by
  induction h with
  | start => exact RelaxSteps.start
  | relax u v w _ he himp ih => exact RelaxSteps.relax u v w ih (hEF u v w he) himp

theorem RelaxSteps.steps_relaxRow {E : Nat → Nat → Int → Prop} {t0 t : Tables}
    {row : Nat × Nat × Int} (h : RelaxSteps E t0 t) (he : E row.1 row.2.1 row.2.2) :
    RelaxSteps E t0 (relaxRow_exact t row) := by
  unfold SdizoGraphs.relaxRow_exact
  split
  · next himp => exact RelaxSteps.relax _ _ _ h he himp
  · exact h

theorem RelaxSteps.steps_passRows {rows sub : List (Nat × Nat × Int)} {t0 t : Tables}
    (hsub : ∀ r ∈ sub, r ∈ rows) (h : RelaxSteps (RowEdge rows) t0 t) :
    RelaxSteps (RowEdge rows) t0 (passRows_exact sub t) := by
  induction sub generalizing t with
  | nil => exact h
  | cons r sub ih =>
    simp only [SdizoGraphs.passRows_exact, List.foldl_cons] at ih ⊢
    exact ih (fun x hx => hsub x (List.mem_cons_of_mem _ hx))
      (h.steps_relaxRow (hsub r (List.mem_cons_self _ _)))

theorem RelaxSteps.steps_iterRows (rows : List (Nat × Nat × Int)) (V s k : Nat) :
    RelaxSteps (RowEdge rows) { distances := initDistances V s, path := initPath V }
      (iterRows_exact rows V s k) := by
  induction k with
  | zero => exact RelaxSteps.start
  | succ k ih =>
    rw [iterRows_succ]
    exact ih.steps_passRows (fun _ h => h)

/-! ### Following the predecessor table -/

theorem weight_snoc (p : List (Nat × Nat × Int)) (u v : Nat) (w : Int) :
    weight (p ++ [(u, v, w)]) = weight p + w := by
  rw [weight_append, weight_cons, weight_nil]
  simp

theorem predStep_neg_one (path : List Int) : predStep path (-1) = -1 := by
  simp [predStep]

theorem predStep_vertex (path : List Int) (v : Nat) :
    predStep path (v : Int) = path.getD v 0 := by
  unfold predStep
  rw [if_neg (by omega)]
  simp

theorem predStep_iterate_neg_one (path : List Int) (n : Nat) :
    (predStep path)^[n] (-1) = -1 := by
  induction n with
  | zero => rfl
  | succ n ih => rw [Function.iterate_succ_apply, predStep_neg_one, ih]

/-- The value `path[v]` of a vertex is `-1` or a vertex. -/
theorem RInv.path_value {E : Nat → Nat → Int → Prop} {V s : Nat} {t : Tables}
    (h : RInv E V s t) (v : Nat) (hv : v < V) :
    t.path.getD v 0 = -1 ∨ ∃ u, u < V ∧ t.path.getD v 0 = (u : Int) := by
  rcases h.pred v hv with ⟨h1, _⟩ | ⟨u, w, hu, h1, _, _⟩
  · exact Or.inl h1
  · exact Or.inr ⟨u, hu, h1⟩

theorem RInv.iterate_value {E : Nat → Nat → Int → Prop} {V s : Nat} {t : Tables}
    (h : RInv E V s t) (n : Nat) : ∀ v, v < V →
    (predStep t.path)^[n] (v : Int) = -1 ∨
      ∃ u, u < V ∧ (predStep t.path)^[n] (v : Int) = (u : Int) := by
  induction n with
  | zero => intro v hv; exact Or.inr ⟨v, hv, rfl⟩
  | succ n ih =>
    intro v hv
    rw [Function.iterate_succ_apply, predStep_vertex]
    rcases h.path_value v hv with h1 | ⟨u, hu, h1⟩
    · rw [h1, predStep_iterate_neg_one]
      exact Or.inl rfl
    · rw [h1]
      exact ih u hu

/-- A chain of `m` predecessor steps from `u` up to `v` is a walk of `m` selected edges
from `v` to `u`, along which the distances grow at least by the weights; the vertices of
the walk, read backwards, are the values the steps run through. -/
theorem RInv.chain_walk {E : Nat → Nat → Int → Prop} {V s : Nat} {t : Tables}
    (h : RInv E V s t) (m : Nat) : ∀ u v : Nat, u < V →
    (predStep t.path)^[m] (u : Int) = (v : Int) →
    ∃ p, IsWalk (PredEdge E t) v p u ∧ p.length = m ∧
      t.distances.getD v 0 + weight p ≤ t.distances.getD u 0 ∧
      ((visited v p).reverse.map (fun x : Nat => (x : Int))) =
        (List.range (m + 1)).map (fun j => (predStep t.path)^[j] (u : Int)) := by
  induction m with
  | zero =>
    intro u v _ huv
    have : u = v := by
      simp only [Function.iterate_zero, id_eq] at huv
      omega
    subst this
    exact ⟨[], rfl, rfl, by simp [weight], by simp [visited]⟩
  | succ m ih =>
    intro u v hu huv
    rw [Function.iterate_succ_apply, predStep_vertex] at huv
    rcases h.pred u hu with ⟨h1, _⟩ | ⟨u1, w1, hu1, h1, h2, h3⟩
    · rw [h1, predStep_iterate_neg_one] at huv
      omega
    · rw [h1] at huv
      obtain ⟨p, hp, hlen, hd, hvis⟩ := ih u1 v hu1 huv
      refine ⟨p ++ [(u1, u, w1)], hp.snoc ⟨h2, h1⟩, by simp [hlen], ?_, ?_⟩
      · rw [weight_snoc]
        omega
      · have e1 : visited v (p ++ [(u1, u, w1)]) = visited v p ++ [u] := by
          simp [visited]
        rw [e1, List.reverse_append, List.map_append, hvis]
        rw [List.range_succ_eq_map (m + 1), List.map_cons, List.map_map]
        simp only [List.reverse_cons, List.reverse_nil, List.nil_append, List.map_cons,
          List.map_nil, List.singleton_append, Function.iterate_zero, id_eq, List.cons.injEq,
          true_and]
        apply List.map_congr_left
        intro j _
        simp only [Function.comp_apply, Function.iterate_succ_apply, predStep_vertex, h1]

theorem IsWalk.of_predEdge {E : Nat → Nat → Int → Prop} {t : Tables} {a b : Nat}
    {p : List (Nat × Nat × Int)} (hp : IsWalk (PredEdge E t) a p b) : IsWalk E a p b :=
  hp.mono (fun _ _ _ h => h.1)

/-- An improving edge `(u, v, w)` cannot close a chain of predecessor steps from `u` up to
`v`, unless the graph has a negative cycle. -/
theorem RInv.not_ancestor {E : Nat → Nat → Int → Prop} {V s : Nat} {t : Tables}
    (hE : EdgesBelow E V) (h : RInv E V s t) (hneg : ¬ HasNegCycle E) {u v : Nat} {w : Int}
    (he : E u v w) (himp : t.distances.getD v 0 > t.distances.getD u 0 + w) (m : Nat) :
    (predStep t.path)^[m] (u : Int) ≠ (v : Int) := by
  intro hm
  obtain ⟨p, hp, _, hd, _⟩ := h.chain_walk m u v (hE u v w he).1 hm
  apply hneg
  refine ⟨v, p ++ [(u, v, w)], hp.of_predEdge.snoc he, ?_⟩
  rw [weight_snoc]
  omega

/-! ### The predecessor table has no cycle -/

theorem predStep_set_vertex (path : List Int) (v j : Nat) (x : Int) (h : j ≠ v) :
    predStep (path.set v x) (j : Int) = predStep path (j : Int) := by
  rw [predStep_vertex, predStep_vertex, getD_set_ne _ _ _ _ h]

/-- As long as the steps avoid `v`, the table changed at `v` is followed like the old one. -/
theorem iterate_set_eq (path : List Int) (v : Nat) (x : Int) (a : Int) (n : Nat)
    (hval : ∀ j, j < n → (predStep (path.set v x))^[j] a = -1 ∨
      ∃ k : Nat, (predStep (path.set v x))^[j] a = (k : Int))
    (hne : ∀ j, j < n → (predStep (path.set v x))^[j] a ≠ (v : Int)) :
    (predStep (path.set v x))^[n] a = (predStep path)^[n] a := by
  induction n with
  | zero => rfl
  | succ n ih =>
    have e := ih (fun j hj => hval j (by omega)) (fun j hj => hne j (by omega))
    rw [Function.iterate_succ_apply', Function.iterate_succ_apply', ← e]
    rcases hval n (by omega) with h1 | ⟨k, hk⟩
    · rw [h1, predStep_neg_one, predStep_neg_one]
    · have hkv : k ≠ v := by
        intro hc
        exact hne n (by omega) (by rw [hk, hc])
      rw [hk, predStep_set_vertex _ _ _ _ hkv]

theorem PInv.at_start_tables (V s : Nat) :
    PInv V s { distances := initDistances V s, path := initPath V } := by
  refine ⟨?_, ?_⟩
  · intro v hv h
    exact absurd (getD_initPath V v hv) h
  · intro v hv n hn
    obtain ⟨k, rfl⟩ : ∃ k, n = k + 1 := ⟨n - 1, by omega⟩
    rw [Function.iterate_succ_apply, predStep_vertex]
    show (predStep (initPath V))^[k] ((initPath V).getD v 0) ≠ _
    rw [getD_initPath V v hv, predStep_iterate_neg_one]
    omega

/-- One improving write keeps the predecessor invariants, unless the graph has a negative
cycle. -/
theorem PInv.relax_step {E : Nat → Nat → Int → Prop} {V s : Nat} {t : Tables}
    (hE : EdgesBelow E V) (h : RInv E V s t) (hp : PInv V s t) (hneg : ¬ HasNegCycle E)
    {u v : Nat} {w : Int} (he : E u v w)
    (himp : t.distances.getD v 0 > t.distances.getD u 0 + w) :
    PInv V s { distances := t.distances.set v (t.distances.getD u 0 + w),
               path := t.path.set v (u : Int) } := by
  obtain ⟨hu, hv⟩ := hE u v w he
  have hvd : v < t.distances.length := by rw [h.len_d]; exact hv
  have hvp : v < t.path.length := by rw [h.len_p]; exact hv
  have h1 := h.relax hE he himp
  refine ⟨?_, ?_⟩
  · intro x hx hne
    by_cases hxv : x = v
    · subst hxv
      have := h.le_start x hx
      show (t.distances.set x _).getD x 0 < _
      rw [getD_set_self _ _ _ hvd]
      omega
    · have hne1 : t.path.getD x 0 ≠ -1 := by
        intro hc
        apply hne
        show (t.path.set v _).getD x 0 = -1
        rw [getD_set_ne _ _ _ _ hxv]
        exact hc
      show (t.distances.set v _).getD x 0 < _
      rw [getD_set_ne _ _ _ _ hxv]
      exact hp.strict x hx hne1
  · intro a ha n hn hcyc
    have hval : ∀ (b : Nat), b < V → ∀ j,
        (predStep (t.path.set v (u : Int)))^[j] (b : Int) = -1 ∨
          ∃ k : Nat, (predStep (t.path.set v (u : Int)))^[j] (b : Int) = (k : Int) := by
      intro b hb j
      rcases h1.iterate_value j b hb with h2 | ⟨k, _, h2⟩
      · exact Or.inl h2
      · exact Or.inr ⟨k, h2⟩
    by_cases hx : ∃ j, j < n ∧ (predStep (t.path.set v (u : Int)))^[j] (a : Int) = (v : Int)
    · obtain ⟨j, _, hj⟩ := hx
      have hv_cyc : (predStep (t.path.set v (u : Int)))^[n] (v : Int) = (v : Int) := by
        rw [← hj, ← Function.iterate_add_apply, Nat.add_comm, Function.iterate_add_apply,
          hcyc]
      obtain ⟨k, rfl⟩ : ∃ k, n = k + 1 := ⟨n - 1, by omega⟩
      rw [Function.iterate_succ_apply, predStep_vertex, getD_set_self _ _ _ hvp] at hv_cyc
      have hex : ∃ m, (predStep (t.path.set v (u : Int)))^[m] (u : Int) = (v : Int) :=
        ⟨k, hv_cyc⟩
      classical
      have hspec := Nat.find_spec hex
      have hmin : ∀ j, j < Nat.find hex →
          (predStep (t.path.set v (u : Int)))^[j] (u : Int) ≠ (v : Int) :=
        fun j hj => Nat.find_min hex hj
      rw [iterate_set_eq t.path v (u : Int) (u : Int) (Nat.find hex)
        (fun j _ => hval u hu j) hmin] at hspec
      exact h.not_ancestor hE hneg he himp _ hspec
    · have hne : ∀ j, j < n →
          (predStep (t.path.set v (u : Int)))^[j] (a : Int) ≠ (v : Int) :=
        fun j hj hc => hx ⟨j, hj, hc⟩
      rw [iterate_set_eq t.path v (u : Int) (a : Int) n (fun j _ => hval a ha j) hne] at hcyc
      exact hp.acyclic a ha n hn hcyc

theorem RelaxSteps.pinv {E : Nat → Nat → Int → Prop} {V s : Nat} {t : Tables}
    (hE : EdgesBelow E V) (hneg : ¬ HasNegCycle E)
    (h : RelaxSteps E { distances := initDistances V s, path := initPath V } t) :
    RInv E V s t ∧ PInv V s t := by
  induction h with
  | start => exact ⟨RInv.at_start E V s, PInv.at_start_tables V s⟩
  | relax u v w _ he himp ih => exact ⟨ih.1.relax hE he himp, ih.2.relax_step hE ih.1 hneg he himp⟩

/-- Following the predecessor table from any vertex reaches `-1` after at most `V` steps. -/
theorem PInv.reaches_none {E : Nat → Nat → Int → Prop} {V s : Nat} {t : Tables}
    (h : RInv E V s t) (hp : PInv V s t) (v : Nat) (hv : v < V) :
    ∃ n, n ≤ V ∧ (predStep t.path)^[n] (v : Int) = -1 := by
  by_contra hno
  have hvert : ∀ n, n ≤ V → ∃ k, k < V ∧ (predStep t.path)^[n] (v : Int) = (k : Int) := by
    intro n hn
    rcases h.iterate_value n v hv with h1 | h1
    · exact absurd ⟨n, hn, h1⟩ hno
    · exact h1
  choose g hg using fun (n : Fin (V + 1)) => hvert n.1 (by omega)
  obtain ⟨x, y, hxy, he⟩ := Fintype.exists_ne_map_eq_of_card_lt
    (fun n : Fin (V + 1) => (⟨g n, (hg n).1⟩ : Fin V)) (by simp)
  have hgxy : g x = g y := by simpa using he
  have key : ∀ a b : Fin (V + 1), a.1 < b.1 → g a = g b → False := by
    intro a b hab hgab
    have h1 : (predStep t.path)^[b.1] (v : Int) = (predStep t.path)^[a.1] (v : Int) := by
      rw [(hg a).2, (hg b).2, hgab]
    have h2 : b.1 = (b.1 - a.1) + a.1 := by omega
    rw [h2, Function.iterate_add_apply, (hg a).2] at h1
    exact hp.acyclic (g a) (hg a).1 (b.1 - a.1) (by omega) h1
  rcases Nat.lt_or_gt_of_ne (fun hc => hxy (Fin.ext hc)) with hlt | hgt
  · exact key x y hlt hgxy
  · exact key y x hgt hgxy.symm

/-! ### The loop of printPath -/

theorem printPathLoop_run (source : Nat) (path : List Int) (n : Nat) :
    ∀ (i : Int) (acc : List Int),
      (∀ j, j < n → (predStep path)^[j] i ≠ (source : Int) ∧ (predStep path)^[j] i ≠ -1) →
      ((predStep path)^[n] i = (source : Int) ∨ (predStep path)^[n] i = -1) →
      ∀ fuel, n < fuel →
      printPathLoop source path fuel i acc =
        some (acc ++ (List.range (n + 1)).map (fun j => (predStep path)^[j] i)) := by
  induction n with
  | zero =>
    intro i acc _ hstop fuel hfuel
    obtain ⟨k, rfl⟩ : ∃ k, fuel = k + 1 := ⟨fuel - 1, by omega⟩
    simp only [Function.iterate_zero, id_eq] at hstop
    unfold printPathLoop
    rw [if_neg (by
      intro hc
      rcases hstop with h | h
      · exact hc.1 h
      · exact hc.2 h)]
    simp
  | succ n ih =>
    intro i acc hgo hstop fuel hfuel
    obtain ⟨k, rfl⟩ : ∃ k, fuel = k + 1 := ⟨fuel - 1, by omega⟩
    have h0 := hgo 0 (by omega)
    simp only [Function.iterate_zero, id_eq] at h0
    unfold printPathLoop
    rw [if_pos h0]
    have hstep : path.getD i.toNat 0 = predStep path i := by
      unfold predStep
      rw [if_neg h0.2]
    rw [hstep, ih (predStep path i) (acc ++ [i])
      (fun j hj => by
        have := hgo (j + 1) (by omega)
        rwa [Function.iterate_succ_apply] at this)
      (by rwa [Function.iterate_succ_apply] at hstop) k (by omega)]
    rw [List.range_succ_eq_map (n + 1), List.map_cons, List.map_map]
    simp only [Function.iterate_zero, id_eq, List.append_assoc, List.singleton_append,
      Option.some.injEq, List.append_cancel_left_eq, List.cons.injEq, true_and]
    apply List.map_congr_left
    intro j _
    simp only [Function.comp_apply, Function.iterate_succ_apply]

/-! ### Where the predecessor walk ends -/

/-- For tables that satisfy the invariants and admit no improvement: the walk of `printPath`
from `destination` stops at a vertex `a`, either the source, or a vertex with `path[a] = -1`
that still holds the sentinel (then `-1` is printed last).  The steps taken are the edges
of a walk `p` from `a` to the destination, with `path[v] = u` for each edge `(u, v, w)`,
and the weights sum to `distance[destination] - distance[a]`. -/
theorem pred_walk_ends {E : Nat → Nat → Int → Prop} {V s : Nat} {t : Tables}
    (h : RInv E V s t) (hp : PInv V s t)
    (hfix : ∀ u v w, E u v w → t.distances.getD v 0 ≤ t.distances.getD u 0 + w)
    (destination fuel : Nat) (hd : destination < V) (hfuel : V < fuel) :
    ∃ a p, a < V ∧ IsWalk (PredEdge E t) a p destination ∧ p.length ≤ V ∧
      t.distances.getD a 0 + weight p = t.distances.getD destination 0 ∧
      ((a = s ∧ printPathLoop s t.path fuel (destination : Int) [] =
          some ((visited a p).reverse.map (fun x : Nat => (x : Int)))) ∨
       (a ≠ s ∧ t.path.getD a 0 = -1 ∧ t.distances.getD a 0 = 1000 ∧
        printPathLoop s t.path fuel (destination : Int) [] =
          some ((visited a p).reverse.map (fun x : Nat => (x : Int)) ++ [-1]))) := by
  obtain ⟨n1, hn1, hnone⟩ := hp.reaches_none h destination hd
  have hex : ∃ n, (predStep t.path)^[n] (destination : Int) = (s : Int) ∨
      (predStep t.path)^[n] (destination : Int) = -1 := ⟨n1, Or.inr hnone⟩
  classical
  have hspec := Nat.find_spec hex
  have hle : Nat.find hex ≤ n1 := Nat.find_min' hex (Or.inr hnone)
  have hmin : ∀ j, j < Nat.find hex →
      (predStep t.path)^[j] (destination : Int) ≠ (s : Int) ∧
        (predStep t.path)^[j] (destination : Int) ≠ -1 := by
    intro j hj
    have := Nat.find_min hex hj
    exact ⟨fun hc => this (Or.inl hc), fun hc => this (Or.inr hc)⟩
  have hrun := printPathLoop_run s t.path (Nat.find hex) (destination : Int) [] hmin hspec
    fuel (by omega)
  rw [List.nil_append] at hrun
  rcases hspec with hs | hm
  · have hsV : s < V := by
      rcases h.iterate_value (Nat.find hex) destination hd with h1 | ⟨k, hk, h1⟩
      · rw [h1] at hs; omega
      · rw [h1] at hs
        have : k = s := by omega
        omega
    obtain ⟨p, hp1, hlen, hle1, hvis⟩ := h.chain_walk (Nat.find hex) destination s hd hs
    have hge := walk_le_of_fixpoint hfix hp1.of_predEdge
    refine ⟨s, p, hsV, hp1, by omega, by omega, Or.inl ⟨rfl, ?_⟩⟩
    rw [hrun, hvis]
  · have hs : (predStep t.path)^[Nat.find hex] (destination : Int) ≠ (s : Int) := by
      rw [hm]; omega
    obtain ⟨k, hk⟩ : ∃ k, Nat.find hex = k + 1 := by
      refine ⟨Nat.find hex - 1, ?_⟩
      have : Nat.find hex ≠ 0 := by
        intro hc
        rw [hc] at hm
        simp only [Function.iterate_zero, id_eq] at hm
        omega
      omega
    rw [hk] at hm hrun
    have hk1 := hmin k (by omega)
    rcases h.iterate_value k destination hd with h1 | ⟨a, ha, h1⟩
    · exact absurd h1 hk1.2
    · have has : a ≠ s := by
        intro hc
        apply hk1.1
        rw [h1, hc]
      have hpa : t.path.getD a 0 = -1 := by
        rw [Function.iterate_succ_apply', h1, predStep_vertex] at hm
        exact hm
      have hda : t.distances.getD a 0 = 1000 := by
        rcases h.pred a ha with ⟨_, h2⟩ | ⟨u, _, _, h2, _, _⟩
        · rw [h2]
          simp [startValue, has]
        · rw [hpa] at h2; omega
      obtain ⟨p, hp1, hlen, hle1, hvis⟩ := h.chain_walk k destination a hd h1
      have hge := walk_le_of_fixpoint hfix hp1.of_predEdge
      refine ⟨a, p, ha, hp1, by omega, by omega, Or.inr ⟨has, hpa, hda, ?_⟩⟩
      rw [hrun, hvis, List.range_succ (k + 1), List.map_append]
      simp only [List.map_cons, List.map_nil, hm]

/-- With non-negative weights a destination below the sentinel is reached from the source
along the predecessor table, and the weights sum to its distance. -/
theorem pred_walk_source {E : Nat → Nat → Int → Prop} {V s : Nat} {t : Tables}
    (h : RInv E V s t) (hw : ∀ u v w, E u v w → 0 ≤ w) {a destination : Nat}
    {p : List (Nat × Nat × Int)} (hd : destination < V) (ha : a < V)
    (hp : IsWalk (PredEdge E t) a p destination)
    (hsum : t.distances.getD a 0 + weight p = t.distances.getD destination 0)
    (hne : t.distances.getD destination 0 ≠ 1000)
    (hend : a = s ∨ t.distances.getD a 0 = 1000) :
    a = s ∧ weight p = t.distances.getD destination 0 := by
  have h1 := h.le_start destination hd
  have h2 : startValue s destination ≤ 1000 := by
    unfold startValue; split <;> omega
  have h3 := weight_nonneg_of_walk hw hp.of_predEdge
  have has : a = s := by
    rcases hend with h4 | h4
    · exact h4
    · omega
  refine ⟨has, ?_⟩
  obtain ⟨b, q, _, hq, hb⟩ := h.real a ha
  have h5 := weight_nonneg_of_walk hw hq
  have h6 := h.le_start a ha
  have h7 : startValue s a = 0 := by simp [startValue, has]
  have h8 : 0 ≤ startValue s b := by
    unfold startValue; split <;> omega
  omega

/-! ### Runs as sequences of relaxations -/

theorem bfRows_finished_eq {rows : List (Nat × Nat × Int)} {V s : Nat} {t : Tables}
    (h : bfRows_exact rows V s = BFResult.finished t) : t = iterRows_exact rows V s (V - 1) := by
  unfold bfRows_exact at h
  split at h
  · simp at h
  · simp only [BFResult.finished.injEq] at h
    exact h.symm

/-- A successful Bellman-Ford run: no negative cycle in the graph, and tables that satisfy
all invariants and admit no improvement. -/
theorem bfRows_finished_all {rows : List (Nat × Nat × Int)} {V s : Nat} {t : Tables}
    (hE : EdgesBelow (RowEdge rows) V) (h : bfRows_exact rows V s = BFResult.finished t) :
    ¬ HasNegCycle (RowEdge rows) ∧ RInv (RowEdge rows) V s t ∧ PInv V s t ∧
      ∀ u v w, RowEdge rows u v w → t.distances.getD v 0 ≤ t.distances.getD u 0 + w := by
  have hneg : ¬ HasNegCycle (RowEdge rows) := by
    intro hc
    rw [bfRows_negativeCycle_complete hc] at h
    simp at h
  have ht := bfRows_finished_eq h
  have hsteps := RelaxSteps.steps_iterRows rows V s (V - 1)
  rw [← ht] at hsteps
  obtain ⟨h1, h2⟩ := hsteps.pinv hE hneg
  exact ⟨hneg, h1, h2, (bfRows_finished_inv hE h).2⟩

theorem relaxChainNode_steps {pq : PriorityQueue} {G : AdjacencyList} {s u : Nat} {min : Int}
    {st st1 : DState} {temp : Edge} {t0 : Tables} (hc : CInv pq G s u min st)
    (he : ChainEdge G u temp.destination temp.weight)
    (hr : relaxChainNode_exact pq u min temp st = some st1)
    (h0 : RelaxSteps (ChainEdge G) t0 { distances := st.distances, path := st.path }) :
    RelaxSteps (ChainEdge G) t0 { distances := st1.distances, path := st1.path } := by
  unfold relaxChainNode_exact at hr
  split at hr
  · next himp =>
    cases hf : find st.Q temp.destination with
    | none => rw [hf] at hr; simp at hr
    | some i =>
      rw [hf] at hr
      simp only [Option.some.injEq] at hr
      subst hr
      have h1 : st.distances.getD temp.destination 0 >
          st.distances.getD u 0 + temp.weight := by rw [hc.du]; exact himp
      have := RelaxSteps.relax u temp.destination temp.weight h0 he h1
      rw [hc.du] at this
      exact this
  · simp only [Option.some.injEq] at hr
    subst hr
    exact h0

theorem chainLoop_steps {pq : PriorityQueue} {G : AdjacencyList} {s u : Nat} {min : Int}
    {t0 : Tables} (hl : pq.Lawful) (hE : EdgesBelow (ChainEdge G) G.getVerticesNum)
    (l : List Edge) : ∀ st st1 : DState, CInv pq G s u min st →
      (∀ e ∈ l, ChainEdge G u e.destination e.weight) →
      chainLoop_exact pq u min l st = some st1 →
      RelaxSteps (ChainEdge G) t0 { distances := st.distances, path := st.path } →
      RelaxSteps (ChainEdge G) t0 { distances := st1.distances, path := st1.path } := by
  induction l with
  | nil =>
    intro st st1 _ _ hr h0
    simp only [chainLoop_exact, Option.some.injEq] at hr
    subst hr
    exact h0
  | cons temp next ih =>
    intro st st1 hc hall hr h0
    simp only [chainLoop_exact] at hr
    cases h1 : relaxChainNode_exact pq u min temp st with
    | none => rw [h1] at hr; simp at hr
    | some st2 =>
      rw [h1] at hr
      simp only [Option.some_bind] at hr
      have he := hall temp (List.mem_cons_self _ _)
      exact ih st2 st1 (relaxChainNode_spec hl hE hc he h1).1
        (fun e h => hall e (List.mem_cons_of_mem _ h)) hr
        (relaxChainNode_steps hc he h1 h0)

theorem dijkstraLoop_AL_steps {pq : PriorityQueue} {G : AdjacencyList} {s : Nat}
    {t0 : Tables} (hl : pq.Lawful) (hE : EdgesBelow (ChainEdge G) G.getVerticesNum)
    (fuel : Nat) : ∀ st st1 : DState, DInv pq G s st →
      dijkstraLoop_AL_exact pq G fuel st = some st1 →
      RelaxSteps (ChainEdge G) t0 { distances := st.distances, path := st.path } →
      RelaxSteps (ChainEdge G) t0 { distances := st1.distances, path := st1.path } := by
  induction fuel with
  | zero => intro st st1 _ hr; simp [dijkstraLoop_AL_exact] at hr
  | succ fuel ih =>
    intro st st1 hd hr h0
    unfold dijkstraLoop_AL_exact at hr
    cases hq : st.Q with
    | nil =>
      rw [hq] at hr
      simp only [Option.some.injEq] at hr
      subst hr
      exact h0
    | cons root rest =>
      rw [hq] at hr
      simp only at hr
      have hc := CInv.after_extract hl hd hq
      cases h2 : chainLoop_exact pq root.number (pq.extractMin (root :: rest)).1
          (G.getVertices root.number) { st with Q := (pq.extractMin (root :: rest)).2 } with
      | none => rw [h2] at hr; simp at hr
      | some st2 =>
        rw [h2] at hr
        simp only [Option.some_bind] at hr
        have hall : ∀ e ∈ G.getVertices root.number,
            ChainEdge G root.number e.destination e.weight := fun e he => ⟨hc.u_lt, he⟩
        obtain ⟨hc2, _, _, _⟩ := chainLoop_spec hl hE _ _ _ hc hall h2
        exact ih st2 st1 (DInv.after_chain hc2) hr (chainLoop_steps hl hE _ _ _ hc hall h2 h0)

/-- The tables `dijkstra_AL` ends with arise from the initial ones by improving writes
along edges of the graph. -/
theorem dijkstra_AL_tables_steps {pq : PriorityQueue} {G : AdjacencyList} {s fuel : Nat}
    {t : Tables} (hl : pq.Lawful) (hE : EdgesBelow (ChainEdge G) G.getVerticesNum)
    (h : dijkstra_AL_tables_exact pq G s fuel = some t) :
    RelaxSteps (ChainEdge G)
      { distances := initDistances G.getVerticesNum s, path := initPath G.getVerticesNum }
      t := by
  unfold dijkstra_AL_tables_exact at h
  simp only [Option.map_eq_some'] at h
  obtain ⟨st, hst, rfl⟩ := h
  exact dijkstraLoop_AL_steps hl hE fuel _ _ (DInv.at_first_state hl G s) hst
    RelaxSteps.start

/-- With non-negative weights the tables `dijkstra_AL` ends with satisfy all invariants and
admit no improvement. -/
theorem dijkstra_AL_tables_all {pq : PriorityQueue} {G : AdjacencyList} {s fuel : Nat}
    {t : Tables} (hl : pq.Lawful) (hE : EdgesBelow (ChainEdge G) G.getVerticesNum)
    (hw : ∀ a b w, ChainEdge G a b w → 0 ≤ w)
    (h : dijkstra_AL_tables_exact pq G s fuel = some t) :
    RInv (ChainEdge G) G.getVerticesNum s t ∧ PInv G.getVerticesNum s t ∧
      ∀ u v w, ChainEdge G u v w → t.distances.getD v 0 ≤ t.distances.getD u 0 + w := by
  obtain ⟨h1, h2⟩ := (dijkstra_AL_tables_steps hl hE h).pinv hE (not_hasNegCycle_of_nonneg hw)
  exact ⟨h1, h2, (dijkstra_AL_tables_fixpoint hl hE hw h).2⟩

theorem dijkstra_IM_tables_all {pq : PriorityQueue} {G : IncidenceMatrix} {s fuel : Nat}
    {t : Tables} (hl : pq.Lawful) (hE : EdgesBelow (RowEdge (rowsIM G)) G.getVerticesNum)
    (hw : ∀ a b w, RowEdge (rowsIM G) a b w → 0 ≤ w)
    (h : dijkstra_IM_tables_exact pq G s fuel = some t) :
    RInv (RowEdge (rowsIM G)) G.getVerticesNum s t ∧ PInv G.getVerticesNum s t ∧
      ∀ u v w, RowEdge (rowsIM G) u v w →
        t.distances.getD v 0 ≤ t.distances.getD u 0 + w := by
  obtain ⟨h1, h2⟩ := dijkstra_IM_tables_fixpoint hl hE hw h
  rw [dijkstra_IM_tables_eq_exact] at h
  obtain ⟨_, h3, _⟩ := dijkstra_AL_tables_all hl (edgesBelow_chainsOfIM hE)
    (fun a b w h => hw a b w ((chainEdge_chainsOfIM_iff hE a b w).mp h)) h
  exact ⟨h1, h3, h2⟩

theorem printPath_of_ne {source destination : Nat} {distance : Int} {path : List Int}
    {fuel : Nat} {l : List Int} (hne : distance ≠ 1000)
    (h : printPathLoop source path fuel (destination : Int) [] = some l) :
    printPath source destination distance path fuel = some (OutLine.route l distance) := by
  unfold printPath
  rw [if_neg hne, h]
  rfl

/-- The line `printPath` writes for a destination that does not hold the sentinel, for
tables that satisfy the invariants and admit no improvement. -/
theorem pred_walk_print {E : Nat → Nat → Int → Prop} {V s : Nat} {t : Tables}
    (h : RInv E V s t) (hp : PInv V s t)
    (hfix : ∀ u v w, E u v w → t.distances.getD v 0 ≤ t.distances.getD u 0 + w)
    (destination fuel : Nat) (hd : destination < V) (hfuel : V < fuel)
    (hne : t.distances.getD destination 0 ≠ 1000) :
    ∃ a p, a < V ∧ IsWalk (PredEdge E t) a p destination ∧ p.length ≤ V ∧
      t.distances.getD a 0 + weight p = t.distances.getD destination 0 ∧
      ((a = s ∧ printPath s destination (t.distances.getD destination 0) t.path fuel =
          some (OutLine.route ((visited a p).reverse.map (fun x : Nat => (x : Int)))
            (t.distances.getD destination 0))) ∨
       (a ≠ s ∧ t.path.getD a 0 = -1 ∧ t.distances.getD a 0 = 1000 ∧
        printPath s destination (t.distances.getD destination 0) t.path fuel =
          some (OutLine.route ((visited a p).reverse.map (fun x : Nat => (x : Int)) ++ [-1])
            (t.distances.getD destination 0)))) ∧
      ((∀ u v w, E u v w → 0 ≤ w) →
        a = s ∧ weight p = t.distances.getD destination 0) := by
  obtain ⟨a, p, ha, hp1, hlen, hsum, hcase⟩ := pred_walk_ends h hp hfix destination fuel hd hfuel
  refine ⟨a, p, ha, hp1, hlen, hsum, ?_, ?_⟩
  · rcases hcase with ⟨h1, h2⟩ | ⟨h1, h2, h3, h4⟩
    · exact Or.inl ⟨h1, printPath_of_ne hne h2⟩
    · exact Or.inr ⟨h1, h2, h3, printPath_of_ne hne h4⟩
  · intro hw
    refine pred_walk_source h hw hd ha hp1 hsum hne ?_
    rcases hcase with ⟨h1, _⟩ | ⟨_, _, h3, _⟩
    · exact Or.inl h1
    · exact Or.inr h3

/-! ### The negative-cycle flag and the order of the edges -/

theorem printPath_ne_negativeCycle (source destination : Nat) (distance : Int)
    (path : List Int) (fuel : Nat) :
    printPath source destination distance path fuel ≠ some OutLine.negativeCycle := by
  unfold printPath
  split
  · simp
  · cases printPathLoop source path fuel (destination : Int) [] <;> simp

theorem bellman_ford_AL_flag_iff_exact (G : AdjacencyList) (source destination fuel : Nat) :
    bellman_ford_AL_exact G source destination fuel = some [OutLine.negativeCycle] ↔
      bellman_ford_AL_tables_exact G source = BFResult.negativeCycle := by
  constructor
  · intro h
    cases ht : bellman_ford_AL_tables_exact G source with
    | negativeCycle => rfl
    | finished t =>
      rw [bellman_ford_AL_of_finished_exact ht] at h
      have := printPath_ne_negativeCycle source destination (t.distances.getD destination 0)
        t.path fuel
      cases hp : printPath source destination (t.distances.getD destination 0) t.path fuel with
      | none => rw [hp] at h; simp at h
      | some l =>
        rw [hp] at h this
        simp only [Option.map_some', Option.some.injEq, List.cons.injEq, and_true] at h
        subst h
        exact absurd rfl this
  · intro h
    exact bellman_ford_AL_of_negativeCycle_exact h _ _

theorem bellman_ford_IM_flag_iff_exact (G : IncidenceMatrix) (source destination fuel : Nat) :
    bellman_ford_IM_exact G source destination fuel = some [OutLine.negativeCycle] ↔
      bellman_ford_IM_tables_exact G source = BFResult.negativeCycle := by
  constructor
  · intro h
    cases ht : bellman_ford_IM_tables_exact G source with
    | negativeCycle => rfl
    | finished t =>
      rw [bellman_ford_IM_of_finished_exact ht] at h
      have := printPath_ne_negativeCycle source destination (t.distances.getD destination 0)
        t.path fuel
      cases hp : printPath source destination (t.distances.getD destination 0) t.path fuel with
      | none => rw [hp] at h; simp at h
      | some l =>
        rw [hp] at h this
        simp only [Option.map_some', Option.some.injEq, List.cons.injEq, and_true] at h
        subst h
        exact absurd rfl this
  · intro h
    exact bellman_ford_IM_of_negativeCycle_exact h _ _

theorem bfRows_negativeCycle_iff {rows : List (Nat × Nat × Int)} {V : Nat} (s : Nat)
    (hE : EdgesBelow (RowEdge rows) V) :
    bfRows_exact rows V s = BFResult.negativeCycle ↔ HasNegCycle (RowEdge rows) :=
  ⟨bfRows_negativeCycle_sound hE, bfRows_negativeCycle_complete⟩

theorem HasNegCycle.cycle_of_imp {E F : Nat → Nat → Int → Prop}
    (hEF : ∀ u v w, E u v w → F u v w) (h : HasNegCycle E) : HasNegCycle F := by
  obtain ⟨a, p, hp, hlt⟩ := h
  exact ⟨a, p, hp.mono hEF, hlt⟩

/-- Two enumerations with the same edges give the same flag and the same distances. -/
theorem bfRows_same_edges {rows1 rows2 : List (Nat × Nat × Int)} {V : Nat} (s : Nat)
    (hmem : ∀ r, r ∈ rows1 ↔ r ∈ rows2) (hE : EdgesBelow (RowEdge rows1) V) :
    (bfRows_exact rows1 V s = BFResult.negativeCycle ↔ bfRows_exact rows2 V s = BFResult.negativeCycle) ∧
    ∀ t1 t2, bfRows_exact rows1 V s = BFResult.finished t1 →
      bfRows_exact rows2 V s = BFResult.finished t2 → t1.distances = t2.distances := by
  have hiff : ∀ u v w, RowEdge rows1 u v w ↔ RowEdge rows2 u v w :=
    fun u v w => hmem (u, v, w)
  have hE2 : EdgesBelow (RowEdge rows2) V := fun u v w h => hE u v w ((hiff u v w).mpr h)
  constructor
  · rw [bfRows_negativeCycle_iff s hE, bfRows_negativeCycle_iff s hE2]
    exact ⟨HasNegCycle.cycle_of_imp (fun u v w => (hiff u v w).mp),
      HasNegCycle.cycle_of_imp (fun u v w => (hiff u v w).mpr)⟩
  · intro t1 t2 h1 h2
    obtain ⟨a1, a2⟩ := bfRows_finished_inv hE h1
    obtain ⟨b1, b2⟩ := bfRows_finished_inv hE2 h2
    exact ((a1.isMinTable a2).of_iff hiff).unique (b1.isMinTable b2)

theorem tieFirst_perm_tieThird : tieFirst.Perm tieThird :=
  List.Perm.cons _ (List.Perm.cons _ (List.Perm.swap _ _ _))

theorem rowsAL_perm_of_perm (V : Nat) {es1 es2 : List IMEdge} (h : es1.Perm es2) :
    (rowsAL (alOfList V es1)).Perm (rowsAL (alOfList V es2)) := by
  rw [rowsAL_alOfList, rowsAL_alOfList]
  exact h.map _

theorem rowsIM_perm_of_perm (V : Nat) {es1 es2 : List IMEdge} (h : es1.Perm es2) :
    (rowsIM (imOfList V es1)).Perm (rowsIM (imOfList V es2)) := by
  rw [rowsIM_imOfList, rowsIM_imOfList]
  exact h.map _

theorem rowsAL_perm_rowsIM (V : Nat) {es1 es2 : List IMEdge} (h : es1.Perm es2) :
    (rowsAL (alOfList V es1)).Perm (rowsIM (imOfList V es2)) := by
  rw [rowsAL_alOfList, rowsIM_imOfList]
  exact h.map _

/-! ### Steps between consecutive tables -/

theorem StepOK.same (t : Tables) : StepOK t t := Or.inl rfl

theorem StepOK.notAbove {t t1 : Tables} (h : StepOK t t1) : NotAbove t t1 := by
  intro y
  rcases h with h | ⟨v, u, x, hx, hd, _⟩
  · rw [h]
  · rw [hd, getD_set]
    split
    · next hc => rw [hc.1]; omega
    · exact le_refl _

theorem NotAbove.trans_le {a b c : Tables} (h1 : NotAbove a b) (h2 : NotAbove b c) :
    NotAbove a c := fun v => le_trans (h2 v) (h1 v)

theorem pairwise_of_chain {l : List Tables} (h : List.Chain' StepOK l) :
    List.Pairwise NotAbove l :=
  List.chain'_iff_pairwise.mp (h.imp (fun _ _ => StepOK.notAbove))

/-! ### Chains of tables -/

theorem SegO.seg_nil_some {α : Type} (R : α → α → Prop) (a : α) : SegO R a [] (some a) := by
  constructor
  · simp
  · intro y hy
    simpa using hy.symm

theorem SegO.seg_nil_none {α : Type} (R : α → α → Prop) (a : α) : SegO R a [] none := by
  constructor
  · simp
  · intro y hy
    simp at hy

theorem SegO.seg_cons {α : Type} {R : α → α → Prop} {a b : α} {l : List α} {o : Option α}
    (hR : R a b) (h : SegO R b l o) : SegO R a (a :: l) o := by
  constructor
  · rw [List.cons_append]
    exact List.Chain'.cons' h.1 (fun y hy => by rw [h.2 y hy]; exact hR)
  · intro y hy
    simpa using hy.symm

theorem SegO.seg_append {α : Type} {R : α → α → Prop} {a b : α} {l1 l2 : List α}
    {o : Option α} (h1 : SegO R a l1 (some b)) (h2 : SegO R b l2 o) :
    SegO R a (l1 ++ l2) o := by
  obtain ⟨c1, d1⟩ := h1
  obtain ⟨c2, d2⟩ := h2
  simp only [Option.toList_some] at c1 d1
  cases hl : l2 ++ o.toList with
  | nil =>
    have e2 : l2 = [] := (List.append_eq_nil.mp hl).1
    have eo : o.toList = [] := (List.append_eq_nil.mp hl).2
    subst e2
    constructor
    · rw [eo]
      simp only [List.append_nil]
      exact (List.chain'_append.mp c1).1
    · intro y hy
      rw [eo] at hy
      simp only [List.append_nil] at hy
      apply d1 y
      cases l1 with
      | nil => simp at hy
      | cons x xs => simpa using hy
  | cons y ys =>
    have hy : y = b := d2 y (by rw [hl]; simp)
    subst hy
    constructor
    · rw [List.append_assoc, hl]
      exact List.chain'_split.mpr ⟨c1, hl ▸ c2⟩
    · intro z hz
      rw [List.append_assoc, hl] at hz
      cases l1 with
      | nil =>
        have : y = a := d1 y (by simp)
        simp only [List.nil_append, List.head?_cons, Option.mem_def, Option.some.injEq] at hz
        rw [← hz]; exact this
      | cons x xs =>
        apply d1 z
        simpa using hz

/-! ### The events of the incidence-matrix variant -/

theorem scanEvents_eq_exact (pq : PriorityQueue) (G : IncidenceMatrix) (u : Nat) (min : Int)
    (l : List Nat) : ∀ st : DState,
    scanEvents_exact pq G u min l st =
      chainEvents_exact pq u min
        (((l.map G.getEdge).filter (fun e => decide (e.source = u))).map
          (fun e => ⟨e.destination, e.weight⟩)) st := by
  induction l with
  | nil => intro st; rfl
  | cons e es ih =>
    intro st
    by_cases h : (G.getEdge e).source = u
    · simp only [scanEvents_exact, List.map_cons, List.filter_cons, h, decide_True, if_true,
        chainEvents_exact, relaxIMScan_eq_exact pq u min (G.getEdge e) st h, List.singleton_append]
      congr 1
      cases relaxChainNode_exact pq u min ⟨(G.getEdge e).destination, (G.getEdge e).weight⟩ st with
      | none => rfl
      | some st1 => exact ih st1
    · simp only [scanEvents_exact, List.map_cons, List.filter_cons, h, decide_False, if_false,
        relaxIMScan_skip_exact pq u min (G.getEdge e) st h, List.nil_append]
      exact ih st

theorem loopEvents_IM_eq_exact (pq : PriorityQueue) (G : IncidenceMatrix) (fuel : Nat) :
    ∀ st : DState, loopEvents_IM_exact pq G fuel st = loopEvents_AL_exact pq (chainsOfIM G) fuel st := by
  induction fuel with
  | zero => intro st; rfl
  | succ fuel ih =>
    intro st
    unfold loopEvents_IM_exact loopEvents_AL_exact
    cases st.Q with
    | nil => rfl
    | cons root rest =>
      simp only [scanEvents_eq_exact, scanLoop_eq_exact, chainsOfIM]
      congr 2
      cases chainLoop_exact pq root.number (pq.extractMin (root :: rest)).1
          (List.map (fun e => ({ destination := e.destination, weight := e.weight } : Edge))
            (List.filter (fun e => decide (e.source = root.number))
              (List.map G.getEdge (List.range G.getEdgesNum))))
          { st with Q := (pq.extractMin (root :: rest)).2 } with
      | none => rfl
      | some st1 => exact ih st1

theorem dijkstra_IM_events_eq_exact (pq : PriorityQueue) (G : IncidenceMatrix) (s fuel : Nat) :
    dijkstra_IM_events_exact pq G s fuel = dijkstra_AL_events_exact pq (chainsOfIM G) s fuel := by
  simp only [dijkstra_IM_events_exact, dijkstra_AL_events_exact, loopEvents_IM_eq_exact]
  rfl

/-! ### Invariants at the events of a Dijkstra run -/

theorem chainEvents_inv {pq : PriorityQueue} {G : AdjacencyList} {s u : Nat} {min : Int}
    (hl : pq.Lawful) (hE : EdgesBelow (ChainEdge G) G.getVerticesNum) (l : List Edge) :
    ∀ st : DState, CInv pq G s u min st →
      (∀ e ∈ l, ChainEdge G u e.destination e.weight) →
      ∀ ev ∈ chainEvents_exact pq u min l st, DEvent.Inv pq G s ev := by
  induction l with
  | nil => intro st _ _ ev hev; simp [chainEvents_exact] at hev
  | cons temp next ih =>
    intro st hc hall ev hev
    simp only [chainEvents_exact, List.mem_cons] at hev
    rcases hev with hev | hev
    · subst hev
      exact ⟨hc, hall temp (List.mem_cons_self _ _)⟩
    · cases h1 : relaxChainNode_exact pq u min temp st with
      | none => rw [h1] at hev; simp at hev
      | some st2 =>
        rw [h1] at hev
        obtain ⟨hc2, _⟩ := relaxChainNode_spec hl hE hc (hall temp (List.mem_cons_self _ _)) h1
        exact ih st2 hc2 (fun e h => hall e (List.mem_cons_of_mem _ h)) ev hev

theorem chainEvents_ext {pq : PriorityQueue} {G : AdjacencyList} {s u : Nat} {min : Int}
    (hl : pq.Lawful) (hE : EdgesBelow (ChainEdge G) G.getVerticesNum)
    (hw : ∀ a b w, ChainEdge G a b w → 0 ≤ w) (l : List Edge) :
    ∀ st : DState, CInv pq G s u min st → CExt G u min st →
      (∀ e ∈ l, ChainEdge G u e.destination e.weight) →
      ∀ ev ∈ chainEvents_exact pq u min l st, DEvent.Ext G ev := by
  induction l with
  | nil => intro st _ _ _ ev hev; simp [chainEvents_exact] at hev
  | cons temp next ih =>
    intro st hc hx hall ev hev
    simp only [chainEvents_exact, List.mem_cons] at hev
    rcases hev with hev | hev
    · subst hev
      exact hx
    · cases h1 : relaxChainNode_exact pq u min temp st with
      | none => rw [h1] at hev; simp at hev
      | some st2 =>
        rw [h1] at hev
        have he := hall temp (List.mem_cons_self _ _)
        obtain ⟨hc2, hmono2, _, _, hframe2, hnum2, hq2⟩ := relaxChainNode_spec hl hE hc he h1
        have hx2 := hx.step (hw _ _ _ he) hmono2 hframe2 hnum2 hq2
        exact ih st2 hc2 hx2 (fun e h => hall e (List.mem_cons_of_mem _ h)) ev hev

theorem loopEvents_AL_inv {pq : PriorityQueue} {G : AdjacencyList} {s : Nat}
    (hl : pq.Lawful) (hE : EdgesBelow (ChainEdge G) G.getVerticesNum) (fuel : Nat) :
    ∀ st : DState, DInv pq G s st →
      ∀ ev ∈ loopEvents_AL_exact pq G fuel st, DEvent.Inv pq G s ev := by
  induction fuel with
  | zero => intro st _ ev hev; simp [loopEvents_AL_exact] at hev
  | succ fuel ih =>
    intro st hd ev hev
    unfold loopEvents_AL_exact at hev
    cases hq : st.Q with
    | nil => rw [hq] at hev; simp at hev
    | cons root rest =>
      rw [hq] at hev
      simp only [List.mem_cons, List.mem_append] at hev
      have hc := CInv.after_extract hl hd hq
      have hall : ∀ e ∈ G.getVertices root.number,
          ChainEdge G root.number e.destination e.weight := fun e he => ⟨hc.u_lt, he⟩
      rcases hev with hev | hev | hev
      · subst hev
        exact ⟨hd, root, rest, hq, rfl, rfl⟩
      · exact chainEvents_inv hl hE _ _ hc hall ev hev
      · cases h2 : chainLoop_exact pq root.number (pq.extractMin (root :: rest)).1
            (G.getVertices root.number) { st with Q := (pq.extractMin (root :: rest)).2 } with
        | none => rw [h2] at hev; simp at hev
        | some st2 =>
          rw [h2] at hev
          obtain ⟨hc2, _, _, _⟩ := chainLoop_spec hl hE _ _ _ hc hall h2
          exact ih st2 (DInv.after_chain hc2) ev hev

theorem loopEvents_AL_ext {pq : PriorityQueue} {G : AdjacencyList} {s : Nat}
    (hl : pq.Lawful) (hE : EdgesBelow (ChainEdge G) G.getVerticesNum)
    (hw : ∀ a b w, ChainEdge G a b w → 0 ≤ w) (fuel : Nat) :
    ∀ st : DState, DInv pq G s st → DExt G st →
      ∀ ev ∈ loopEvents_AL_exact pq G fuel st, DEvent.Ext G ev := by
  induction fuel with
  | zero => intro st _ _ ev hev; simp [loopEvents_AL_exact] at hev
  | succ fuel ih =>
    intro st hd hx ev hev
    unfold loopEvents_AL_exact at hev
    cases hq : st.Q with
    | nil => rw [hq] at hev; simp at hev
    | cons root rest =>
      rw [hq] at hev
      simp only [List.mem_cons, List.mem_append] at hev
      have hc := CInv.after_extract hl hd hq
      have hcx := CExt.ext_after_extract hl hd hx hq
      have hall : ∀ e ∈ G.getVertices root.number,
          ChainEdge G root.number e.destination e.weight := fun e he => ⟨hc.u_lt, he⟩
      rcases hev with hev | hev | hev
      · subst hev
        exact hx
      · exact chainEvents_ext hl hE hw _ _ hc hcx hall ev hev
      · cases h2 : chainLoop_exact pq root.number (pq.extractMin (root :: rest)).1
            (G.getVertices root.number) { st with Q := (pq.extractMin (root :: rest)).2 } with
        | none => rw [h2] at hev; simp at hev
        | some st2 =>
          rw [h2] at hev
          obtain ⟨hc2, _, hedge2, _⟩ := chainLoop_spec hl hE _ _ _ hc hall h2
          obtain ⟨st3, h3, hx3⟩ := chainLoop_some hl hE hw _ _ hc hcx hall
          rw [h2] at h3
          simp only [Option.some.injEq] at h3
          subst h3
          exact ih st2 (DInv.after_chain hc2) (DExt.ext_after_chain hc2 hx3 hedge2) ev hev

theorem DEvent.Inv.settledOK {pq : PriorityQueue} {G : AdjacencyList} {s : Nat} {ev : DEvent}
    (hl : pq.Lawful) (hE : EdgesBelow (ChainEdge G) G.getVerticesNum)
    (hw : ∀ a b w, ChainEdge G a b w → 0 ≤ w)
    (h : DEvent.Inv pq G s ev) (hx : DEvent.Ext G ev) : DEvent.SettledOK_exact pq ev := by
  cases ev with
  | extract st u min => trivial
  | test u min temp st =>
    obtain ⟨hc, he⟩ := h
    have hx1 : CExt G u min st := hx
    have hv : temp.destination < G.getVerticesNum := (hE _ _ _ he).2
    have hw0 := hw _ _ _ he
    have h1 : temp.destination ∉ st.Q.map Vertex.number →
        ¬ st.distances.getD temp.destination 0 > min + temp.weight := by
      intro hno
      have := hx1.settled_min _ hv hno
      omega
    refine ⟨h1, ?_, ?_⟩
    · intro hg
      exact find_of_mem (by_contra (fun hno => h1 hno hg))
    · obtain ⟨st1, hst1⟩ := relaxChainNode_some pq hE hx1 he hw0
      obtain ⟨_, _, _, _, hframe, _, _⟩ := relaxChainNode_spec hl hE hc he hst1
      exact ⟨st1, hst1, hframe⟩

/-! ### The entries of extracted vertices stay as they are -/

theorem chainLoop_frame {pq : PriorityQueue} {G : AdjacencyList} {s u : Nat} {min : Int}
    (hl : pq.Lawful) (hE : EdgesBelow (ChainEdge G) G.getVerticesNum) (l : List Edge) :
    ∀ st st1 : DState, CInv pq G s u min st →
      (∀ e ∈ l, ChainEdge G u e.destination e.weight) →
      chainLoop_exact pq u min l st = some st1 →
      (st1.Q.map Vertex.number).Perm (st.Q.map Vertex.number) ∧
      (∀ x, x ∉ st.Q.map Vertex.number →
        st1.distances.getD x 0 = st.distances.getD x 0) ∧
      ∀ ev ∈ chainEvents_exact pq u min l st,
        (st1.Q.map Vertex.number).Perm (ev.state.Q.map Vertex.number) ∧
        ∀ x, x ∉ ev.state.Q.map Vertex.number →
          st1.distances.getD x 0 = ev.state.distances.getD x 0 := by
  induction l with
  | nil =>
    intro st st1 _ _ hr
    simp only [chainLoop_exact, Option.some.injEq] at hr
    subst hr
    exact ⟨List.Perm.refl _, fun _ _ => rfl, fun ev hev => by simp [chainEvents_exact] at hev⟩
  | cons temp next ih =>
    intro st st1 hc hall hr
    simp only [chainLoop_exact] at hr
    cases h1 : relaxChainNode_exact pq u min temp st with
    | none => rw [h1] at hr; simp at hr
    | some st2 =>
      rw [h1] at hr
      simp only [Option.some_bind] at hr
      obtain ⟨hc2, _, _, _, hframe2, hnum2, _⟩ :=
        relaxChainNode_spec hl hE hc (hall temp (List.mem_cons_self _ _)) h1
      obtain ⟨hperm1, hframe1, hev1⟩ :=
        ih st2 st1 hc2 (fun e h => hall e (List.mem_cons_of_mem _ h)) hr
      have hframe : ∀ x, x ∉ st.Q.map Vertex.number →
          st1.distances.getD x 0 = st.distances.getD x 0 := by
        intro x hx
        rw [hframe1 x (fun h => hx (hnum2.mem_iff.mp h)), hframe2 x hx]
      refine ⟨hperm1.trans hnum2, hframe, ?_⟩
      intro ev hev
      simp only [chainEvents_exact, List.mem_cons, h1] at hev
      rcases hev with hev | hev
      · subst hev
        exact ⟨hperm1.trans hnum2, hframe⟩
      · exact hev1 ev hev

theorem dijkstraLoop_AL_frame {pq : PriorityQueue} {G : AdjacencyList} {s : Nat}
    (hl : pq.Lawful) (hE : EdgesBelow (ChainEdge G) G.getVerticesNum) (fuel : Nat) :
    ∀ st st1 : DState, DInv pq G s st → dijkstraLoop_AL_exact pq G fuel st = some st1 →
      (∀ x, x ∉ st.Q.map Vertex.number →
        st1.distances.getD x 0 = st.distances.getD x 0) ∧
      ∀ ev ∈ loopEvents_AL_exact pq G fuel st, ∀ x, x ∉ ev.state.Q.map Vertex.number →
        st1.distances.getD x 0 = ev.state.distances.getD x 0 := by
  induction fuel with
  | zero => intro st st1 _ hr; simp [dijkstraLoop_AL_exact] at hr
  | succ fuel ih =>
    intro st st1 hd hr
    unfold dijkstraLoop_AL_exact at hr
    unfold loopEvents_AL_exact
    cases hq : st.Q with
    | nil =>
      rw [hq] at hr
      simp only [Option.some.injEq] at hr
      subst hr
      exact ⟨fun _ _ => rfl, fun ev hev => by simp at hev⟩
    | cons root rest =>
      rw [hq] at hr
      simp only at hr
      have hc := CInv.after_extract hl hd hq
      have hall : ∀ e ∈ G.getVertices root.number,
          ChainEdge G root.number e.destination e.weight := fun e he => ⟨hc.u_lt, he⟩
      have hheap : pq.HeapOrder (root :: rest) := hq ▸ hd.heap
      have hperm := hl.extract_perm root rest hheap
      cases h2 : chainLoop_exact pq root.number (pq.extractMin (root :: rest)).1
          (G.getVertices root.number) { st with Q := (pq.extractMin (root :: rest)).2 } with
      | none => rw [h2] at hr; simp at hr
      | some st2 =>
        rw [h2] at hr
        simp only [Option.some_bind] at hr
        obtain ⟨hc2, _, _, _⟩ := chainLoop_spec hl hE _ _ _ hc hall h2
        obtain ⟨hpermC, hframeC, hevC⟩ := chainLoop_frame hl hE _ _ _ hc hall h2
        obtain ⟨hframeL, hevL⟩ := ih st2 st1 (DInv.after_chain hc2) hr
        have hframe : ∀ x, x ∉ (root :: rest).map Vertex.number →
            st1.distances.getD x 0 = st.distances.getD x 0 := by
          intro x hx
          have hx1 : x ∉ (pq.extractMin (root :: rest)).2.map Vertex.number := by
            intro h
            apply hx
            simp only [List.map_cons, List.mem_cons]
            exact Or.inr ((hperm.map Vertex.number).mem_iff.mp h)
          have hx2 : x ∉ st2.Q.map Vertex.number := fun h => hx1 (hpermC.mem_iff.mp h)
          rw [hframeL x hx2]
          exact hframeC x hx1
        refine ⟨hframe, ?_⟩
        intro ev hev
        simp only [List.mem_cons, List.mem_append] at hev
        rcases hev with hev | hev | hev
        · subst hev
          intro x hx
          simp only [DEvent.state] at hx ⊢
          rw [hq] at hx
          exact hframe x hx
        · intro x hx
          obtain ⟨hp, hf⟩ := hevC ev hev
          have hx2 : x ∉ st2.Q.map Vertex.number := fun h => hx (hp.mem_iff.mp h)
          rw [hframeL x hx2]
          exact hf x hx
        · rw [h2] at hev
          exact hevL ev hev

theorem dijkstra_AL_events_final {pq : PriorityQueue} {G : AdjacencyList} {s fuel : Nat}
    {t : Tables} (hl : pq.Lawful) (hE : EdgesBelow (ChainEdge G) G.getVerticesNum)
    (h : dijkstra_AL_tables_exact pq G s fuel = some t) :
    ∀ ev ∈ dijkstra_AL_events_exact pq G s fuel, ∀ x, x ∉ ev.state.Q.map Vertex.number →
      t.distances.getD x 0 = ev.state.distances.getD x 0 := by
  unfold dijkstra_AL_tables_exact at h
  simp only [Option.map_eq_some'] at h
  obtain ⟨st, hst, rfl⟩ := h
  exact (dijkstraLoop_AL_frame hl hE fuel _ _ (DInv.at_first_state hl G s) hst).2

theorem dijkstra_AL_events_inv {pq : PriorityQueue} {G : AdjacencyList} (s fuel : Nat)
    (hl : pq.Lawful) (hE : EdgesBelow (ChainEdge G) G.getVerticesNum) :
    ∀ ev ∈ dijkstra_AL_events_exact pq G s fuel, DEvent.Inv pq G s ev :=
  loopEvents_AL_inv hl hE fuel _ (DInv.at_first_state hl G s)

theorem dijkstra_AL_events_ext {pq : PriorityQueue} {G : AdjacencyList} (s fuel : Nat)
    (hl : pq.Lawful) (hE : EdgesBelow (ChainEdge G) G.getVerticesNum)
    (hw : ∀ a b w, ChainEdge G a b w → 0 ≤ w) :
    ∀ ev ∈ dijkstra_AL_events_exact pq G s fuel, DEvent.Ext G ev :=
  loopEvents_AL_ext hl hE hw fuel _ (DInv.at_first_state hl G s)
    (DExt.ext_at_first_state hl G s)

/-! ## The program with 32-bit sums -/

theorem passAL_eq (G : AdjacencyList) : passAL G = passRows (rowsAL G) := by
  funext t
  simp only [passAL, passRows, rowsAL, List.foldl_map]

theorem passIM_eq (G : IncidenceMatrix) : passIM G = passRows (rowsIM G) := by
  funext t
  simp only [passIM, passRows, rowsIM, List.foldl_map]
  rfl

theorem checkAL_eq (G : AdjacencyList) (t : Tables) : checkAL G t = checkRows (rowsAL G) t := by
  unfold checkAL checkRows rowsAL
  rw [any_map_fun]

theorem checkIM_eq (G : IncidenceMatrix) (t : Tables) : checkIM G t = checkRows (rowsIM G) t := by
  unfold checkIM checkRows rowsIM
  rw [any_map_fun]

theorem bellman_ford_AL_tables_eq (G : AdjacencyList) (s : Nat) :
    bellman_ford_AL_tables G s = bfRows (rowsAL G) G.getVerticesNum s := by
  simp only [bellman_ford_AL_tables, bfRows, passAL_eq, checkAL_eq, iterRows]

theorem bellman_ford_IM_tables_eq (G : IncidenceMatrix) (s : Nat) :
    bellman_ford_IM_tables G s = bfRows (rowsIM G) G.getVerticesNum s := by
  simp only [bellman_ford_IM_tables, bfRows, passIM_eq, checkIM_eq, iterRows]

theorem bellman_ford_AL_of_negativeCycle {G : AdjacencyList} {source : Nat}
    (h : bellman_ford_AL_tables G source = BFResult.negativeCycle) (destination fuel : Nat) :
    bellman_ford_AL G source destination fuel = some [OutLine.negativeCycle] := by
  unfold bellman_ford_AL
  rw [h]

theorem bellman_ford_IM_of_negativeCycle {G : IncidenceMatrix} {source : Nat}
    (h : bellman_ford_IM_tables G source = BFResult.negativeCycle) (destination fuel : Nat) :
    bellman_ford_IM G source destination fuel = some [OutLine.negativeCycle] := by
  unfold bellman_ford_IM
  rw [h]

theorem relaxIMScan_eq (pq : PriorityQueue) (u : Nat) (min : Int) (edge : IMEdge)
    (st : DState) (h : edge.source = u) :
    relaxIMScan pq u min edge st =
      relaxChainNode pq u min ⟨edge.destination, edge.weight⟩ st := by
  unfold relaxIMScan relaxChainNode
  simp only [h, if_true]

theorem relaxIMScan_skip (pq : PriorityQueue) (u : Nat) (min : Int) (edge : IMEdge)
    (st : DState) (h : edge.source ≠ u) : relaxIMScan pq u min edge st = some st := by
  unfold relaxIMScan
  simp only [h, if_false]

theorem scanLoop_eq (pq : PriorityQueue) (G : IncidenceMatrix) (u : Nat) (min : Int)
    (l : List Nat) : ∀ st : DState,
    scanLoop pq G u min l st =
      chainLoop pq u min
        (((l.map G.getEdge).filter (fun e => decide (e.source = u))).map
          (fun e => ⟨e.destination, e.weight⟩)) st := by
  induction l with
  | nil => intro st; rfl
  | cons e es ih =>
    intro st
    by_cases h : (G.getEdge e).source = u
    · simp only [scanLoop, List.map_cons, List.filter_cons, h, decide_True, if_true,
        chainLoop, relaxIMScan_eq pq u min (G.getEdge e) st h]
      congr 1
      funext st1
      exact ih st1
    · simp only [scanLoop, List.map_cons, List.filter_cons, h, decide_False,
        relaxIMScan_skip pq u min (G.getEdge e) st h, Option.some_bind]
      exact ih st

theorem dijkstraLoop_IM_eq (pq : PriorityQueue) (G : IncidenceMatrix) (fuel : Nat) :
    ∀ st : DState, dijkstraLoop_IM pq G fuel st = dijkstraLoop_AL pq (chainsOfIM G) fuel st := by
  induction fuel with
  | zero => intro st; rfl
  | succ fuel ih =>
    intro st
    unfold dijkstraLoop_IM dijkstraLoop_AL
    cases st.Q with
    | nil => rfl
    | cons root rest =>
      simp only [scanLoop_eq, chainsOfIM]
      congr 1
      funext st1
      exact ih st1

theorem dijkstra_IM_tables_eq (pq : PriorityQueue) (G : IncidenceMatrix) (s fuel : Nat) :
    dijkstra_IM_tables pq G s fuel = dijkstra_AL_tables pq (chainsOfIM G) s fuel := by
  simp only [dijkstra_IM_tables, dijkstra_AL_tables, dijkstraLoop_IM_eq]
  rfl

theorem bellman_ford_AL_of_finished {G : AdjacencyList} {source : Nat} {t : Tables}
    (h : bellman_ford_AL_tables G source = BFResult.finished t) (destination fuel : Nat) :
    bellman_ford_AL G source destination fuel =
      (printPath source destination (t.distances.getD destination 0) t.path fuel).map
        (fun l => [l]) := by
  unfold bellman_ford_AL
  rw [h]

theorem bellman_ford_IM_of_finished {G : IncidenceMatrix} {source : Nat} {t : Tables}
    (h : bellman_ford_IM_tables G source = BFResult.finished t) (destination fuel : Nat) :
    bellman_ford_IM G source destination fuel =
      (printPath source destination (t.distances.getD destination 0) t.path fuel).map
        (fun l => [l]) := by
  unfold bellman_ford_IM
  rw [h]

theorem dijkstra_AL_of_tables {pq : PriorityQueue} {G : AdjacencyList} {source fuel : Nat}
    {t : Tables} (h : dijkstra_AL_tables pq G source fuel = some t) (destination : Nat) :
    dijkstra_AL pq G source destination fuel =
      (printPath source destination (t.distances.getD destination 0) t.path fuel).map
        (fun l => [OutLine.counts G.getVerticesNum G.getEdgesNum, l]) := by
  unfold dijkstra_AL
  rw [h]
  rfl

theorem dijkstra_IM_of_tables {pq : PriorityQueue} {G : IncidenceMatrix} {source fuel : Nat}
    {t : Tables} (h : dijkstra_IM_tables pq G source fuel = some t) (destination : Nat) :
    dijkstra_IM pq G source destination fuel =
      (printPath source destination (t.distances.getD destination 0) t.path fuel).map
        (fun l => [l]) := by
  unfold dijkstra_IM
  rw [h]
  rfl

theorem dijkstraLoop_AL_congr (pq : PriorityQueue) (G H : AdjacencyList)
    (h : ∀ u, G.getVertices u = H.getVertices u) (fuel : Nat) :
    ∀ st : DState, dijkstraLoop_AL pq G fuel st = dijkstraLoop_AL pq H fuel st := by
  induction fuel with
  | zero => intro st; rfl
  | succ fuel ih =>
    intro st
    unfold dijkstraLoop_AL
    cases st.Q with
    | nil => rfl
    | cons root rest =>
      simp only [h]
      congr 1
      funext st1
      exact ih st1

theorem dijkstra_AL_tables_congr (pq : PriorityQueue) (G H : AdjacencyList)
    (hV : G.getVerticesNum = H.getVerticesNum)
    (h : ∀ u, G.getVertices u = H.getVertices u) (s fuel : Nat) :
    dijkstra_AL_tables pq G s fuel = dijkstra_AL_tables pq H s fuel := by
  unfold dijkstra_AL_tables
  simp only [hV, dijkstraLoop_AL_congr pq G H h]

theorem bellman_ford_AL_output_inv {G : AdjacencyList} {source destination fuel a b : Nat}
    (h : bellman_ford_AL G source destination fuel = some [OutLine.noPath a b]) :
    ∃ t, bellman_ford_AL_tables G source = BFResult.finished t ∧
      t.distances.getD destination 0 = 1000 := by
  cases ht : bellman_ford_AL_tables G source with
  | negativeCycle =>
    rw [bellman_ford_AL_of_negativeCycle ht] at h
    simp at h
  | finished t =>
    rw [bellman_ford_AL_of_finished ht] at h
    simp only [Option.map_eq_some', List.cons.injEq, and_true] at h
    obtain ⟨l, hl, rfl⟩ := h
    exact ⟨t, rfl, printPath_noPath_iff _ _ _ _ _ _ _ hl⟩

theorem bellman_ford_IM_output_inv {G : IncidenceMatrix} {source destination fuel a b : Nat}
    (h : bellman_ford_IM G source destination fuel = some [OutLine.noPath a b]) :
    ∃ t, bellman_ford_IM_tables G source = BFResult.finished t ∧
      t.distances.getD destination 0 = 1000 := by
  cases ht : bellman_ford_IM_tables G source with
  | negativeCycle =>
    rw [bellman_ford_IM_of_negativeCycle ht] at h
    simp at h
  | finished t =>
    rw [bellman_ford_IM_of_finished ht] at h
    simp only [Option.map_eq_some', List.cons.injEq, and_true] at h
    obtain ⟨l, hl, rfl⟩ := h
    exact ⟨t, rfl, printPath_noPath_iff _ _ _ _ _ _ _ hl⟩

theorem dijkstra_AL_output_inv {pq : PriorityQueue} {G : AdjacencyList}
    {source destination fuel a b : Nat} {c : OutLine}
    (h : dijkstra_AL pq G source destination fuel = some [c, OutLine.noPath a b]) :
    ∃ t, dijkstra_AL_tables pq G source fuel = some t ∧
      t.distances.getD destination 0 = 1000 := by
  cases ht : dijkstra_AL_tables pq G source fuel with
  | none =>
    unfold dijkstra_AL at h
    rw [ht] at h
    simp at h
  | some t =>
    rw [dijkstra_AL_of_tables ht] at h
    simp only [Option.map_eq_some', List.cons.injEq, and_true] at h
    obtain ⟨l, hl, _, rfl⟩ := h
    exact ⟨t, rfl, printPath_noPath_iff _ _ _ _ _ _ _ hl⟩

theorem dijkstra_IM_output_inv {pq : PriorityQueue} {G : IncidenceMatrix}
    {source destination fuel a b : Nat}
    (h : dijkstra_IM pq G source destination fuel = some [OutLine.noPath a b]) :
    ∃ t, dijkstra_IM_tables pq G source fuel = some t ∧
      t.distances.getD destination 0 = 1000 := by
  cases ht : dijkstra_IM_tables pq G source fuel with
  | none =>
    unfold dijkstra_IM at h
    rw [ht] at h
    simp at h
  | some t =>
    rw [dijkstra_IM_of_tables ht] at h
    simp only [Option.map_eq_some', List.cons.injEq, and_true] at h
    obtain ⟨l, hl, rfl⟩ := h
    exact ⟨t, rfl, printPath_noPath_iff _ _ _ _ _ _ _ hl⟩

theorem bellman_ford_AL_flag_iff (G : AdjacencyList) (source destination fuel : Nat) :
    bellman_ford_AL G source destination fuel = some [OutLine.negativeCycle] ↔
      bellman_ford_AL_tables G source = BFResult.negativeCycle := by
  constructor
  · intro h
    cases ht : bellman_ford_AL_tables G source with
    | negativeCycle => rfl
    | finished t =>
      rw [bellman_ford_AL_of_finished ht] at h
      have := printPath_ne_negativeCycle source destination (t.distances.getD destination 0)
        t.path fuel
      cases hp : printPath source destination (t.distances.getD destination 0) t.path fuel with
      | none => rw [hp] at h; simp at h
      | some l =>
        rw [hp] at h this
        simp only [Option.map_some', Option.some.injEq, List.cons.injEq, and_true] at h
        subst h
        exact absurd rfl this
  · intro h
    exact bellman_ford_AL_of_negativeCycle h _ _

theorem bellman_ford_IM_flag_iff (G : IncidenceMatrix) (source destination fuel : Nat) :
    bellman_ford_IM G source destination fuel = some [OutLine.negativeCycle] ↔
      bellman_ford_IM_tables G source = BFResult.negativeCycle := by
  constructor
  · intro h
    cases ht : bellman_ford_IM_tables G source with
    | negativeCycle => rfl
    | finished t =>
      rw [bellman_ford_IM_of_finished ht] at h
      have := printPath_ne_negativeCycle source destination (t.distances.getD destination 0)
        t.path fuel
      cases hp : printPath source destination (t.distances.getD destination 0) t.path fuel with
      | none => rw [hp] at h; simp at h
      | some l =>
        rw [hp] at h this
        simp only [Option.map_some', Option.some.injEq, List.cons.injEq, and_true] at h
        subst h
        exact absurd rfl this
  · intro h
    exact bellman_ford_IM_of_negativeCycle h _ _

theorem scanEvents_eq (pq : PriorityQueue) (G : IncidenceMatrix) (u : Nat) (min : Int)
    (l : List Nat) : ∀ st : DState,
    scanEvents pq G u min l st =
      chainEvents pq u min
        (((l.map G.getEdge).filter (fun e => decide (e.source = u))).map
          (fun e => ⟨e.destination, e.weight⟩)) st := by
  induction l with
  | nil => intro st; rfl
  | cons e es ih =>
    intro st
    by_cases h : (G.getEdge e).source = u
    · simp only [scanEvents, List.map_cons, List.filter_cons, h, decide_True, if_true,
        chainEvents, relaxIMScan_eq pq u min (G.getEdge e) st h, List.singleton_append]
      congr 1
      cases relaxChainNode pq u min ⟨(G.getEdge e).destination, (G.getEdge e).weight⟩ st with
      | none => rfl
      | some st1 => exact ih st1
    · simp only [scanEvents, List.map_cons, List.filter_cons, h, decide_False, if_false,
        relaxIMScan_skip pq u min (G.getEdge e) st h, List.nil_append]
      exact ih st

theorem loopEvents_IM_eq (pq : PriorityQueue) (G : IncidenceMatrix) (fuel : Nat) :
    ∀ st : DState, loopEvents_IM pq G fuel st = loopEvents_AL pq (chainsOfIM G) fuel st := by
  induction fuel with
  | zero => intro st; rfl
  | succ fuel ih =>
    intro st
    unfold loopEvents_IM loopEvents_AL
    cases st.Q with
    | nil => rfl
    | cons root rest =>
      simp only [scanEvents_eq, scanLoop_eq, chainsOfIM]
      congr 2
      cases chainLoop pq root.number (pq.extractMin (root :: rest)).1
          (List.map (fun e => ({ destination := e.destination, weight := e.weight } : Edge))
            (List.filter (fun e => decide (e.source = root.number))
              (List.map G.getEdge (List.range G.getEdgesNum))))
          { st with Q := (pq.extractMin (root :: rest)).2 } with
      | none => rfl
      | some st1 => exact ih st1

theorem dijkstra_IM_events_eq (pq : PriorityQueue) (G : IncidenceMatrix) (s fuel : Nat) :
    dijkstra_IM_events pq G s fuel = dijkstra_AL_events pq (chainsOfIM G) s fuel := by
  simp only [dijkstra_IM_events, dijkstra_AL_events, loopEvents_IM_eq]
  rfl

theorem relaxRow_stepOK (t : Tables) (row : Nat × Nat × Int) : StepOK t (relaxRow t row) := by
  unfold relaxRow
  split
  · next h => exact Or.inr ⟨row.2.1, (row.1 : Int), _, h, rfl, rfl⟩
  · exact Or.inl rfl

theorem relaxIMEdge_stepOK (t : Tables) (edge : IMEdge) : StepOK t (relaxIMEdge t edge) := by
  unfold relaxIMEdge
  split
  · next h => exact Or.inr ⟨edge.destination, (edge.source : Int), _, h, rfl, rfl⟩
  · exact Or.inl rfl

theorem relaxChainNode_stepOK {pq : PriorityQueue} {u : Nat} {min : Int} {temp : Edge}
    {st st1 : DState} (h : relaxChainNode pq u min temp st = some st1) :
    StepOK { distances := st.distances, path := st.path }
      { distances := st1.distances, path := st1.path } := by
  unfold relaxChainNode at h
  split at h
  · next hg =>
    cases hf : find st.Q temp.destination with
    | none => rw [hf] at h; simp at h
    | some i =>
      rw [hf] at h
      simp only [Option.some.injEq] at h
      subst h
      exact Or.inr ⟨temp.destination, (u : Int), _, hg, rfl, rfl⟩
  · simp only [Option.some.injEq] at h
    subst h
    exact Or.inl rfl

theorem relaxChainNode_none {pq : PriorityQueue} {u : Nat} {min : Int} {temp : Edge}
    {st : DState} (h : relaxChainNode pq u min temp st = none) :
    st.distances.getD temp.destination 0 > add32 min temp.weight ∧
      find st.Q temp.destination = none := by
  unfold relaxChainNode at h
  split at h
  · next hg =>
    cases hf : find st.Q temp.destination with
    | none => exact ⟨hg, rfl⟩
    | some i => rw [hf] at h; simp at h
  · simp at h

theorem relaxIMScan_stepOK {pq : PriorityQueue} {u : Nat} {min : Int} {edge : IMEdge}
    {st st1 : DState} (h : relaxIMScan pq u min edge st = some st1) :
    StepOK { distances := st.distances, path := st.path }
      { distances := st1.distances, path := st1.path } := by
  by_cases hs : edge.source = u
  · rw [relaxIMScan_eq pq u min edge st hs] at h
    exact relaxChainNode_stepOK h
  · rw [relaxIMScan_skip pq u min edge st hs] at h
    simp only [Option.some.injEq] at h
    subst h
    exact Or.inl rfl

theorem stepTrace_seg {α : Type} (f : Tables → α → Tables)
    (hf : ∀ t a, StepOK t (f t a)) (l : List α) :
    ∀ t, SegO StepOK t (stepTrace f l t) (some (l.foldl f t)) := by
  induction l with
  | nil => intro t; exact SegO.seg_nil_some _ _
  | cons a l ih =>
    intro t
    simp only [stepTrace, List.foldl_cons]
    exact SegO.seg_cons (hf t a) (ih (f t a))

theorem runTrace_seg (pass : Tables → Tables) (trace : Tables → List Tables)
    (h : ∀ t, SegO StepOK t (trace t) (some (pass t))) (k : Nat) :
    ∀ t, SegO StepOK t (runTrace pass trace k t) (some (Nat.iterate pass k t)) := by
  induction k with
  | zero => intro t; exact SegO.seg_nil_some _ _
  | succ k ih =>
    intro t
    simp only [runTrace, Function.iterate_succ, Function.comp_apply]
    exact SegO.seg_append (h t) (ih (pass t))

theorem bellman_ford_AL_trace_seg (G : AdjacencyList) (source : Nat) :
    SegO StepOK
      { distances := initDistances G.getVerticesNum source,
        path := initPath G.getVerticesNum }
      (bellman_ford_AL_trace G source)
      (some (Nat.iterate (passAL G) (G.getVerticesNum - 1)
        { distances := initDistances G.getVerticesNum source,
          path := initPath G.getVerticesNum })) :=
  runTrace_seg (passAL G) (passTrace_AL G)
    (fun t => stepTrace_seg _ (fun t _ => relaxRow_stepOK t _) _ t) _ _

theorem bellman_ford_IM_trace_seg (G : IncidenceMatrix) (source : Nat) :
    SegO StepOK
      { distances := initDistances G.getVerticesNum source,
        path := initPath G.getVerticesNum }
      (bellman_ford_IM_trace G source)
      (some (Nat.iterate (passIM G) (G.getVerticesNum - 1)
        { distances := initDistances G.getVerticesNum source,
          path := initPath G.getVerticesNum })) :=
  runTrace_seg (passIM G) (passTrace_IM G)
    (fun t => stepTrace_seg _ (fun t _ => relaxIMEdge_stepOK t _) _ t) _ _

theorem chainEvents_seg (pq : PriorityQueue) (u : Nat) (min : Int) (l : List Edge) :
    ∀ st : DState, SegO StepOK { distances := st.distances, path := st.path }
      ((chainEvents pq u min l st).map DEvent.tables)
      ((chainLoop pq u min l st).map
        (fun st => { distances := st.distances, path := st.path })) := by
  induction l with
  | nil => intro st; exact SegO.seg_nil_some _ _
  | cons temp next ih =>
    intro st
    simp only [chainEvents, chainLoop]
    cases h : relaxChainNode pq u min temp st with
    | none =>
      simp only [List.map_cons, List.map_nil, Option.none_bind, Option.map_none']
      exact SegO.seg_cons (StepOK.same _) (SegO.seg_nil_none _ _)
    | some st1 =>
      simp only [List.map_cons, Option.some_bind]
      exact SegO.seg_cons (relaxChainNode_stepOK h) (ih st1)

theorem loopEvents_AL_seg (pq : PriorityQueue) (G : AdjacencyList) (fuel : Nat) :
    ∀ st : DState, SegO StepOK { distances := st.distances, path := st.path }
      ((loopEvents_AL pq G fuel st).map DEvent.tables)
      ((dijkstraLoop_AL pq G fuel st).map
        (fun st => { distances := st.distances, path := st.path })) := by
  induction fuel with
  | zero => intro st; exact SegO.seg_nil_none _ _
  | succ fuel ih =>
    intro st
    unfold loopEvents_AL dijkstraLoop_AL
    cases hq : st.Q with
    | nil => exact SegO.seg_nil_some _ _
    | cons root rest =>
      simp only [List.map_cons, List.map_append]
      have hc := chainEvents_seg pq root.number (pq.extractMin (root :: rest)).1
        (G.getVertices root.number) { st with Q := (pq.extractMin (root :: rest)).2 }
      refine SegO.seg_cons (StepOK.same _) ?_
      cases h2 : chainLoop pq root.number (pq.extractMin (root :: rest)).1
          (G.getVertices root.number) { st with Q := (pq.extractMin (root :: rest)).2 } with
      | none =>
        rw [h2] at hc
        simpa using hc
      | some st2 =>
        rw [h2] at hc
        simp only [Option.some_bind]
        exact SegO.seg_append hc (ih st2)

theorem dijkstra_AL_events_seg (pq : PriorityQueue) (G : AdjacencyList) (source fuel : Nat) :
    SegO StepOK
      { distances := initDistances G.getVerticesNum source,
        path := initPath G.getVerticesNum }
      ((dijkstra_AL_events pq G source fuel).map DEvent.tables)
      (dijkstra_AL_tables pq G source fuel) :=
  loopEvents_AL_seg pq G fuel _

/-! ## Runs without overflow -/

/-! ### Sums that fit are exact -/

theorem add32_of_fits {a b : Int} (h : fits32 (a + b)) : add32 a b = a + b := by
  unfold fits32 at h
  unfold add32
  omega

theorem relaxRow_bridge {t : Tables} {row : Nat × Nat × Int}
    (h : fits32 (t.distances.getD row.1 0 + row.2.2)) :
    relaxRow t row = relaxRow_exact t row := by
  unfold relaxRow relaxRow_exact
  rw [add32_of_fits h]

theorem passRows_bridge (rows : List (Nat × Nat × Int)) :
    ∀ t, (∀ x ∈ passSums rows t, fits32 x) → passRows rows t = passRows_exact rows t := by
  induction rows with
  | nil => intro t _; rfl
  | cons row rows ih =>
    intro t h
    simp only [passSums, List.mem_cons, forall_eq_or_imp] at h
    simp only [passRows, passRows_exact, List.foldl_cons] at ih ⊢
    rw [← relaxRow_bridge h.1]
    exact ih _ h.2

theorem checkRows_bridge (rows : List (Nat × Nat × Int)) (t : Tables) :
    (∀ x ∈ checkSums rows t, fits32 x) → checkRows rows t = checkRows_exact rows t := by
  induction rows with
  | nil => intro _; rfl
  | cons row rows ih =>
    intro h
    simp only [checkSums, List.mem_cons, forall_eq_or_imp] at h
    simp only [checkRows, checkRows_exact, List.any_cons] at ih ⊢
    rw [add32_of_fits h.1]
    by_cases hg : t.distances.getD row.2.1 0 > t.distances.getD row.1 0 + row.2.2
    · rw [decide_eq_true hg]
      rfl
    · have h2 := h.2
      rw [add32_of_fits h.1, if_neg hg] at h2
      rw [ih h2]

theorem runSums_bridge (rows : List (Nat × Nat × Int)) (k : Nat) :
    ∀ t, (∀ x ∈ runSums rows k t, fits32 x) →
      Nat.iterate (passRows rows) k t = Nat.iterate (passRows_exact rows) k t ∧
      checkRows rows (Nat.iterate (passRows rows) k t) =
        checkRows_exact rows (Nat.iterate (passRows_exact rows) k t) := by
  induction k with
  | zero =>
    intro t h
    exact ⟨rfl, checkRows_bridge rows t h⟩
  | succ k ih =>
    intro t h
    simp only [runSums, List.mem_append] at h
    have h1 := passRows_bridge rows t (fun x hx => h x (Or.inl hx))
    have h2 := ih (passRows rows t) (fun x hx => h x (Or.inr hx))
    simp only [Function.iterate_succ, Function.comp_apply]
    rw [← h1]
    exact h2

theorem bfRows_bridge {rows : List (Nat × Nat × Int)} {V s : Nat}
    (h : ∀ x ∈ runSums rows (V - 1) (initTables V s), fits32 x) :
    bfRows rows V s = bfRows_exact rows V s := by
  obtain ⟨h1, h2⟩ := runSums_bridge rows (V - 1) _ h
  unfold bfRows bfRows_exact iterRows iterRows_exact
  unfold initTables at h1 h2
  rw [h2, h1]

theorem bellman_ford_AL_tables_bridge {G : AdjacencyList} {source : Nat}
    (h : ∀ x ∈ bellman_ford_AL_sums G source, fits32 x) :
    bellman_ford_AL_tables G source = bellman_ford_AL_tables_exact G source := by
  rw [bellman_ford_AL_tables_eq, bellman_ford_AL_tables_eq_exact]
  exact bfRows_bridge h

theorem bellman_ford_IM_tables_bridge {G : IncidenceMatrix} {source : Nat}
    (h : ∀ x ∈ bellman_ford_IM_sums G source, fits32 x) :
    bellman_ford_IM_tables G source = bellman_ford_IM_tables_exact G source := by
  rw [bellman_ford_IM_tables_eq, bellman_ford_IM_tables_eq_exact]
  exact bfRows_bridge h

theorem bellman_ford_AL_bridge {G : AdjacencyList} {source : Nat}
    (h : ∀ x ∈ bellman_ford_AL_sums G source, fits32 x) (destination fuel : Nat) :
    bellman_ford_AL G source destination fuel =
      bellman_ford_AL_exact G source destination fuel := by
  unfold bellman_ford_AL bellman_ford_AL_exact
  rw [bellman_ford_AL_tables_bridge h]

theorem bellman_ford_IM_bridge {G : IncidenceMatrix} {source : Nat}
    (h : ∀ x ∈ bellman_ford_IM_sums G source, fits32 x) (destination fuel : Nat) :
    bellman_ford_IM G source destination fuel =
      bellman_ford_IM_exact G source destination fuel := by
  unfold bellman_ford_IM bellman_ford_IM_exact
  rw [bellman_ford_IM_tables_bridge h]

/-! ### Bounded non-negative weights give no overflow -/

theorem RInv.bounds {E : Nat → Nat → Int → Prop} {V s : Nat} {t : Tables}
    (h : RInv E V s t) (hw : ∀ u v w, E u v w → 0 ≤ w) (v : Nat) (hv : v < V) :
    0 ≤ t.distances.getD v 0 ∧ t.distances.getD v 0 ≤ 1000 := by
  obtain ⟨a, p, _, hp, hd⟩ := h.real v hv
  have h1 := weight_nonneg_of_walk hw hp
  have h2 := h.le_start v hv
  have h3 : 0 ≤ startValue s a := by unfold startValue; split <;> omega
  have h4 : startValue s v ≤ 1000 := by unfold startValue; split <;> omega
  omega

theorem BoundedWeights.nonneg {E : Nat → Nat → Int → Prop} (h : BoundedWeights E) :
    ∀ u v w, E u v w → 0 ≤ w := fun u v w he => (h u v w he).1

theorem passSums_fit {V s : Nat} {rows : List (Nat × Nat × Int)}
    (hE : EdgesBelow (RowEdge rows) V) (hb : BoundedWeights (RowEdge rows))
    (sub : List (Nat × Nat × Int)) :
    ∀ t, (∀ r ∈ sub, r ∈ rows) → RInv (RowEdge rows) V s t →
      ∀ x ∈ passSums sub t, fits32 x := by
  induction sub with
  | nil => intro t _ _ x hx; simp [passSums] at hx
  | cons row sub ih =>
    intro t hsub h x hx
    have hrow : RowEdge rows row.1 row.2.1 row.2.2 := hsub row (List.mem_cons_self _ _)
    have hfit : fits32 (t.distances.getD row.1 0 + row.2.2) := by
      have := h.bounds hb.nonneg row.1 (hE _ _ _ hrow).1
      have := hb _ _ _ hrow
      unfold fits32
      omega
    simp only [passSums, List.mem_cons] at hx
    rcases hx with hx | hx
    · rw [hx]; exact hfit
    · rw [relaxRow_bridge hfit] at hx
      exact ih _ (fun r hr => hsub r (List.mem_cons_of_mem _ hr))
        (h.relaxRow_exact hE hrow) x hx

theorem checkSums_fit {V s : Nat} {rows : List (Nat × Nat × Int)}
    (hE : EdgesBelow (RowEdge rows) V) (hb : BoundedWeights (RowEdge rows))
    {t : Tables} (h : RInv (RowEdge rows) V s t) (sub : List (Nat × Nat × Int)) :
    (∀ r ∈ sub, r ∈ rows) → ∀ x ∈ checkSums sub t, fits32 x := by
  induction sub with
  | nil => intro _ x hx; simp [checkSums] at hx
  | cons row sub ih =>
    intro hsub x hx
    have hrow : RowEdge rows row.1 row.2.1 row.2.2 := hsub row (List.mem_cons_self _ _)
    have hfit : fits32 (t.distances.getD row.1 0 + row.2.2) := by
      have := h.bounds hb.nonneg row.1 (hE _ _ _ hrow).1
      have := hb _ _ _ hrow
      unfold fits32
      omega
    simp only [checkSums, List.mem_cons] at hx
    rcases hx with hx | hx
    · rw [hx]; exact hfit
    · split at hx
      · simp at hx
      · exact ih (fun r hr => hsub r (List.mem_cons_of_mem _ hr)) x hx

theorem runSums_fit {V s : Nat} {rows : List (Nat × Nat × Int)}
    (hE : EdgesBelow (RowEdge rows) V) (hb : BoundedWeights (RowEdge rows)) (k : Nat) :
    ∀ t, RInv (RowEdge rows) V s t → ∀ x ∈ runSums rows k t, fits32 x := by
  induction k with
  | zero =>
    intro t h
    exact checkSums_fit hE hb h rows (fun _ hr => hr)
  | succ k ih =>
    intro t h x hx
    simp only [runSums, List.mem_append] at hx
    have hp := passSums_fit hE hb rows t (fun _ hr => hr) h
    rcases hx with hx | hx
    · exact hp x hx
    · rw [passRows_bridge rows t hp] at hx
      exact ih _ (RInv.passRows_exact hE (fun _ hr => hr) h) x hx

theorem bellman_ford_AL_sums_fit {G : AdjacencyList} (source : Nat)
    (hE : EdgesBelow (RowEdge (rowsAL G)) G.getVerticesNum)
    (hb : BoundedWeights (RowEdge (rowsAL G))) :
    ∀ x ∈ bellman_ford_AL_sums G source, fits32 x :=
  runSums_fit hE hb _ _ (RInv.at_start _ _ _)

theorem bellman_ford_IM_sums_fit {G : IncidenceMatrix} (source : Nat)
    (hE : EdgesBelow (RowEdge (rowsIM G)) G.getVerticesNum)
    (hb : BoundedWeights (RowEdge (rowsIM G))) :
    ∀ x ∈ bellman_ford_IM_sums G source, fits32 x :=
  runSums_fit hE hb _ _ (RInv.at_start _ _ _)

/-! ### Dijkstra with bounded non-negative weights computes exact sums -/

theorem relaxChainNode_bridge (pq : PriorityQueue) (u : Nat) {min : Int} {temp : Edge}
    (st : DState) (h : fits32 (min + temp.weight)) :
    relaxChainNode pq u min temp st = relaxChainNode_exact pq u min temp st := by
  unfold relaxChainNode relaxChainNode_exact
  rw [add32_of_fits h]

theorem CInv.sum_fits {pq : PriorityQueue} {G : AdjacencyList} {s u : Nat} {min : Int}
    {st : DState} (hc : CInv pq G s u min st) (hb : BoundedWeights (ChainEdge G))
    {v : Nat} {w : Int} (he : ChainEdge G u v w) : fits32 (min + w) := by
  have h1 : 0 ≤ st.distances.getD u 0 ∧ st.distances.getD u 0 ≤ 1000 :=
    hc.rinv.bounds hb.nonneg u hc.u_lt
  have hdu : st.distances.getD u 0 = min := hc.du
  have h2 := hb _ _ _ he
  unfold fits32
  omega

theorem chainLoop_bridge {pq : PriorityQueue} {G : AdjacencyList} {s u : Nat} {min : Int}
    (hl : pq.Lawful) (hE : EdgesBelow (ChainEdge G) G.getVerticesNum)
    (hb : BoundedWeights (ChainEdge G)) (l : List Edge) :
    ∀ st : DState, CInv pq G s u min st →
      (∀ e ∈ l, ChainEdge G u e.destination e.weight) →
      chainLoop pq u min l st = chainLoop_exact pq u min l st ∧
      chainEvents pq u min l st = chainEvents_exact pq u min l st := by
  induction l with
  | nil => intro st _ _; exact ⟨rfl, rfl⟩
  | cons temp next ih =>
    intro st hc hall
    have he := hall temp (List.mem_cons_self _ _)
    have hstep := relaxChainNode_bridge pq u st (hc.sum_fits hb he)
    simp only [chainLoop, chainLoop_exact, chainEvents, chainEvents_exact, hstep]
    cases h1 : relaxChainNode_exact pq u min temp st with
    | none => exact ⟨rfl, rfl⟩
    | some st2 =>
      obtain ⟨hc2, _⟩ := relaxChainNode_spec hl hE hc he h1
      obtain ⟨i1, i2⟩ := ih st2 hc2 (fun e h => hall e (List.mem_cons_of_mem _ h))
      simp only [Option.some_bind]
      exact ⟨i1, by rw [i2]⟩

theorem dijkstraLoop_AL_bridge {pq : PriorityQueue} {G : AdjacencyList} {s : Nat}
    (hl : pq.Lawful) (hE : EdgesBelow (ChainEdge G) G.getVerticesNum)
    (hb : BoundedWeights (ChainEdge G)) (fuel : Nat) :
    ∀ st : DState, DInv pq G s st →
      dijkstraLoop_AL pq G fuel st = dijkstraLoop_AL_exact pq G fuel st ∧
      loopEvents_AL pq G fuel st = loopEvents_AL_exact pq G fuel st := by
  induction fuel with
  | zero => intro st _; exact ⟨rfl, rfl⟩
  | succ fuel ih =>
    intro st hd
    unfold dijkstraLoop_AL dijkstraLoop_AL_exact loopEvents_AL loopEvents_AL_exact
    cases hq : st.Q with
    | nil => exact ⟨rfl, rfl⟩
    | cons root rest =>
      simp only
      have hc := CInv.after_extract hl hd hq
      have hall : ∀ e ∈ G.getVertices root.number,
          ChainEdge G root.number e.destination e.weight := fun e he => ⟨hc.u_lt, he⟩
      obtain ⟨c1, c2⟩ := chainLoop_bridge hl hE hb _ _ hc hall
      rw [c1, c2]
      cases h2 : chainLoop_exact pq root.number (pq.extractMin (root :: rest)).1
          (G.getVertices root.number) { st with Q := (pq.extractMin (root :: rest)).2 } with
      | none => exact ⟨rfl, rfl⟩
      | some st2 =>
        obtain ⟨hc2, _, _, _⟩ := chainLoop_spec hl hE _ _ _ hc hall h2
        obtain ⟨i1, i2⟩ := ih st2 (DInv.after_chain hc2)
        simp only [Option.some_bind]
        exact ⟨i1, by rw [i2]⟩

theorem dijkstra_AL_tables_bridge {pq : PriorityQueue} {G : AdjacencyList}
    (hl : pq.Lawful) (hE : EdgesBelow (ChainEdge G) G.getVerticesNum)
    (hb : BoundedWeights (ChainEdge G)) (s fuel : Nat) :
    dijkstra_AL_tables pq G s fuel = dijkstra_AL_tables_exact pq G s fuel := by
  unfold dijkstra_AL_tables dijkstra_AL_tables_exact
  simp only
  rw [(dijkstraLoop_AL_bridge hl hE hb fuel _ (DInv.at_first_state hl G s)).1]

theorem dijkstra_AL_events_bridge {pq : PriorityQueue} {G : AdjacencyList}
    (hl : pq.Lawful) (hE : EdgesBelow (ChainEdge G) G.getVerticesNum)
    (hb : BoundedWeights (ChainEdge G)) (s fuel : Nat) :
    dijkstra_AL_events pq G s fuel = dijkstra_AL_events_exact pq G s fuel :=
  (dijkstraLoop_AL_bridge hl hE hb fuel _ (DInv.at_first_state hl G s)).2

theorem dijkstra_AL_bridge {pq : PriorityQueue} {G : AdjacencyList}
    (hl : pq.Lawful) (hE : EdgesBelow (ChainEdge G) G.getVerticesNum)
    (hb : BoundedWeights (ChainEdge G)) (s destination fuel : Nat) :
    dijkstra_AL pq G s destination fuel = dijkstra_AL_exact pq G s destination fuel := by
  unfold dijkstra_AL dijkstra_AL_exact
  rw [dijkstra_AL_tables_bridge hl hE hb]

theorem boundedWeights_chainsOfIM {G : IncidenceMatrix}
    (hE : EdgesBelow (RowEdge (rowsIM G)) G.getVerticesNum)
    (hb : BoundedWeights (RowEdge (rowsIM G))) : BoundedWeights (ChainEdge (chainsOfIM G)) :=
  fun u v w h => hb u v w ((chainEdge_chainsOfIM_iff hE u v w).mp h)

theorem dijkstra_IM_tables_bridge {pq : PriorityQueue} {G : IncidenceMatrix}
    (hl : pq.Lawful) (hE : EdgesBelow (RowEdge (rowsIM G)) G.getVerticesNum)
    (hb : BoundedWeights (RowEdge (rowsIM G))) (s fuel : Nat) :
    dijkstra_IM_tables pq G s fuel = dijkstra_IM_tables_exact pq G s fuel := by
  rw [dijkstra_IM_tables_eq, dijkstra_IM_tables_eq_exact]
  exact dijkstra_AL_tables_bridge hl (edgesBelow_chainsOfIM hE)
    (boundedWeights_chainsOfIM hE hb) s fuel

theorem dijkstra_IM_events_bridge {pq : PriorityQueue} {G : IncidenceMatrix}
    (hl : pq.Lawful) (hE : EdgesBelow (RowEdge (rowsIM G)) G.getVerticesNum)
    (hb : BoundedWeights (RowEdge (rowsIM G))) (s fuel : Nat) :
    dijkstra_IM_events pq G s fuel = dijkstra_IM_events_exact pq G s fuel := by
  rw [dijkstra_IM_events_eq, dijkstra_IM_events_eq_exact]
  exact dijkstra_AL_events_bridge hl (edgesBelow_chainsOfIM hE)
    (boundedWeights_chainsOfIM hE hb) s fuel

theorem dijkstra_IM_bridge {pq : PriorityQueue} {G : IncidenceMatrix}
    (hl : pq.Lawful) (hE : EdgesBelow (RowEdge (rowsIM G)) G.getVerticesNum)
    (hb : BoundedWeights (RowEdge (rowsIM G))) (s destination fuel : Nat) :
    dijkstra_IM pq G s destination fuel = dijkstra_IM_exact pq G s destination fuel := by
  unfold dijkstra_IM dijkstra_IM_exact
  rw [dijkstra_IM_tables_bridge hl hE hb]

/-! ### The queue during a run, whatever the arithmetic -/

theorem relaxChainNode_qinv {pq : PriorityQueue} {V u : Nat} {min : Int} {st st1 : DState}
    {temp : Edge} (hl : pq.Lawful) (hc : QCInv pq V u min st)
    (hr : relaxChainNode pq u min temp st = some st1) :
    QCInv pq V u min st1 ∧
    (st1.Q.map Vertex.number).Perm (st.Q.map Vertex.number) ∧
    ∀ x, x ≠ temp.destination →
      st1.distances.getD x 0 = st.distances.getD x 0 ∧ st1.path.getD x 0 = st.path.getD x 0 := by
  unfold relaxChainNode at hr
  split at hr
  · next himp =>
    cases hf : find st.Q temp.destination with
    | none => rw [hf] at hr; simp at hr
    | some i =>
      rw [hf] at hr
      simp only [Option.some.injEq] at hr
      obtain ⟨e, hei, hen⟩ := find_some hf
      have hemem : e ∈ st.Q := List.getElem?_mem hei
      have hek := (hc.q.keys e hemem).2
      have hv : temp.destination < V := hen ▸ (hc.q.keys e hemem).1
      have hvd : temp.destination < st.distances.length := by rw [hc.q.len_d]; exact hv
      rw [hen] at hek
      have hnew : (st.distances.set temp.destination (add32 min temp.weight)).getD
          temp.destination 0 = add32 min temp.weight := getD_set_self _ _ _ hvd
      rw [hnew] at hr
      have hlt : add32 min temp.weight < e.distance := by omega
      have hperm := hl.decrease_perm st.Q i (add32 min temp.weight) e hc.q.heap hei hlt
      have hheap := hl.decrease_heap st.Q i (add32 min temp.weight) e hc.q.heap hei hlt
      rw [hen] at hperm
      have hnum : (pq.decreaseKey st.Q i (add32 min temp.weight)).map Vertex.number
          |>.Perm (st.Q.map Vertex.number) := by
        have := hperm.map Vertex.number
        rw [← hen, numbers_set _ hei] at this
        exact this
      have hvq : temp.destination ∈ st.Q.map Vertex.number :=
        List.mem_map.mpr ⟨e, hemem, hen⟩
      have huv : u ≠ temp.destination := fun h => hc.u_out (h ▸ hvq)
      have hmem : ∀ x ∈ pq.decreaseKey st.Q i (add32 min temp.weight),
          x = ⟨temp.destination, add32 min temp.weight⟩ ∨
            (x ∈ st.Q ∧ x.number ≠ temp.destination) := by
        intro x hx
        have hx1 := hperm.mem_iff.mp hx
        rw [← hen] at hx1 ⊢
        exact mem_set_cases hc.q.nodup hei hx1
      subst hr
      refine ⟨⟨⟨?_, hheap, hnum.nodup_iff.mpr hc.q.nodup, ?_⟩, hc.u_lt, ?_, ?_⟩, hnum, ?_⟩
      · show (st.distances.set _ _).length = V
        rw [List.length_set]
        exact hc.q.len_d
      · intro x hx
        rcases hmem x hx with h1 | ⟨h1, h2⟩
        · subst h1
          exact ⟨hv, (getD_set_self _ _ _ hvd).symm⟩
        · refine ⟨(hc.q.keys x h1).1, ?_⟩
          show x.distance = (st.distances.set _ _).getD x.number 0
          rw [getD_set_ne _ _ _ _ h2]
          exact (hc.q.keys x h1).2
      · exact fun h => hc.u_out (hnum.mem_iff.mp h)
      · show (st.distances.set _ _).getD u 0 = min
        rw [getD_set_ne _ _ _ _ huv]
        exact hc.du
      · intro x hx
        exact ⟨getD_set_ne _ _ _ _ hx, getD_set_ne _ _ _ _ hx⟩
  · simp only [Option.some.injEq] at hr
    subst hr
    exact ⟨hc, List.Perm.refl _, fun _ _ => ⟨rfl, rfl⟩⟩

theorem chainLoop_qinv {pq : PriorityQueue} {V u : Nat} {min : Int} (hl : pq.Lawful)
    (l : List Edge) :
    ∀ st : DState, QCInv pq V u min st →
      (∀ ev ∈ chainEvents pq u min l st, DEvent.QOK pq V ev) ∧
      ∀ st1, chainLoop pq u min l st = some st1 →
        QCInv pq V u min st1 ∧
        ∀ x, (∀ e ∈ l, e.destination ≠ x) →
          st1.distances.getD x 0 = st.distances.getD x 0 ∧
          st1.path.getD x 0 = st.path.getD x 0 := by
  induction l with
  | nil =>
    intro st hc
    refine ⟨fun ev hev => by simp [chainEvents] at hev, fun st1 hr => ?_⟩
    simp only [chainLoop, Option.some.injEq] at hr
    subst hr
    exact ⟨hc, fun _ _ => ⟨rfl, rfl⟩⟩
  | cons temp next ih =>
    intro st hc
    simp only [chainEvents, chainLoop]
    cases h1 : relaxChainNode pq u min temp st with
    | none =>
      refine ⟨fun ev hev => ?_, fun st1 hr => by simp at hr⟩
      simp only [List.mem_singleton] at hev
      subst hev
      exact hc
    | some st2 =>
      obtain ⟨hc2, _, hfr2⟩ := relaxChainNode_qinv hl hc h1
      obtain ⟨i1, i2⟩ := ih st2 hc2
      refine ⟨fun ev hev => ?_, fun st1 hr => ?_⟩
      · simp only [List.mem_cons] at hev
        rcases hev with hev | hev
        · subst hev
          exact hc
        · exact i1 ev hev
      · simp only [Option.some_bind] at hr
        obtain ⟨j1, j2⟩ := i2 st1 hr
        refine ⟨j1, fun x hx => ?_⟩
        obtain ⟨a1, a2⟩ := j2 x (fun e he => hx e (List.mem_cons_of_mem _ he))
        obtain ⟨b1, b2⟩ := hfr2 x (fun h => hx temp (List.mem_cons_self _ _) h.symm)
        exact ⟨a1.trans b1, a2.trans b2⟩

theorem QCInv.of_extract {pq : PriorityQueue} {V : Nat} {st : DState}
    {root : Vertex} {rest : List Vertex} (hl : pq.Lawful) (hd : QInv pq V st)
    (hq : st.Q = root :: rest) :
    QCInv pq V root.number (pq.extractMin (root :: rest)).1
      { st with Q := (pq.extractMin (root :: rest)).2 } := by
  have hheap : pq.HeapOrder (root :: rest) := hq ▸ hd.heap
  have hperm := hl.extract_perm root rest hheap
  have hnd : (root.number :: rest.map Vertex.number).Nodup := by
    have := hd.nodup
    rw [hq] at this
    simpa using this
  have hroot : root ∈ st.Q := by rw [hq]; exact List.mem_cons_self _ _
  refine ⟨⟨hd.len_d, hl.extract_heap root rest hheap, ?_, ?_⟩, (hd.keys root hroot).1, ?_, ?_⟩
  · exact (hperm.map Vertex.number).nodup_iff.mpr (List.nodup_cons.mp hnd).2
  · intro e he
    have : e ∈ st.Q := by rw [hq]; exact List.mem_cons_of_mem _ (hperm.mem_iff.mp he)
    exact hd.keys e this
  · intro h
    exact (List.nodup_cons.mp hnd).1 ((hperm.map Vertex.number).mem_iff.mp h)
  · rw [hl.extract_fst root rest hheap]
    exact ((hd.keys root hroot).2).symm

theorem dijkstraLoop_AL_qinv {pq : PriorityQueue} {G : AdjacencyList} (V : Nat)
    (hl : pq.Lawful) (fuel : Nat) :
    ∀ st : DState, QInv pq V st →
      (∀ ev ∈ loopEvents_AL pq G fuel st, DEvent.QOK pq V ev) ∧
      ∀ st1, dijkstraLoop_AL pq G fuel st = some st1 →
        ∀ x, (∀ u, u < V → ∀ e ∈ G.getVertices u, e.destination ≠ x) →
          st1.distances.getD x 0 = st.distances.getD x 0 ∧
          st1.path.getD x 0 = st.path.getD x 0 := by
  induction fuel with
  | zero =>
    intro st _
    exact ⟨fun ev hev => by simp [loopEvents_AL] at hev,
      fun st1 hr => by simp [dijkstraLoop_AL] at hr⟩
  | succ fuel ih =>
    intro st hd
    unfold loopEvents_AL dijkstraLoop_AL
    cases hq : st.Q with
    | nil =>
      refine ⟨fun ev hev => by simp at hev, fun st1 hr => ?_⟩
      simp only [Option.some.injEq] at hr
      subst hr
      exact fun _ _ => ⟨rfl, rfl⟩
    | cons root rest =>
      simp only
      have hc := QCInv.of_extract hl hd hq
      obtain ⟨c1, c2⟩ := chainLoop_qinv hl (G.getVertices root.number) _ hc
      cases h2 : chainLoop pq root.number (pq.extractMin (root :: rest)).1
          (G.getVertices root.number) { st with Q := (pq.extractMin (root :: rest)).2 } with
      | none =>
        refine ⟨fun ev hev => ?_, fun st1 hr => by simp at hr⟩
        simp only [List.append_nil, List.mem_cons] at hev
        rcases hev with hev | hev
        · subst hev
          exact ⟨hd, root, rest, hq, rfl, rfl⟩
        · exact c1 ev hev
      | some st2 =>
        obtain ⟨hc2, hfr2⟩ := c2 st2 h2
        obtain ⟨i1, i2⟩ := ih st2 hc2.q
        refine ⟨fun ev hev => ?_, fun st1 hr => ?_⟩
        · simp only [List.mem_cons, List.mem_append] at hev
          rcases hev with hev | hev | hev
          · subst hev
            exact ⟨hd, root, rest, hq, rfl, rfl⟩
          · exact c1 ev hev
          · exact i1 ev hev
        · simp only [Option.some_bind] at hr
          intro x hx
          obtain ⟨a1, a2⟩ := i2 st1 hr x hx
          obtain ⟨b1, b2⟩ := hfr2 x (hx root.number hc.u_lt)
          exact ⟨a1.trans b1, a2.trans b2⟩

theorem QInv.q_at_first_state {pq : PriorityQueue} (hl : pq.Lawful) (V s : Nat) :
    QInv pq V { distances := initDistances V s, path := initPath V,
                Q := initQueue pq V (initDistances V s) } := by
  refine ⟨by simp [initDistances], (initQueue_spec hl _ _).1, ?_, ?_⟩
  · exact (initQueue_numbers hl _ _).nodup_iff.mpr (List.nodup_range _)
  · intro e he
    have h1 := ((initQueue_spec hl _ _).2).mem_iff.mp he
    obtain ⟨v, hv, rfl⟩ := List.mem_map.mp h1
    exact ⟨List.mem_range.mp hv, rfl⟩

theorem DEvent.QOK.keysOK {pq : PriorityQueue} {V : Nat} {ev : DEvent} (hl : pq.Lawful)
    (h : DEvent.QOK pq V ev) : DEvent.KeysOK ev := by
  cases ev with
  | extract st u min =>
    obtain ⟨hd, root, rest, hq, hu, hmin⟩ := h
    refine ⟨fun e he => (hd.keys e he).2, ?_⟩
    have hheap : pq.HeapOrder (root :: rest) := hq ▸ hd.heap
    have hroot : root ∈ st.Q := by rw [hq]; exact List.mem_cons_self _ _
    rw [hmin, hu, hl.extract_fst root rest hheap]
    exact (hd.keys root hroot).2
  | test u min temp st =>
    have hc : QCInv pq V u min st := h
    refine ⟨fun e he => (hc.q.keys e he).2, hc.du.symm, ?_⟩
    intro hg i hi
    obtain ⟨e, h1, h2⟩ := find_some hi
    refine ⟨e, h1, h2, ?_⟩
    have hv : temp.destination < st.distances.length := by
      rw [hc.q.len_d, ← h2]; exact (hc.q.keys e (List.getElem?_mem h1)).1
    rw [getD_set_self _ _ _ hv, (hc.q.keys e (List.getElem?_mem h1)).2, h2]
    exact hg

theorem dijkstra_AL_events_qok {pq : PriorityQueue} (G : AdjacencyList) (s fuel : Nat)
    (hl : pq.Lawful) :
    ∀ ev ∈ dijkstra_AL_events pq G s fuel, DEvent.QOK pq G.getVerticesNum ev :=
  (dijkstraLoop_AL_qinv G.getVerticesNum hl fuel _ (QInv.q_at_first_state hl _ s)).1

theorem boundedWeights_chain_alOfList {V : Nat} {es : List IMEdge}
    (h : ∀ e ∈ es, 0 ≤ e.weight ∧ e.weight ≤ 2147482647) :
    BoundedWeights (ChainEdge (alOfList V es)) := by
  intro u v w he
  exact h _ ((chainEdge_alOfList V es u v w).mp he).2

theorem boundedWeights_rowsIM_imOfList {V : Nat} {es : List IMEdge}
    (h : ∀ e ∈ es, 0 ≤ e.weight ∧ e.weight ≤ 2147482647) :
    BoundedWeights (RowEdge (rowsIM (imOfList V es))) := by
  intro u v w he
  exact h _ ((rowEdge_imOfList V es u v w).mp he)

theorem boundedWeights_rowsAL_alOfList {V : Nat} {es : List IMEdge}
    (h : ∀ e ∈ es, 0 ≤ e.weight ∧ e.weight ≤ 2147482647) :
    BoundedWeights (RowEdge (rowsAL (alOfList V es))) := by
  intro u v w he
  exact h _ ((rowEdge_alOfList V es u v w).mp he)

/-! ### A predecessor table with a loop -/

theorem printPathLoop_stuck (fuel : Nat) :
    ∀ acc, printPathLoop 0 [-1, 1] fuel 1 acc = none := by
  induction fuel with
  | zero => intro acc; rfl
  | succ fuel ih =>
    intro acc
    unfold printPathLoop
    rw [if_pos (by decide)]
    exact ih _

theorem printPath_stuck (d : Int) (hd : d ≠ 1000) (fuel : Nat) :
    printPath 0 1 d [-1, 1] fuel = none := by
  unfold printPath
  rw [if_neg hd]
  show Option.map _ (printPathLoop 0 [-1, 1] fuel 1 []) = none
  rw [printPathLoop_stuck]
  rfl

/-! ### Extracted vertices when the weights are bounded -/

theorem DEvent.Inv.settledOK32 {pq : PriorityQueue} {G : AdjacencyList} {s : Nat}
    {ev : DEvent} (hl : pq.Lawful) (hE : EdgesBelow (ChainEdge G) G.getVerticesNum)
    (hb : BoundedWeights (ChainEdge G))
    (h : DEvent.Inv pq G s ev) (hx : DEvent.Ext G ev) : DEvent.SettledOK pq ev := by
  have hex := h.settledOK hl hE hb.nonneg hx
  cases ev with
  | extract st u min => trivial
  | test u min temp st =>
    have hfit : fits32 (min + temp.weight) := h.1.sum_fits hb h.2
    obtain ⟨h1, h2, h3⟩ := hex
    show (_ → ¬ _ > add32 min temp.weight) ∧ (_ > add32 min temp.weight → _) ∧
      ∃ st1, relaxChainNode pq u min temp st = some st1 ∧ _
    rw [add32_of_fits hfit, relaxChainNode_bridge pq u st hfit]
    exact ⟨h1, h2, h3⟩

/-! ## Claims -/

/-- C1 (as amended): for both Bellman-Ford variants on a graph whose edges join vertices
below `v_nums`, whenever no sum `distance[u] + w` evaluated during the run leaves the
range of `int` and the check pass after the `v_nums - 1` relaxation passes finds an
improving edge, the graph contains a negative-weight cycle; the cycle need not be
reachable from the source. -/
theorem bellman_ford_reported_cycle_exists (GA : AdjacencyList) (GI : IncidenceMatrix)
    (source : Nat) :
    (EdgesBelow (RowEdge (rowsAL GA)) GA.getVerticesNum →
      (∀ x ∈ bellman_ford_AL_sums GA source, fits32 x) →
      bellman_ford_AL_tables GA source = BFResult.negativeCycle →
      HasNegCycle (RowEdge (rowsAL GA))) ∧
    (EdgesBelow (RowEdge (rowsIM GI)) GI.getVerticesNum →
      (∀ x ∈ bellman_ford_IM_sums GI source, fits32 x) →
      bellman_ford_IM_tables GI source = BFResult.negativeCycle →
      HasNegCycle (RowEdge (rowsIM GI))) := by
  constructor
  · intro hE hfit h
    rw [bellman_ford_AL_tables_bridge hfit, bellman_ford_AL_tables_eq_exact] at h
    exact bfRows_negativeCycle_sound hE h
  · intro hE hfit h
    rw [bellman_ford_IM_tables_bridge hfit, bellman_ford_IM_tables_eq_exact] at h
    exact bfRows_negativeCycle_sound hE h

/-- C1, witness: the theorem applied to the triangle of weights `-1`. -/
theorem bellman_ford_reported_cycle_exists_witness :
    HasNegCycle (RowEdge (rowsAL (alOfList 3 negTriangle))) ∧
    HasNegCycle (RowEdge (rowsIM (imOfList 3 negTriangle))) :=
  ⟨(bellman_ford_reported_cycle_exists (alOfList 3 negTriangle) (imOfList 3 negTriangle) 0).1
      ((edgesBelow_rows_iff _ _).mpr (by decide)) (by decide) (by decide),
   (bellman_ford_reported_cycle_exists (alOfList 3 negTriangle) (imOfList 3 negTriangle) 0).2
      ((edgesBelow_rows_iff _ _).mpr (by decide)) (by decide) (by decide)⟩

/-- C1, counterexample.  (a) On three vertices with the only edges `1 -> 2` and `2 -> 1` of
weight `-1` and source `0`, both variants report a negative cycle although no
negative-weight cycle is reachable from the source.  (b) On two vertices with the edges
`0 -> 1` and `1 -> 0` of weight `2147483647` and source `0`, the sum `1000 + 2147483647`
wraps to `-2147482649` and both variants report a negative cycle although the graph has
no negative-weight cycle at all. -/
theorem bellman_ford_reports_unreachable_cycle :
    (bellman_ford_AL_tables (alOfList 3 farCycle) 0 = BFResult.negativeCycle ∧
      bellman_ford_IM_tables (imOfList 3 farCycle) 0 = BFResult.negativeCycle ∧
      ¬ HasReachableNegCycle (RowEdge (rowsAL (alOfList 3 farCycle))) 0 ∧
      ¬ HasReachableNegCycle (RowEdge (rowsIM (imOfList 3 farCycle))) 0) ∧
    (bellman_ford_AL_tables (alOfList 2 wrapMax) 0 = BFResult.negativeCycle ∧
      bellman_ford_IM_tables (imOfList 2 wrapMax) 0 = BFResult.negativeCycle ∧
      ¬ HasNegCycle (RowEdge (rowsAL (alOfList 2 wrapMax))) ∧
      ¬ HasNegCycle (RowEdge (rowsIM (imOfList 2 wrapMax)))) :=
  ⟨⟨by decide, by decide,
    not_reachableNegCycle_of_sink (rowEdge_sink (by decide)),
    not_reachableNegCycle_of_sink (rowEdge_sink (by decide))⟩,
   ⟨by decide, by decide,
    not_hasNegCycle_of_nonneg (nonneg_rowsAL_alOfList (by decide)),
    not_hasNegCycle_of_nonneg (nonneg_rowsIM_imOfList (by decide))⟩⟩

/-- C2 (as amended): when the graph contains a negative-weight cycle reachable from the
source and no sum `distance[u] + w` evaluated during the run leaves the range of `int`,
both Bellman-Ford variants end in the negative-cycle outcome: the check pass finds an
improving edge, the function returns before `printPath`, and the only line printed is
the negative-cycle message (no path, no distance), whatever the destination. -/
theorem bellman_ford_detects_reachable_cycle (GA : AdjacencyList) (GI : IncidenceMatrix)
    (source destination fuel : Nat) :
    ((∀ x ∈ bellman_ford_AL_sums GA source, fits32 x) →
      HasReachableNegCycle (RowEdge (rowsAL GA)) source →
      bellman_ford_AL_tables GA source = BFResult.negativeCycle ∧
      bellman_ford_AL GA source destination fuel = some [OutLine.negativeCycle]) ∧
    ((∀ x ∈ bellman_ford_IM_sums GI source, fits32 x) →
      HasReachableNegCycle (RowEdge (rowsIM GI)) source →
      bellman_ford_IM_tables GI source = BFResult.negativeCycle ∧
      bellman_ford_IM GI source destination fuel = some [OutLine.negativeCycle]) := by
  constructor
  · intro hfit h
    have ht : bellman_ford_AL_tables GA source = BFResult.negativeCycle := by
      rw [bellman_ford_AL_tables_bridge hfit, bellman_ford_AL_tables_eq_exact]
      exact bfRows_negativeCycle_complete (hasNegCycle_of_reachable h)
    exact ⟨ht, bellman_ford_AL_of_negativeCycle ht _ _⟩
  · intro hfit h
    have ht : bellman_ford_IM_tables GI source = BFResult.negativeCycle := by
      rw [bellman_ford_IM_tables_bridge hfit, bellman_ford_IM_tables_eq_exact]
      exact bfRows_negativeCycle_complete (hasNegCycle_of_reachable h)
    exact ⟨ht, bellman_ford_IM_of_negativeCycle ht _ _⟩

/-- C2, witness: the three-vertex cycle with weights `-1, -1, -1` and source `0`. -/
theorem bellman_ford_detects_reachable_cycle_witness :
    (bellman_ford_AL_tables (alOfList 3 negTriangle) 0 = BFResult.negativeCycle ∧
      bellman_ford_AL (alOfList 3 negTriangle) 0 2 3 = some [OutLine.negativeCycle]) ∧
    (bellman_ford_IM_tables (imOfList 3 negTriangle) 0 = BFResult.negativeCycle ∧
      bellman_ford_IM (imOfList 3 negTriangle) 0 2 3 = some [OutLine.negativeCycle]) :=
  ⟨(bellman_ford_detects_reachable_cycle (alOfList 3 negTriangle)
      (imOfList 3 negTriangle) 0 2 3).1 (by decide)
      ⟨0, [(0, 1, -1), (1, 2, -1), (2, 0, -1)], [], rfl, by decide, by decide⟩,
   (bellman_ford_detects_reachable_cycle (alOfList 3 negTriangle)
      (imOfList 3 negTriangle) 0 2 3).2 (by decide)
      ⟨0, [(0, 1, -1), (1, 2, -1), (2, 0, -1)], [], rfl, by decide, by decide⟩⟩

/-- C2, counterexample: two vertices, the edges `0 -> 1` and `1 -> 0` of weight
`-2147483648`, source `0`.  The cycle `0, 1, 0` is reachable from the source and weighs
`-4294967296`, but the sum `-2147483648 + -2147483648` wraps to `0`, the check pass finds
no improving edge, both variants succeed and `printPath` prints a route. -/
theorem bellman_ford_misses_wrapped_cycle :
    HasReachableNegCycle (RowEdge (rowsAL (alOfList 2 wrapMin))) 0 ∧
    HasReachableNegCycle (RowEdge (rowsIM (imOfList 2 wrapMin))) 0 ∧
    bellman_ford_AL_tables (alOfList 2 wrapMin) 0 =
      BFResult.finished { distances := [0, -2147483648], path := [-1, 0] } ∧
    bellman_ford_IM_tables (imOfList 2 wrapMin) 0 =
      BFResult.finished { distances := [0, -2147483648], path := [-1, 0] } ∧
    bellman_ford_AL (alOfList 2 wrapMin) 0 1 3 =
      some [OutLine.route [1, 0] (-2147483648)] ∧
    bellman_ford_IM (imOfList 2 wrapMin) 0 1 3 =
      some [OutLine.route [1, 0] (-2147483648)] :=
  ⟨⟨0, [(0, 1, -2147483648), (1, 0, -2147483648)], [], rfl, by decide, by decide⟩,
   ⟨0, [(0, 1, -2147483648), (1, 0, -2147483648)], [], rfl, by decide, by decide⟩,
   by decide, by decide, by decide, by decide⟩

/-- C3 (as amended): on a graph with `V` vertices, edges joining vertices below `V`, and no
negative-weight cycle anywhere (reachable from the source or not), when no sum
`distance[u] + w` evaluated during the run leaves the range of `int`, the `V - 1`
in-place passes of both Bellman-Ford variants converge: the run finishes, no edge admits
a strict improvement, and for every vertex `v` the entry `distance[v]` is the minimum of
`start(a) + weight` over all vertices `a` and all walks from `a` to `v`, where
`start(source) = 0` and `start(a) = 1000` for every other vertex. -/
theorem bellman_ford_converges (GA : AdjacencyList) (GI : IncidenceMatrix) (source : Nat) :
    (EdgesBelow (RowEdge (rowsAL GA)) GA.getVerticesNum →
      (∀ x ∈ bellman_ford_AL_sums GA source, fits32 x) →
      ¬ HasNegCycle (RowEdge (rowsAL GA)) →
      ∃ t, bellman_ford_AL_tables GA source = BFResult.finished t ∧
        (∀ u v w, RowEdge (rowsAL GA) u v w →
          t.distances.getD v 0 ≤ t.distances.getD u 0 + w) ∧
        IsMinTable (RowEdge (rowsAL GA)) GA.getVerticesNum source t.distances) ∧
    (EdgesBelow (RowEdge (rowsIM GI)) GI.getVerticesNum →
      (∀ x ∈ bellman_ford_IM_sums GI source, fits32 x) →
      ¬ HasNegCycle (RowEdge (rowsIM GI)) →
      ∃ t, bellman_ford_IM_tables GI source = BFResult.finished t ∧
        (∀ u v w, RowEdge (rowsIM GI) u v w →
          t.distances.getD v 0 ≤ t.distances.getD u 0 + w) ∧
        IsMinTable (RowEdge (rowsIM GI)) GI.getVerticesNum source t.distances) := by
  constructor
  · intro hE hfit hneg
    obtain ⟨t, h1, h2, h3⟩ := bfRows_finished (s := source) hE hneg
    rw [bellman_ford_AL_tables_bridge hfit, bellman_ford_AL_tables_eq_exact]
    exact ⟨t, h1, h3, h2.isMinTable h3⟩
  · intro hE hfit hneg
    obtain ⟨t, h1, h2, h3⟩ := bfRows_finished (s := source) hE hneg
    rw [bellman_ford_IM_tables_bridge hfit, bellman_ford_IM_tables_eq_exact]
    exact ⟨t, h1, h3, h2.isMinTable h3⟩

/-- C3, witness: the theorem applied to the four-vertex scenario with source `0`. -/
theorem bellman_ford_converges_witness :
    (∃ t, bellman_ford_AL_tables (alOfList 4 scenario) 0 = BFResult.finished t ∧
        (∀ u v w, RowEdge (rowsAL (alOfList 4 scenario)) u v w →
          t.distances.getD v 0 ≤ t.distances.getD u 0 + w) ∧
        IsMinTable (RowEdge (rowsAL (alOfList 4 scenario))) 4 0 t.distances) ∧
    (∃ t, bellman_ford_IM_tables (imOfList 4 scenario) 0 = BFResult.finished t ∧
        (∀ u v w, RowEdge (rowsIM (imOfList 4 scenario)) u v w →
          t.distances.getD v 0 ≤ t.distances.getD u 0 + w) ∧
        IsMinTable (RowEdge (rowsIM (imOfList 4 scenario))) 4 0 t.distances) :=
  ⟨(bellman_ford_converges (alOfList 4 scenario) (imOfList 4 scenario) 0).1
      ((edgesBelow_rows_iff _ _).mpr (by decide)) (by decide)
      (not_hasNegCycle_of_nonneg ((nonneg_rows_iff _).mpr (by decide))),
   (bellman_ford_converges (alOfList 4 scenario) (imOfList 4 scenario) 0).2
      ((edgesBelow_rows_iff _ _).mpr (by decide)) (by decide)
      (not_hasNegCycle_of_nonneg ((nonneg_rows_iff _).mpr (by decide)))⟩

/-- C3, counterexample.  (a) Two vertices, a loop of weight `-1` at vertex `1`, source `0`:
no negative-weight cycle is reachable from the source, yet both variants end in the
negative-cycle outcome.  (b) Two vertices, one edge `0 -> 1` of weight `2000`, source `0`:
no negative cycle, vertex `1` is reachable, every walk from `0` to `1` weighs `2000`, yet
both variants finish with `distance[1] = 1000`.  (c) Three vertices, one edge `1 -> 2` of
weight `2147483647`, source `0`: no negative cycle, yet the sum `1000 + 2147483647` wraps
and both variants finish with `distance[2] = -2147482649`. -/
theorem bellman_ford_not_shortest_paths :
    (¬ HasReachableNegCycle (RowEdge (rowsAL (alOfList 2 farLoop))) 0 ∧
      ¬ HasReachableNegCycle (RowEdge (rowsIM (imOfList 2 farLoop))) 0 ∧
      bellman_ford_AL_tables (alOfList 2 farLoop) 0 = BFResult.negativeCycle ∧
      bellman_ford_IM_tables (imOfList 2 farLoop) 0 = BFResult.negativeCycle) ∧
    (¬ HasReachableNegCycle (RowEdge (rowsAL (alOfList 2 longEdge))) 0 ∧
      ¬ HasReachableNegCycle (RowEdge (rowsIM (imOfList 2 longEdge))) 0 ∧
      IsWalk (RowEdge (rowsAL (alOfList 2 longEdge))) 0 [(0, 1, 2000)] 1 ∧
      IsWalk (RowEdge (rowsIM (imOfList 2 longEdge))) 0 [(0, 1, 2000)] 1 ∧
      (∀ p, IsWalk (RowEdge (rowsAL (alOfList 2 longEdge))) 0 p 1 → weight p = 2000) ∧
      (∀ p, IsWalk (RowEdge (rowsIM (imOfList 2 longEdge))) 0 p 1 → weight p = 2000) ∧
      bellman_ford_AL_tables (alOfList 2 longEdge) 0 =
        BFResult.finished { distances := [0, 1000], path := [-1, -1] } ∧
      bellman_ford_IM_tables (imOfList 2 longEdge) 0 =
        BFResult.finished { distances := [0, 1000], path := [-1, -1] }) ∧
    (¬ HasNegCycle (RowEdge (rowsAL (alOfList 3 wrapStep))) ∧
      ¬ HasNegCycle (RowEdge (rowsIM (imOfList 3 wrapStep))) ∧
      bellman_ford_AL_tables (alOfList 3 wrapStep) 0 =
        BFResult.finished { distances := [0, 1000, -2147482649], path := [-1, -1, 1] } ∧
      bellman_ford_IM_tables (imOfList 3 wrapStep) 0 =
        BFResult.finished { distances := [0, 1000, -2147482649], path := [-1, -1, 1] }) := by
  have hrA : rowsAL (alOfList 2 longEdge) = [(0, 1, 2000)] := by decide
  have hrI : rowsIM (imOfList 2 longEdge) = [(0, 1, 2000)] := by decide
  have hwalk : ∀ p, IsWalk (RowEdge [(0, 1, 2000)]) 0 p 1 → weight p = 2000 := by
    intro p hp
    cases p with
    | nil => simp [IsWalk] at hp
    | cons e p =>
      obtain ⟨h1, h2, h3⟩ := hp
      have he : e = (0, 1, 2000) := by simpa [RowEdge] using h2
      subst he
      obtain ⟨rfl, _⟩ := h3.of_sink (rowEdge_sink (by decide))
      decide
  refine ⟨⟨not_reachableNegCycle_of_sink (rowEdge_sink (by decide)),
    not_reachableNegCycle_of_sink (rowEdge_sink (by decide)), by decide, by decide⟩,
    ⟨fun h => not_hasNegCycle_of_nonneg ((nonneg_rows_iff _).mpr (by decide))
        (hasNegCycle_of_reachable h),
     fun h => not_hasNegCycle_of_nonneg ((nonneg_rows_iff _).mpr (by decide))
        (hasNegCycle_of_reachable h),
     by decide, by decide, ?_, ?_, by decide, by decide⟩,
    ⟨not_hasNegCycle_of_nonneg (nonneg_rowsAL_alOfList (by decide)),
     not_hasNegCycle_of_nonneg (nonneg_rowsIM_imOfList (by decide)), by decide, by decide⟩⟩
  · rw [hrA]; exact hwalk
  · rw [hrI]; exact hwalk

/-- C4 (as amended): for every graph whose weights lie between `0` and `2147482647`
(`INT_MAX - 1000`) and whose edges join vertices below `V`, every source below `V`, every
priority queue that meets its contract and more fuel than vertices, `dijkstra_AL` and
`dijkstra_IM` leave their main loop, and for every vertex `v` the entry `distance[v]` is
the smaller of `1000` and the least total weight of a walk from the source to `v`; so it
is the shortest-path weight exactly when that weight is below `1000`, and `1000`
otherwise. -/
theorem dijkstra_capped_shortest (pq : PriorityQueue) (GA : AdjacencyList)
    (GI : IncidenceMatrix) (source fuel : Nat) (hl : pq.Lawful) :
    (EdgesBelow (ChainEdge GA) GA.getVerticesNum →
      BoundedWeights (ChainEdge GA) →
      source < GA.getVerticesNum → GA.getVerticesNum < fuel →
      ∃ t, dijkstra_AL_tables pq GA source fuel = some t ∧
        ∀ v, v < GA.getVerticesNum →
          IsCappedMin (ChainEdge GA) source v (t.distances.getD v 0)) ∧
    (EdgesBelow (RowEdge (rowsIM GI)) GI.getVerticesNum →
      BoundedWeights (RowEdge (rowsIM GI)) →
      source < GI.getVerticesNum → GI.getVerticesNum < fuel →
      ∃ t, dijkstra_IM_tables pq GI source fuel = some t ∧
        ∀ v, v < GI.getVerticesNum →
          IsCappedMin (RowEdge (rowsIM GI)) source v (t.distances.getD v 0)) := by
  constructor
  · intro hE hb hs hfuel
    obtain ⟨t, h1, h2, h3⟩ := dijkstra_AL_tables_some source fuel hl hE hb.nonneg hfuel
    rw [dijkstra_AL_tables_bridge hl hE hb]
    exact ⟨t, h1, (h2.isMinTable h3).capped hb.nonneg hs⟩
  · intro hE hb hs hfuel
    obtain ⟨t, h1, h2, h3⟩ := dijkstra_IM_tables_some source fuel hl hE hb.nonneg hfuel
    rw [dijkstra_IM_tables_bridge hl hE hb]
    exact ⟨t, h1, (h2.isMinTable h3).capped hb.nonneg hs⟩

/-- C4, witness: the four-vertex scenario with the binary heap, source `0`, fuel `5`. -/
theorem dijkstra_capped_shortest_witness :
    (∃ t, dijkstra_AL_tables binaryHeap (alOfList 4 scenario) 0 5 = some t ∧
        ∀ v, v < 4 →
          IsCappedMin (ChainEdge (alOfList 4 scenario)) 0 v (t.distances.getD v 0)) ∧
    (∃ t, dijkstra_IM_tables binaryHeap (imOfList 4 scenario) 0 5 = some t ∧
        ∀ v, v < 4 →
          IsCappedMin (RowEdge (rowsIM (imOfList 4 scenario))) 0 v
            (t.distances.getD v 0)) :=
  ⟨(dijkstra_capped_shortest binaryHeap (alOfList 4 scenario) (imOfList 4 scenario) 0 5
      binaryHeap_lawful).1
      (edgesBelow_chain_alOfList (by decide)) (boundedWeights_chain_alOfList (by decide))
      (by decide) (by decide),
   (dijkstra_capped_shortest binaryHeap (alOfList 4 scenario) (imOfList 4 scenario) 0 5
      binaryHeap_lawful).2
      (edgesBelow_rowsIM_imOfList (by decide)) (boundedWeights_rowsIM_imOfList (by decide))
      (by decide) (by decide)⟩

/-- C4, counterexample, with the binary heap, which meets the contract.  (a) Two vertices
and the single edge `0 -> 1` of weight `2000`, source `0`: vertex `1` is reachable and
every walk from `0` to `1` weighs `2000`, yet both Dijkstra variants end with
`distance[1] = 1000`.  (b) Three vertices, the edges `0 -> 1` of weight `5` and `1 -> 2` of
weight `2147483647`, source `0`: all weights are non-negative, the sum `5 + 2147483647`
wraps and both variants end with `distance[2] = -2147483644`. -/
theorem dijkstra_misses_long_path :
    binaryHeap.Lawful ∧
    IsWalk (ListEdge longEdge) 0 [(0, 1, 2000)] 1 ∧
    (∀ p, IsWalk (ListEdge longEdge) 0 p 1 → weight p = 2000) ∧
    (∀ u v w, ChainEdge (alOfList 2 longEdge) u v w ↔ ListEdge longEdge u v w) ∧
    (∀ u v w, RowEdge (rowsIM (imOfList 2 longEdge)) u v w ↔ ListEdge longEdge u v w) ∧
    dijkstra_AL_tables binaryHeap (alOfList 2 longEdge) 0 3 =
      some { distances := [0, 1000], path := [-1, -1] } ∧
    dijkstra_IM_tables binaryHeap (imOfList 2 longEdge) 0 3 =
      some { distances := [0, 1000], path := [-1, -1] } ∧
    (∀ e ∈ wrapChain, 0 ≤ e.weight) ∧
    dijkstra_AL_tables binaryHeap (alOfList 3 wrapChain) 0 4 =
      some { distances := [0, 5, -2147483644], path := [-1, 0, 1] } ∧
    dijkstra_IM_tables binaryHeap (imOfList 3 wrapChain) 0 4 =
      some { distances := [0, 5, -2147483644], path := [-1, 0, 1] } := by
  refine ⟨binaryHeap_lawful, by decide, ?_, ?_, rowEdge_imOfList 2 longEdge,
    by decide, by decide, by decide, by decide, by decide⟩
  · intro p hp
    cases p with
    | nil => simp [IsWalk] at hp
    | cons e p =>
      obtain ⟨h1, h2, h3⟩ := hp
      have he : e = (0, 1, 2000) := by
        obtain ⟨a, b, c⟩ := e
        simp only [ListEdge, longEdge, List.mem_singleton, IMEdge.mk.injEq] at h2
        simp [h2.1, h2.2.1, h2.2.2]
      subst he
      have hsink : ∀ v w, ¬ ListEdge longEdge 1 v w := by
        intro v w h
        simp [ListEdge, longEdge] at h
      obtain ⟨rfl, _⟩ := h3.of_sink hsink
      decide
  · intro u v w
    rw [chainEdge_alOfList]
    constructor
    · exact fun h => h.2
    · intro h
      refine ⟨?_, h⟩
      simp only [ListEdge, longEdge, List.mem_singleton, IMEdge.mk.injEq] at h
      omega

/-- C5: on the graph with vertices `{0,1,2,3}` and edges `(0,1,1)`, `(0,2,4)`, `(1,2,2)`,
`(1,3,6)`, `(2,3,3)`, source `0` and destination `3`, each of the four variants (Dijkstra
with any queue that meets its contract and fuel above `4`) ends with the distance table
`[0, 1, 3, 6]` (so `distance[3] = 6`) and the predecessor table `[-1, 0, 1, 2]`
(`predecessor[3] = 2`, `predecessor[2] = 1`, `predecessor[1] = 0`), and `printPath`
renders the path `0, 1, 2, 3` of length `6`, written from the destination backwards as
`3 <- 2 <- 1 <- 0`. -/
theorem scenario_all_variants (pq : PriorityQueue) (fuel : Nat) (hl : pq.Lawful)
    (hfuel : 4 < fuel) :
    dijkstra_AL_tables pq (alOfList 4 scenario) 0 fuel =
      some { distances := [0, 1, 3, 6], path := [-1, 0, 1, 2] } ∧
    dijkstra_IM_tables pq (imOfList 4 scenario) 0 fuel =
      some { distances := [0, 1, 3, 6], path := [-1, 0, 1, 2] } ∧
    bellman_ford_AL_tables (alOfList 4 scenario) 0 =
      BFResult.finished { distances := [0, 1, 3, 6], path := [-1, 0, 1, 2] } ∧
    bellman_ford_IM_tables (imOfList 4 scenario) 0 =
      BFResult.finished { distances := [0, 1, 3, 6], path := [-1, 0, 1, 2] } ∧
    dijkstra_AL pq (alOfList 4 scenario) 0 3 fuel =
      some [OutLine.counts 4 5, OutLine.route [3, 2, 1, 0] 6] ∧
    dijkstra_IM pq (imOfList 4 scenario) 0 3 fuel = some [OutLine.route [3, 2, 1, 0] 6] ∧
    bellman_ford_AL (alOfList 4 scenario) 0 3 fuel = some [OutLine.route [3, 2, 1, 0] 6] ∧
    bellman_ford_IM (imOfList 4 scenario) 0 3 fuel = some [OutLine.route [3, 2, 1, 0] 6] := by
  have hwf : ∀ e ∈ scenario, e.source < 4 ∧ e.destination < 4 := by decide
  have hnn : ∀ e ∈ scenario, 0 ≤ e.weight := by decide
  have hbd : ∀ e ∈ scenario, 0 ≤ e.weight ∧ e.weight ≤ 2147482647 := by decide
  have hprint : printPath 0 3 6 [-1, 0, 1, 2] fuel = some (OutLine.route [3, 2, 1, 0] 6) :=
    printPath_mono 0 3 6 _ 4 fuel _ (by omega) (by decide)
  have hA : dijkstra_AL_tables pq (alOfList 4 scenario) 0 fuel =
      some { distances := [0, 1, 3, 6], path := [-1, 0, 1, 2] } := by
    obtain ⟨t, h1, h2, h3⟩ := dijkstra_AL_tables_some (G := alOfList 4 scenario)
      0 fuel hl (edgesBelow_chain_alOfList hwf)
      (nonneg_chain_alOfList hnn) hfuel
    rw [dijkstra_AL_tables_bridge hl (edgesBelow_chain_alOfList hwf)
      (boundedWeights_chain_alOfList hbd), h1, scenario_tables (h2.inv_of_iff (chainEdge_alOfList_iff hwf))
      (fun u v w h => h3 u v w ((chainEdge_alOfList_iff hwf u v w).mpr h))]
  have hI : dijkstra_IM_tables pq (imOfList 4 scenario) 0 fuel =
      some { distances := [0, 1, 3, 6], path := [-1, 0, 1, 2] } := by
    rw [dijkstra_IM_tables_eq, chainsOfIM_imOfList]
    exact hA
  have hBA : bellman_ford_AL_tables (alOfList 4 scenario) 0 =
      BFResult.finished { distances := [0, 1, 3, 6], path := [-1, 0, 1, 2] } := by decide
  have hBI : bellman_ford_IM_tables (imOfList 4 scenario) 0 =
      BFResult.finished { distances := [0, 1, 3, 6], path := [-1, 0, 1, 2] } := by decide
  refine ⟨hA, hI, hBA, hBI, ?_, ?_, ?_, ?_⟩
  · rw [dijkstra_AL_of_tables hA]
    show Option.map _ (printPath 0 3 6 [-1, 0, 1, 2] fuel) = _
    rw [hprint]
    rfl
  · rw [dijkstra_IM_of_tables hI]
    show Option.map _ (printPath 0 3 6 [-1, 0, 1, 2] fuel) = _
    rw [hprint]
    rfl
  · rw [bellman_ford_AL_of_finished hBA]
    show Option.map _ (printPath 0 3 6 [-1, 0, 1, 2] fuel) = _
    rw [hprint]
    rfl
  · rw [bellman_ford_IM_of_finished hBI]
    show Option.map _ (printPath 0 3 6 [-1, 0, 1, 2] fuel) = _
    rw [hprint]
    rfl

/-- C5, witness: the binary heap with fuel `5`. -/
theorem scenario_all_variants_witness :
    dijkstra_AL_tables binaryHeap (alOfList 4 scenario) 0 5 =
      some { distances := [0, 1, 3, 6], path := [-1, 0, 1, 2] } ∧
    dijkstra_IM_tables binaryHeap (imOfList 4 scenario) 0 5 =
      some { distances := [0, 1, 3, 6], path := [-1, 0, 1, 2] } ∧
    bellman_ford_AL_tables (alOfList 4 scenario) 0 =
      BFResult.finished { distances := [0, 1, 3, 6], path := [-1, 0, 1, 2] } ∧
    bellman_ford_IM_tables (imOfList 4 scenario) 0 =
      BFResult.finished { distances := [0, 1, 3, 6], path := [-1, 0, 1, 2] } ∧
    dijkstra_AL binaryHeap (alOfList 4 scenario) 0 3 5 =
      some [OutLine.counts 4 5, OutLine.route [3, 2, 1, 0] 6] ∧
    dijkstra_IM binaryHeap (imOfList 4 scenario) 0 3 5 =
      some [OutLine.route [3, 2, 1, 0] 6] ∧
    bellman_ford_AL (alOfList 4 scenario) 0 3 5 = some [OutLine.route [3, 2, 1, 0] 6] ∧
    bellman_ford_IM (imOfList 4 scenario) 0 3 5 = some [OutLine.route [3, 2, 1, 0] 6] :=
  scenario_all_variants binaryHeap 5 binaryHeap_lawful (by decide)

/-- C6 (as amended): for every graph with weights between `0` and `2147482647`
(`INT_MAX - 1000`) given as an adjacency list
and as an incidence matrix that hold the same set of edges (joining vertices below `V`),
the same priority queue meeting its contract and more fuel than vertices, `dijkstra_AL`
and `dijkstra_IM` both leave their main loop with identical distance tables; when, in
addition, the chain of every vertex lists its outgoing edges in the order of their
numbers in the incidence matrix, the predecessor tables are identical as well. -/
theorem dijkstra_AL_IM_agree (pq : PriorityQueue) (GA : AdjacencyList)
    (GI : IncidenceMatrix) (source fuel : Nat) (hl : pq.Lawful)
    (hV : GA.getVerticesNum = GI.getVerticesNum)
    (hsame : ∀ u v w, ChainEdge GA u v w ↔ RowEdge (rowsIM GI) u v w)
    (hE : EdgesBelow (RowEdge (rowsIM GI)) GI.getVerticesNum)
    (hb : BoundedWeights (RowEdge (rowsIM GI)))
    (hfuel : GI.getVerticesNum < fuel) :
    (∃ tA tI, dijkstra_AL_tables pq GA source fuel = some tA ∧
      dijkstra_IM_tables pq GI source fuel = some tI ∧ tA.distances = tI.distances) ∧
    ((∀ u, GA.getVertices u =
        (((List.range GI.getEdgesNum).map GI.getEdge).filter
          (fun e => decide (e.source = u))).map (fun e => ⟨e.destination, e.weight⟩)) →
      dijkstra_AL_tables pq GA source fuel = dijkstra_IM_tables pq GI source fuel) := by
  constructor
  · have hEA : EdgesBelow (ChainEdge GA) GA.getVerticesNum := by
      intro u v w h
      rw [hV]
      exact hE u v w ((hsame u v w).mp h)
    have hbA : BoundedWeights (ChainEdge GA) := fun u v w h => hb u v w ((hsame u v w).mp h)
    obtain ⟨tA, a1, a2, a3⟩ := dijkstra_AL_tables_some source fuel hl hEA hbA.nonneg
      (by rw [hV]; exact hfuel)
    obtain ⟨tI, i1, i2, i3⟩ := dijkstra_IM_tables_some source fuel hl hE hb.nonneg hfuel
    rw [dijkstra_AL_tables_bridge hl hEA hbA, dijkstra_IM_tables_bridge hl hE hb]
    refine ⟨tA, tI, a1, i1, ?_⟩
    have mA := (a2.isMinTable a3).of_iff hsame
    rw [hV] at mA
    exact mA.unique (i2.isMinTable i3)
  · intro hchain
    rw [dijkstra_IM_tables_eq]
    exact dijkstra_AL_tables_congr pq GA (chainsOfIM GI) hV hchain source fuel

/-- C6, witness: the four-vertex scenario in both representations, the binary heap. -/
theorem dijkstra_AL_IM_agree_witness :
    (∃ tA tI, dijkstra_AL_tables binaryHeap (alOfList 4 scenario) 0 5 = some tA ∧
      dijkstra_IM_tables binaryHeap (imOfList 4 scenario) 0 5 = some tI ∧
      tA.distances = tI.distances) ∧
    dijkstra_AL_tables binaryHeap (alOfList 4 scenario) 0 5 =
      dijkstra_IM_tables binaryHeap (imOfList 4 scenario) 0 5 :=
  ⟨(dijkstra_AL_IM_agree binaryHeap (alOfList 4 scenario) (imOfList 4 scenario) 0 5
      binaryHeap_lawful rfl
      (fun u v w => by rw [chainEdge_alOfList_iff (by decide), rowEdge_imOfList])
      (edgesBelow_rowsIM_imOfList (by decide)) (boundedWeights_rowsIM_imOfList (by decide))
      (by decide)).1,
   (dijkstra_AL_IM_agree binaryHeap (alOfList 4 scenario) (imOfList 4 scenario) 0 5
      binaryHeap_lawful rfl
      (fun u v w => by rw [chainEdge_alOfList_iff (by decide), rowEdge_imOfList])
      (edgesBelow_rowsIM_imOfList (by decide)) (boundedWeights_rowsIM_imOfList (by decide))
      (by decide)).2
      (fun u => (congrFun (congrArg AdjacencyList.getVertices
        (chainsOfIM_imOfList 4 scenario)) u).symm)⟩

/-- C6, counterexample.  (a) Four vertices, edges `0 -> 1`, `0 -> 2`, `1 -> 3`, `2 -> 3` of
weight `1`, source `0`.  The adjacency list chains `0 -> 1` before `0 -> 2`, the incidence
matrix numbers `0 -> 2` before `0 -> 1`; both hold the same set of edges.  With the binary
heap of section 4.1 as the queue of both runs the distance tables agree, but `dijkstra_AL`
ends with `predecessor[3] = 1` and `dijkstra_IM` with `predecessor[3] = 2`.  (b) Three
vertices, edges `0 -> 1` and `0 -> 2` of weight `1` and `1 -> 2` of weight `2147483647`,
the incidence matrix numbering `0 -> 2` before `0 -> 1`: all weights are non-negative,
`dijkstra_AL` leaves its main loop, while in `dijkstra_IM` the sum `1 + 2147483647` wraps
and `Q->find` is called for the extracted vertex `2`, so no tables are returned. -/
theorem dijkstra_AL_IM_predecessors_differ :
    binaryHeap.Lawful ∧
    (∀ u v w, ChainEdge (alOfList 4 tieFirst) u v w ↔
      RowEdge (rowsIM (imOfList 4 tieSecond)) u v w) ∧
    (∀ u v w, RowEdge (rowsIM (imOfList 4 tieSecond)) u v w → 0 ≤ w) ∧
    dijkstra_AL_tables binaryHeap (alOfList 4 tieFirst) 0 5 =
      some { distances := [0, 1, 1, 2], path := [-1, 0, 0, 1] } ∧
    dijkstra_IM_tables binaryHeap (imOfList 4 tieSecond) 0 5 =
      some { distances := [0, 1, 1, 2], path := [-1, 0, 0, 2] } ∧
    dijkstra_AL_tables binaryHeap (alOfList 4 tieFirst) 0 5 ≠
      dijkstra_IM_tables binaryHeap (imOfList 4 tieSecond) 0 5 ∧
    wrapTie.Perm wrapTieSwapped ∧
    (∀ e ∈ wrapTie, 0 ≤ e.weight) ∧
    dijkstra_AL_tables binaryHeap (alOfList 3 wrapTie) 0 4 =
      some { distances := [0, 1, -2147483648], path := [-1, 0, 1] } ∧
    dijkstra_IM_tables binaryHeap (imOfList 3 wrapTieSwapped) 0 4 = none := by
  refine ⟨binaryHeap_lawful, ?_, nonneg_rowsIM_imOfList (by decide), by decide, by decide,
    by decide, List.Perm.swap _ _ _, by decide, by decide, by decide⟩
  intro u v w
  rw [chainEdge_alOfList_iff (by decide), rowEdge_imOfList]
  exact (by decide : tieFirst.Perm tieSecond).mem_iff

/-- C7: when the edge array of the adjacency list and `getEdge(0..E-1)` of the incidence
matrix enumerate the same triples in the same order (and the vertex counts agree),
`bellman_ford_AL` and `bellman_ford_IM` give the same outcome: the same negative-cycle
flag and, on success, the same distance and predecessor tables, hence the same output. -/
theorem bellman_ford_AL_IM_same_outcome (GA : AdjacencyList) (GI : IncidenceMatrix)
    (source : Nat) (hV : GA.getVerticesNum = GI.getVerticesNum)
    (hrows : rowsAL GA = rowsIM GI) :
    bellman_ford_AL_tables GA source = bellman_ford_IM_tables GI source ∧
    ∀ destination fuel,
      bellman_ford_AL GA source destination fuel =
        bellman_ford_IM GI source destination fuel := by
  have ht : bellman_ford_AL_tables GA source = bellman_ford_IM_tables GI source := by
    rw [bellman_ford_AL_tables_eq, bellman_ford_IM_tables_eq, hV, hrows]
  refine ⟨ht, fun destination fuel => ?_⟩
  unfold bellman_ford_AL bellman_ford_IM
  rw [ht]

/-- C7, witness: the four-vertex scenario in both representations. -/
theorem bellman_ford_AL_IM_same_outcome_witness :
    bellman_ford_AL_tables (alOfList 4 scenario) 0 =
      bellman_ford_IM_tables (imOfList 4 scenario) 0 ∧
    ∀ destination fuel,
      bellman_ford_AL (alOfList 4 scenario) 0 destination fuel =
        bellman_ford_IM (imOfList 4 scenario) 0 destination fuel :=
  bellman_ford_AL_IM_same_outcome (alOfList 4 scenario) (imOfList 4 scenario) 0 rfl
    (by decide)

/-- C8 (as amended): for every graph with edge weights between `0` and `2147482647`
(`INT_MAX - 1000`; edges joining vertices below `V`,
the adjacency list and the incidence matrix holding the same edges), every source, every
queue meeting its contract and more fuel than vertices, both Bellman-Ford variants
succeed, both Dijkstra variants leave their main loop, and the four final distance tables
are equal. -/
theorem bellman_ford_dijkstra_same_distances (pq : PriorityQueue) (GA : AdjacencyList)
    (GI : IncidenceMatrix) (source fuel : Nat) (hl : pq.Lawful)
    (hV : GA.getVerticesNum = GI.getVerticesNum)
    (hchain : ∀ u v w, ChainEdge GA u v w ↔ RowEdge (rowsIM GI) u v w)
    (hrows : ∀ u v w, RowEdge (rowsAL GA) u v w ↔ RowEdge (rowsIM GI) u v w)
    (hE : EdgesBelow (RowEdge (rowsIM GI)) GI.getVerticesNum)
    (hb : BoundedWeights (RowEdge (rowsIM GI)))
    (hfuel : GI.getVerticesNum < fuel) :
    ∃ bA bI dA dI,
      bellman_ford_AL_tables GA source = BFResult.finished bA ∧
      bellman_ford_IM_tables GI source = BFResult.finished bI ∧
      dijkstra_AL_tables pq GA source fuel = some dA ∧
      dijkstra_IM_tables pq GI source fuel = some dI ∧
      bA.distances = bI.distances ∧ bI.distances = dA.distances ∧
      dA.distances = dI.distances := by
  have hEr : EdgesBelow (RowEdge (rowsAL GA)) GA.getVerticesNum := by
    intro u v w h
    rw [hV]
    exact hE u v w ((hrows u v w).mp h)
  have hEc : EdgesBelow (ChainEdge GA) GA.getVerticesNum := by
    intro u v w h
    rw [hV]
    exact hE u v w ((hchain u v w).mp h)
  have hbr : BoundedWeights (RowEdge (rowsAL GA)) :=
    fun u v w h => hb u v w ((hrows u v w).mp h)
  have hbc : BoundedWeights (ChainEdge GA) :=
    fun u v w h => hb u v w ((hchain u v w).mp h)
  obtain ⟨bA, a1, a2, a3⟩ := bfRows_finished (s := source) hEr
    (not_hasNegCycle_of_nonneg hbr.nonneg)
  obtain ⟨bI, b1, b2, b3⟩ := bfRows_finished (s := source) hE
    (not_hasNegCycle_of_nonneg hb.nonneg)
  obtain ⟨dA, c1, c2, c3⟩ := dijkstra_AL_tables_some source fuel hl hEc hbc.nonneg
    (by rw [hV]; exact hfuel)
  obtain ⟨dI, d1, d2, d3⟩ := dijkstra_IM_tables_some source fuel hl hE hb.nonneg hfuel
  rw [bellman_ford_AL_tables_bridge (bellman_ford_AL_sums_fit source hEr hbr),
    bellman_ford_IM_tables_bridge (bellman_ford_IM_sums_fit source hE hb),
    dijkstra_AL_tables_bridge hl hEc hbc, dijkstra_IM_tables_bridge hl hE hb]
  have mA := (a2.isMinTable a3).of_iff hrows
  have mI := b2.isMinTable b3
  have nA := (c2.isMinTable c3).of_iff hchain
  have nI := d2.isMinTable d3
  rw [hV] at mA nA
  exact ⟨bA, bI, dA, dI, by rw [bellman_ford_AL_tables_eq_exact]; exact a1,
    by rw [bellman_ford_IM_tables_eq_exact]; exact b1, c1, d1, mA.unique mI, mI.unique nA,
    nA.unique nI⟩

/-- C8, witness: the four-vertex scenario, the binary heap, fuel `5`. -/
theorem bellman_ford_dijkstra_same_distances_witness :
    ∃ bA bI dA dI,
      bellman_ford_AL_tables (alOfList 4 scenario) 0 = BFResult.finished bA ∧
      bellman_ford_IM_tables (imOfList 4 scenario) 0 = BFResult.finished bI ∧
      dijkstra_AL_tables binaryHeap (alOfList 4 scenario) 0 5 = some dA ∧
      dijkstra_IM_tables binaryHeap (imOfList 4 scenario) 0 5 = some dI ∧
      bA.distances = bI.distances ∧ bI.distances = dA.distances ∧
      dA.distances = dI.distances :=
  bellman_ford_dijkstra_same_distances binaryHeap (alOfList 4 scenario)
    (imOfList 4 scenario) 0 5 binaryHeap_lawful rfl
    (fun u v w => by rw [chainEdge_alOfList_iff (by decide), rowEdge_imOfList])
    (fun u v w => by rw [rowEdge_alOfList, rowEdge_imOfList])
    (edgesBelow_rowsIM_imOfList (by decide)) (boundedWeights_rowsIM_imOfList (by decide))
    (by decide)

/-- C8, counterexample: two vertices, the edges `0 -> 1` and `1 -> 0` of weight
`2147483647`, source `0`.  All weights are non-negative, so the graph has no negative
cycle, but the sum `1000 + 2147483647` wraps to `-2147482649` and both Bellman-Ford
variants end in the negative-cycle outcome instead of succeeding. -/
theorem bellman_ford_fails_on_large_weights :
    (∀ e ∈ wrapMax, 0 ≤ e.weight) ∧
    ¬ HasNegCycle (RowEdge (rowsAL (alOfList 2 wrapMax))) ∧
    ¬ HasNegCycle (RowEdge (rowsIM (imOfList 2 wrapMax))) ∧
    bellman_ford_AL_tables (alOfList 2 wrapMax) 0 = BFResult.negativeCycle ∧
    bellman_ford_IM_tables (imOfList 2 wrapMax) 0 = BFResult.negativeCycle ∧
    bellman_ford_AL (alOfList 2 wrapMax) 0 1 3 = some [OutLine.negativeCycle] ∧
    bellman_ford_IM (imOfList 2 wrapMax) 0 1 3 = some [OutLine.negativeCycle] :=
  ⟨by decide,
   not_hasNegCycle_of_nonneg (nonneg_rowsAL_alOfList (by decide)),
   not_hasNegCycle_of_nonneg (nonneg_rowsIM_imOfList (by decide)),
   by decide, by decide, by decide, by decide⟩

/-- C9 (as amended): `printPath` reports "no path" (the destination's final distance is
`1000`) only when no walk from the source to the destination weighs less than `1000`:
for the Bellman-Ford variants on every graph (edges joining vertices below `V`, source
below `V`) on which no sum `distance[u] + w` evaluated during the run leaves the range of
`int`, for the Dijkstra variants on every such graph with weights between `0` and
`2147482647` and a queue meeting its contract. -/
theorem no_path_only_without_light_path (pq : PriorityQueue) (GA : AdjacencyList)
    (GI : IncidenceMatrix) (source destination fuel : Nat) (hl : pq.Lawful) :
    (EdgesBelow (RowEdge (rowsAL GA)) GA.getVerticesNum → source < GA.getVerticesNum →
      (∀ x ∈ bellman_ford_AL_sums GA source, fits32 x) →
      bellman_ford_AL GA source destination fuel =
        some [OutLine.noPath source destination] →
      ∀ p, IsWalk (RowEdge (rowsAL GA)) source p destination → 1000 ≤ weight p) ∧
    (EdgesBelow (RowEdge (rowsIM GI)) GI.getVerticesNum → source < GI.getVerticesNum →
      (∀ x ∈ bellman_ford_IM_sums GI source, fits32 x) →
      bellman_ford_IM GI source destination fuel =
        some [OutLine.noPath source destination] →
      ∀ p, IsWalk (RowEdge (rowsIM GI)) source p destination → 1000 ≤ weight p) ∧
    (EdgesBelow (ChainEdge GA) GA.getVerticesNum →
      BoundedWeights (ChainEdge GA) → source < GA.getVerticesNum →
      dijkstra_AL pq GA source destination fuel =
        some [OutLine.counts GA.getVerticesNum GA.getEdgesNum,
          OutLine.noPath source destination] →
      ∀ p, IsWalk (ChainEdge GA) source p destination → 1000 ≤ weight p) ∧
    (EdgesBelow (RowEdge (rowsIM GI)) GI.getVerticesNum →
      BoundedWeights (RowEdge (rowsIM GI)) → source < GI.getVerticesNum →
      dijkstra_IM pq GI source destination fuel =
        some [OutLine.noPath source destination] →
      ∀ p, IsWalk (RowEdge (rowsIM GI)) source p destination → 1000 ≤ weight p) := by
  refine ⟨?_, ?_, ?_, ?_⟩
  · intro hE hs hfit h
    obtain ⟨t, ht, hd⟩ := bellman_ford_AL_output_inv h
    rw [bellman_ford_AL_tables_bridge hfit, bellman_ford_AL_tables_eq_exact] at ht
    obtain ⟨h1, h2⟩ := bfRows_finished_inv hE ht
    exact no_light_walk_of_sentinel h1 h2 hs hd
  · intro hE hs hfit h
    obtain ⟨t, ht, hd⟩ := bellman_ford_IM_output_inv h
    rw [bellman_ford_IM_tables_bridge hfit, bellman_ford_IM_tables_eq_exact] at ht
    obtain ⟨h1, h2⟩ := bfRows_finished_inv hE ht
    exact no_light_walk_of_sentinel h1 h2 hs hd
  · intro hE hb hs h
    obtain ⟨t, ht, hd⟩ := dijkstra_AL_output_inv h
    rw [dijkstra_AL_tables_bridge hl hE hb] at ht
    obtain ⟨h1, h2⟩ := dijkstra_AL_tables_fixpoint hl hE hb.nonneg ht
    exact no_light_walk_of_sentinel h1 h2 hs hd
  · intro hE hb hs h
    obtain ⟨t, ht, hd⟩ := dijkstra_IM_output_inv h
    rw [dijkstra_IM_tables_bridge hl hE hb] at ht
    obtain ⟨h1, h2⟩ := dijkstra_IM_tables_fixpoint hl hE hb.nonneg ht
    exact no_light_walk_of_sentinel h1 h2 hs hd

/-- C9, witness: two vertices, one edge `0 -> 1` of weight `1000`, source `0`, destination
`1`, the binary heap, fuel `3`: all four variants report "no path", and the walk along the
edge weighs `1000`. -/
theorem no_path_only_without_light_path_witness :
    (∀ p, IsWalk (RowEdge (rowsAL (alOfList 2 sentinelEdge))) 0 p 1 → 1000 ≤ weight p) ∧
    (∀ p, IsWalk (RowEdge (rowsIM (imOfList 2 sentinelEdge))) 0 p 1 → 1000 ≤ weight p) ∧
    (∀ p, IsWalk (ChainEdge (alOfList 2 sentinelEdge)) 0 p 1 → 1000 ≤ weight p) ∧
    (∀ p, IsWalk (RowEdge (rowsIM (imOfList 2 sentinelEdge))) 0 p 1 → 1000 ≤ weight p) :=
  ⟨(no_path_only_without_light_path binaryHeap (alOfList 2 sentinelEdge)
      (imOfList 2 sentinelEdge) 0 1 3 binaryHeap_lawful).1
      (edgesBelow_rowsAL_alOfList (by decide)) (by decide) (by decide) (by decide),
   (no_path_only_without_light_path binaryHeap (alOfList 2 sentinelEdge)
      (imOfList 2 sentinelEdge) 0 1 3 binaryHeap_lawful).2.1
      (edgesBelow_rowsIM_imOfList (by decide)) (by decide) (by decide) (by decide),
   (no_path_only_without_light_path binaryHeap (alOfList 2 sentinelEdge)
      (imOfList 2 sentinelEdge) 0 1 3 binaryHeap_lawful).2.2.1
      (edgesBelow_chain_alOfList (by decide)) (boundedWeights_chain_alOfList (by decide))
      (by decide) (by decide),
   (no_path_only_without_light_path binaryHeap (alOfList 2 sentinelEdge)
      (imOfList 2 sentinelEdge) 0 1 3 binaryHeap_lawful).2.2.2
      (edgesBelow_rowsIM_imOfList (by decide)) (boundedWeights_rowsIM_imOfList (by decide))
      (by decide) (by decide)⟩

/-- C9, counterexample.  (a) Two vertices and the single edge `0 -> 1` of weight `1000`,
source `0`, destination `1`: there is a path from the source to the destination, its
length equals the sentinel, and all four variants report "no path".  (b) Three vertices,
the edges `0 -> 1` of weight `-2147483648` and `1 -> 2` of weight `-2147482648`, source
`0`, destination `2`: the path `0, 1, 2` weighs `-4294966296`, the sum
`-2147483648 + -2147482648` wraps to `1000`, and both Bellman-Ford variants report
"no path". -/
theorem no_path_reported_despite_path :
    (binaryHeap.Lawful ∧
      IsWalk (ChainEdge (alOfList 2 sentinelEdge)) 0 [(0, 1, 1000)] 1 ∧
      IsWalk (RowEdge (rowsAL (alOfList 2 sentinelEdge))) 0 [(0, 1, 1000)] 1 ∧
      IsWalk (RowEdge (rowsIM (imOfList 2 sentinelEdge))) 0 [(0, 1, 1000)] 1 ∧
      weight [(0, 1, 1000)] = 1000 ∧
      dijkstra_AL binaryHeap (alOfList 2 sentinelEdge) 0 1 3 =
        some [OutLine.counts 2 1, OutLine.noPath 0 1] ∧
      dijkstra_IM binaryHeap (imOfList 2 sentinelEdge) 0 1 3 = some [OutLine.noPath 0 1] ∧
      bellman_ford_AL (alOfList 2 sentinelEdge) 0 1 3 = some [OutLine.noPath 0 1] ∧
      bellman_ford_IM (imOfList 2 sentinelEdge) 0 1 3 = some [OutLine.noPath 0 1]) ∧
    (IsWalk (RowEdge (rowsAL (alOfList 3 wrapHide))) 0
        [(0, 1, -2147483648), (1, 2, -2147482648)] 2 ∧
      IsWalk (RowEdge (rowsIM (imOfList 3 wrapHide))) 0
        [(0, 1, -2147483648), (1, 2, -2147482648)] 2 ∧
      weight [(0, 1, -2147483648), (1, 2, -2147482648)] = -4294966296 ∧
      bellman_ford_AL (alOfList 3 wrapHide) 0 2 4 = some [OutLine.noPath 0 2] ∧
      bellman_ford_IM (imOfList 3 wrapHide) 0 2 4 = some [OutLine.noPath 0 2]) :=
  ⟨⟨binaryHeap_lawful, by decide, by decide, by decide, by decide, by decide, by decide,
    by decide, by decide⟩,
   ⟨by decide, by decide, by decide, by decide, by decide⟩⟩

/-- C11 (as amended): for every graph (edges joining vertices below `V`), source and
destination below `V` on which no sum `distance[u] + w` evaluated during the run leaves
the range of `int` and a Bellman-Ford variant succeeds with `distance[destination]`
different from the sentinel, and fuel above `V`: following the predecessor table from the
destination stops after at most `V` steps at a vertex `a` that is the source, or a vertex
with predecessor `-1` that still holds the sentinel `1000` (then `printPath` prints `-1`
last); every step `predecessor[v] -> v` is an edge of the graph, and the weights of the
chosen edges sum to `distance[destination] - distance[a]`.  When all weights are
non-negative, `a` is the source and the weights sum to `distance[destination]`. -/
theorem bellman_ford_predecessor_walk (GA : AdjacencyList) (GI : IncidenceMatrix)
    (source destination fuel : Nat) :
    (EdgesBelow (RowEdge (rowsAL GA)) GA.getVerticesNum →
      (∀ x ∈ bellman_ford_AL_sums GA source, fits32 x) →
      destination < GA.getVerticesNum → GA.getVerticesNum < fuel →
      ∀ t, bellman_ford_AL_tables GA source = BFResult.finished t →
      t.distances.getD destination 0 ≠ 1000 →
      ∃ a p, a < GA.getVerticesNum ∧ IsWalk (PredEdge (RowEdge (rowsAL GA)) t) a p destination ∧
        p.length ≤ GA.getVerticesNum ∧
        t.distances.getD a 0 + weight p = t.distances.getD destination 0 ∧
        ((a = source ∧ bellman_ford_AL GA source destination fuel =
            some [OutLine.route ((visited a p).reverse.map (fun x : Nat => (x : Int)))
              (t.distances.getD destination 0)]) ∨
         (a ≠ source ∧ t.path.getD a 0 = -1 ∧ t.distances.getD a 0 = 1000 ∧
          bellman_ford_AL GA source destination fuel =
            some [OutLine.route
              ((visited a p).reverse.map (fun x : Nat => (x : Int)) ++ [-1])
              (t.distances.getD destination 0)])) ∧
        ((∀ u v w, RowEdge (rowsAL GA) u v w → 0 ≤ w) →
          a = source ∧ weight p = t.distances.getD destination 0)) ∧
    (EdgesBelow (RowEdge (rowsIM GI)) GI.getVerticesNum →
      (∀ x ∈ bellman_ford_IM_sums GI source, fits32 x) →
      destination < GI.getVerticesNum → GI.getVerticesNum < fuel →
      ∀ t, bellman_ford_IM_tables GI source = BFResult.finished t →
      t.distances.getD destination 0 ≠ 1000 →
      ∃ a p, a < GI.getVerticesNum ∧ IsWalk (PredEdge (RowEdge (rowsIM GI)) t) a p destination ∧
        p.length ≤ GI.getVerticesNum ∧
        t.distances.getD a 0 + weight p = t.distances.getD destination 0 ∧
        ((a = source ∧ bellman_ford_IM GI source destination fuel =
            some [OutLine.route ((visited a p).reverse.map (fun x : Nat => (x : Int)))
              (t.distances.getD destination 0)]) ∨
         (a ≠ source ∧ t.path.getD a 0 = -1 ∧ t.distances.getD a 0 = 1000 ∧
          bellman_ford_IM GI source destination fuel =
            some [OutLine.route
              ((visited a p).reverse.map (fun x : Nat => (x : Int)) ++ [-1])
              (t.distances.getD destination 0)])) ∧
        ((∀ u v w, RowEdge (rowsIM GI) u v w → 0 ≤ w) →
          a = source ∧ weight p = t.distances.getD destination 0)) := by
  constructor
  · intro hE hfit hd hfuel t ht hne
    have ht1 := ht
    rw [bellman_ford_AL_tables_bridge hfit, bellman_ford_AL_tables_eq_exact] at ht1
    obtain ⟨_, h1, h2, h3⟩ := bfRows_finished_all hE ht1
    obtain ⟨a, p, ha, hp, hlen, hsum, hcase, hnn⟩ :=
      pred_walk_print h1 h2 h3 destination fuel hd hfuel hne
    refine ⟨a, p, ha, hp, hlen, hsum, ?_, hnn⟩
    rw [bellman_ford_AL_of_finished ht]
    rcases hcase with ⟨c1, c2⟩ | ⟨c1, c2, c3, c4⟩
    · exact Or.inl ⟨c1, by rw [c2]; rfl⟩
    · exact Or.inr ⟨c1, c2, c3, by rw [c4]; rfl⟩
  · intro hE hfit hd hfuel t ht hne
    have ht1 := ht
    rw [bellman_ford_IM_tables_bridge hfit, bellman_ford_IM_tables_eq_exact] at ht1
    obtain ⟨_, h1, h2, h3⟩ := bfRows_finished_all hE ht1
    obtain ⟨a, p, ha, hp, hlen, hsum, hcase, hnn⟩ :=
      pred_walk_print h1 h2 h3 destination fuel hd hfuel hne
    refine ⟨a, p, ha, hp, hlen, hsum, ?_, hnn⟩
    rw [bellman_ford_IM_of_finished ht]
    rcases hcase with ⟨c1, c2⟩ | ⟨c1, c2, c3, c4⟩
    · exact Or.inl ⟨c1, by rw [c2]; rfl⟩
    · exact Or.inr ⟨c1, c2, c3, by rw [c4]; rfl⟩

/-- C11, witness: the scenario of section 8 with source `0`, destination `3`, fuel `5`. -/
theorem bellman_ford_predecessor_walk_witness :
    (∃ a p, a < 4 ∧
        IsWalk (PredEdge (RowEdge (rowsAL (alOfList 4 scenario))) scenarioTables) a p 3 ∧
        p.length ≤ 4 ∧
        scenarioTables.distances.getD a 0 + weight p = scenarioTables.distances.getD 3 0 ∧
        ((a = 0 ∧ bellman_ford_AL (alOfList 4 scenario) 0 3 5 =
            some [OutLine.route ((visited a p).reverse.map (fun x : Nat => (x : Int)))
              (scenarioTables.distances.getD 3 0)]) ∨
         (a ≠ 0 ∧ scenarioTables.path.getD a 0 = -1 ∧
          scenarioTables.distances.getD a 0 = 1000 ∧
          bellman_ford_AL (alOfList 4 scenario) 0 3 5 =
            some [OutLine.route
              ((visited a p).reverse.map (fun x : Nat => (x : Int)) ++ [-1])
              (scenarioTables.distances.getD 3 0)])) ∧
        ((∀ u v w, RowEdge (rowsAL (alOfList 4 scenario)) u v w → 0 ≤ w) →
          a = 0 ∧ weight p = scenarioTables.distances.getD 3 0)) ∧
    (∃ a p, a < 4 ∧
        IsWalk (PredEdge (RowEdge (rowsIM (imOfList 4 scenario))) scenarioTables) a p 3 ∧
        p.length ≤ 4 ∧
        scenarioTables.distances.getD a 0 + weight p = scenarioTables.distances.getD 3 0 ∧
        ((a = 0 ∧ bellman_ford_IM (imOfList 4 scenario) 0 3 5 =
            some [OutLine.route ((visited a p).reverse.map (fun x : Nat => (x : Int)))
              (scenarioTables.distances.getD 3 0)]) ∨
         (a ≠ 0 ∧ scenarioTables.path.getD a 0 = -1 ∧
          scenarioTables.distances.getD a 0 = 1000 ∧
          bellman_ford_IM (imOfList 4 scenario) 0 3 5 =
            some [OutLine.route
              ((visited a p).reverse.map (fun x : Nat => (x : Int)) ++ [-1])
              (scenarioTables.distances.getD 3 0)])) ∧
        ((∀ u v w, RowEdge (rowsIM (imOfList 4 scenario)) u v w → 0 ≤ w) →
          a = 0 ∧ weight p = scenarioTables.distances.getD 3 0)) :=
  ⟨(bellman_ford_predecessor_walk (alOfList 4 scenario) (imOfList 4 scenario) 0 3 5).1
      (edgesBelow_rowsAL_alOfList (by decide)) (by decide) (by decide) (by decide)
      scenarioTables
      (by decide) (by decide),
   (bellman_ford_predecessor_walk (alOfList 4 scenario) (imOfList 4 scenario) 0 3 5).2
      (edgesBelow_rowsIM_imOfList (by decide)) (by decide) (by decide) (by decide)
      scenarioTables
      (by decide) (by decide)⟩

/-- C11, counterexample.  (a) Three vertices, the single edge `1 -> 2` of weight `-5`,
source `0`, destination `2`: both variants succeed with `distance[2] = 995`, which is not
the sentinel; following the predecessor table from `2` gives `2, 1, -1` and never reaches
the source, and there is no path from the source to the destination at all.  (b) Two
vertices, a loop of weight `2147483647` at vertex `1`, source `0`, destination `1`: the
sum `1000 + 2147483647` wraps, both variants succeed with `distance[1] = -2147482649` and
`predecessor[1] = 1`, so following the predecessor table from `1` stays at `1` and
`printPath` does not return, whatever the fuel. -/
theorem bellman_ford_walk_misses_source :
    (bellman_ford_AL_tables (alOfList 3 strayEdge) 0 =
        BFResult.finished { distances := [0, 1000, 995], path := [-1, -1, 1] } ∧
      bellman_ford_IM_tables (imOfList 3 strayEdge) 0 =
        BFResult.finished { distances := [0, 1000, 995], path := [-1, -1, 1] } ∧
      bellman_ford_AL (alOfList 3 strayEdge) 0 2 4 = some [OutLine.route [2, 1, -1] 995] ∧
      bellman_ford_IM (imOfList 3 strayEdge) 0 2 4 = some [OutLine.route [2, 1, -1] 995] ∧
      (∀ p, ¬ IsWalk (RowEdge (rowsAL (alOfList 3 strayEdge))) 0 p 2) ∧
      (∀ p, ¬ IsWalk (RowEdge (rowsIM (imOfList 3 strayEdge))) 0 p 2)) ∧
    (bellman_ford_AL_tables (alOfList 2 wrapLoop) 0 =
        BFResult.finished { distances := [0, -2147482649], path := [-1, 1] } ∧
      bellman_ford_IM_tables (imOfList 2 wrapLoop) 0 =
        BFResult.finished { distances := [0, -2147482649], path := [-1, 1] } ∧
      (∀ n, (predStep [-1, 1])^[n] (1 : Int) = 1) ∧
      (∀ fuel, bellman_ford_AL (alOfList 2 wrapLoop) 0 1 fuel = none) ∧
      (∀ fuel, bellman_ford_IM (imOfList 2 wrapLoop) 0 1 fuel = none)) := by
  have hA : bellman_ford_AL_tables (alOfList 2 wrapLoop) 0 =
      BFResult.finished { distances := [0, -2147482649], path := [-1, 1] } := by decide
  have hI : bellman_ford_IM_tables (imOfList 2 wrapLoop) 0 =
      BFResult.finished { distances := [0, -2147482649], path := [-1, 1] } := by decide
  refine ⟨⟨by decide, by decide, by decide, by decide, ?_, ?_⟩, ⟨hA, hI, ?_, ?_, ?_⟩⟩
  · intro p hp
    have := (hp.of_sink (rowEdge_sink (by decide))).2
    omega
  · intro p hp
    have := (hp.of_sink (rowEdge_sink (by decide))).2
    omega
  · intro n
    induction n with
    | zero => rfl
    | succ n ih => rw [Function.iterate_succ_apply', ih]; rfl
  · intro fuel
    rw [bellman_ford_AL_of_finished hA]
    show Option.map _ (printPath 0 1 (-2147482649) [-1, 1] fuel) = none
    rw [printPath_stuck _ (by decide)]
    rfl
  · intro fuel
    rw [bellman_ford_IM_of_finished hI]
    show Option.map _ (printPath 0 1 (-2147482649) [-1, 1] fuel) = none
    rw [printPath_stuck _ (by decide)]
    rfl

/-- C12 (as amended): for every graph with weights between `0` and `2147482647`
(`INT_MAX - 1000`; edges joining vertices below `V`), every
source, every destination below `V`, any priority queue meeting its contract and fuel
above `V`: the Dijkstra variant leaves its main loop, and when it ends with
`distance[destination]` different from the sentinel, following the predecessor table from
the destination reaches the source, every step `predecessor[v] -> v` is an edge of the
graph, the weights along the chain sum to `distance[destination]`, no walk from the source
to the destination is lighter, and `printPath` renders this chain; this holds whichever
shortest path the tie-break of the queue selects. -/
theorem dijkstra_predecessor_walk (pq : PriorityQueue) (GA : AdjacencyList)
    (GI : IncidenceMatrix) (source destination fuel : Nat) (hl : pq.Lawful) :
    (EdgesBelow (ChainEdge GA) GA.getVerticesNum →
      BoundedWeights (ChainEdge GA) →
      destination < GA.getVerticesNum → GA.getVerticesNum < fuel →
      ∃ t, dijkstra_AL_tables pq GA source fuel = some t ∧
        (t.distances.getD destination 0 ≠ 1000 →
          ∃ p, IsWalk (PredEdge (ChainEdge GA) t) source p destination ∧
            weight p = t.distances.getD destination 0 ∧
            (∀ q, IsWalk (ChainEdge GA) source q destination → weight p ≤ weight q) ∧
            dijkstra_AL pq GA source destination fuel =
              some [OutLine.counts GA.getVerticesNum GA.getEdgesNum,
                OutLine.route ((visited source p).reverse.map (fun x : Nat => (x : Int)))
                  (t.distances.getD destination 0)])) ∧
    (EdgesBelow (RowEdge (rowsIM GI)) GI.getVerticesNum →
      BoundedWeights (RowEdge (rowsIM GI)) →
      destination < GI.getVerticesNum → GI.getVerticesNum < fuel →
      ∃ t, dijkstra_IM_tables pq GI source fuel = some t ∧
        (t.distances.getD destination 0 ≠ 1000 →
          ∃ p, IsWalk (PredEdge (RowEdge (rowsIM GI)) t) source p destination ∧
            weight p = t.distances.getD destination 0 ∧
            (∀ q, IsWalk (RowEdge (rowsIM GI)) source q destination → weight p ≤ weight q) ∧
            dijkstra_IM pq GI source destination fuel =
              some [OutLine.route ((visited source p).reverse.map (fun x : Nat => (x : Int)))
                (t.distances.getD destination 0)])) := by
  constructor
  · intro hE hb hd hfuel
    have hw := hb.nonneg
    obtain ⟨t, ht, _, _⟩ := dijkstra_AL_tables_some source fuel hl hE hw hfuel
    obtain ⟨h1, h2, h3⟩ := dijkstra_AL_tables_all hl hE hw ht
    rw [← dijkstra_AL_tables_bridge hl hE hb] at ht
    refine ⟨t, ht, fun hne => ?_⟩
    obtain ⟨a, p, ha, hp, _, _, hcase, hnn⟩ :=
      pred_walk_print h1 h2 h3 destination fuel hd hfuel hne
    obtain ⟨has, hsum⟩ := hnn hw
    subst has
    refine ⟨p, hp, hsum, ?_, ?_⟩
    · intro q hq
      have := walk_le_of_fixpoint h3 hq
      have := h1.le_start a ha
      simp only [startValue, if_true] at this
      omega
    · rw [dijkstra_AL_of_tables ht]
      rcases hcase with ⟨_, c2⟩ | ⟨c1, _⟩
      · rw [c2]; rfl
      · exact absurd rfl c1
  · intro hE hb hd hfuel
    have hw := hb.nonneg
    obtain ⟨t, ht, _, _⟩ := dijkstra_IM_tables_some source fuel hl hE hw hfuel
    obtain ⟨h1, h2, h3⟩ := dijkstra_IM_tables_all hl hE hw ht
    rw [← dijkstra_IM_tables_bridge hl hE hb] at ht
    refine ⟨t, ht, fun hne => ?_⟩
    obtain ⟨a, p, ha, hp, _, _, hcase, hnn⟩ :=
      pred_walk_print h1 h2 h3 destination fuel hd hfuel hne
    obtain ⟨has, hsum⟩ := hnn hw
    subst has
    refine ⟨p, hp, hsum, ?_, ?_⟩
    · intro q hq
      have := walk_le_of_fixpoint h3 hq
      have := h1.le_start a ha
      simp only [startValue, if_true] at this
      omega
    · rw [dijkstra_IM_of_tables ht]
      rcases hcase with ⟨_, c2⟩ | ⟨c1, _⟩
      · rw [c2]; rfl
      · exact absurd rfl c1

/-- C12, witness: the scenario of section 8 on the binary heap, source `0`, destination `3`,
fuel `5`. -/
theorem dijkstra_predecessor_walk_witness :
    (∃ t, dijkstra_AL_tables binaryHeap (alOfList 4 scenario) 0 5 = some t ∧
        (t.distances.getD 3 0 ≠ 1000 →
          ∃ p, IsWalk (PredEdge (ChainEdge (alOfList 4 scenario)) t) 0 p 3 ∧
            weight p = t.distances.getD 3 0 ∧
            (∀ q, IsWalk (ChainEdge (alOfList 4 scenario)) 0 q 3 → weight p ≤ weight q) ∧
            dijkstra_AL binaryHeap (alOfList 4 scenario) 0 3 5 =
              some [OutLine.counts (alOfList 4 scenario).getVerticesNum
                  (alOfList 4 scenario).getEdgesNum,
                OutLine.route ((visited 0 p).reverse.map (fun x : Nat => (x : Int)))
                  (t.distances.getD 3 0)])) ∧
    (∃ t, dijkstra_IM_tables binaryHeap (imOfList 4 scenario) 0 5 = some t ∧
        (t.distances.getD 3 0 ≠ 1000 →
          ∃ p, IsWalk (PredEdge (RowEdge (rowsIM (imOfList 4 scenario))) t) 0 p 3 ∧
            weight p = t.distances.getD 3 0 ∧
            (∀ q, IsWalk (RowEdge (rowsIM (imOfList 4 scenario))) 0 q 3 →
              weight p ≤ weight q) ∧
            dijkstra_IM binaryHeap (imOfList 4 scenario) 0 3 5 =
              some [OutLine.route ((visited 0 p).reverse.map (fun x : Nat => (x : Int)))
                (t.distances.getD 3 0)])) :=
  ⟨(dijkstra_predecessor_walk binaryHeap (alOfList 4 scenario) (imOfList 4 scenario) 0 3 5
      binaryHeap_lawful).1
      (edgesBelow_chain_alOfList (by decide)) (boundedWeights_chain_alOfList (by decide))
      (by decide) (by decide),
   (dijkstra_predecessor_walk binaryHeap (alOfList 4 scenario) (imOfList 4 scenario) 0 3 5
      binaryHeap_lawful).2
      (edgesBelow_rowsIM_imOfList (by decide)) (boundedWeights_rowsIM_imOfList (by decide))
      (by decide) (by decide)⟩

/-- C12, counterexample: three vertices, the edges `0 -> 1` of weight `5` and `1 -> 2` of
weight `2147483647`, source `0`, destination `2`, the binary heap (which meets the
contract).  All weights are non-negative.  The sum `5 + 2147483647` wraps, both variants
finish with `distance[2] = -2147483644`, which is not the sentinel, and print the chain
`2 <- 1 <- 0` with this length, while the weights along the chain sum to `2147483652`. -/
theorem dijkstra_walk_weight_wraps :
    binaryHeap.Lawful ∧
    (∀ e ∈ wrapChain, 0 ≤ e.weight) ∧
    dijkstra_AL_tables binaryHeap (alOfList 3 wrapChain) 0 4 =
      some { distances := [0, 5, -2147483644], path := [-1, 0, 1] } ∧
    dijkstra_IM_tables binaryHeap (imOfList 3 wrapChain) 0 4 =
      some { distances := [0, 5, -2147483644], path := [-1, 0, 1] } ∧
    dijkstra_AL binaryHeap (alOfList 3 wrapChain) 0 2 4 =
      some [OutLine.counts 3 2, OutLine.route [2, 1, 0] (-2147483644)] ∧
    dijkstra_IM binaryHeap (imOfList 3 wrapChain) 0 2 4 =
      some [OutLine.route [2, 1, 0] (-2147483644)] ∧
    IsWalk (ListEdge wrapChain) 0 [(0, 1, 5), (1, 2, 2147483647)] 2 ∧
    weight [(0, 1, 5), (1, 2, 2147483647)] = 2147483652 :=
  ⟨binaryHeap_lawful, by decide, by decide, by decide, by decide, by decide, by decide,
    by decide⟩

/-- C13 (as amended): for every graph (edges joining vertices below `V`) and source on
which no sum `distance[u] + w` evaluated during the run leaves the range of `int` and a
Bellman-Ford variant terminates successfully, the predecessor table contains no cycle:
repeatedly taking `predecessor[v]` never returns to a vertex and reaches `-1` after at most
`V` steps, so the predecessor walk of `printPath` terminates for every destination below
`V` (fuel above `V` is enough). -/
theorem bellman_ford_predecessors_acyclic (GA : AdjacencyList) (GI : IncidenceMatrix)
    (source : Nat) :
    (EdgesBelow (RowEdge (rowsAL GA)) GA.getVerticesNum →
      (∀ x ∈ bellman_ford_AL_sums GA source, fits32 x) →
      ∀ t, bellman_ford_AL_tables GA source = BFResult.finished t →
      (∀ v, v < GA.getVerticesNum → ∀ n, 0 < n →
        (predStep t.path)^[n] (v : Int) ≠ (v : Int)) ∧
      (∀ v, v < GA.getVerticesNum →
        ∃ n, n ≤ GA.getVerticesNum ∧ (predStep t.path)^[n] (v : Int) = -1) ∧
      (∀ destination fuel, destination < GA.getVerticesNum → GA.getVerticesNum < fuel →
        ∃ line, printPath source destination (t.distances.getD destination 0) t.path fuel =
          some line)) ∧
    (EdgesBelow (RowEdge (rowsIM GI)) GI.getVerticesNum →
      (∀ x ∈ bellman_ford_IM_sums GI source, fits32 x) →
      ∀ t, bellman_ford_IM_tables GI source = BFResult.finished t →
      (∀ v, v < GI.getVerticesNum → ∀ n, 0 < n →
        (predStep t.path)^[n] (v : Int) ≠ (v : Int)) ∧
      (∀ v, v < GI.getVerticesNum →
        ∃ n, n ≤ GI.getVerticesNum ∧ (predStep t.path)^[n] (v : Int) = -1) ∧
      (∀ destination fuel, destination < GI.getVerticesNum → GI.getVerticesNum < fuel →
        ∃ line, printPath source destination (t.distances.getD destination 0) t.path fuel =
          some line)) := by
  have key : ∀ (rows : List (Nat × Nat × Int)) (V : Nat) (t : Tables),
      EdgesBelow (RowEdge rows) V → bfRows_exact rows V source = BFResult.finished t →
      (∀ v, v < V → ∀ n, 0 < n → (predStep t.path)^[n] (v : Int) ≠ (v : Int)) ∧
      (∀ v, v < V → ∃ n, n ≤ V ∧ (predStep t.path)^[n] (v : Int) = -1) ∧
      (∀ destination fuel, destination < V → V < fuel →
        ∃ line, printPath source destination (t.distances.getD destination 0) t.path fuel =
          some line) := by
    intro rows V t hE ht
    obtain ⟨_, h1, h2, h3⟩ := bfRows_finished_all hE ht
    refine ⟨h2.acyclic, h2.reaches_none h1, ?_⟩
    intro destination fuel hd hfuel
    by_cases hs : t.distances.getD destination 0 = 1000
    · rw [hs]
      exact ⟨_, printPath_sentinel _ _ _ _⟩
    · obtain ⟨a, p, _, _, _, _, hcase, _⟩ :=
        pred_walk_print h1 h2 h3 destination fuel hd hfuel hs
      rcases hcase with ⟨_, c2⟩ | ⟨_, _, _, c4⟩
      · exact ⟨_, c2⟩
      · exact ⟨_, c4⟩
  constructor
  · intro hE hfit t ht
    rw [bellman_ford_AL_tables_bridge hfit, bellman_ford_AL_tables_eq_exact] at ht
    exact key _ _ t hE ht
  · intro hE hfit t ht
    rw [bellman_ford_IM_tables_bridge hfit, bellman_ford_IM_tables_eq_exact] at ht
    exact key _ _ t hE ht

/-- C13, witness: the scenario of section 8 with source `0`. -/
theorem bellman_ford_predecessors_acyclic_witness :
    ((∀ v, v < (alOfList 4 scenario).getVerticesNum → ∀ n, 0 < n →
        (predStep scenarioTables.path)^[n] (v : Int) ≠ (v : Int)) ∧
      (∀ v, v < (alOfList 4 scenario).getVerticesNum →
        ∃ n, n ≤ (alOfList 4 scenario).getVerticesNum ∧
          (predStep scenarioTables.path)^[n] (v : Int) = -1) ∧
      (∀ destination fuel, destination < (alOfList 4 scenario).getVerticesNum →
        (alOfList 4 scenario).getVerticesNum < fuel →
        ∃ line, printPath 0 destination (scenarioTables.distances.getD destination 0)
          scenarioTables.path fuel = some line)) ∧
    ((∀ v, v < (imOfList 4 scenario).getVerticesNum → ∀ n, 0 < n →
        (predStep scenarioTables.path)^[n] (v : Int) ≠ (v : Int)) ∧
      (∀ v, v < (imOfList 4 scenario).getVerticesNum →
        ∃ n, n ≤ (imOfList 4 scenario).getVerticesNum ∧
          (predStep scenarioTables.path)^[n] (v : Int) = -1) ∧
      (∀ destination fuel, destination < (imOfList 4 scenario).getVerticesNum →
        (imOfList 4 scenario).getVerticesNum < fuel →
        ∃ line, printPath 0 destination (scenarioTables.distances.getD destination 0)
          scenarioTables.path fuel = some line)) :=
  ⟨(bellman_ford_predecessors_acyclic (alOfList 4 scenario) (imOfList 4 scenario) 0).1
      (edgesBelow_rowsAL_alOfList (by decide)) (by decide) scenarioTables (by decide),
   (bellman_ford_predecessors_acyclic (alOfList 4 scenario) (imOfList 4 scenario) 0).2
      (edgesBelow_rowsIM_imOfList (by decide)) (by decide) scenarioTables (by decide)⟩

/-- C13, counterexample: two vertices, a loop of weight `2147483647` at vertex `1`, source
`0`.  The sum `1000 + 2147483647` wraps to `-2147482649`, the check pass finds no improving
edge and both variants terminate successfully with `predecessor[1] = 1`: the predecessor
table contains a cycle, repeatedly taking the predecessor of `1` never reaches `-1`, and
the walk of `printPath` for destination `1` does not terminate. -/
theorem bellman_ford_predecessor_loop :
    bellman_ford_AL_tables (alOfList 2 wrapLoop) 0 =
      BFResult.finished { distances := [0, -2147482649], path := [-1, 1] } ∧
    bellman_ford_IM_tables (imOfList 2 wrapLoop) 0 =
      BFResult.finished { distances := [0, -2147482649], path := [-1, 1] } ∧
    predStep [-1, 1] 1 = 1 ∧
    (∀ n, (predStep [-1, 1])^[n] (1 : Int) ≠ -1) ∧
    (∀ fuel, printPath 0 1 (-2147482649) [-1, 1] fuel = none) := by
  have hit : ∀ n, (predStep [-1, 1])^[n] (1 : Int) = 1 := by
    intro n
    induction n with
    | zero => rfl
    | succ n ih => rw [Function.iterate_succ_apply', ih]; rfl
  refine ⟨by decide, by decide, rfl, fun n => ?_, fun fuel => printPath_stuck _ (by decide) fuel⟩
  rw [hit n]
  decide

/-- C14 (as amended): for every graph with weights between `0` and `2147482647`
(`INT_MAX - 1000`; edges joining vertices below `V`),
every source, any priority queue meeting its contract and fuel above `V`, both Dijkstra
variants leave their main loop, and at every test `distance[v] > min + w` of the run: the
test is false when `v` has already left the queue, so a passed test is followed by a
successful `Q->find`, and the step leaves the distance of every vertex outside the queue
as it was; the final `distance` entry of a vertex equals its entry at every event at
which it was already outside the queue. -/
theorem dijkstra_extracted_never_written (pq : PriorityQueue) (GA : AdjacencyList)
    (GI : IncidenceMatrix) (source fuel : Nat) (hl : pq.Lawful) :
    (EdgesBelow (ChainEdge GA) GA.getVerticesNum →
      BoundedWeights (ChainEdge GA) → GA.getVerticesNum < fuel →
      ∃ t, dijkstra_AL_tables pq GA source fuel = some t ∧
        ∀ ev ∈ dijkstra_AL_events pq GA source fuel, DEvent.SettledOK pq ev ∧
          ∀ x, x ∉ ev.state.Q.map Vertex.number →
            t.distances.getD x 0 = ev.state.distances.getD x 0) ∧
    (EdgesBelow (RowEdge (rowsIM GI)) GI.getVerticesNum →
      BoundedWeights (RowEdge (rowsIM GI)) → GI.getVerticesNum < fuel →
      ∃ t, dijkstra_IM_tables pq GI source fuel = some t ∧
        ∀ ev ∈ dijkstra_IM_events pq GI source fuel, DEvent.SettledOK pq ev ∧
          ∀ x, x ∉ ev.state.Q.map Vertex.number →
            t.distances.getD x 0 = ev.state.distances.getD x 0) := by
  have key : ∀ G : AdjacencyList, EdgesBelow (ChainEdge G) G.getVerticesNum →
      BoundedWeights (ChainEdge G) → G.getVerticesNum < fuel →
      ∃ t, dijkstra_AL_tables pq G source fuel = some t ∧
        ∀ ev ∈ dijkstra_AL_events pq G source fuel, DEvent.SettledOK pq ev ∧
          ∀ x, x ∉ ev.state.Q.map Vertex.number →
            t.distances.getD x 0 = ev.state.distances.getD x 0 := by
    intro G hE hb hfuel
    obtain ⟨t, ht, _, _⟩ := dijkstra_AL_tables_some source fuel hl hE hb.nonneg hfuel
    rw [dijkstra_AL_tables_bridge hl hE hb, dijkstra_AL_events_bridge hl hE hb]
    refine ⟨t, ht, fun ev hev => ⟨?_, dijkstra_AL_events_final hl hE ht ev hev⟩⟩
    exact (dijkstra_AL_events_inv source fuel hl hE ev hev).settledOK32 hl hE hb
      (dijkstra_AL_events_ext source fuel hl hE hb.nonneg ev hev)
  constructor
  · exact key GA
  · intro hE hb hfuel
    rw [dijkstra_IM_tables_eq, dijkstra_IM_events_eq]
    exact key (chainsOfIM GI) (edgesBelow_chainsOfIM hE) (boundedWeights_chainsOfIM hE hb)
      hfuel

/-- C14, witness: the scenario of section 8 on the binary heap, source `0`, fuel `5`. -/
theorem dijkstra_extracted_never_written_witness :
    (∃ t, dijkstra_AL_tables binaryHeap (alOfList 4 scenario) 0 5 = some t ∧
        ∀ ev ∈ dijkstra_AL_events binaryHeap (alOfList 4 scenario) 0 5,
          DEvent.SettledOK binaryHeap ev ∧
          ∀ x, x ∉ ev.state.Q.map Vertex.number →
            t.distances.getD x 0 = ev.state.distances.getD x 0) ∧
    (∃ t, dijkstra_IM_tables binaryHeap (imOfList 4 scenario) 0 5 = some t ∧
        ∀ ev ∈ dijkstra_IM_events binaryHeap (imOfList 4 scenario) 0 5,
          DEvent.SettledOK binaryHeap ev ∧
          ∀ x, x ∉ ev.state.Q.map Vertex.number →
            t.distances.getD x 0 = ev.state.distances.getD x 0) :=
  ⟨(dijkstra_extracted_never_written binaryHeap (alOfList 4 scenario)
      (imOfList 4 scenario) 0 5 binaryHeap_lawful).1
      (edgesBelow_chain_alOfList (by decide)) (boundedWeights_chain_alOfList (by decide))
      (by decide),
   (dijkstra_extracted_never_written binaryHeap (alOfList 4 scenario)
      (imOfList 4 scenario) 0 5 binaryHeap_lawful).2
      (edgesBelow_rowsIM_imOfList (by decide)) (boundedWeights_rowsIM_imOfList (by decide))
      (by decide)⟩

/-- C14, counterexample: two vertices, the edges `0 -> 1` of weight `5` and `1 -> 0` of
weight `2147483647`, source `0`, the binary heap (which meets the contract).  All weights
are non-negative.  When the edge `1 -> 0` is examined, vertex `0` has been extracted and
`distance[0] = 0`; the sum `5 + 2147483647` wraps to `-2147483644`, so the test
`distance[0] > min + w` passes for the extracted vertex, `distance[0]` is overwritten and
`Q->find(0)` is called although `0` is no longer in the queue; the run returns no tables. -/
theorem dijkstra_writes_extracted_vertex :
    binaryHeap.Lawful ∧
    (∀ e ∈ wrapBack, 0 ≤ e.weight) ∧
    DEvent.test 1 5 ⟨0, 2147483647⟩ { distances := [0, 5], path := [-1, 0], Q := [] } ∈
      dijkstra_AL_events binaryHeap (alOfList 2 wrapBack) 0 3 ∧
    DEvent.test 1 5 ⟨0, 2147483647⟩ { distances := [0, 5], path := [-1, 0], Q := [] } ∈
      dijkstra_IM_events binaryHeap (imOfList 2 wrapBack) 0 3 ∧
    add32 5 2147483647 = -2147483644 ∧
    ([0, 5] : List Int).getD 0 0 > add32 5 2147483647 ∧
    ([0, 5] : List Int).set 0 (add32 5 2147483647) = [-2147483644, 5] ∧
    find ([] : List Vertex) 0 = none ∧
    ¬ DEvent.SettledOK binaryHeap
      (DEvent.test 1 5 ⟨0, 2147483647⟩ { distances := [0, 5], path := [-1, 0], Q := [] }) ∧
    (∀ fuel, dijkstra_AL_tables binaryHeap (alOfList 2 wrapBack) 0 fuel = none) ∧
    (∀ fuel, dijkstra_IM_tables binaryHeap (imOfList 2 wrapBack) 0 fuel = none) := by
  refine ⟨binaryHeap_lawful, by decide, by decide, by decide, by decide, by decide,
    by decide, rfl, fun h => h.1 (by decide) (by decide), ?_, ?_⟩
  all_goals
    intro fuel
    match fuel with
    | 0 => rfl
    | 1 => rfl
    | n + 2 => rfl

/-- C15: for every graph whose edges join vertices below `V`, every source, any priority
queue meeting its contract and any fuel, at every event of a run of either Dijkstra
variant (each loop iteration and each relaxation test): the key of every entry in the
queue equals the current `distance` of its vertex, the value returned by `extractMin`
equals `distance[u]` of the extracted vertex `u`, and whenever `decreaseKey` is called on
the entry that `find` returned, the distance passed is strictly less than the current key
of that entry. -/
theorem dijkstra_queue_keys_match (pq : PriorityQueue) (GA : AdjacencyList)
    (GI : IncidenceMatrix) (source fuel : Nat) (hl : pq.Lawful) :
    (EdgesBelow (ChainEdge GA) GA.getVerticesNum →
      ∀ ev ∈ dijkstra_AL_events pq GA source fuel, DEvent.KeysOK ev) ∧
    (EdgesBelow (RowEdge (rowsIM GI)) GI.getVerticesNum →
      ∀ ev ∈ dijkstra_IM_events pq GI source fuel, DEvent.KeysOK ev) := by
  constructor
  · intro _ ev hev
    exact (dijkstra_AL_events_qok GA source fuel hl ev hev).keysOK hl
  · intro _ ev hev
    rw [dijkstra_IM_events_eq] at hev
    exact (dijkstra_AL_events_qok (chainsOfIM GI) source fuel hl ev hev).keysOK hl

/-- C15, witness: the scenario of section 8 on the binary heap, source `0`, fuel `5`. -/
theorem dijkstra_queue_keys_match_witness :
    (∀ ev ∈ dijkstra_AL_events binaryHeap (alOfList 4 scenario) 0 5, DEvent.KeysOK ev) ∧
    (∀ ev ∈ dijkstra_IM_events binaryHeap (imOfList 4 scenario) 0 5, DEvent.KeysOK ev) :=
  ⟨(dijkstra_queue_keys_match binaryHeap (alOfList 4 scenario) (imOfList 4 scenario) 0 5
      binaryHeap_lawful).1 (edgesBelow_chain_alOfList (by decide)),
   (dijkstra_queue_keys_match binaryHeap (alOfList 4 scenario) (imOfList 4 scenario) 0 5
      binaryHeap_lawful).2 (edgesBelow_rowsIM_imOfList (by decide))⟩

/-- C16: for each of the four variants, every graph, source and queue: the tables observed
before every relaxation step of a run, followed by the final tables, start with the
initial tables and form a chain in which each step either writes nothing or stores in one
entry `distance[v]` a value strictly smaller than the one it replaces and sets
`predecessor[v]` in the same step; hence no entry of `distance` is larger at a later
point of the run than at an earlier one.  A Dijkstra step at which `Q->find` fails was
also reached through a passed test `distance[v] > min + w`, the sum taken in 32 bits. -/
theorem relaxation_steps_never_increase (pq : PriorityQueue) (GA : AdjacencyList)
    (GI : IncidenceMatrix) (source fuel : Nat) :
    (NeverIncreases (bellman_ford_AL_run GA source) ∧
      (bellman_ford_AL_run GA source).head? = some (initTables GA.getVerticesNum source) ∧
      (bellman_ford_AL_tables GA source = BFResult.negativeCycle ∨
        bellman_ford_AL_tables GA source =
          BFResult.finished (bellman_ford_AL_passes GA source))) ∧
    (NeverIncreases (bellman_ford_IM_run GI source) ∧
      (bellman_ford_IM_run GI source).head? = some (initTables GI.getVerticesNum source) ∧
      (bellman_ford_IM_tables GI source = BFResult.negativeCycle ∨
        bellman_ford_IM_tables GI source =
          BFResult.finished (bellman_ford_IM_passes GI source))) ∧
    (NeverIncreases (dijkstra_AL_run pq GA source fuel) ∧
      (∀ t ∈ (dijkstra_AL_run pq GA source fuel).head?,
        t = initTables GA.getVerticesNum source)) ∧
    (NeverIncreases (dijkstra_IM_run pq GI source fuel) ∧
      (∀ t ∈ (dijkstra_IM_run pq GI source fuel).head?,
        t = initTables GI.getVerticesNum source)) ∧
    (∀ (u : Nat) (min : Int) (temp : Edge) (st : DState),
      relaxChainNode pq u min temp st = none →
        st.distances.getD temp.destination 0 > add32 min temp.weight) ∧
    (∀ (u : Nat) (min : Int) (edge : IMEdge) (st : DState),
      relaxIMScan pq u min edge st = none →
        st.distances.getD edge.destination 0 > add32 min edge.weight) := by
  have hA := bellman_ford_AL_trace_seg GA source
  have hI := bellman_ford_IM_trace_seg GI source
  have hDA := dijkstra_AL_events_seg pq GA source fuel
  have hDI := dijkstra_AL_events_seg pq (chainsOfIM GI) source fuel
  rw [← dijkstra_IM_events_eq, ← dijkstra_IM_tables_eq] at hDI
  have head_some : ∀ (l : List Tables) (a b : Tables),
      (∀ y ∈ (l ++ [b]).head?, y = a) → (l ++ [b]).head? = some a := by
    intro l a b h
    cases l with
    | nil => simp only [List.nil_append, List.head?_cons] at h ⊢; rw [h b rfl]
    | cons x xs => simp only [List.cons_append, List.head?_cons] at h ⊢; rw [h x rfl]
  refine ⟨⟨⟨hA.1, pairwise_of_chain hA.1⟩, head_some _ _ _ hA.2, ?_⟩,
    ⟨⟨hI.1, pairwise_of_chain hI.1⟩, head_some _ _ _ hI.2, ?_⟩,
    ⟨⟨hDA.1, pairwise_of_chain hDA.1⟩, hDA.2⟩, ⟨⟨hDI.1, pairwise_of_chain hDI.1⟩, hDI.2⟩,
    fun u min temp st h => (relaxChainNode_none h).1, ?_⟩
  · unfold bellman_ford_AL_tables bellman_ford_AL_passes initTables
    simp only
    split
    · exact Or.inl rfl
    · exact Or.inr rfl
  · unfold bellman_ford_IM_tables bellman_ford_IM_passes initTables
    simp only
    split
    · exact Or.inl rfl
    · exact Or.inr rfl
  · intro u min edge st h
    by_cases hs : edge.source = u
    · rw [relaxIMScan_eq pq u min edge st hs] at h
      exact (relaxChainNode_none h).1
    · rw [relaxIMScan_skip pq u min edge st hs] at h
      simp at h
/-- C16, witness: the scenario of section 8 on the binary heap, source `0`, fuel `5`. -/
theorem relaxation_steps_never_increase_witness :
    (NeverIncreases (bellman_ford_AL_run (alOfList 4 scenario) 0) ∧
      (bellman_ford_AL_run (alOfList 4 scenario) 0).head? =
        some (initTables (alOfList 4 scenario).getVerticesNum 0) ∧
      (bellman_ford_AL_tables (alOfList 4 scenario) 0 = BFResult.negativeCycle ∨
        bellman_ford_AL_tables (alOfList 4 scenario) 0 =
          BFResult.finished (bellman_ford_AL_passes (alOfList 4 scenario) 0))) ∧
    (NeverIncreases (bellman_ford_IM_run (imOfList 4 scenario) 0) ∧
      (bellman_ford_IM_run (imOfList 4 scenario) 0).head? =
        some (initTables (imOfList 4 scenario).getVerticesNum 0) ∧
      (bellman_ford_IM_tables (imOfList 4 scenario) 0 = BFResult.negativeCycle ∨
        bellman_ford_IM_tables (imOfList 4 scenario) 0 =
          BFResult.finished (bellman_ford_IM_passes (imOfList 4 scenario) 0))) ∧
    (NeverIncreases (dijkstra_AL_run binaryHeap (alOfList 4 scenario) 0 5) ∧
      (∀ t ∈ (dijkstra_AL_run binaryHeap (alOfList 4 scenario) 0 5).head?,
        t = initTables (alOfList 4 scenario).getVerticesNum 0)) ∧
    (NeverIncreases (dijkstra_IM_run binaryHeap (imOfList 4 scenario) 0 5) ∧
      (∀ t ∈ (dijkstra_IM_run binaryHeap (imOfList 4 scenario) 0 5).head?,
        t = initTables (imOfList 4 scenario).getVerticesNum 0)) ∧
    (∀ (u : Nat) (min : Int) (temp : Edge) (st : DState),
      relaxChainNode binaryHeap u min temp st = none →
        st.distances.getD temp.destination 0 > add32 min temp.weight) ∧
    (∀ (u : Nat) (min : Int) (edge : IMEdge) (st : DState),
      relaxIMScan binaryHeap u min edge st = none →
        st.distances.getD edge.destination 0 > add32 min edge.weight) :=
  relaxation_steps_never_increase binaryHeap (alOfList 4 scenario) (imOfList 4 scenario) 0 5

/-- C17: with exact integers, for every graph whose edges join vertices below `V` and every
source, each Bellman-Ford variant ends in the negative-cycle outcome (and prints the
negative-cycle message) if and only if the graph contains a negative-weight cycle
anywhere, reachable from the source or not.  The program itself, whose sums are taken in
32 bits, behaves in the same way on every run in which no sum `distance[u] + w` leaves
the range of `int`. -/
theorem bellman_ford_flag_iff_negative_cycle (GA : AdjacencyList) (GI : IncidenceMatrix)
    (source destination fuel : Nat) :
    (EdgesBelow (RowEdge (rowsAL GA)) GA.getVerticesNum →
      (bellman_ford_AL_tables_exact GA source = BFResult.negativeCycle ↔
        HasNegCycle (RowEdge (rowsAL GA))) ∧
      (bellman_ford_AL_exact GA source destination fuel = some [OutLine.negativeCycle] ↔
        HasNegCycle (RowEdge (rowsAL GA)))) ∧
    (EdgesBelow (RowEdge (rowsIM GI)) GI.getVerticesNum →
      (bellman_ford_IM_tables_exact GI source = BFResult.negativeCycle ↔
        HasNegCycle (RowEdge (rowsIM GI))) ∧
      (bellman_ford_IM_exact GI source destination fuel = some [OutLine.negativeCycle] ↔
        HasNegCycle (RowEdge (rowsIM GI)))) ∧
    (EdgesBelow (RowEdge (rowsAL GA)) GA.getVerticesNum →
      (∀ x ∈ bellman_ford_AL_sums GA source, fits32 x) →
      (bellman_ford_AL_tables GA source = BFResult.negativeCycle ↔
        HasNegCycle (RowEdge (rowsAL GA))) ∧
      (bellman_ford_AL GA source destination fuel = some [OutLine.negativeCycle] ↔
        HasNegCycle (RowEdge (rowsAL GA)))) ∧
    (EdgesBelow (RowEdge (rowsIM GI)) GI.getVerticesNum →
      (∀ x ∈ bellman_ford_IM_sums GI source, fits32 x) →
      (bellman_ford_IM_tables GI source = BFResult.negativeCycle ↔
        HasNegCycle (RowEdge (rowsIM GI))) ∧
      (bellman_ford_IM GI source destination fuel = some [OutLine.negativeCycle] ↔
        HasNegCycle (RowEdge (rowsIM GI)))) := by
  have hA : EdgesBelow (RowEdge (rowsAL GA)) GA.getVerticesNum →
      (bellman_ford_AL_tables_exact GA source = BFResult.negativeCycle ↔
        HasNegCycle (RowEdge (rowsAL GA))) ∧
      (bellman_ford_AL_exact GA source destination fuel = some [OutLine.negativeCycle] ↔
        HasNegCycle (RowEdge (rowsAL GA))) := by
    intro hE
    have h : bellman_ford_AL_tables_exact GA source = BFResult.negativeCycle ↔
        HasNegCycle (RowEdge (rowsAL GA)) := by
      rw [bellman_ford_AL_tables_eq_exact]
      exact bfRows_negativeCycle_iff source hE
    exact ⟨h, (bellman_ford_AL_flag_iff_exact GA source destination fuel).trans h⟩
  have hI : EdgesBelow (RowEdge (rowsIM GI)) GI.getVerticesNum →
      (bellman_ford_IM_tables_exact GI source = BFResult.negativeCycle ↔
        HasNegCycle (RowEdge (rowsIM GI))) ∧
      (bellman_ford_IM_exact GI source destination fuel = some [OutLine.negativeCycle] ↔
        HasNegCycle (RowEdge (rowsIM GI))) := by
    intro hE
    have h : bellman_ford_IM_tables_exact GI source = BFResult.negativeCycle ↔
        HasNegCycle (RowEdge (rowsIM GI)) := by
      rw [bellman_ford_IM_tables_eq_exact]
      exact bfRows_negativeCycle_iff source hE
    exact ⟨h, (bellman_ford_IM_flag_iff_exact GI source destination fuel).trans h⟩
  refine ⟨hA, hI, ?_, ?_⟩
  · intro hE hfit
    rw [bellman_ford_AL_tables_bridge hfit, bellman_ford_AL_bridge hfit]
    exact hA hE
  · intro hE hfit
    rw [bellman_ford_IM_tables_bridge hfit, bellman_ford_IM_bridge hfit]
    exact hI hE

/-- C17, witness: three vertices whose only edges form the cycle `1 -> 2 -> 1` of weights
`-1`, source `0`, destination `2`, fuel `3`. -/
theorem bellman_ford_flag_iff_negative_cycle_witness :
    ((bellman_ford_AL_tables_exact (alOfList 3 farCycle) 0 = BFResult.negativeCycle ↔
        HasNegCycle (RowEdge (rowsAL (alOfList 3 farCycle)))) ∧
      (bellman_ford_AL_exact (alOfList 3 farCycle) 0 2 3 = some [OutLine.negativeCycle] ↔
        HasNegCycle (RowEdge (rowsAL (alOfList 3 farCycle))))) ∧
    ((bellman_ford_IM_tables_exact (imOfList 3 farCycle) 0 = BFResult.negativeCycle ↔
        HasNegCycle (RowEdge (rowsIM (imOfList 3 farCycle)))) ∧
      (bellman_ford_IM_exact (imOfList 3 farCycle) 0 2 3 = some [OutLine.negativeCycle] ↔
        HasNegCycle (RowEdge (rowsIM (imOfList 3 farCycle))))) ∧
    ((bellman_ford_AL_tables (alOfList 3 farCycle) 0 = BFResult.negativeCycle ↔
        HasNegCycle (RowEdge (rowsAL (alOfList 3 farCycle)))) ∧
      (bellman_ford_AL (alOfList 3 farCycle) 0 2 3 = some [OutLine.negativeCycle] ↔
        HasNegCycle (RowEdge (rowsAL (alOfList 3 farCycle))))) ∧
    ((bellman_ford_IM_tables (imOfList 3 farCycle) 0 = BFResult.negativeCycle ↔
        HasNegCycle (RowEdge (rowsIM (imOfList 3 farCycle)))) ∧
      (bellman_ford_IM (imOfList 3 farCycle) 0 2 3 = some [OutLine.negativeCycle] ↔
        HasNegCycle (RowEdge (rowsIM (imOfList 3 farCycle))))) :=
  ⟨(bellman_ford_flag_iff_negative_cycle (alOfList 3 farCycle) (imOfList 3 farCycle)
      0 2 3).1 (edgesBelow_rowsAL_alOfList (by decide)),
   (bellman_ford_flag_iff_negative_cycle (alOfList 3 farCycle) (imOfList 3 farCycle)
      0 2 3).2.1 (edgesBelow_rowsIM_imOfList (by decide)),
   (bellman_ford_flag_iff_negative_cycle (alOfList 3 farCycle) (imOfList 3 farCycle)
      0 2 3).2.2.1 (edgesBelow_rowsAL_alOfList (by decide)) (by decide),
   (bellman_ford_flag_iff_negative_cycle (alOfList 3 farCycle) (imOfList 3 farCycle)
      0 2 3).2.2.2 (edgesBelow_rowsIM_imOfList (by decide)) (by decide)⟩

/-- C18 (as amended): for every graph with weights between `0` and `2147482647`
(`INT_MAX - 1000`) whose edges join vertices below `V` and every source below `V`, each
of the four variants (Dijkstra with any queue meeting its contract and fuel above `V`)
ends, and for every vertex `v` the entry `distance[v]` is the smaller of `1000` and the
least weight of a walk from the source to `v`; a vertex that no walk lighter than `1000`
reaches is left at `1000` with predecessor `-1`. -/
theorem all_variants_capped_distance (pq : PriorityQueue) (GA : AdjacencyList)
    (GI : IncidenceMatrix) (source fuel : Nat) (hl : pq.Lawful) :
    (EdgesBelow (ChainEdge GA) GA.getVerticesNum →
      BoundedWeights (ChainEdge GA) →
      source < GA.getVerticesNum → GA.getVerticesNum < fuel →
      ∃ t, dijkstra_AL_tables pq GA source fuel = some t ∧
        ∀ v, v < GA.getVerticesNum →
          IsCappedMin (ChainEdge GA) source v (t.distances.getD v 0) ∧
          ((∀ p, IsWalk (ChainEdge GA) source p v → 1000 ≤ weight p) →
            t.distances.getD v 0 = 1000 ∧ t.path.getD v 0 = -1)) ∧
    (EdgesBelow (RowEdge (rowsIM GI)) GI.getVerticesNum →
      BoundedWeights (RowEdge (rowsIM GI)) →
      source < GI.getVerticesNum → GI.getVerticesNum < fuel →
      ∃ t, dijkstra_IM_tables pq GI source fuel = some t ∧
        ∀ v, v < GI.getVerticesNum →
          IsCappedMin (RowEdge (rowsIM GI)) source v (t.distances.getD v 0) ∧
          ((∀ p, IsWalk (RowEdge (rowsIM GI)) source p v → 1000 ≤ weight p) →
            t.distances.getD v 0 = 1000 ∧ t.path.getD v 0 = -1)) ∧
    (EdgesBelow (RowEdge (rowsAL GA)) GA.getVerticesNum →
      BoundedWeights (RowEdge (rowsAL GA)) →
      source < GA.getVerticesNum →
      ∃ t, bellman_ford_AL_tables GA source = BFResult.finished t ∧
        ∀ v, v < GA.getVerticesNum →
          IsCappedMin (RowEdge (rowsAL GA)) source v (t.distances.getD v 0) ∧
          ((∀ p, IsWalk (RowEdge (rowsAL GA)) source p v → 1000 ≤ weight p) →
            t.distances.getD v 0 = 1000 ∧ t.path.getD v 0 = -1)) ∧
    (EdgesBelow (RowEdge (rowsIM GI)) GI.getVerticesNum →
      BoundedWeights (RowEdge (rowsIM GI)) →
      source < GI.getVerticesNum →
      ∃ t, bellman_ford_IM_tables GI source = BFResult.finished t ∧
        ∀ v, v < GI.getVerticesNum →
          IsCappedMin (RowEdge (rowsIM GI)) source v (t.distances.getD v 0) ∧
          ((∀ p, IsWalk (RowEdge (rowsIM GI)) source p v → 1000 ≤ weight p) →
            t.distances.getD v 0 = 1000 ∧ t.path.getD v 0 = -1)) := by
  have key : ∀ (E : Nat → Nat → Int → Prop) (V : Nat) (t : Tables),
      (∀ u v w, E u v w → 0 ≤ w) → source < V → RInv E V source t → PInv V source t →
      (∀ u v w, E u v w → t.distances.getD v 0 ≤ t.distances.getD u 0 + w) →
      ∀ v, v < V → IsCappedMin E source v (t.distances.getD v 0) ∧
        ((∀ p, IsWalk E source p v → 1000 ≤ weight p) →
          t.distances.getD v 0 = 1000 ∧ t.path.getD v 0 = -1) := by
    intro E V t hw hs h1 h2 h3 v hv
    have hc := (h1.isMinTable h3).capped hw hs v hv
    refine ⟨hc, fun hfar => ?_⟩
    obtain ⟨_, _, hor⟩ := hc
    have hd : t.distances.getD v 0 = 1000 := by
      rcases hor with h | ⟨p, hp, hx⟩
      · exact h
      · have := hfar p hp
        omega
    refine ⟨hd, ?_⟩
    by_contra hne
    have hlt := h2.strict v hv hne
    unfold startValue at hlt
    split at hlt <;> omega
  refine ⟨?_, ?_, ?_, ?_⟩
  · intro hE hb hs hfuel
    have hw := hb.nonneg
    obtain ⟨t, ht, _, _⟩ := dijkstra_AL_tables_some source fuel hl hE hw hfuel
    obtain ⟨h1, h2, h3⟩ := dijkstra_AL_tables_all hl hE hw ht
    rw [dijkstra_AL_tables_bridge hl hE hb]
    exact ⟨t, ht, key _ _ t hw hs h1 h2 h3⟩
  · intro hE hb hs hfuel
    have hw := hb.nonneg
    obtain ⟨t, ht, _, _⟩ := dijkstra_IM_tables_some source fuel hl hE hw hfuel
    obtain ⟨h1, h2, h3⟩ := dijkstra_IM_tables_all hl hE hw ht
    rw [dijkstra_IM_tables_bridge hl hE hb]
    exact ⟨t, ht, key _ _ t hw hs h1 h2 h3⟩
  · intro hE hb hs
    have hw := hb.nonneg
    obtain ⟨t, ht, _, _⟩ := bfRows_finished (s := source) hE (not_hasNegCycle_of_nonneg hw)
    obtain ⟨_, h1, h2, h3⟩ := bfRows_finished_all hE ht
    rw [← bellman_ford_AL_tables_eq_exact] at ht
    rw [bellman_ford_AL_tables_bridge (bellman_ford_AL_sums_fit source hE hb)]
    exact ⟨t, ht, key _ _ t hw hs h1 h2 h3⟩
  · intro hE hb hs
    have hw := hb.nonneg
    obtain ⟨t, ht, _, _⟩ := bfRows_finished (s := source) hE (not_hasNegCycle_of_nonneg hw)
    obtain ⟨_, h1, h2, h3⟩ := bfRows_finished_all hE ht
    rw [← bellman_ford_IM_tables_eq_exact] at ht
    rw [bellman_ford_IM_tables_bridge (bellman_ford_IM_sums_fit source hE hb)]
    exact ⟨t, ht, key _ _ t hw hs h1 h2 h3⟩

/-- C18, witness: two vertices joined by one edge `0 -> 1` of weight `2000`, the binary
heap, source `0`, fuel `3`. -/
theorem all_variants_capped_distance_witness :
    (∃ t, dijkstra_AL_tables binaryHeap (alOfList 2 longEdge) 0 3 = some t ∧
        ∀ v, v < (alOfList 2 longEdge).getVerticesNum →
          IsCappedMin (ChainEdge (alOfList 2 longEdge)) 0 v (t.distances.getD v 0) ∧
          ((∀ p, IsWalk (ChainEdge (alOfList 2 longEdge)) 0 p v → 1000 ≤ weight p) →
            t.distances.getD v 0 = 1000 ∧ t.path.getD v 0 = -1)) ∧
    (∃ t, dijkstra_IM_tables binaryHeap (imOfList 2 longEdge) 0 3 = some t ∧
        ∀ v, v < (imOfList 2 longEdge).getVerticesNum →
          IsCappedMin (RowEdge (rowsIM (imOfList 2 longEdge))) 0 v (t.distances.getD v 0) ∧
          ((∀ p, IsWalk (RowEdge (rowsIM (imOfList 2 longEdge))) 0 p v → 1000 ≤ weight p) →
            t.distances.getD v 0 = 1000 ∧ t.path.getD v 0 = -1)) ∧
    (∃ t, bellman_ford_AL_tables (alOfList 2 longEdge) 0 = BFResult.finished t ∧
        ∀ v, v < (alOfList 2 longEdge).getVerticesNum →
          IsCappedMin (RowEdge (rowsAL (alOfList 2 longEdge))) 0 v (t.distances.getD v 0) ∧
          ((∀ p, IsWalk (RowEdge (rowsAL (alOfList 2 longEdge))) 0 p v → 1000 ≤ weight p) →
            t.distances.getD v 0 = 1000 ∧ t.path.getD v 0 = -1)) ∧
    (∃ t, bellman_ford_IM_tables (imOfList 2 longEdge) 0 = BFResult.finished t ∧
        ∀ v, v < (imOfList 2 longEdge).getVerticesNum →
          IsCappedMin (RowEdge (rowsIM (imOfList 2 longEdge))) 0 v (t.distances.getD v 0) ∧
          ((∀ p, IsWalk (RowEdge (rowsIM (imOfList 2 longEdge))) 0 p v → 1000 ≤ weight p) →
            t.distances.getD v 0 = 1000 ∧ t.path.getD v 0 = -1)) :=
  ⟨(all_variants_capped_distance binaryHeap (alOfList 2 longEdge) (imOfList 2 longEdge) 0 3
      binaryHeap_lawful).1
      (edgesBelow_chain_alOfList (by decide)) (boundedWeights_chain_alOfList (by decide))
      (by decide) (by decide),
   (all_variants_capped_distance binaryHeap (alOfList 2 longEdge) (imOfList 2 longEdge) 0 3
      binaryHeap_lawful).2.1
      (edgesBelow_rowsIM_imOfList (by decide)) (boundedWeights_rowsIM_imOfList (by decide))
      (by decide) (by decide),
   (all_variants_capped_distance binaryHeap (alOfList 2 longEdge) (imOfList 2 longEdge) 0 3
      binaryHeap_lawful).2.2.1
      (edgesBelow_rowsAL_alOfList (by decide)) (boundedWeights_rowsAL_alOfList (by decide))
      (by decide),
   (all_variants_capped_distance binaryHeap (alOfList 2 longEdge) (imOfList 2 longEdge) 0 3
      binaryHeap_lawful).2.2.2
      (edgesBelow_rowsIM_imOfList (by decide)) (boundedWeights_rowsIM_imOfList (by decide))
      (by decide)⟩

/-- C18, counterexample: three vertices, source `0`, all weights non-negative.  With the
edges `0 -> 1` of weight `5` and `1 -> 2` of weight `2147483647` the sum
`5 + 2147483647` wraps and all four variants (Dijkstra on the binary heap, which meets
the contract) end with `distance[2] = -2147483644` and predecessor `1`, although the
least weight of a walk from `0` to `2` is `2147483652`.  With the single edge `1 -> 2`
of weight `2147483647` vertex `2` cannot be reached from `0` at all, and both
Bellman-Ford variants end with `distance[2] = -2147482649` and predecessor `1`.  In
neither case is the entry the smaller of `1000` and the least walk weight. -/
theorem capped_distance_fails_on_large_weights :
    binaryHeap.Lawful ∧
    (∀ e ∈ wrapChain, 0 ≤ e.weight) ∧ (∀ e ∈ wrapStep, 0 ≤ e.weight) ∧
    dijkstra_AL_tables binaryHeap (alOfList 3 wrapChain) 0 4 =
      some { distances := [0, 5, -2147483644], path := [-1, 0, 1] } ∧
    dijkstra_IM_tables binaryHeap (imOfList 3 wrapChain) 0 4 =
      some { distances := [0, 5, -2147483644], path := [-1, 0, 1] } ∧
    bellman_ford_AL_tables (alOfList 3 wrapChain) 0 =
      BFResult.finished { distances := [0, 5, -2147483644], path := [-1, 0, 1] } ∧
    bellman_ford_IM_tables (imOfList 3 wrapChain) 0 =
      BFResult.finished { distances := [0, 5, -2147483644], path := [-1, 0, 1] } ∧
    IsWalk (ListEdge wrapChain) 0 [(0, 1, 5), (1, 2, 2147483647)] 2 ∧
    weight [(0, 1, 5), (1, 2, 2147483647)] = 2147483652 ∧
    ¬ IsCappedMin (ChainEdge (alOfList 3 wrapChain)) 0 2 (-2147483644) ∧
    ¬ IsCappedMin (RowEdge (rowsIM (imOfList 3 wrapChain))) 0 2 (-2147483644) ∧
    ¬ IsCappedMin (RowEdge (rowsAL (alOfList 3 wrapChain))) 0 2 (-2147483644) ∧
    bellman_ford_AL_tables (alOfList 3 wrapStep) 0 =
      BFResult.finished { distances := [0, 1000, -2147482649], path := [-1, -1, 1] } ∧
    bellman_ford_IM_tables (imOfList 3 wrapStep) 0 =
      BFResult.finished { distances := [0, 1000, -2147482649], path := [-1, -1, 1] } ∧
    ¬ IsCappedMin (RowEdge (rowsAL (alOfList 3 wrapStep))) 0 2 (-2147482649) ∧
    ¬ IsCappedMin (RowEdge (rowsIM (imOfList 3 wrapStep))) 0 2 (-2147482649) := by
  have key : ∀ (E : Nat → Nat → Int → Prop) (x : Int), (∀ u v w, E u v w → 0 ≤ w) →
      x < 0 → ¬ IsCappedMin E 0 2 x := by
    rintro E x hw hx ⟨_, _, h | ⟨p, hp, h⟩⟩
    · omega
    · have := weight_nonneg_of_walk hw hp
      omega
  exact ⟨binaryHeap_lawful, by decide, by decide, by decide, by decide, by decide,
    by decide, by decide, by decide,
    key _ _ (nonneg_chain_alOfList (by decide)) (by decide),
    key _ _ (nonneg_rowsIM_imOfList (by decide)) (by decide),
    key _ _ (nonneg_rowsAL_alOfList (by decide)) (by decide),
    by decide, by decide,
    key _ _ (nonneg_rowsAL_alOfList (by decide)) (by decide),
    key _ _ (nonneg_rowsIM_imOfList (by decide)) (by decide)⟩

/-- C19: with exact integers, for every source and any two enumerations of the same
multiset of edges (edges joining vertices below the common vertex count), Bellman-Ford
gives the same negative-cycle flag and, on success, the same distance table; this holds
for two adjacency lists, for two incidence matrices, and for `bellman_ford_AL` against
`bellman_ford_IM`.  The predecessor tables may differ: they do for the two orders
`tieFirst` and `tieThird` of one edge multiset.  The program itself, whose sums are taken
in 32 bits, behaves in the same way whenever no sum `distance[u] + w` of either run
leaves the range of `int`. -/
theorem bellman_ford_order_independent (GA GA2 : AdjacencyList) (GI GI2 : IncidenceMatrix)
    (source : Nat) :
    (GA.getVerticesNum = GA2.getVerticesNum → (rowsAL GA).Perm (rowsAL GA2) →
      EdgesBelow (RowEdge (rowsAL GA)) GA.getVerticesNum →
      (bellman_ford_AL_tables_exact GA source = BFResult.negativeCycle ↔
        bellman_ford_AL_tables_exact GA2 source = BFResult.negativeCycle) ∧
      ∀ t1 t2, bellman_ford_AL_tables_exact GA source = BFResult.finished t1 →
        bellman_ford_AL_tables_exact GA2 source = BFResult.finished t2 →
        t1.distances = t2.distances) ∧
    (GI.getVerticesNum = GI2.getVerticesNum → (rowsIM GI).Perm (rowsIM GI2) →
      EdgesBelow (RowEdge (rowsIM GI)) GI.getVerticesNum →
      (bellman_ford_IM_tables_exact GI source = BFResult.negativeCycle ↔
        bellman_ford_IM_tables_exact GI2 source = BFResult.negativeCycle) ∧
      ∀ t1 t2, bellman_ford_IM_tables_exact GI source = BFResult.finished t1 →
        bellman_ford_IM_tables_exact GI2 source = BFResult.finished t2 →
        t1.distances = t2.distances) ∧
    (GA.getVerticesNum = GI.getVerticesNum → (rowsAL GA).Perm (rowsIM GI) →
      EdgesBelow (RowEdge (rowsAL GA)) GA.getVerticesNum →
      (bellman_ford_AL_tables_exact GA source = BFResult.negativeCycle ↔
        bellman_ford_IM_tables_exact GI source = BFResult.negativeCycle) ∧
      ∀ t1 t2, bellman_ford_AL_tables_exact GA source = BFResult.finished t1 →
        bellman_ford_IM_tables_exact GI source = BFResult.finished t2 →
        t1.distances = t2.distances) ∧
    (∃ t1 t2, (rowsAL (alOfList 4 tieFirst)).Perm (rowsIM (imOfList 4 tieThird)) ∧
      bellman_ford_AL_tables_exact (alOfList 4 tieFirst) 0 = BFResult.finished t1 ∧
      bellman_ford_IM_tables_exact (imOfList 4 tieThird) 0 = BFResult.finished t2 ∧
      t1.distances = t2.distances ∧ t1.path ≠ t2.path) ∧
    (GA.getVerticesNum = GA2.getVerticesNum → (rowsAL GA).Perm (rowsAL GA2) →
      EdgesBelow (RowEdge (rowsAL GA)) GA.getVerticesNum →
      (∀ x ∈ bellman_ford_AL_sums GA source, fits32 x) →
      (∀ x ∈ bellman_ford_AL_sums GA2 source, fits32 x) →
      (bellman_ford_AL_tables GA source = BFResult.negativeCycle ↔
        bellman_ford_AL_tables GA2 source = BFResult.negativeCycle) ∧
      ∀ t1 t2, bellman_ford_AL_tables GA source = BFResult.finished t1 →
        bellman_ford_AL_tables GA2 source = BFResult.finished t2 →
        t1.distances = t2.distances) ∧
    (GI.getVerticesNum = GI2.getVerticesNum → (rowsIM GI).Perm (rowsIM GI2) →
      EdgesBelow (RowEdge (rowsIM GI)) GI.getVerticesNum →
      (∀ x ∈ bellman_ford_IM_sums GI source, fits32 x) →
      (∀ x ∈ bellman_ford_IM_sums GI2 source, fits32 x) →
      (bellman_ford_IM_tables GI source = BFResult.negativeCycle ↔
        bellman_ford_IM_tables GI2 source = BFResult.negativeCycle) ∧
      ∀ t1 t2, bellman_ford_IM_tables GI source = BFResult.finished t1 →
        bellman_ford_IM_tables GI2 source = BFResult.finished t2 →
        t1.distances = t2.distances) ∧
    (GA.getVerticesNum = GI.getVerticesNum → (rowsAL GA).Perm (rowsIM GI) →
      EdgesBelow (RowEdge (rowsAL GA)) GA.getVerticesNum →
      (∀ x ∈ bellman_ford_AL_sums GA source, fits32 x) →
      (∀ x ∈ bellman_ford_IM_sums GI source, fits32 x) →
      (bellman_ford_AL_tables GA source = BFResult.negativeCycle ↔
        bellman_ford_IM_tables GI source = BFResult.negativeCycle) ∧
      ∀ t1 t2, bellman_ford_AL_tables GA source = BFResult.finished t1 →
        bellman_ford_IM_tables GI source = BFResult.finished t2 →
        t1.distances = t2.distances) ∧
    (∃ t1 t2, bellman_ford_AL_tables (alOfList 4 tieFirst) 0 = BFResult.finished t1 ∧
      bellman_ford_IM_tables (imOfList 4 tieThird) 0 = BFResult.finished t2 ∧
      t1.distances = t2.distances ∧ t1.path ≠ t2.path) := by
  refine ⟨?_, ?_, ?_, ?_, ?_, ?_, ?_, ?_⟩
  · intro hV hperm hE
    simp only [bellman_ford_AL_tables_eq_exact]
    rw [← hV]
    exact bfRows_same_edges source (fun r => hperm.mem_iff) hE
  · intro hV hperm hE
    simp only [bellman_ford_IM_tables_eq_exact]
    rw [← hV]
    exact bfRows_same_edges source (fun r => hperm.mem_iff) hE
  · intro hV hperm hE
    simp only [bellman_ford_AL_tables_eq_exact, bellman_ford_IM_tables_eq_exact]
    rw [← hV]
    exact bfRows_same_edges source (fun r => hperm.mem_iff) hE
  · exact ⟨{ distances := [0, 1, 1, 2], path := [-1, 0, 0, 1] },
      { distances := [0, 1, 1, 2], path := [-1, 0, 0, 2] },
      rowsAL_perm_rowsIM 4 tieFirst_perm_tieThird, by decide, by decide, by decide,
      by decide⟩
  · intro hV hperm hE h1 h2
    rw [bellman_ford_AL_tables_bridge h1, bellman_ford_AL_tables_bridge h2]
    simp only [bellman_ford_AL_tables_eq_exact]
    rw [← hV]
    exact bfRows_same_edges source (fun r => hperm.mem_iff) hE
  · intro hV hperm hE h1 h2
    rw [bellman_ford_IM_tables_bridge h1, bellman_ford_IM_tables_bridge h2]
    simp only [bellman_ford_IM_tables_eq_exact]
    rw [← hV]
    exact bfRows_same_edges source (fun r => hperm.mem_iff) hE
  · intro hV hperm hE h1 h2
    rw [bellman_ford_AL_tables_bridge h1, bellman_ford_IM_tables_bridge h2]
    simp only [bellman_ford_AL_tables_eq_exact, bellman_ford_IM_tables_eq_exact]
    rw [← hV]
    exact bfRows_same_edges source (fun r => hperm.mem_iff) hE
  · exact ⟨{ distances := [0, 1, 1, 2], path := [-1, 0, 0, 1] },
      { distances := [0, 1, 1, 2], path := [-1, 0, 0, 2] },
      by decide, by decide, by decide, by decide⟩

/-- C19, witness: the edge orders `tieFirst` and `tieThird` on four vertices, source `0`. -/
theorem bellman_ford_order_independent_witness :
    ((bellman_ford_AL_tables_exact (alOfList 4 tieFirst) 0 = BFResult.negativeCycle ↔
        bellman_ford_AL_tables_exact (alOfList 4 tieThird) 0 = BFResult.negativeCycle) ∧
      ∀ t1 t2, bellman_ford_AL_tables_exact (alOfList 4 tieFirst) 0 = BFResult.finished t1 →
        bellman_ford_AL_tables_exact (alOfList 4 tieThird) 0 = BFResult.finished t2 →
        t1.distances = t2.distances) ∧
    ((bellman_ford_IM_tables_exact (imOfList 4 tieThird) 0 = BFResult.negativeCycle ↔
        bellman_ford_IM_tables_exact (imOfList 4 tieFirst) 0 = BFResult.negativeCycle) ∧
      ∀ t1 t2, bellman_ford_IM_tables_exact (imOfList 4 tieThird) 0 = BFResult.finished t1 →
        bellman_ford_IM_tables_exact (imOfList 4 tieFirst) 0 = BFResult.finished t2 →
        t1.distances = t2.distances) ∧
    ((bellman_ford_AL_tables_exact (alOfList 4 tieFirst) 0 = BFResult.negativeCycle ↔
        bellman_ford_IM_tables_exact (imOfList 4 tieThird) 0 = BFResult.negativeCycle) ∧
      ∀ t1 t2, bellman_ford_AL_tables_exact (alOfList 4 tieFirst) 0 = BFResult.finished t1 →
        bellman_ford_IM_tables_exact (imOfList 4 tieThird) 0 = BFResult.finished t2 →
        t1.distances = t2.distances) ∧
    ((bellman_ford_AL_tables (alOfList 4 tieFirst) 0 = BFResult.negativeCycle ↔
        bellman_ford_AL_tables (alOfList 4 tieThird) 0 = BFResult.negativeCycle) ∧
      ∀ t1 t2, bellman_ford_AL_tables (alOfList 4 tieFirst) 0 = BFResult.finished t1 →
        bellman_ford_AL_tables (alOfList 4 tieThird) 0 = BFResult.finished t2 →
        t1.distances = t2.distances) ∧
    ((bellman_ford_IM_tables (imOfList 4 tieThird) 0 = BFResult.negativeCycle ↔
        bellman_ford_IM_tables (imOfList 4 tieFirst) 0 = BFResult.negativeCycle) ∧
      ∀ t1 t2, bellman_ford_IM_tables (imOfList 4 tieThird) 0 = BFResult.finished t1 →
        bellman_ford_IM_tables (imOfList 4 tieFirst) 0 = BFResult.finished t2 →
        t1.distances = t2.distances) ∧
    ((bellman_ford_AL_tables (alOfList 4 tieFirst) 0 = BFResult.negativeCycle ↔
        bellman_ford_IM_tables (imOfList 4 tieThird) 0 = BFResult.negativeCycle) ∧
      ∀ t1 t2, bellman_ford_AL_tables (alOfList 4 tieFirst) 0 = BFResult.finished t1 →
        bellman_ford_IM_tables (imOfList 4 tieThird) 0 = BFResult.finished t2 →
        t1.distances = t2.distances) :=
  ⟨(bellman_ford_order_independent (alOfList 4 tieFirst) (alOfList 4 tieThird)
      (imOfList 4 tieThird) (imOfList 4 tieFirst) 0).1 rfl
      (rowsAL_perm_of_perm 4 tieFirst_perm_tieThird)
      (edgesBelow_rowsAL_alOfList (by decide)),
   (bellman_ford_order_independent (alOfList 4 tieFirst) (alOfList 4 tieThird)
      (imOfList 4 tieThird) (imOfList 4 tieFirst) 0).2.1 rfl
      (rowsIM_perm_of_perm 4 tieFirst_perm_tieThird.symm)
      (edgesBelow_rowsIM_imOfList (by decide)),
   (bellman_ford_order_independent (alOfList 4 tieFirst) (alOfList 4 tieThird)
      (imOfList 4 tieThird) (imOfList 4 tieFirst) 0).2.2.1 rfl
      (rowsAL_perm_rowsIM 4 tieFirst_perm_tieThird)
      (edgesBelow_rowsAL_alOfList (by decide)),
   (bellman_ford_order_independent (alOfList 4 tieFirst) (alOfList 4 tieThird)
      (imOfList 4 tieThird) (imOfList 4 tieFirst) 0).2.2.2.2.1 rfl
      (rowsAL_perm_of_perm 4 tieFirst_perm_tieThird)
      (edgesBelow_rowsAL_alOfList (by decide)) (by decide) (by decide),
   (bellman_ford_order_independent (alOfList 4 tieFirst) (alOfList 4 tieThird)
      (imOfList 4 tieThird) (imOfList 4 tieFirst) 0).2.2.2.2.2.1 rfl
      (rowsIM_perm_of_perm 4 tieFirst_perm_tieThird.symm)
      (edgesBelow_rowsIM_imOfList (by decide)) (by decide) (by decide),
   (bellman_ford_order_independent (alOfList 4 tieFirst) (alOfList 4 tieThird)
      (imOfList 4 tieThird) (imOfList 4 tieFirst) 0).2.2.2.2.2.2.1 rfl
      (rowsAL_perm_rowsIM 4 tieFirst_perm_tieThird)
      (edgesBelow_rowsAL_alOfList (by decide)) (by decide) (by decide)⟩

end SdizoGraphs
